import Mathlib

/-!
# badger-gui: key listing, fuzzy matching and the value codec

A shallow embedding of the store adapter (`internal/store/badger.go`) and of the value
codec and pattern delete of the terminal UI (`internal/ui/format.go`,
`internal/ui/commands.go`, `internal/ui/model.go`), with the properties proved about them.

Conventions of the embedding:

* a Go `string` / `[]byte` is a list of bytes (`List (Fin 256)`); a `rune` is a `Nat`;
* a Go `error` is its message (`String`); a function returning `(T, error)` returns
  `Except String T`;
* functions of the Go standard library and of third-party packages that the code calls are
  either modelled after their documented behaviour (hex, base64, UTF-8 validity, trimming)
  or, where only a table is missing (`unicode.SimpleFold`, the Unicode branch of
  `strings.ToLower`, `path.Match`, the style renderers), taken as parameters;
* loops that Go writes as `for` run on fuel and return `none` when the fuel is exhausted.
-/

namespace BadgerGui

/-! ## Basic types -/

/-- One byte. -/
abbrev Byte := Fin 256

/-- A Go `string` or `[]byte`: a finite sequence of bytes. -/
abbrev GoString := List Byte

/-- A Go `rune` (a Unicode code point, or U+FFFD for an undecodable byte). -/
abbrev Rune := Nat

deriving instance DecidableEq for Except

/-- The bytes of an ASCII literal, for writing keys and texts readably. -/
def str (s : String) : GoString :=
  s.toList.map (fun c => (Fin.ofNat c.toNat : Fin 256))

/-! ## `internal/store/badger.go`: fuzzy matching -/

/-- Go's `utf8.RuneSelf`: runes below it are single bytes (ASCII). -/
def RuneSelf : Rune := 0x80

/-- The loop `for r != sr && r < tr { r = unicode.SimpleFold(r) }` of `equalFold`, entered
with the current `r`; the result is the `r` the loop exits with. `unicode.SimpleFold` is the
parameter `simpleFold`. -/
def equalFoldLoop (simpleFold : Rune → Rune) (sr tr : Rune) : Nat → Rune → Option Rune
  | 0, _ => none
  | fuel + 1, r =>
    if r ≠ sr ∧ r < tr then equalFoldLoop simpleFold sr tr fuel (simpleFold r) else some r

/-- The body of `equalFold` after the swap that makes `sr < tr`. -/
def equalFoldOrdered (simpleFold : Rune → Rune) (fuel : Nat) (tr sr : Rune) : Option Bool :=
  if tr < RuneSelf then
    if 65 ≤ sr ∧ sr ≤ 90 ∧ tr = sr + 97 - 65 then some true else some false
  else
    match equalFoldLoop simpleFold sr tr fuel (simpleFold sr) with
    | none => none
    | some r => some (decide (r = tr))

/-- Go `equalFold(tr, sr rune) bool`. -/
def equalFold (simpleFold : Rune → Rune) (fuel : Nat) (tr sr : Rune) : Option Bool :=
  if tr = sr then some true
  else if tr < sr then equalFoldOrdered simpleFold fuel sr tr
  else equalFoldOrdered simpleFold fuel tr sr

/-- The `for _, r := range target` loop of `fuzzyMatch`: `target` is the sequence of runes
the range statement yields, `pi` the index of the next pattern rune. An index out of range
(a Go panic) and an `equalFold` that does not return both give `none`. -/
def fuzzyMatchLoop (simpleFold : Rune → Rune) (fuel : Nat) (pattern : List Rune) :
    List Rune → Nat → Option Bool
  | [], _ => some false
  | r :: rest, pi =>
    match pattern[pi]? with
    | none => none
    | some p =>
      match equalFold simpleFold fuel r p with
      | none => none
      | some true =>
        if pi + 1 = pattern.length then some true
        else fuzzyMatchLoop simpleFold fuel pattern rest (pi + 1)
      | some false => fuzzyMatchLoop simpleFold fuel pattern rest pi

/-- Go `fuzzyMatch(pattern []rune, target string) bool`. -/
def fuzzyMatch (simpleFold : Rune → Rune) (fuel : Nat) (pattern : List Rune)
    (target : List Rune) : Option Bool :=
  if pattern.length = 0 then some true
  else fuzzyMatchLoop simpleFold fuel pattern target 0

/-- The claim's relation: the runes of `pattern` occur in order, not necessarily
contiguously, in `target`, a target rune `t` corresponding to a pattern rune `p` when
`rel t p` holds. -/
def FoldSubseq (rel : Rune → Rune → Prop) (pattern target : List Rune) : Prop :=
  ∃ sub : List Rune, List.Sublist sub target ∧ List.Forall₂ rel sub pattern

/-- A small case-folding table for examples: the orbit `K → k → U+212A (Kelvin) → K`, the
ASCII letters paired with their other case, every other rune alone in its orbit. -/
def sampleFold (r : Rune) : Rune :=
  if r = 75 then 107
  else if r = 107 then 0x212A
  else if r = 0x212A then 75
  else if 65 ≤ r ∧ r ≤ 90 then r + 32
  else if 97 ≤ r ∧ r ≤ 122 then r - 32
  else r

/-! ## `internal/store/badger.go`: the store and key listing

The Badger database is outside the repository. It is modelled by what the code relies on:
the keys in store order (byte-wise lexicographic, strictly increasing), an iterator that is
a position in that list, and transactions (`db.View`, `db.Update`) that may fail. Failures
are given by a schedule: the outcome of each coming transaction, in order. -/

/-- The database: its keys in store order and the outcomes of the coming transactions
(`none`: the transaction runs; `some e`: it fails with error `e`; past the end of the
schedule every transaction runs). Badger refuses to store the empty key (`ErrEmptyKey`),
so the keys of a database never include it; the record does not enforce this, and the
statements about keyspaces say it where they need it (`[] ∉ keys`). -/
structure Store where
  keys : List GoString
  faults : List (Option String)
deriving DecidableEq, Repr

/-- Takes the outcome of the next transaction off the schedule. -/
def Store.nextOutcome (s : Store) : Option String × Store :=
  match s.faults with
  | [] => (none, s)
  | o :: rest => (o, { s with faults := rest })

/-- The position of a Badger iterator after `it.Seek(after)`: the first key not smaller than
`after` and what follows it. -/
def seek (ks : List GoString) (after : GoString) : List GoString :=
  ks.dropWhile (fun k => decide (k < after))

/-- What `ListKeysPage` returns: `keys, lastKey, hasMore, err`. -/
structure KeysPage where
  keys : List GoString
  lastKey : GoString
  hasMore : Bool
  err : Option String
deriving DecidableEq, Repr

/-- The loop `for it.Valid() { ... }` of `ListKeysPage`: `it` is what the iterator still has
to visit, `keys` and `lastKey` the variables of the same name. -/
def listKeysLoop (limit : Int) : List GoString → List GoString → GoString →
    List GoString × GoString × Bool
  | [], keys, lastKey => (keys, lastKey, false)
  | key :: rest, keys, _ =>
    if ((keys ++ [key]).length : Int) ≥ limit then
      (keys ++ [key], key, !rest.isEmpty)
    else listKeysLoop limit rest (keys ++ [key]) key

/-- The closure that `ListKeysPage` passes to `db.View`, run on the keys `ks`. -/
def listKeysView (ks : List GoString) (startAfter : GoString) (limit : Int) :
    List GoString × GoString × Bool :=
  let it :=
    if startAfter = [] then ks
    else
      match seek ks startAfter with
      | [] => []
      | key :: rest => if key = startAfter then rest else key :: rest
  listKeysLoop limit it [] []

/-- Go `(*BadgerStore).ListKeysPage(startAfter, limit)`, with the store it leaves. -/
def ListKeysPage (s : Store) (startAfter : GoString) (limit : Int) : KeysPage × Store :=
  if limit ≤ 0 then ({ keys := [], lastKey := [], hasMore := false, err := none }, s)
  else
    match s.nextOutcome with
    | (some e, s1) => ({ keys := [], lastKey := [], hasMore := false, err := some e }, s1)
    | (none, s1) =>
      let r := listKeysView s1.keys startAfter limit
      ({ keys := r.1, lastKey := r.2.1, hasMore := r.2.2, err := none }, s1)

/-- Go `(*BadgerStore).Delete(key)`: the error, if any, and the store it leaves. -/
def Delete (s : Store) (key : GoString) : Option String × Store :=
  match s.nextOutcome with
  | (some e, s1) => (some e, s1)
  | (none, s1) => (none, { s1 with keys := s1.keys.filter (fun k => decide (k ≠ key)) })

/-- The caller's side of cursor pagination: call `ListKeysPage` with `startAfter`, then with
the `lastKey` it returned, until a call returns `hasMore = false`; the result is the list of
pages returned, in call order. -/
def paginate (limit : Int) : Nat → Store → GoString → Option (List KeysPage)
  | 0, _, _ => none
  | fuel + 1, s, startAfter =>
    let r := ListKeysPage s startAfter limit
    if r.1.hasMore then (paginate limit fuel r.2 r.1.lastKey).map (fun ps => r.1 :: ps)
    else some [r.1]

/-! ## Standard-library functions used by the value codec

`encoding/hex`, `encoding/base64`, `unicode/utf8`, `strings.ToLower`, `strings.ReplaceAll`,
`strings.TrimSpace` and the regular expression `[^0-9a-f]` are not part of the repository;
they are modelled here after their documented behaviour, on bytes. -/

/-- The table `hextable` of `encoding/hex`. -/
def hextable : GoString := str "0123456789abcdef"

/-- Go `hex.EncodeToString`: two lower-case digits per byte, high nibble first. -/
def hexEncodeToString : GoString → GoString
  | [] => []
  | v :: rest => hextable.getD (v.val / 16) 0 :: hextable.getD (v.val % 16) 0
      :: hexEncodeToString rest

/-- The value of a hexadecimal digit (`reverseHexTable` of `encoding/hex`): `0-9`, `a-f` and
`A-F` have one, no other byte has. -/
def fromHexChar (c : Byte) : Option Nat :=
  if 48 ≤ c.val ∧ c.val ≤ 57 then some (c.val - 48)
  else if 97 ≤ c.val ∧ c.val ≤ 102 then some (c.val - 97 + 10)
  else if 65 ≤ c.val ∧ c.val ≤ 70 then some (c.val - 65 + 10)
  else none

/-- Go `hex.DecodeString`: fails on a byte that is not a hexadecimal digit and on an odd
number of digits. -/
def hexDecodeString : GoString → Except String GoString
  | [] => .ok []
  | [p] =>
    if fromHexChar p = none then .error "encoding/hex: invalid byte"
    else .error "encoding/hex: odd length hex string"
  | p :: q :: rest =>
    match fromHexChar p, fromHexChar q with
    | some a, some b =>
      match hexDecodeString rest with
      | .ok out => .ok (Fin.ofNat (a * 16 + b) :: out)
      | .error e => .error e
    | _, _ => .error "encoding/hex: invalid byte"

/-- Lower-cases one ASCII byte. -/
def asciiLower (c : Byte) : Byte :=
  if 65 ≤ c.val ∧ c.val ≤ 90 then Fin.ofNat (c.val + 32) else c

/-- Go `strings.ToLower`: a string of ASCII bytes only is lower-cased byte by byte; any other
string goes through `strings.Map(unicode.ToLower, s)`, the parameter `unicodeLower`. -/
def toLower (unicodeLower : GoString → GoString) (s : GoString) : GoString :=
  if s.all (fun c => decide (c.val < 128)) then s.map asciiLower else unicodeLower s

/-- Go `strings.ReplaceAll(s, "0x", "")`: removes the non-overlapping occurrences of `0x`,
found from left to right. -/
def removeAll0x : GoString → GoString
  | [] => []
  | [c] => [c]
  | c :: d :: rest =>
    if c = 48 ∧ d = 120 then removeAll0x rest else c :: removeAll0x (d :: rest)

/-- The bytes `0-9` and `a-f`. -/
def isLowerHexDigit (c : Byte) : Bool :=
  (48 ≤ c.val ∧ c.val ≤ 57) ∨ (97 ≤ c.val ∧ c.val ≤ 102)

/-- Go `regexp.MustCompile("[^0-9a-f]").ReplaceAllString(s, "")`: every character outside
`0-9a-f` is removed, which on bytes keeps exactly the bytes `0-9` and `a-f`. -/
def removeNonHex (s : GoString) : GoString :=
  s.filter isLowerHexDigit

/-- Go `utf8.Valid`: the bytes are a sequence of well-formed UTF-8 encodings (shortest
form, no surrogates, at most U+10FFFF). -/
def utf8Valid : GoString → Bool
  | [] => true
  | [b0] => decide (b0.val < 0x80)
  | [b0, b1] =>
    if b0.val < 0x80 then utf8Valid [b1]
    else decide (0xC2 ≤ b0.val ∧ b0.val ≤ 0xDF ∧ 0x80 ≤ b1.val ∧ b1.val ≤ 0xBF)
  | [b0, b1, b2] =>
    if b0.val < 0x80 then utf8Valid [b1, b2]
    else if 0xC2 ≤ b0.val ∧ b0.val ≤ 0xDF ∧ 0x80 ≤ b1.val ∧ b1.val ≤ 0xBF then utf8Valid [b2]
    else decide (0xE0 ≤ b0.val ∧ b0.val ≤ 0xEF ∧
      (if b0.val = 0xE0 then 0xA0 else 0x80) ≤ b1.val ∧
      b1.val ≤ (if b0.val = 0xED then 0x9F else 0xBF) ∧ 0x80 ≤ b2.val ∧ b2.val ≤ 0xBF)
  | b0 :: b1 :: b2 :: b3 :: rest =>
    if b0.val < 0x80 then utf8Valid (b1 :: b2 :: b3 :: rest)
    else if 0xC2 ≤ b0.val ∧ b0.val ≤ 0xDF ∧ 0x80 ≤ b1.val ∧ b1.val ≤ 0xBF then
      utf8Valid (b2 :: b3 :: rest)
    else if 0xE0 ≤ b0.val ∧ b0.val ≤ 0xEF ∧
      (if b0.val = 0xE0 then 0xA0 else 0x80) ≤ b1.val ∧
      b1.val ≤ (if b0.val = 0xED then 0x9F else 0xBF) ∧ 0x80 ≤ b2.val ∧ b2.val ≤ 0xBF then
      utf8Valid (b3 :: rest)
    else if 0xF0 ≤ b0.val ∧ b0.val ≤ 0xF4 ∧
      (if b0.val = 0xF0 then 0x90 else 0x80) ≤ b1.val ∧
      b1.val ≤ (if b0.val = 0xF4 then 0x8F else 0xBF) ∧ 0x80 ≤ b2.val ∧ b2.val ≤ 0xBF ∧
      0x80 ≤ b3.val ∧ b3.val ≤ 0xBF then utf8Valid rest
    else false

/-- The alphabet of `base64.StdEncoding`. -/
def encodeStd : GoString :=
  str "ABCDEFGHIJKLMNOPQRSTUVWXYZabcdefghijklmnopqrstuvwxyz0123456789+/"

/-- The padding character `=` of `base64.StdEncoding`. -/
def padChar : Byte := 61

/-- The base64 character of a 6-bit value. -/
def b64Char (n : Nat) : Byte := encodeStd.getD n 0

/-- The 6-bit value of a base64 character (`decodeMap`): its index in the alphabet. -/
def b64Value (c : Byte) : Option Nat :=
  if encodeStd.indexOf c < 64 then some (encodeStd.indexOf c) else none

/-- Go `base64.StdEncoding.EncodeToString`: three bytes give four characters, a last group
of one or two bytes is padded with `=`. -/
def base64EncodeToString : GoString → GoString
  | [] => []
  | [a] => [b64Char (a.val / 4), b64Char (a.val % 4 * 16), padChar, padChar]
  | [a, b] =>
    [b64Char (a.val / 4), b64Char (a.val % 4 * 16 + b.val / 16), b64Char (b.val % 16 * 4),
      padChar]
  | a :: b :: c :: rest =>
    b64Char (a.val / 4) :: b64Char (a.val % 4 * 16 + b.val / 16)
      :: b64Char (b.val % 16 * 4 + c.val / 64) :: b64Char (c.val % 64)
      :: base64EncodeToString rest

/-- Go `CorruptInputError(n).Error()`. -/
def CorruptInputError (n : Nat) : String :=
  "illegal base64 data at input byte " ++ toString n

/-- The loop `for si < len(src) && (src[si] == '\n' || src[si] == '\r') { si++ }` of
`decodeQuantum`: the source from the first byte kept on, and its index. -/
def skipNewlines : GoString → Nat → GoString × Nat
  | [], si => ([], si)
  | c :: rest, si =>
    if c = 10 ∨ c = 13 then skipNewlines rest (si + 1) else (c :: rest, si)

/-- The end of `decodeQuantum`: the bytes of a quantum of which `dbuf` holds the 6-bit values
read, one byte less than there are values (the encoding is not strict: the unused low bits
are not checked). -/
def quantumBytes (dbuf : List Nat) : GoString :=
  let val := dbuf.getD 0 0 * 262144 + dbuf.getD 1 0 * 4096 + dbuf.getD 2 0 * 64 + dbuf.getD 3 0
  ([Fin.ofNat (val / 65536), Fin.ofNat (val / 256), Fin.ofNat val] : GoString).take
    (dbuf.length - 1)

/-- What `decodeQuantum` does once the padding of a quantum is read: line breaks are skipped,
and anything left is trailing garbage. -/
def decodePadded (dbuf : List Nat) (out src : GoString) (si : Nat) : Except String GoString :=
  match skipNewlines src si with
  | ([], _) => .ok (out ++ quantumBytes dbuf)
  | (_ :: _, si2) => .error (CorruptInputError si2)

/-- Go `(*Encoding).Decode` with its `decodeQuantum`, for `base64.StdEncoding` (padded, not
strict), as one pass over the source: `si` is the index of the next byte, `j` the number of
values of the current quantum read so far, `dbuf` these values and `out` the bytes decoded.
The result is the decoded bytes, or the text of the `CorruptInputError` with the index Go
reports. The fast paths of `Decode` over eight and four valid characters give what
`decodeQuantum` gives on them. -/
def base64Decode : GoString → Nat → Nat → List Nat → GoString → Except String GoString
  | [], si, j, _, out => if j = 0 then .ok out else .error (CorruptInputError (si - j))
  | c :: rest, si, j, dbuf, out =>
    match b64Value c with
    | some v =>
      if j = 3 then base64Decode rest (si + 1) 0 [] (out ++ quantumBytes (dbuf ++ [v]))
      else base64Decode rest (si + 1) (j + 1) (dbuf ++ [v]) out
    | none =>
      if c = 10 ∨ c = 13 then base64Decode rest (si + 1) j dbuf out
      else if c ≠ padChar then .error (CorruptInputError si)
      else if j = 0 ∨ j = 1 then .error (CorruptInputError si)
      else if j = 2 then
        match skipNewlines rest (si + 1) with
        | ([], si2) => .error (CorruptInputError si2)
        | (d :: rest2, si2) =>
          if d ≠ padChar then .error (CorruptInputError (si2 - 1))
          else decodePadded dbuf out rest2 (si2 + 1)
      else decodePadded dbuf out rest (si + 1)

/-- Go `base64.StdEncoding.DecodeString`. -/
def base64DecodeString (s : GoString) : Except String GoString :=
  base64Decode s 0 0 [] []

/-- The UTF-8 encodings of the runes with `unicode.IsSpace`: tab, line feed, vertical tab,
form feed, carriage return, space, U+0085, U+00A0, U+1680, U+2000 to U+200A, U+2028,
U+2029, U+202F, U+205F and U+3000. -/
def spaceRunes : List GoString :=
  [[9], [10], [11], [12], [13], [32], [0xC2, 0x85], [0xC2, 0xA0], [0xE1, 0x9A, 0x80],
   [0xE2, 0x80, 0x80], [0xE2, 0x80, 0x81], [0xE2, 0x80, 0x82], [0xE2, 0x80, 0x83],
   [0xE2, 0x80, 0x84], [0xE2, 0x80, 0x85], [0xE2, 0x80, 0x86], [0xE2, 0x80, 0x87],
   [0xE2, 0x80, 0x88], [0xE2, 0x80, 0x89], [0xE2, 0x80, 0x8A], [0xE2, 0x80, 0xA8],
   [0xE2, 0x80, 0xA9], [0xE2, 0x80, 0xAF], [0xE2, 0x81, 0x9F], [0xE3, 0x80, 0x80]]

/-- Removes one of the byte sequences `cands` from the front of `s`, if `s` starts with
one. -/
def stripOne (cands : List GoString) (s : GoString) : Option GoString :=
  cands.findSome? (fun r => if r.isPrefixOf s then some (s.drop r.length) else none)

/-- Removes sequences of `cands` from the front of `s` as long as there is one. -/
def stripLeading (cands : List GoString) : Nat → GoString → GoString
  | 0, s => s
  | fuel + 1, s =>
    match stripOne cands s with
    | none => s
    | some rest => stripLeading cands fuel rest

/-- Go `strings.TrimSpace`: the string without its leading and trailing white space, as
defined by Unicode. A string of `n` bytes has at most `n` white-space runes on either
side. -/
def trimSpace (s : GoString) : GoString :=
  let left := stripLeading spaceRunes s.length s
  (stripLeading (spaceRunes.map List.reverse) left.length left.reverse).reverse

/-! ## Runes of a string -/

/-- Go `utf8.DecodeRuneInString`: the first rune of the string and its width in bytes;
`(U+FFFD, 0)` for the empty string and `(U+FFFD, 1)` for a byte that starts no well-formed
encoding. -/
def decodeRune : GoString → Rune × Nat
  | [] => (0xFFFD, 0)
  | [b0] => if b0.val < 0x80 then (b0.val, 1) else (0xFFFD, 1)
  | [b0, b1] =>
    if b0.val < 0x80 then (b0.val, 1)
    else if 0xC2 ≤ b0.val ∧ b0.val ≤ 0xDF ∧ 0x80 ≤ b1.val ∧ b1.val ≤ 0xBF then
      (b0.val % 32 * 64 + b1.val % 64, 2)
    else (0xFFFD, 1)
  | [b0, b1, b2] =>
    if b0.val < 0x80 then (b0.val, 1)
    else if 0xC2 ≤ b0.val ∧ b0.val ≤ 0xDF ∧ 0x80 ≤ b1.val ∧ b1.val ≤ 0xBF then
      (b0.val % 32 * 64 + b1.val % 64, 2)
    else if 0xE0 ≤ b0.val ∧ b0.val ≤ 0xEF ∧
      (if b0.val = 0xE0 then 0xA0 else 0x80) ≤ b1.val ∧
      b1.val ≤ (if b0.val = 0xED then 0x9F else 0xBF) ∧ 0x80 ≤ b2.val ∧ b2.val ≤ 0xBF then
      (b0.val % 16 * 4096 + b1.val % 64 * 64 + b2.val % 64, 3)
    else (0xFFFD, 1)
  | b0 :: b1 :: b2 :: b3 :: _ =>
    if b0.val < 0x80 then (b0.val, 1)
    else if 0xC2 ≤ b0.val ∧ b0.val ≤ 0xDF ∧ 0x80 ≤ b1.val ∧ b1.val ≤ 0xBF then
      (b0.val % 32 * 64 + b1.val % 64, 2)
    else if 0xE0 ≤ b0.val ∧ b0.val ≤ 0xEF ∧
      (if b0.val = 0xE0 then 0xA0 else 0x80) ≤ b1.val ∧
      b1.val ≤ (if b0.val = 0xED then 0x9F else 0xBF) ∧ 0x80 ≤ b2.val ∧ b2.val ≤ 0xBF then
      (b0.val % 16 * 4096 + b1.val % 64 * 64 + b2.val % 64, 3)
    else if 0xF0 ≤ b0.val ∧ b0.val ≤ 0xF4 ∧
      (if b0.val = 0xF0 then 0x90 else 0x80) ≤ b1.val ∧
      b1.val ≤ (if b0.val = 0xF4 then 0x8F else 0xBF) ∧ 0x80 ≤ b2.val ∧ b2.val ≤ 0xBF ∧
      0x80 ≤ b3.val ∧ b3.val ≤ 0xBF then
      (b0.val % 8 * 262144 + b1.val % 64 * 4096 + b2.val % 64 * 64 + b3.val % 64, 4)
    else (0xFFFD, 1)

/-- The runes decoded from the front of `s`, at most `fuel` of them. -/
def runesLoop : Nat → GoString → List Rune
  | 0, _ => []
  | _ + 1, [] => []
  | fuel + 1, b :: rest =>
    (decodeRune (b :: rest)).1 :: runesLoop fuel ((b :: rest).drop (decodeRune (b :: rest)).2)

/-- The runes of a Go string, as `[]rune(s)` and `for _, r := range s` yield them: each
undecodable byte gives U+FFFD. A string of `n` bytes has at most `n` runes. -/
def runesOf (s : GoString) : List Rune :=
  runesLoop s.length s

/-- Go `string(r)` for one rune: its UTF-8 encoding, `U+FFFD` for a surrogate or a value
out of range. -/
def encodeRune (r : Rune) : GoString :=
  if r < 0x80 then [Fin.ofNat r]
  else if r < 0x800 then [Fin.ofNat (0xC0 + r / 64), Fin.ofNat (0x80 + r % 64)]
  else if 0x10FFFF < r ∨ (0xD800 ≤ r ∧ r ≤ 0xDFFF) then [0xEF, 0xBF, 0xBD]
  else if r < 0x10000 then
    [Fin.ofNat (0xE0 + r / 4096), Fin.ofNat (0x80 + r / 64 % 64), Fin.ofNat (0x80 + r % 64)]
  else
    [Fin.ofNat (0xF0 + r / 262144), Fin.ofNat (0x80 + r / 4096 % 64),
      Fin.ofNat (0x80 + r / 64 % 64), Fin.ofNat (0x80 + r % 64)]

/-- Go `string(runes)`. -/
def encodeRunes (runes : List Rune) : GoString :=
  runes.flatMap encodeRune

/-! ## `bubbles/textarea`: the text that `SetValue` stores -/

/-- Go `unicode.IsControl`: the runes U+0000 to U+001F and U+007F to U+009F. -/
def IsControl (r : Rune) : Bool :=
  decide (r < 0x20 ∨ (0x7F ≤ r ∧ r < 0xA0))

/-- Go `(*sanitizer).Sanitize` of `bubbles/runeutil` with the settings of the text area
(`runeutil.NewSanitizer()` without options): U+FFFD is dropped, a carriage return and a line
feed each become a line feed, a tab becomes four blanks, every other control character is
dropped, and any other rune is kept. -/
def Sanitize : List Rune → List Rune
  | [] => []
  | r :: rest =>
    if r = 0xFFFD then Sanitize rest
    else if r = 13 ∨ r = 10 then 10 :: Sanitize rest
    else if r = 9 then 32 :: 32 :: 32 :: 32 :: Sanitize rest
    else if IsControl r then Sanitize rest
    else r :: Sanitize rest

/-- The loop of `insertRunesFromUserInput` that cuts the runes into lines at every line
feed; `cur` is the line begun. The last line, empty or not, is always taken. -/
def splitLinesLoop : List Rune → List Rune → List (List Rune)
  | cur, [] => [cur]
  | cur, r :: rest =>
    if r = 10 then cur :: splitLinesLoop [] rest
    else splitLinesLoop (cur ++ [r]) rest

/-- Go `(*Model).insertRunesFromUserInput(runes)` of the text area, run right after `Reset`
(one empty row, cursor at its start): the rows the text area then holds. The runes are
sanitized and cut into lines; when the text area would hold more than `maxLines` rows, only
the first lines that fit are kept; the lines become the rows. The character limit is not
modelled: the program sets none, and none is taken to be set by `textarea.New()`. -/
def insertRunesFromUserInput (maxLines : Nat) (runes : List Rune) : List (List Rune) :=
  let lines := splitLinesLoop [] (Sanitize runes)
  let lines := if 0 < maxLines ∧ maxLines < 1 + lines.length - 1
    then lines.take (maxLines - 1 + 1) else lines
  if lines.length = 0 then [[]] else lines

/-- Go `(Model).Value()` of the text area: every row followed by a line feed, less the
line feed at the end. -/
def textareaValue (rows : List (List Rune)) : GoString :=
  let v := rows.flatMap (fun l => encodeRunes l ++ [10])
  if v.getLast? = some 10 then v.dropLast else v

/-- Go `m.editor.SetValue(s)` followed by `m.editor.Value()`: the text the edit buffer holds
after `SetValue`, which resets the text area and inserts the runes of `s`. -/
def editorSetValue (maxLines : Nat) (s : GoString) : GoString :=
  textareaValue (insertRunesFromUserInput maxLines (runesOf s))

/-! ## `internal/ui`: the model, the value codec and pattern delete -/

/-- What the UI code takes from outside the repository and is not modelled above. -/
structure Env where
  /-- The non-ASCII branch of `strings.ToLower`. -/
  unicodeLower : GoString → GoString
  /-- The composition `json.Unmarshal` into `interface{}` followed by
  `json.MarshalIndent(any, "", "  ")`: the parse error, or the re-indented text. -/
  jsonReindent : GoString → Except String GoString
  /-- The renderer `errStyle.Render`. -/
  errStyle : String → String
  /-- The renderer `okStyle.Render`. -/
  okStyle : String → String
  /-- Go `path.Match(pattern, name)`. -/
  pathMatch : GoString → GoString → Except String Bool
  /-- The line limit of the text area: a text set with `SetValue` keeps at most this many
  lines (the field `MaxHeight`, 99 unless set, in the earlier releases of `bubbles`, the
  constant `maxLines`, 10000, in the later ones); 0 is no limit. -/
  editorMaxLines : Nat

/-- A byte string as text (for `%s` in status lines). -/
def goText (s : GoString) : String :=
  String.mk (s.map (fun b => Char.ofNat b.val))

/-- Go `type valueFormat int` with its four constants. -/
inductive valueFormat where
  | fmtText
  | fmtHex
  | fmtBase64
  | fmtJSON
deriving DecidableEq, Repr

/-- Go `list.FilterState`, the filter state of the list widget. -/
inductive FilterState where
  | Unfiltered
  | Filtering
  | FilterApplied
deriving DecidableEq, Repr

/-- Go `type groupCount struct`. -/
structure groupCount where
  group : GoString
  count : Int
deriving DecidableEq, Repr

/-- Go `type Model struct`, without the store handle. A widget is held as what the code reads
from it: `editor` is the text held by the text area, as `Value` returns it (what
`SetValue` stores of a text is `editorSetValue`), `viewport` the content of the value pane,
`patternInput` the text of the pattern prompt, and the list widget is `list` (the keys of
`Items()`), `listFiltered` (the keys of the items
the filter lets through, shown instead of `list` while a filter is set), `listIndex`
(`Index()`, never negative), `listFilterState` (`FilterState()`) and `listFilterValue`
(`FilterValue()`). -/
structure Model where
  list : List GoString
  viewport : String
  status : String
  valFormat : valueFormat
  selected : GoString
  editing : Bool
  editor : GoString
  editKey : GoString
  editorHelp : String
  lastLoadValue : GoString
  listFiltered : List GoString
  listIndex : Nat
  listFilterState : FilterState
  listFilterValue : GoString
  ready : Bool
  dbPath : String
  focusRight : Bool
  width : Int
  height : Int
  editorHeight : Int
  pageSize : Int
  lastKey : GoString
  hasMoreKeys : Bool
  loadingKeys : Bool
  filterTerm : GoString
  filterCount : Int
  filterCountValid : Bool
  filterCountLoading : Bool
  filterCountErr : String
  loadingAllForFilter : Bool
  groupCounts : List groupCount
  groupCountsLoading : Bool
  groupCountsErr : String
  showGroupCounts : Bool
  showAbout : Bool
  confirmDelete : Bool
  pendingDelete : GoString
  patternDelete : Bool
  patternInput : GoString
  confirmPatternDelete : Bool
  pendingPattern : GoString
deriving DecidableEq, Repr

/-- Go `(*Model).startEditWithContent(key, raw)`. The field `editor` of the model is the
text of the edit buffer as `m.editor.Value()` returns it, so each `m.editor.SetValue(s)` is
`editorSetValue`: the text area keeps `s` sanitized and within its line limit. -/
def startEditWithContent (env : Env) (m : Model) (key : GoString) (raw : GoString) : Model :=
  let m := { m with editKey := key, editing := true, lastLoadValue := raw,
                    editorHelp := "(Ctrl+S save · Esc cancel)" }
  let m :=
    match m.valFormat with
    | .fmtText =>
      if utf8Valid raw then { m with editor := editorSetValue env.editorMaxLines raw }
      else { m with editor := editorSetValue env.editorMaxLines [],
                    status := env.errStyle
                      "Warning: invalid UTF-8; editing in text mode may be unsafe." }
    | .fmtBase64 =>
      { m with editor := editorSetValue env.editorMaxLines (base64EncodeToString raw) }
    | .fmtHex =>
      { m with editor := editorSetValue env.editorMaxLines
                 (toLower env.unicodeLower (hexEncodeToString raw)) }
    | .fmtJSON =>
      if !utf8Valid raw then
        { m with editor := editorSetValue env.editorMaxLines [],
                 status := env.errStyle "Warning: invalid UTF-8; cannot be JSON." }
      else
        match env.jsonReindent raw with
        | .error e =>
          { m with editor := editorSetValue env.editorMaxLines raw,
                   status := env.errStyle
                     ("Warning: invalid JSON: " ++ e ++ " (you can fix it)") }
        | .ok pretty => { m with editor := editorSetValue env.editorMaxLines pretty }
  { m with status := "Editing. (Ctrl+S save · Esc cancel)" }

/-- Go `(Model).bytesFromEditor()`. -/
def bytesFromEditor (env : Env) (m : Model) : Except String GoString :=
  let content := m.editor
  match m.valFormat with
  | .fmtText => .ok content
  | .fmtBase64 =>
    match base64DecodeString (trimSpace content) with
    | .error e => .error ("invalid base64: " ++ e)
    | .ok b => .ok b
  | .fmtHex =>
    let clean := toLower env.unicodeLower content
    let clean := removeAll0x clean
    let clean := removeNonHex clean
    if clean.length % 2 ≠ 0 then .error "hex length must be even"
    else
      match hexDecodeString clean with
      | .error e => .error ("invalid hex: " ++ e)
      | .ok b => .ok b
  | .fmtJSON =>
    if !utf8Valid content then .error "JSON must be UTF-8"
    else
      match env.jsonReindent content with
      | .error e => .error ("JSON parse error: " ++ e)
      | .ok pretty => .ok pretty

/-- Go `type deletePatternResultMsg struct`. -/
structure deletePatternResultMsg where
  pattern : GoString
  keys : List GoString
  err : Option String
deriving DecidableEq, Repr

/-- Go `matchPattern(pattern, key)`. -/
def matchPattern (env : Env) (pattern key : GoString) : Except String Bool :=
  env.pathMatch pattern key

/-- The loop `for _, k := range keys` of `deletePatternCmd`: the error that ends the sweep,
if any, with the list `deleted` and the store as they are then. -/
def deletePatternKeys (env : Env) (pattern : GoString) :
    List GoString → Store → List GoString → Option String × List GoString × Store
  | [], s, deleted => (none, deleted, s)
  | k :: rest, s, deleted =>
    match matchPattern env pattern k with
    | .error e => (some e, deleted, s)
    | .ok false => deletePatternKeys env pattern rest s deleted
    | .ok true =>
      match Delete s k with
      | (some e, s1) => (some e, deleted, s1)
      | (none, s1) => deletePatternKeys env pattern rest s1 (deleted ++ [k])

/-- The loop `for { ... }` of `deletePatternCmd`, with the page size as a parameter: the
message returned and the store left behind. -/
def deletePatternLoop (env : Env) (pattern : GoString) (pageSize : Int) :
    Nat → Store → GoString → List GoString → Option (deletePatternResultMsg × Store)
  | 0, _, _, _ => none
  | fuel + 1, s, startAfter, deleted =>
    let page := ListKeysPage s startAfter pageSize
    match page.1.err with
    | some e => some ({ pattern := pattern, keys := [], err := some e }, page.2)
    | none =>
      match deletePatternKeys env pattern page.1.keys page.2 deleted with
      | (some e, _, s2) => some ({ pattern := pattern, keys := [], err := some e }, s2)
      | (none, deleted2, s2) =>
        if !page.1.hasMore || page.1.keys.length = 0 then
          some ({ pattern := pattern, keys := deleted2, err := none }, s2)
        else deletePatternLoop env pattern pageSize fuel s2 page.1.lastKey deleted2

/-- Go `deletePatternCmd(store, pattern)`, run: pages of 1000 keys. -/
def deletePatternCmd (env : Env) (fuel : Nat) (store : Store) (pattern : GoString) :
    Option (deletePatternResultMsg × Store) :=
  deletePatternLoop env pattern 1000 fuel store [] []

/-- The case `deletePatternResultMsg` of Go `(Model).Update`. -/
def updateDeletePatternResultMsg (env : Env) (m : Model) (msg : deletePatternResultMsg) :
    Model :=
  match msg.err with
  | some e => { m with status := env.errStyle ("Error: pattern delete failed: " ++ e) }
  | none =>
    if msg.keys.length = 0 then
      { m with status := env.errStyle
                 ("Warning: no matches for pattern: " ++ goText msg.pattern) }
    else
      let m := { m with list := m.list.filter (fun k => decide (k ∉ msg.keys)) }
      let m := if m.selected ∈ msg.keys then { m with selected := [], viewport := "" } else m
      { m with status := env.okStyle
                 ("Deleted " ++ toString msg.keys.length ++ " records (pattern: "
                   ++ goText msg.pattern ++ ").") }

/-- A matcher for examples, agreeing with `path.Match` on patterns made of literal bytes
and `*` (which matches any run of bytes other than `/`). -/
def literalStarMatch : GoString → GoString → Bool
  | [], name => name.isEmpty
  | c :: p, name =>
    if c = 42 then
      (List.range (name.length + 1)).any
        (fun i => (name.take i).all (fun b => decide (b ≠ 47)) && literalStarMatch p (name.drop i))
    else
      match name with
      | [] => false
      | d :: rest => decide (c = d) && literalStarMatch p rest

/-- An environment for examples: identity renderers and Unicode lower-casing, no JSON
re-indentation, `literalStarMatch` for patterns, a text area of at most 10000 lines. -/
def sampleEnv : Env where
  unicodeLower := id
  jsonReindent := fun s => .ok s
  errStyle := id
  okStyle := id
  pathMatch := fun pattern name => .ok (literalStarMatch pattern name)
  editorMaxLines := 10000

/-- A model for examples, in the given format. -/
def sampleModel (f : valueFormat) : Model where
  list := []
  viewport := ""
  status := ""
  valFormat := f
  selected := []
  editing := false
  editor := []
  editKey := []
  editorHelp := ""
  lastLoadValue := []
  listFiltered := []
  listIndex := 0
  listFilterState := .Unfiltered
  listFilterValue := []
  ready := false
  dbPath := ""
  focusRight := false
  width := 0
  height := 0
  editorHeight := 0
  pageSize := 500
  lastKey := []
  hasMoreKeys := false
  loadingKeys := false
  filterTerm := []
  filterCount := 0
  filterCountValid := false
  filterCountLoading := false
  filterCountErr := ""
  loadingAllForFilter := false
  groupCounts := []
  groupCountsLoading := false
  groupCountsErr := ""
  showGroupCounts := false
  showAbout := false
  confirmDelete := false
  pendingDelete := []
  patternDelete := false
  patternInput := []
  confirmPatternDelete := false
  pendingPattern := []

/-- The value of a digit among `0-9a-f`. -/
def lowerHexValue (c : Byte) : Nat :=
  if c.val ≤ 57 then c.val - 48 else c.val - 87

/-- The claim's reading of a digit string: the bytes denoted by the digits taken two at a
time, the first digit of a pair being the high half. -/
def hexPairsValue : GoString → GoString
  | p :: q :: rest => Fin.ofNat (lowerHexValue p * 16 + lowerHexValue q) :: hexPairsValue rest
  | _ => []

/-- The bytes a base64 text is made of: the alphabet and the padding character. -/
def isB64Byte (c : Byte) : Bool :=
  encodeStd.contains c || c == padChar

/-- White space in the sense of `strings.TrimSpace`: a concatenation of UTF-8 encodings of
white-space runes. -/
def IsWhiteSpace (ws : GoString) : Prop :=
  ∃ runs : List GoString, (∀ r ∈ runs, r ∈ spaceRunes) ∧ ws = runs.flatten

/-- Whether `matchPattern` accepts the key. -/
def accepts (env : Env) (pattern key : GoString) : Bool :=
  decide (matchPattern env pattern key = .ok true)

/-- The claim's candidates of a page: the keys strictly greater than `startAfter`, in store
order; all keys when `startAfter` is the empty string. -/
def keysAfter (ks : List GoString) (startAfter : GoString) : List GoString :=
  if startAfter = [] then ks else ks.filter (fun k => decide (startAfter < k))

/-! ## `internal/store/badger.go`: groups -/

/-- Go `strings.IndexByte(s, c)`: the index of the first `c` in `s`, or `-1`. -/
def indexByte (s : GoString) (c : Byte) : Int :=
  if c ∈ s then (s.indexOf c : Int) else -1

/-- Go `keyGroup(key)`. -/
def keyGroup (key : GoString) : GoString :=
  if key = [] then str "(empty)"
  else if indexByte key 58 > 0 then key.take (indexByte key 58).toNat
  else str "(no prefix)"

/-- Go `counts[group]++` on a `map[string]int`, the map being the list of its entries. -/
def mapIncrement : List (GoString × Int) → GoString → List (GoString × Int)
  | [], g => [(g, 1)]
  | (k, v) :: rest, g => if k = g then (k, v + 1) :: rest else (k, v) :: mapIncrement rest g

/-- The loop of `GroupKeyCounts` over the keys the iterator visits. -/
def groupKeyCountsLoop : List GoString → List (GoString × Int) → List (GoString × Int)
  | [], counts => counts
  | key :: rest, counts => groupKeyCountsLoop rest (mapIncrement counts (keyGroup key))

/-- Go `(*BadgerStore).GroupKeyCounts()`: the map, as the list of its entries, and the error
of the transaction, with the store it leaves. -/
def GroupKeyCounts (s : Store) : (List (GoString × Int) × Option String) × Store :=
  match s.nextOutcome with
  | (some e, s1) => (([], some e), s1)
  | (none, s1) => ((groupKeyCountsLoop s1.keys [], none), s1)

/-- Go `type groupCountsMsg struct`. -/
structure groupCountsMsg where
  counts : List groupCount
  err : Option String
deriving DecidableEq, Repr

/-- The comparison function that `loadGroupCountsCmd` passes to `sort.Slice`. -/
def groupCountLess (a b : groupCount) : Bool :=
  if a.count = b.count then decide (a.group < b.group) else decide (a.count > b.count)

/-- Go `sort.Slice(out, less)`: the elements of `out` rearranged so that no element is
`less` than one before it (insertion sort stands for the library's algorithm). -/
def sortSlice {α : Type} (less : α → α → Bool) (out : List α) : List α :=
  out.insertionSort (fun a b => less b a = false)

/-- Go `loadGroupCountsCmd(store)`, run on what `store.GroupKeyCounts()` returned: `counts`
is the map in the order `range` visits it. -/
def loadGroupCountsCmd (counts : List (GoString × Int)) (err : Option String) :
    groupCountsMsg :=
  match err with
  | some e => { counts := [], err := some e }
  | none =>
    { counts := sortSlice groupCountLess (counts.map (fun kv => ⟨kv.1, kv.2⟩)), err := none }

/-- The claim's reading of `keyGroup`: the bytes of the key before its first `:`. -/
def beforeFirstColon (key : GoString) : GoString :=
  key.takeWhile (fun c => decide (c ≠ 58))

/-! ## The match count and case mappings -/

/-- The loop of `CountKeysMatching` over the keys the iterator visits. -/
def countKeysLoop (simpleFold : Rune → Rune) (fuel : Nat) (pr : List Rune) :
    List GoString → Int → Option Int
  | [], count => some count
  | key :: rest, count =>
    match fuzzyMatch simpleFold fuel pr (runesOf key) with
    | none => none
    | some true => countKeysLoop simpleFold fuel pr rest (count + 1)
    | some false => countKeysLoop simpleFold fuel pr rest count

/-- Go `(*BadgerStore).CountKeysMatching(term)`: the count and the error, with the store it
leaves; `none` when `fuzzyMatch` does not return. -/
def CountKeysMatching (simpleFold : Rune → Rune) (fuel : Nat) (s : Store) (term : GoString) :
    Option ((Int × Option String) × Store) :=
  if trimSpace term = [] then some ((0, none), s)
  else
    match s.nextOutcome with
    | (some e, s1) => some ((0, some e), s1)
    | (none, s1) =>
      match countKeysLoop simpleFold fuel (runesOf (trimSpace term)) s1.keys 0 with
      | none => none
      | some count => some ((count, none), s1)

/-- The lower-case form of an ASCII rune (`unicode.ToLower` on ASCII). -/
def asciiLowerRune (r : Rune) : Rune :=
  if 65 ≤ r ∧ r ≤ 90 then r + 32 else r

/-- The upper-case form of an ASCII rune (`unicode.ToUpper` on ASCII). -/
def asciiUpperRune (r : Rune) : Rune :=
  if 97 ≤ r ∧ r ≤ 122 then r - 32 else r

/-- Upper-casing for examples: ASCII letters, and the dotless i (U+0131), whose upper-case
form is `I`, as `unicode.ToUpper` maps them. -/
def sampleUpper (r : Rune) : Rune :=
  if r = 0x131 then 73 else asciiUpperRune r

/-- Whether two ASCII runes are equal under case folding. -/
def asciiFoldEq (t q : Rune) : Bool :=
  decide (t = q ∨ (65 ≤ t ∧ t ≤ 90 ∧ q = t + 32) ∨ (65 ≤ q ∧ q ≤ 90 ∧ t = q + 32))

/-! ## `internal/ui/json_editor.go`: word wrap -/

/-- Go `unicode.IsSpace`: tab, line feed, vertical tab, form feed, carriage return, space,
U+0085, U+00A0, U+1680, U+2000 to U+200A, U+2028, U+2029, U+202F, U+205F, U+3000. -/
def isSpaceRune (r : Rune) : Bool :=
  (9 ≤ r ∧ r ≤ 13) ∨ r = 32 ∨ r = 0x85 ∨ r = 0xA0 ∨ r = 0x1680 ∨ (0x2000 ≤ r ∧ r ≤ 0x200A) ∨
    r = 0x2028 ∨ r = 0x2029 ∨ r = 0x202F ∨ r = 0x205F ∨ r = 0x3000

/-- Go `repeatSpaces(n)`. -/
def repeatSpaces (n : Int) : List Rune :=
  List.replicate n.toNat 32

/-- The statement `lines[row] = append(lines[row], xs...)`; `none` when `row` is out of
range. -/
def rowAppend (lines : List (List Rune)) (row : Nat) (xs : List Rune) :
    Option (List (List Rune)) :=
  match lines[row]? with
  | none => none
  | some l => some (lines.set row (l ++ xs))

/-- The variables `lines`, `word`, `row`, `spaces` of `wrapRunes`. -/
structure WrapState where
  lines : List (List Rune)
  word : List Rune
  row : Nat
  spaces : Int
deriving DecidableEq, Repr

/-- One iteration of the loop `for _, r := range runes` of `wrapRunes`. The display widths
`uniseg.StringWidth(string(·))` and `runewidth.RuneWidth` are the parameters `stringWidth`
and `runeWidth`. An index out of range (a Go panic) gives `none`. -/
def wrapStep (stringWidth : List Rune → Int) (runeWidth : Rune → Int) (width : Int)
    (st : WrapState) (r : Rune) : Option WrapState :=
  let spaces := if isSpaceRune r then st.spaces + 1 else st.spaces
  let word := if isSpaceRune r then st.word else st.word ++ [r]
  if spaces > 0 then
    match st.lines[st.row]? with
    | none => none
    | some cur =>
      if stringWidth cur + stringWidth word + spaces > width then
        match rowAppend (st.lines ++ [[]]) (st.row + 1) (word ++ repeatSpaces spaces) with
        | none => none
        | some lines => some { lines := lines, word := [], row := st.row + 1, spaces := 0 }
      else
        match rowAppend st.lines st.row (word ++ repeatSpaces spaces) with
        | none => none
        | some lines => some { lines := lines, word := [], row := st.row, spaces := 0 }
  else
    match word.getLast? with
    | none => none
    | some last =>
      if stringWidth word + runeWidth last > width then
        match st.lines[st.row]? with
        | none => none
        | some cur =>
          if cur.length > 0 then
            match rowAppend (st.lines ++ [[]]) (st.row + 1) word with
            | none => none
            | some lines => some { lines := lines, word := [], row := st.row + 1, spaces := spaces }
          else
            match rowAppend st.lines st.row word with
            | none => none
            | some lines => some { lines := lines, word := [], row := st.row, spaces := spaces }
      else some { lines := st.lines, word := word, row := st.row, spaces := spaces }

/-- The loop `for _, r := range runes` of `wrapRunes`. -/
def wrapLoop (stringWidth : List Rune → Int) (runeWidth : Rune → Int) (width : Int) :
    WrapState → List Rune → Option WrapState
  | st, [] => some st
  | st, r :: rest =>
    match wrapStep stringWidth runeWidth width st r with
    | none => none
    | some st1 => wrapLoop stringWidth runeWidth width st1 rest

/-- The statements of `wrapRunes` after its loop: the pending word and `spaces + 1` spaces go
to a new line when the current line, the word and the pending spaces reach the width, and
to the current line otherwise. -/
def wrapFinish (stringWidth : List Rune → Int) (width : Int) (st : WrapState) :
    Option (List (List Rune)) :=
  match st.lines[st.row]? with
  | none => none
  | some cur =>
    if stringWidth cur + stringWidth st.word + st.spaces ≥ width then
      match rowAppend (st.lines ++ [[]]) (st.row + 1) st.word with
      | none => none
      | some lines => rowAppend lines (st.row + 1) (repeatSpaces (st.spaces + 1))
    else
      match rowAppend st.lines st.row st.word with
      | none => none
      | some lines => rowAppend lines st.row (repeatSpaces (st.spaces + 1))

/-- Go `wrapRunes(runes, width)`. -/
def wrapRunes (stringWidth : List Rune → Int) (runeWidth : Rune → Int) (runes : List Rune)
    (width : Int) : Option (List (List Rune)) :=
  if width ≤ 0 then some [runes]
  else if runes.length = 0 then some [[]]
  else
    match wrapLoop stringWidth runeWidth width
        { lines := [[]], word := [], row := 0, spaces := 0 } runes with
    | none => none
    | some st => wrapFinish stringWidth width st

/-- The display width of a string all of whose characters occupy one cell (as ASCII letters,
digits and spaces do): the number of its characters. -/
def singleCellStringWidth (l : List Rune) : Int :=
  l.length

/-- The display width of a character that occupies one cell. -/
def singleCellRuneWidth (_ : Rune) : Int :=
  1

/-- The runes of an ASCII literal. -/
def runesOfLiteral (s : String) : List Rune :=
  s.toList.map Char.toNat

/-- The hard break of a word at width `w`, with the trailing space the code adds: the
consecutive chunks of exactly `w` characters of the word, followed by one more line holding
the characters left over (fewer than `w`, possibly none) and one space. -/
def hardBreak (w : Nat) (word : List Rune) : List (List Rune) :=
  (List.range (word.length / w)).map (fun i => (word.drop (i * w)).take w) ++
    [word.drop (word.length / w * w) ++ [32]]

/-! ## Go `path.Match` -/

/-- Go `path.ErrBadPattern`, by its message. -/
def ErrBadPattern : String :=
  "syntax error in pattern"

/-- The first loop of Go `scanChunk`: the leading stars are dropped; `star` tells whether
there was one. -/
def scanStars : Bool → GoString → Bool × GoString
  | star, [] => (star, [])
  | star, c :: p => if c = 42 then scanStars true p else (star, c :: p)

/-- The loop `Scan` of Go `scanChunk`: the pattern is cut before the first `*` outside a
bracket expression; a backslash takes the byte after it along. -/
def scanSplit : Bool → GoString → GoString × GoString
  | _, [] => ([], [])
  | inrange, c :: p =>
    if c = 92 then
      match p with
      | [] => ([c], [])
      | d :: q => (c :: d :: (scanSplit inrange q).1, (scanSplit inrange q).2)
    else if c = 91 then (c :: (scanSplit true p).1, (scanSplit true p).2)
    else if c = 93 then (c :: (scanSplit false p).1, (scanSplit false p).2)
    else if c = 42 then
      if !inrange then ([], c :: p) else (c :: (scanSplit inrange p).1, (scanSplit inrange p).2)
    else (c :: (scanSplit inrange p).1, (scanSplit inrange p).2)

/-- Go `scanChunk(pattern)`: `star, chunk, rest`. -/
def scanChunk (pattern : GoString) : Bool × GoString × GoString :=
  ((scanStars false pattern).1, scanSplit false (scanStars false pattern).2)

/-- Go `getEsc(chunk)` of package `path`: the rune at the front of a bracket expression and
the rest of the chunk, or the error. -/
def getEsc (chunk : GoString) : Except String (Rune × GoString) :=
  match chunk with
  | [] => .error ErrBadPattern
  | c :: rest =>
    if c = 45 ∨ c = 93 then .error ErrBadPattern
    else
      let chunk1 := if c = 92 then rest else c :: rest
      if chunk1.length = 0 then .error ErrBadPattern
      else if (decodeRune chunk1).1 = 0xFFFD ∧ (decodeRune chunk1).2 = 1 then .error ErrBadPattern
      else if (chunk1.drop (decodeRune chunk1).2).length = 0 then .error ErrBadPattern
      else .ok ((decodeRune chunk1).1, chunk1.drop (decodeRune chunk1).2)

/-- The loop `for { ... }` that parses the ranges of a bracket expression in Go `matchChunk`:
`mtch` and `nrange` are the variables `match` and `nrange`; the result is `match` and the
chunk after the closing bracket, or the error. -/
def matchRanges (r : Rune) : Nat → GoString → Bool → Nat → Option (Except String (Bool × GoString))
  | 0, _, _, _ => none
  | fuel + 1, chunk, mtch, nrange =>
    if chunk.head? = some 93 ∧ nrange > 0 then some (.ok (mtch, chunk.tail))
    else
      match getEsc chunk with
      | .error e => some (.error e)
      | .ok (lo, chunk1) =>
        if chunk1.head? = some 45 then
          match getEsc chunk1.tail with
          | .error e => some (.error e)
          | .ok (hi, chunk2) =>
            matchRanges r fuel chunk2 (mtch || (decide (lo ≤ r) && decide (r ≤ hi))) (nrange + 1)
        else
          matchRanges r fuel chunk1 (mtch || (decide (lo ≤ r) && decide (r ≤ lo))) (nrange + 1)

/-- Go `matchChunk(chunk, s)` of package `path` (Go 1.16 and later), from the top of its loop
with the variable `failed`: the error, or `some rest` when the chunk matches a front part of
`s`, or `none` when it does not. -/
def matchChunk : Nat → GoString → GoString → Bool → Option (Except String (Option GoString))
  | 0, _, _, _ => none
  | fuel + 1, chunk, s, failed =>
    match chunk with
    | [] => some (.ok (if failed then none else some s))
    | c :: rest =>
      let failed := failed || decide (s.length = 0)
      if c = 91 then
        let r : Rune := if failed then 0 else (decodeRune s).1
        let s1 := if failed then s else s.drop (decodeRune s).2
        let negated : Bool := decide (rest.head? = some 94)
        let chunk1 := if negated then rest.tail else rest
        match matchRanges r fuel chunk1 false 0 with
        | none => none
        | some (.error e) => some (.error e)
        | some (.ok (mtch, chunk2)) => matchChunk fuel chunk2 s1 (failed || (mtch == negated))
      else if c = 63 then
        let failed1 := failed || decide (s.head? = some 47)
        let s1 := if failed then s else s.drop (decodeRune s).2
        matchChunk fuel rest s1 failed1
      else if c = 92 then
        match rest with
        | [] => some (.error ErrBadPattern)
        | d :: rest1 =>
          matchChunk fuel rest1 (if failed then s else s.tail) (failed || decide (s.head? ≠ some d))
      else
        matchChunk fuel rest (if failed then s else s.tail) (failed || decide (s.head? ≠ some c))

/-- The loop of Go `Match` that looks for a match skipping `i + 1` bytes, none of them `/`:
the argument is `name[i:]`; the result is the error, or `some t` when the chunk matches and
the pattern goes on with the name `t`, or `none`. -/
def matchStar (fuel : Nat) (chunk : GoString) (patternEmpty : Bool) :
    GoString → Option (Except String (Option GoString))
  | [] => some (.ok none)
  | b :: rest =>
    if b = 47 then some (.ok none)
    else
      match matchChunk fuel chunk rest false with
      | none => none
      | some (.error e) => some (.error e)
      | some (.ok (some t)) =>
        if patternEmpty && decide (t.length > 0) then matchStar fuel chunk patternEmpty rest
        else some (.ok (some t))
      | some (.ok none) => matchStar fuel chunk patternEmpty rest

/-- The last loop of Go `Match`, which checks that the remainder of the pattern is
syntactically valid: the error of its first malformed chunk, if any. -/
def matchRest : Nat → GoString → Option (Option String)
  | _, [] => some none
  | 0, _ :: _ => none
  | fuel + 1, c :: p =>
    match matchChunk ((scanChunk (c :: p)).2.1.length + 1) (scanChunk (c :: p)).2.1 [] false with
    | none => none
    | some (.error e) => some (some e)
    | some (.ok _) => matchRest fuel (scanChunk (c :: p)).2.2

/-- The loop `Pattern` of Go `path.Match`. -/
def matchLoop : Nat → GoString → GoString → Option (Except String Bool)
  | _, [], name => some (.ok (decide (name.length = 0)))
  | 0, _ :: _, _ => none
  | fuel + 1, c :: p, name =>
    let star := (scanChunk (c :: p)).1
    let chunk := (scanChunk (c :: p)).2.1
    let rest := (scanChunk (c :: p)).2.2
    if star && decide (chunk = []) then some (.ok (decide ((47 : Byte) ∉ name)))
    else
      match matchChunk (chunk.length + 1) chunk name false with
      | none => none
      | some (.error e) => some (.error e)
      | some (.ok r) =>
        let direct : Option GoString :=
          match r with
          | some t => if t.length = 0 ∨ rest.length > 0 then some t else none
          | none => none
        match direct with
        | some t => matchLoop fuel rest t
        | none =>
          match (if star then matchStar (chunk.length + 1) chunk (decide (rest.length = 0)) name
                 else some (.ok none)) with
          | none => none
          | some (.error e) => some (.error e)
          | some (.ok (some t)) => matchLoop fuel rest t
          | some (.ok none) =>
            match matchRest fuel rest with
            | none => none
            | some (some e) => some (.error e)
            | some none => some (.ok false)

/-- Go `path.Match(pattern, name)` (Go 1.16 and later). Every turn of the loop shortens the
pattern, so the fuel is never used up (`matchLoop_returns`). -/
def pathMatch (pattern name : GoString) : Except String Bool :=
  (matchLoop pattern.length pattern name).getD (.ok false)

/-- The result of `matchRanges` without the variable `match`. -/
def rangesRest : Option (Except String (Bool × GoString)) → Option (Except String GoString)
  | none => none
  | some (.error e) => some (.error e)
  | some (.ok x) => some (.ok x.2)

/-- What a result of the matcher says about the pattern: `none` when the fuel was used up,
`some (some e)` for the error `e`, `some none` for a result without error. -/
def patternError {α : Type} : Option (Except String α) → Option (Option String)
  | none => none
  | some (.error e) => some (some e)
  | some (.ok _) => some none

/-! ## `internal/ui`: JSON colours and `formatValue` -/

/-- The styles `jsonKeyStyle`, `jsonStringStyle`, `jsonNumberStyle`, `jsonBoolStyle`,
`jsonNullStyle` and `jsonPunctStyle` of styles.go. -/
inductive jsonStyle where
  | jsonKeyStyle
  | jsonStringStyle
  | jsonNumberStyle
  | jsonBoolStyle
  | jsonNullStyle
  | jsonPunctStyle
deriving DecidableEq, Repr

/-- Go `isIdentChar`. -/
def isIdentChar (b : Byte) : Bool :=
  (decide (97 ≤ b.val) && decide (b.val ≤ 122)) || (decide (65 ≤ b.val) && decide (b.val ≤ 90)) ||
    (decide (48 ≤ b.val) && decide (b.val ≤ 57)) || decide (b = 95)

/-- Go `isDigit`. -/
def isDigit (b : Byte) : Bool :=
  decide (48 ≤ b.val) && decide (b.val ≤ 57)

/-- Go `isNumberChar`. -/
def isNumberChar (b : Byte) : Bool :=
  isDigit b || decide (b = 46) || decide (b = 101) || decide (b = 69) || decide (b = 43) ||
    decide (b = 45)

/-- Go `isWhitespace`. -/
def isWhitespace (b : Byte) : Bool :=
  decide (b = 32) || decide (b = 10) || decide (b = 9) || decide (b = 13)

/-- Go `isJSONKey(s, idx)`, on `s[idx:]`. -/
def isJSONKey : GoString → Bool
  | [] => false
  | b :: rest => if isWhitespace b then isJSONKey rest else decide (b = 58)

/-- Go `hasKeyword(s, idx, kw)`, on `s[idx:]`. -/
def hasKeyword (s kw : GoString) : Bool :=
  if !(kw.isPrefixOf s) then false
  else
    match (s.drop kw.length).head? with
    | some b => !isIdentChar b
    | none => true

/-- The inner loop of the string case of `colorizeJSON`, on `s[i:]` after the opening
quote: the bytes of the token after the quote, and what follows the token. -/
def scanString : GoString → GoString × GoString
  | [] => ([], [])
  | c :: rest =>
    if c = 92 then
      match rest with
      | [] => ([c], [])
      | d :: rest1 => (c :: d :: (scanString rest1).1, (scanString rest1).2)
    else if c = 34 then ([c], rest)
    else (c :: (scanString rest).1, (scanString rest).2)

/-- The loop of `colorizeJSON`, on `s[i:]`: what is written to the builder, piece by piece,
each with the style that renders it (`none` for `WriteByte`). Every turn takes at least one
byte, so a fuel of `len(s)` is never used up. -/
def colorizeLoop : Nat → GoString → List (Option jsonStyle × GoString)
  | 0, _ => []
  | _ + 1, [] => []
  | fuel + 1, ch :: rest =>
    if ch = 34 then
      (some (if isJSONKey (scanString rest).2 then jsonStyle.jsonKeyStyle
             else jsonStyle.jsonStringStyle), ch :: (scanString rest).1)
        :: colorizeLoop fuel (scanString rest).2
    else if ch = 123 ∨ ch = 125 ∨ ch = 91 ∨ ch = 93 ∨ ch = 58 ∨ ch = 44 then
      (some jsonStyle.jsonPunctStyle, [ch]) :: colorizeLoop fuel rest
    else if ch = 45 ∨ isDigit ch = true then
      if decide (ch = 45) && (match rest.head? with | none => true | some d => !isDigit d) then
        (none, [ch]) :: colorizeLoop fuel rest
      else
        (some jsonStyle.jsonNumberStyle, ch :: rest.takeWhile isNumberChar)
          :: colorizeLoop fuel (rest.dropWhile isNumberChar)
    else if hasKeyword (ch :: rest) (str "true") then
      (some jsonStyle.jsonBoolStyle, str "true") :: colorizeLoop fuel ((ch :: rest).drop 4)
    else if hasKeyword (ch :: rest) (str "false") then
      (some jsonStyle.jsonBoolStyle, str "false") :: colorizeLoop fuel ((ch :: rest).drop 5)
    else if hasKeyword (ch :: rest) (str "null") then
      (some jsonStyle.jsonNullStyle, str "null") :: colorizeLoop fuel ((ch :: rest).drop 4)
    else (none, [ch]) :: colorizeLoop fuel rest

/-! ## `internal/ui`: messages, commands and the libraries -/

/-- Go `type loadValueMsg struct`. -/
structure loadValueMsg where
  key : GoString
  value : GoString
  err : Option String
deriving DecidableEq, Repr

/-- Go `type deleteResultMsg struct`. -/
structure deleteResultMsg where
  key : GoString
  err : Option String
deriving DecidableEq, Repr

/-- Go `type saveResultMsg struct`. -/
structure saveResultMsg where
  key : GoString
  err : Option String
deriving DecidableEq, Repr

/-- Go `type loadKeysMsg struct`. -/
structure loadKeysMsg where
  keys : List GoString
  lastKey : GoString
  hasMore : Bool
  startAfter : GoString
  err : Option String
deriving DecidableEq, Repr

/-- Go `type filterCountMsg struct`. -/
structure filterCountMsg where
  term : GoString
  count : Int
  err : Option String
deriving DecidableEq, Repr

/-- A `tea.Msg`: a key press (given by its `String()`), a window size, one of the messages
of types.go, or any other message (numbered). -/
inductive Msg where
  | KeyMsg (s : String)
  | WindowSizeMsg (Width Height : Int)
  | loadKeysMsg (msg : loadKeysMsg)
  | filterCountMsg (msg : filterCountMsg)
  | groupCountsMsg (msg : groupCountsMsg)
  | loadValueMsg (msg : loadValueMsg)
  | deleteResultMsg (msg : deleteResultMsg)
  | deletePatternResultMsg (msg : deletePatternResultMsg)
  | saveResultMsg (msg : saveResultMsg)
  | other (tag : Nat)
deriving DecidableEq, Repr

/-- A `tea.Cmd`: one of the commands of commands.go on the store of the model, `tea.Quit`,
or a command that a widget returned (numbered). `tea.Batch` of commands is the list of
them, without the nil ones. -/
inductive Cmd where
  | loadValueCmd (key : GoString)
  | loadKeysCmd (startAfter : GoString) (limit : Int)
  | countFilterCmd (term : GoString)
  | loadGroupCountsCmd
  | saveValueCmd (key value : GoString)
  | deleteKeyCmd (key : GoString)
  | deletePatternCmd (pattern : GoString)
  | Quit
  | widget (tag : Nat)
deriving DecidableEq, Repr

/-- What the code reads from the list widget. -/
structure ListView where
  items : List GoString
  filtered : List GoString
  index : Nat
  filterState : FilterState
  filterValue : GoString
deriving DecidableEq, Repr

/-- What `Update` takes from the libraries bubbles and lipgloss and from `encoding/hex`.
The widget methods depend on widget state that the model does not hold (cursor, scroll
offset, size, focus), so they may differ from one call of `Update` to the next. A widget
returns its commands by number (`Cmd.widget`). -/
structure Lib where
  /-- Go `list.Model.Update(msg)`. -/
  listUpdate : ListView → Msg → ListView × List Nat
  /-- What `list.Model.SetItems` does after it has stored the items, and its command. -/
  listSetItems : ListView → ListView × List Nat
  /-- What `list.Model.RemoveItem` does after it has removed the item from the items. -/
  listRemoveItem : ListView → Int → ListView
  /-- Go `list.Model.SetSize(width, height)`. -/
  listSetSize : ListView → Int → Int → ListView
  /-- Go `textinput.Model.Update(msg)`, on the text of the prompt. -/
  inputUpdate : GoString → Msg → GoString × List Nat
  /-- Go `textarea.Model.Update(msg)`, on the text of the editor. -/
  editorUpdate : GoString → Msg → GoString × List Nat
  /-- The command of `textarea.Model.Focus()`. -/
  editorFocus : List Nat
  /-- The command of `viewport.Model.Update(msg)`. -/
  viewportUpdate : String → Msg → List Nat
  /-- The expression `int(float64(innerWidth) * 0.38)`. -/
  leftShare : Int → Int
  /-- Go `paneStyle.GetHorizontalFrameSize()`. -/
  paneH : Int
  /-- Go `paneStyle.GetVerticalFrameSize()`. -/
  paneV : Int
  /-- Go `hex.Dump`. -/
  hexDump : GoString → String
  /-- The renderers of the JSON styles. -/
  render : jsonStyle → String → String
  /-- The renderer `jsonErrorStyle.Render`. -/
  jsonErrorStyle : String → String

/-- Go `colorizeJSON(s)`. -/
def colorizeJSON (lib : Lib) (s : GoString) : String :=
  if s.length = 0 then ""
  else
    String.join ((colorizeLoop s.length s).map (fun p =>
      match p.1 with
      | none => goText p.2
      | some style => lib.render style (goText p.2)))

/-- Go `(Model).formatValue(_, v)`. -/
def formatValue (env : Env) (lib : Lib) (m : Model) (v : GoString) : String :=
  match m.valFormat with
  | .fmtText =>
    if utf8Valid v then goText v
    else "Warning: invalid UTF-8. Base64:\n" ++ goText (base64EncodeToString v)
  | .fmtHex => lib.hexDump v
  | .fmtBase64 => goText (base64EncodeToString v)
  | .fmtJSON =>
    if !utf8Valid v then
      "Warning: invalid UTF-8; cannot be JSON. Base64:\n" ++ goText (base64EncodeToString v)
    else
      match env.jsonReindent v with
      | .error e => lib.jsonErrorStyle ("Warning: invalid JSON: " ++ e) ++ "\n\n" ++ colorizeJSON lib v
      | .ok pretty => colorizeJSON lib pretty

/-! ## `internal/ui/layout.go` -/

/-- Go `type layout struct`. -/
structure layout where
  innerWidth : Int
  innerHeight : Int
  bodyHeight : Int
  leftWidth : Int
  rightWidth : Int
  listWidth : Int
  listHeight : Int
  rightContentWidth : Int
  rightContentHeight : Int
deriving DecidableEq, Repr

/-- Go `clamp(v, min, max)`. -/
def clamp (v min max : Int) : Int :=
  if v < min then min else if v > max then max else v

/-- Go `computeLayout(width, height)`; the constants are `appPadX = 2`, `appPadY = 1`,
`headerHeight = footerHeight = panelGap = panelHeaderLines = 1`. -/
def computeLayout (lib : Lib) (width height : Int) : layout :=
  let innerWidth := width - 2 * 2
  let innerHeight := height - 1 * 2
  let innerWidth := if innerWidth < 10 then 10 else innerWidth
  let innerHeight := if innerHeight < 6 then 6 else innerHeight
  let bodyHeight := innerHeight - 1 - 1
  let bodyHeight := if bodyHeight < 3 then 3 else bodyHeight
  let minLeft : Int := 24
  let minRight : Int := 20
  let leftWidth := lib.leftShare innerWidth
  let leftWidth :=
    if innerWidth < minLeft + minRight + 1 then
      (if Int.tdiv innerWidth 2 < 10 then 10 else Int.tdiv innerWidth 2)
    else clamp leftWidth minLeft (innerWidth - minRight - 1)
  let rightWidth := innerWidth - leftWidth - 1
  let leftWidth :=
    if rightWidth < minRight then
      (if innerWidth - minRight - 1 < 10 then 10 else innerWidth - minRight - 1)
    else leftWidth
  let rightWidth := if rightWidth < minRight then minRight else rightWidth
  let listHeight := bodyHeight - lib.paneV - 1
  let listHeight := if listHeight < 1 then 1 else listHeight
  let listWidth := leftWidth - lib.paneH
  let listWidth := if listWidth < 10 then 10 else listWidth
  let rightContentHeight := bodyHeight - lib.paneV - 1
  let rightContentHeight := if rightContentHeight < 1 then 1 else rightContentHeight
  let rightContentWidth := rightWidth - lib.paneH
  let rightContentWidth := if rightContentWidth < 10 then 10 else rightContentWidth
  { innerWidth := innerWidth, innerHeight := innerHeight, bodyHeight := bodyHeight,
    leftWidth := leftWidth, rightWidth := rightWidth, listWidth := listWidth,
    listHeight := listHeight, rightContentWidth := rightContentWidth,
    rightContentHeight := rightContentHeight }

/-- Go `(*Model).updateEditorLayout(lay)`; the size of the text area is not held. -/
def updateEditorLayout (m : Model) (lay : layout) : Model :=
  { m with editorHeight := if lay.rightContentHeight < 1 then 1 else lay.rightContentHeight }

/-! ## `internal/ui/model.go` -/

/-- Go `defaultPageSize`. -/
def defaultPageSize : Int :=
  500

/-- Go `NewModel(store, dbPath)`. -/
def NewModel (dbPath : String) : Model where
  list := []
  viewport := ""
  status := "↑/↓: list · Enter: load & focus value · Esc/Shift+←: back · t/h/b/j: format · /: filter · e: edit · d/Delete: delete · p: delete pattern · g: groups · F1: about · q: exit"
  valFormat := .fmtJSON
  selected := []
  editing := false
  editor := []
  editKey := []
  editorHelp := ""
  lastLoadValue := []
  listFiltered := []
  listIndex := 0
  listFilterState := .Unfiltered
  listFilterValue := []
  ready := false
  dbPath := dbPath
  focusRight := false
  width := 0
  height := 0
  editorHeight := 0
  pageSize := defaultPageSize
  lastKey := []
  hasMoreKeys := true
  loadingKeys := true
  filterTerm := []
  filterCount := 0
  filterCountValid := false
  filterCountLoading := false
  filterCountErr := ""
  loadingAllForFilter := false
  groupCounts := []
  groupCountsLoading := false
  groupCountsErr := ""
  showGroupCounts := false
  showAbout := false
  confirmDelete := false
  pendingDelete := []
  patternDelete := false
  patternInput := []
  confirmPatternDelete := false
  pendingPattern := []

/-- Go `(Model).Init()`. -/
def Init (m : Model) : List Cmd :=
  [.loadKeysCmd [] m.pageSize]

/-- The list widget of the model. -/
def listView (m : Model) : ListView :=
  { items := m.list, filtered := m.listFiltered, index := m.listIndex,
    filterState := m.listFilterState, filterValue := m.listFilterValue }

/-- The model with the list widget `v`. -/
def withListView (m : Model) (v : ListView) : Model :=
  { m with list := v.items, listFiltered := v.filtered, listIndex := v.index,
           listFilterState := v.filterState, listFilterValue := v.filterValue }

/-- Go `list.Model.SettingFilter()`. -/
def SettingFilter (m : Model) : Bool :=
  decide (m.listFilterState = .Filtering)

/-- Go `list.Model.IsFiltered()`. -/
def IsFiltered (m : Model) : Bool :=
  decide (m.listFilterState = .FilterApplied)

/-- Go `list.Model.VisibleItems()`, by key. -/
def VisibleItems (m : Model) : List GoString :=
  if m.listFilterState = .Unfiltered then m.list else m.listFiltered

/-- Go `m.list.SelectedItem().(kvItem)`: the key of the item under the cursor, if there is
one. -/
def SelectedItem (m : Model) : Option GoString :=
  (VisibleItems m)[m.listIndex]?

/-- Go `m.list.SetItems(items)`, with its command. -/
def SetItems (lib : Lib) (m : Model) (items : List GoString) : Model × List Cmd :=
  let r := lib.listSetItems { listView m with items := items }
  (withListView m { r.1 with items := items }, r.2.map Cmd.widget)

/-- Go `m.list.RemoveItem(idx)` for an index in range. -/
def RemoveItem (lib : Lib) (m : Model) (idx : Nat) : Model :=
  let r := lib.listRemoveItem { listView m with items := m.list.eraseIdx idx } idx
  withListView m { r with items := m.list.eraseIdx idx }

/-- Go `(Model).maybeLoadMore()`. -/
def maybeLoadMore (m : Model) : Model × List Cmd :=
  if !m.hasMoreKeys || m.loadingKeys then (m, [])
  else if IsFiltered m || SettingFilter m || decide (m.listFilterState ≠ .Unfiltered) then (m, [])
  else if m.list.length = 0 then (m, [])
  else if (m.listIndex : Int) ≥ (m.list.length : Int) - 1 - 5 then
    ({ m with loadingKeys := true }, [.loadKeysCmd m.lastKey m.pageSize])
  else (m, [])

/-- The first two exits of `maybeStartFilterWork`: the filter bookkeeping is cleared. -/
def clearFilterWork (m : Model) : Model :=
  { m with filterCountLoading := false, filterCountErr := "", filterTerm := [],
           filterCount := 0, filterCountValid := false, loadingAllForFilter := false }

/-- Go `(Model).maybeStartFilterWork()`. -/
def maybeStartFilterWork (m : Model) : Model × List Cmd :=
  if m.listFilterState = .Unfiltered then (clearFilterWork m, [])
  else
    let term := trimSpace m.listFilterValue
    if term = [] then (clearFilterWork m, [])
    else
      let r1 : Model × List Cmd :=
        if m.listFilterState = .FilterApplied then
          if term = m.filterTerm ∧ m.filterCountValid = true ∧ m.filterCountLoading = false then
            (m, [])
          else if m.filterCountLoading = false ∨ term ≠ m.filterTerm then
            ({ m with filterTerm := term, filterCountLoading := true, filterCountErr := "",
                      filterCountValid := false }, [.countFilterCmd term])
          else (m, [])
        else (m, [])
      let m1 := { r1.1 with loadingAllForFilter := true }
      if m1.hasMoreKeys = true ∧ m1.loadingKeys = false then
        ({ m1 with loadingKeys := true }, r1.2 ++ [.loadKeysCmd m1.lastKey m1.pageSize])
      else (m1, r1.2)

/-- Go `(Model).toggleGroupCounts()`. -/
def toggleGroupCounts (m : Model) : Model × List Cmd :=
  let m := { m with showGroupCounts := !m.showGroupCounts }
  if !m.showGroupCounts then (m, [])
  else if m.groupCountsLoading then (m, [])
  else ({ m with groupCountsLoading := true, groupCountsErr := "" }, [.loadGroupCountsCmd])

/-- Go `(Model).reloadSelected()`. -/
def reloadSelected (m : Model) : Model × List Cmd :=
  if m.selected = [] then
    match SelectedItem m with
    | some key => ({ m with selected := key, editKey := [] }, [.loadValueCmd key])
    | none => (m, [])
  else ({ m with editKey := [] }, [.loadValueCmd m.selected])

/-- The statements that the cases `p` of `Update` share. -/
def startPatternDelete (m : Model) : Model :=
  { m with patternDelete := true, patternInput := [],
           status := "Pattern delete mode. (Enter confirm · Esc cancel)" }

/-- The delete confirmation of the case `tea.KeyMsg` (`if m.confirmDelete`). -/
def keyConfirmDelete (m : Model) (s : String) : Model × List Cmd :=
  if s = "y" ∨ s = "Y" ∨ s = "enter" then
    ({ m with confirmDelete := false, pendingDelete := [], status := "Deleting..." },
      [.deleteKeyCmd m.pendingDelete])
  else if s = "n" ∨ s = "N" ∨ s = "esc" then
    ({ m with confirmDelete := false, pendingDelete := [], status := "Delete canceled." }, [])
  else (m, [])

/-- The pattern delete confirmation of the case `tea.KeyMsg`
(`if m.confirmPatternDelete`). -/
def keyConfirmPatternDelete (m : Model) (s : String) : Model × List Cmd :=
  if s = "y" ∨ s = "Y" ∨ s = "enter" then
    ({ m with confirmPatternDelete := false, pendingPattern := [],
              status := "Deleting by pattern..." },
      [.deletePatternCmd m.pendingPattern])
  else if s = "n" ∨ s = "N" ∨ s = "esc" then
    ({ m with confirmPatternDelete := false, pendingPattern := [],
              status := "Pattern delete canceled." }, [])
  else (m, [])

/-- The edit mode of the case `tea.KeyMsg` (`if m.editing`). -/
def keyEditing (env : Env) (lib : Lib) (m : Model) (s : String) : Model × List Cmd :=
  if s = "esc" then
    (updateEditorLayout
      { m with editing := false, editKey := [], focusRight := true, status := "Edit canceled." }
      (computeLayout lib m.width m.height), [])
  else if s = "ctrl+s" then
    match bytesFromEditor env m with
    | .error e => ({ m with status := env.errStyle ("Error: save failed: " ++ e) }, [])
    | .ok bytes => ({ m with status := "Saving..." }, [.saveValueCmd m.editKey bytes])
  else
    ({ m with editor := (lib.editorUpdate m.editor (.KeyMsg s)).1 },
      ((lib.editorUpdate m.editor (.KeyMsg s)).2).map Cmd.widget)

/-- The pattern prompt of the case `tea.KeyMsg` (`if m.patternDelete`). -/
def keyPatternDelete (env : Env) (lib : Lib) (m : Model) (s : String) : Model × List Cmd :=
  if s = "esc" then
    ({ m with patternDelete := false, status := "Pattern delete canceled." }, [])
  else if s = "enter" then
    if trimSpace m.patternInput = [] then
      ({ m with patternDelete := false, status := "Pattern delete canceled." }, [])
    else
      match matchPattern env (trimSpace m.patternInput) [] with
      | .error e => ({ m with status := env.errStyle ("Error: invalid pattern: " ++ e) }, [])
      | .ok _ =>
        ({ m with patternDelete := false, confirmPatternDelete := true,
                  pendingPattern := trimSpace m.patternInput,
                  status := "Delete pattern '" ++ goText (trimSpace m.patternInput) ++
                    "'? (y/n)" }, [])
  else
    ({ m with patternInput := (lib.inputUpdate m.patternInput (.KeyMsg s)).1 },
      ((lib.inputUpdate m.patternInput (.KeyMsg s)).2).map Cmd.widget)

/-- The case `tea.KeyMsg` while the filter of the list is being typed
(`if m.list.SettingFilter()`). -/
def keySettingFilter (lib : Lib) (m : Model) (s : String) : Model × List Cmd :=
  ((maybeStartFilterWork (withListView m (lib.listUpdate (listView m) (.KeyMsg s)).1)).1,
    (lib.listUpdate (listView m) (.KeyMsg s)).2.map Cmd.widget ++
      (maybeStartFilterWork (withListView m (lib.listUpdate (listView m) (.KeyMsg s)).1)).2)

/-- The case `tea.KeyMsg` with the value pane focused (`if m.focusRight && !m.editing`). -/
def keyFocusRight (lib : Lib) (m : Model) (s : String) : Model × List Cmd :=
  if s = "esc" ∨ s = "shift+left" then
    ({ m with focusRight := false, status := "List focused." }, [])
  else if s = "p" then (startPatternDelete m, [])
  else if s = "t" then reloadSelected { m with valFormat := .fmtText }
  else if s = "h" then reloadSelected { m with valFormat := .fmtHex }
  else if s = "b" then reloadSelected { m with valFormat := .fmtBase64 }
  else if s = "j" then reloadSelected { m with valFormat := .fmtJSON }
  else if s = "e" ∧ m.selected ≠ [] then
    ({ m with editKey := m.selected, status := "Loading..." }, [.loadValueCmd m.selected])
  else if s = "g" ∨ s = "G" ∨ s = "ctrl+g" then toggleGroupCounts m
  else (m, (lib.viewportUpdate m.viewport (.KeyMsg s)).map Cmd.widget)

/-- The normal mode of the case `tea.KeyMsg`; `none` when the switch ends without
`return`. -/
def keyNormal (m : Model) (s : String) : Option (Model × List Cmd) :=
  if s = "ctrl+c" ∨ s = "q" ∨ s = "esc" then some (m, [.Quit])
  else if s = "t" then some (reloadSelected { m with valFormat := .fmtText })
  else if s = "h" then some (reloadSelected { m with valFormat := .fmtHex })
  else if s = "b" then some (reloadSelected { m with valFormat := .fmtBase64 })
  else if s = "j" then some (reloadSelected { m with valFormat := .fmtJSON })
  else if s = "enter" then
    match SelectedItem m with
    | some key =>
      some ({ m with selected := key, editKey := [], focusRight := true }, [.loadValueCmd key])
    | none => none
  else if s = "d" ∨ s = "delete" then
    match SelectedItem m with
    | some key =>
      some ({ m with confirmDelete := true, pendingDelete := key,
                     status := "Delete '" ++ goText key ++ "'? (y/n)" }, [])
    | none => some (m, [])
  else if s = "p" then some (startPatternDelete m, [])
  else if s = "e" then
    match SelectedItem m with
    | some key =>
      some ({ m with selected := key, editKey := key, focusRight := true,
                     status := "Loading..." }, [.loadValueCmd key])
    | none => none
  else if s = "g" ∨ s = "G" ∨ s = "ctrl+g" then some (toggleGroupCounts m)
  else none

/-- The case `tea.KeyMsg` of Go `(Model).Update` for the key whose `String()` is `s`;
`none` when the case ends without `return`, and `Update` goes on after the switch. -/
def updateKeyMsg (env : Env) (lib : Lib) (m : Model) (s : String) :
    Option (Model × List Cmd) :=
  if s = "f1" then some ({ m with showAbout := !m.showAbout }, [])
  else if m.showAbout then
    some (if s = "esc" then { m with showAbout := false } else m, [])
  else if m.confirmDelete then some (keyConfirmDelete m s)
  else if m.confirmPatternDelete then some (keyConfirmPatternDelete m s)
  else if m.editing then some (keyEditing env lib m s)
  else if m.patternDelete then some (keyPatternDelete env lib m s)
  else if SettingFilter m then some (keySettingFilter lib m s)
  else if m.focusRight && !m.editing then some (keyFocusRight lib m s)
  else keyNormal m s

/-- The case `tea.WindowSizeMsg` of Go `(Model).Update`. The new viewport has no content;
the model that `maybeLoadMore` returns is dropped. -/
def updateWindowSizeMsg (lib : Lib) (m : Model) (Width Height : Int) : Model × List Cmd :=
  let m := { m with ready := true, width := Width, height := Height }
  let lay := computeLayout lib Width Height
  let m := withListView m (lib.listSetSize (listView m) lay.listWidth lay.listHeight)
  let m := { m with viewport := "" }
  let m := updateEditorLayout m lay
  let moreCmd := (maybeLoadMore m).2
  let f := maybeStartFilterWork m
  (f.1, moreCmd ++ f.2)

/-- The case `loadKeysMsg` of Go `(Model).Update`. The model that `maybeLoadMore` returns is
dropped. -/
def updateLoadKeysMsg (env : Env) (lib : Lib) (m : Model) (msg : loadKeysMsg) :
    Model × List Cmd :=
  let m := { m with loadingKeys := false }
  match msg.err with
  | some e =>
    ({ m with status := env.errStyle ("Error: failed to load keys: " ++ e),
              hasMoreKeys := false }, [])
  | none =>
    if msg.keys.length = 0 then ({ m with hasMoreKeys := msg.hasMore }, [])
    else
      let r := SetItems lib m (m.list ++ msg.keys)
      let m := { r.1 with lastKey := msg.lastKey, hasMoreKeys := msg.hasMore }
      let moreCmd := (maybeLoadMore m).2
      let f := maybeStartFilterWork m
      (f.1, r.2 ++ moreCmd ++ f.2)

/-- The case `filterCountMsg` of Go `(Model).Update`. -/
def updateFilterCountMsg (m : Model) (msg : filterCountMsg) : Model × List Cmd :=
  if msg.term ≠ trimSpace m.listFilterValue then (m, [])
  else
    let m := { m with filterCountLoading := false }
    match msg.err with
    | some e => ({ m with filterCountErr := e, filterCountValid := false }, [])
    | none =>
      ({ m with filterCountErr := "", filterCount := msg.count, filterCountValid := true }, [])

/-- The case `groupCountsMsg` of Go `(Model).Update`. -/
def updateGroupCountsMsg (m : Model) (msg : groupCountsMsg) : Model × List Cmd :=
  let m := { m with groupCountsLoading := false }
  match msg.err with
  | some e => ({ m with groupCountsErr := e }, [])
  | none => ({ m with groupCountsErr := "", groupCounts := msg.counts }, [])

/-- The case `loadValueMsg` of Go `(Model).Update`. -/
def updateLoadValueMsg (env : Env) (lib : Lib) (m : Model) (msg : loadValueMsg) :
    Model × List Cmd :=
  if msg.key ≠ m.selected ∧ m.editKey ≠ msg.key then (m, [])
  else
    match msg.err with
    | some e =>
      ({ (if m.editKey = msg.key then { m with editKey := [] } else m) with
          viewport := "Error: " ++ e }, [])
    | none =>
      let m := { m with lastLoadValue := msg.value }
      if m.editKey = msg.key ∧ m.editing = false then
        (updateEditorLayout (startEditWithContent env m msg.key msg.value)
          (computeLayout lib m.width m.height), lib.editorFocus.map Cmd.widget)
      else ({ m with viewport := formatValue env lib m msg.value }, [])

/-- The case `deleteResultMsg` of Go `(Model).Update`. -/
def updateDeleteResultMsg (env : Env) (lib : Lib) (m : Model) (msg : deleteResultMsg) :
    Model × List Cmd :=
  match msg.err with
  | some e => ({ m with status := "Error: delete failed: " ++ e }, [])
  | none =>
    let m := if m.listIndex < m.list.length then RemoveItem lib m m.listIndex else m
    ({ m with selected := [], viewport := "",
              status := env.okStyle ("'" ++ goText msg.key ++ "' deleted.") }, [])

/-- The case `saveResultMsg` of Go `(Model).Update`. -/
def updateSaveResultMsg (env : Env) (lib : Lib) (m : Model) (msg : saveResultMsg) :
    Model × List Cmd :=
  match msg.err with
  | some e => ({ m with status := env.errStyle ("Error: save failed: " ++ e) }, [])
  | none =>
    (updateEditorLayout
      { m with editing := false, editKey := [], focusRight := true,
               status := env.okStyle ("'" ++ goText msg.key ++ "' updated.") }
      (computeLayout lib m.width m.height), [.loadValueCmd msg.key])

/-- The statements of Go `(Model).Update` after the switch: the list widget gets the
message, and a change of the item under the cursor loads its value. -/
def updateList (lib : Lib) (m : Model) (msg : Msg) : Model × List Cmd :=
  let prevKey : GoString :=
    if !m.focusRight && !m.editing && !SettingFilter m then (SelectedItem m).getD [] else []
  let r := lib.listUpdate (listView m) msg
  let more := maybeLoadMore (withListView m r.1)
  let f := maybeStartFilterWork more.1
  if !f.1.focusRight && !f.1.editing && !SettingFilter f.1 then
    match SelectedItem f.1 with
    | some key =>
      if key ≠ [] ∧ key ≠ prevKey then
        ({ f.1 with selected := key, editKey := [] },
          r.2.map Cmd.widget ++ more.2 ++ f.2 ++ [.loadValueCmd key])
      else (f.1, r.2.map Cmd.widget ++ more.2 ++ f.2)
    | none => (f.1, r.2.map Cmd.widget ++ more.2 ++ f.2)
  else (f.1, r.2.map Cmd.widget ++ more.2 ++ f.2)

/-- Go `(Model).Update(msg)`: the new model and the commands it issues. -/
def Update (env : Env) (lib : Lib) (m : Model) (msg : Msg) : Model × List Cmd :=
  match msg with
  | .KeyMsg s =>
    match updateKeyMsg env lib m s with
    | some r => r
    | none => updateList lib m msg
  | .WindowSizeMsg Width Height => updateWindowSizeMsg lib m Width Height
  | .loadKeysMsg msg => updateLoadKeysMsg env lib m msg
  | .filterCountMsg msg => updateFilterCountMsg m msg
  | .groupCountsMsg msg => updateGroupCountsMsg m msg
  | .loadValueMsg msg => updateLoadValueMsg env lib m msg
  | .deleteResultMsg msg => updateDeleteResultMsg env lib m msg
  | .deletePatternResultMsg msg =>
    if msg.err.isSome || decide (msg.keys.length = 0) then
      (updateDeletePatternResultMsg env m msg, [])
    else
      SetItems lib (updateDeletePatternResultMsg env m msg)
        (updateDeletePatternResultMsg env m msg).list
  | .saveResultMsg msg => updateSaveResultMsg env lib m msg
  | .other _ => updateList lib m msg

/-- The pattern held for confirmation does not make `matchPattern` fail on any key. -/
def patternSafe (env : Env) (m : Model) : Prop :=
  m.confirmPatternDelete = true →
    ∀ key : GoString, ∃ ok : Bool, matchPattern env m.pendingPattern key = .ok ok

/-- The two models hold the same pattern for confirmation, in the same state. -/
def samePattern (m1 m : Model) : Prop :=
  m1.confirmPatternDelete = m.confirmPatternDelete ∧ m1.pendingPattern = m.pendingPattern

/-- What a call of `Update` on the model `m` may do to the pattern held for confirmation,
`r` being its result: drop it, leave it, or hold a pattern that passed the check on the empty
key; and the only pattern it hands to `deletePatternCmd` is the one `m` holds. -/
def patternStep (env : Env) (m : Model) (r : Model × List Cmd) : Prop :=
  (r.1.confirmPatternDelete = false ∨ samePattern r.1 m ∨
      ∃ ok : Bool, matchPattern env r.1.pendingPattern [] = .ok ok) ∧
    ∀ p, Cmd.deletePatternCmd p ∈ r.2 → m.confirmPatternDelete = true ∧ p = m.pendingPattern

/-! ## Runs of the program -/

/-- The model after the messages `msgs`, each handled by `Update` with the libraries as they
behave at that moment, starting from `NewModel`. -/
def runUpdates (env : Env) (dbPath : String) (msgs : List (Lib × Msg)) : Model :=
  msgs.foldl (fun m e => (Update env e.1 m e.2).1) (NewModel dbPath)

/-- The program with its store: the model, the store, and the commands that were issued and
have not delivered their message yet. -/
structure World where
  model : Model
  store : Store
  tasks : List Cmd
deriving DecidableEq, Repr

/-- What happens to the program: a key press, a change of the window size, or the end of
the `i`-th outstanding command, whose message is delivered. -/
inductive Event where
  | key (s : String)
  | resize (Width Height : Int)
  | complete (i : Nat)
deriving DecidableEq, Repr

/-- The closure of a command of commands.go, run on the store: its message and the store
it leaves. `none` for the commands that read or write values, which the store model does
not hold, for `tea.Quit` and for the commands of the widgets. -/
def runCmd (env : Env) (fuel : Nat) (store : Store) : Cmd → Option (Msg × Store)
  | .loadKeysCmd startAfter limit =>
    let r := ListKeysPage store startAfter limit
    some (.loadKeysMsg { keys := r.1.keys, lastKey := r.1.lastKey, hasMore := r.1.hasMore,
                         startAfter := startAfter, err := r.1.err }, r.2)
  | .deleteKeyCmd key => some (.deleteResultMsg { key := key, err := (Delete store key).1 },
      (Delete store key).2)
  | .deletePatternCmd pattern =>
    (deletePatternCmd env fuel store pattern).map (fun r => (.deletePatternResultMsg r.1, r.2))
  | .loadGroupCountsCmd =>
    some (.groupCountsMsg (loadGroupCountsCmd (GroupKeyCounts store).1.1
      (GroupKeyCounts store).1.2), (GroupKeyCounts store).2)
  | _ => none

/-- The program handles a message: `Update` gives the new model, and the commands it returns
are outstanding from then on. -/
def deliver (env : Env) (lib : Lib) (w : World) (msg : Msg) : World :=
  { w with model := (Update env lib w.model msg).1,
           tasks := w.tasks ++ (Update env lib w.model msg).2 }

/-- One event. -/
def step (env : Env) (lib : Lib) (fuel : Nat) (w : World) : Event → Option World
  | .key s => some (deliver env lib w (.KeyMsg s))
  | .resize Width Height => some (deliver env lib w (.WindowSizeMsg Width Height))
  | .complete i =>
    match w.tasks[i]? with
    | none => none
    | some c =>
      match runCmd env fuel w.store c with
      | none => none
      | some r => some (deliver env lib { w with store := r.2, tasks := w.tasks.eraseIdx i } r.1)

/-- The program at its start on a store: `NewModel`, and the command of `Init`
outstanding. -/
def start (store : Store) : World :=
  { model := NewModel "", store := store, tasks := Init (NewModel "") }

/-- The program after a sequence of events. -/
def run (env : Env) (lib : Lib) (fuel : Nat) : World → List Event → Option World
  | w, [] => some w
  | w, e :: rest =>
    match step env lib fuel w e with
    | none => none
    | some w1 => run env lib fuel w1 rest

/-- Whether a command is a page fetch. -/
def isLoadKeysCmd : Cmd → Bool
  | .loadKeysCmd _ _ => true
  | _ => false

/-- Libraries for examples: the list keeps its cursor at the top and sets no filter, a
printable key is appended to the text of the prompt, and no widget returns a command. -/
def sampleLib : Lib where
  listUpdate := fun v _ => (v, [])
  listSetItems := fun v => (v, [])
  listRemoveItem := fun v _ => v
  listSetSize := fun v _ _ => v
  inputUpdate := fun text msg =>
    match msg with
    | .KeyMsg s => (if s.length = 1 then text ++ str s else text, [])
    | _ => (text, [])
  editorUpdate := fun text _ => (text, [])
  editorFocus := []
  viewportUpdate := fun _ _ => []
  leftShare := fun w => w * 38 / 100
  paneH := 4
  paneV := 2
  hexDump := fun v => goText (hexEncodeToString v)
  render := fun _ s => s
  jsonErrorStyle := fun s => s

/-- The environment of the examples with Go `path.Match` as the matcher. -/
def goEnv : Env :=
  { sampleEnv with pathMatch := pathMatch }

/-- The decimal digits of `n`, three of them. -/
def digits3 (n : Nat) : GoString :=
  [Fin.ofNat (48 + n / 100), Fin.ofNat (48 + n / 10 % 10), Fin.ofNat (48 + n % 10)]

/-- The keys `a000` to `a494`. -/
def sampleKeysA : List GoString :=
  (List.range 495).map (fun i => (97 : Byte) :: digits3 i)

/-- The keys `b000` to `b004`. -/
def sampleKeysB : List GoString :=
  [str "b000", str "b001", str "b002", str "b003", str "b004"]

/-- The keys of a store for examples, 501 of them in order: `a000` to `a494`, then `b000`
to `b005`. -/
def sampleKeys : List GoString :=
  sampleKeysA ++ sampleKeysB ++ [str "b005"]

/-- The model browses the unfiltered list `items` with the cursor on its first item, no
value focused, more keys to fetch after `last` and no fetch marked as in flight; `pd`,
`pin`, `cpd` and `pp` are the state of the pattern prompt and of its confirmation. -/
def browsing (m : Model) (pd : Bool) (pin : GoString) (cpd : Bool) (pp : GoString)
    (items : List GoString) (last : GoString) : Prop :=
  m.showAbout = false ∧ m.confirmDelete = false ∧ m.editing = false ∧ m.focusRight = false ∧
    m.listFilterState = .Unfiltered ∧ m.listIndex = 0 ∧ m.hasMoreKeys = true ∧
    m.loadingKeys = false ∧ m.pageSize = 500 ∧ m.selected = [] ∧ m.patternDelete = pd ∧
    m.patternInput = pin ∧ m.confirmPatternDelete = cpd ∧ m.pendingPattern = pp ∧
    m.list = items ∧ m.lastKey = last

/-- The program browses as `browsing` says, on a store without failures that holds the keys
`ks`, with the commands `tasks` outstanding. -/
def worldAt (w : World) (pd : Bool) (pin : GoString) (cpd : Bool) (pp : GoString)
    (items : List GoString) (last : GoString) (ks : List GoString) (tasks : List Cmd) : Prop :=
  browsing w.model pd pin cpd pp items last ∧ w.store = ⟨ks, []⟩ ∧ w.tasks = tasks

/-- The events of the example: the first page arrives, the pattern `a*` is typed into the
prompt and confirmed, the sweep ends, and the window is resized. -/
def sampleEvents : List Event :=
  [.complete 0, .key "p", .key "a", .key "*", .key "enter", .key "y", .complete 0,
    .resize 120 40]

/-! ## `internal/ui/json_editor.go`: the window of visible rows -/

/-- The value of a Go `int` expression: the result is reduced to the 64-bit range. -/
def goInt (x : Int) : Int :=
  (x + 9223372036854775808) % 18446744073709551616 - 9223372036854775808

/-- The statements of `renderJSONEditor` that place the window of visible rows, from
`visibleHeight := m.editorHeight` to `end = start`: `n` is `len(visualLines)`, the result
is `(start, end)`. -/
def scrollWindow (cursorVisRow editorHeight n : Int) : Int × Int :=
  let visibleHeight := if editorHeight < 1 then 1 else editorHeight
  let scroll : Int := 0
  let scroll :=
    if cursorVisRow ≥ visibleHeight then goInt (goInt (cursorVisRow - visibleHeight) + 1)
    else scroll
  let scroll := if scroll < 0 then 0 else scroll
  let scroll :=
    if n > 0 ∧ scroll > goInt (n - visibleHeight) then max 0 (goInt (n - visibleHeight))
    else scroll
  let start := scroll
  let end1 := min (goInt (start + visibleHeight)) n
  let end2 := if end1 < start then start else end1
  (start, end2)

/-! ## Runs of `Update` from any model -/

/-- The model after the messages `msgs`, each handled by `Update` with the libraries as
they behave at that moment, starting from `m`. -/
def runFrom (env : Env) (m : Model) (msgs : List (Lib × Msg)) : Model :=
  msgs.foldl (fun m e => (Update env e.1 m e.2).1) m

/-- The commands that `Update` issues while it handles the messages `msgs` starting from
`m`, in order. -/
def issued (env : Env) : Model → List (Lib × Msg) → List Cmd
  | _, [] => []
  | m, e :: rest => (Update env e.1 m e.2).2 ++ issued env (Update env e.1 m e.2).1 rest

/-- The key press `s` reaches the edit mode of `Update` (`if m.editing`, model.go 107-130):
it is not `f1`, no overlay or confirmation is open, and the model is editing. -/
def reachesEditMode (m : Model) (s : String) : Bool :=
  decide (s ≠ "f1") && !m.showAbout && !m.confirmDelete && !m.confirmPatternDelete && m.editing

/-- Every key press of the sequence reaches the edit mode of `Update`, in the model that the
key presses before it leave. -/
def editorKeyEvents (env : Env) : Model → List (Lib × String) → Bool
  | _, [] => true
  | m, k :: rest =>
    reachesEditMode m k.2 && editorKeyEvents env (Update env k.1 m (.KeyMsg k.2)).1 rest

/-- The key presses as messages. -/
def keyMsgs (keys : List (Lib × String)) : List (Lib × Msg) :=
  keys.map (fun k => (k.1, Msg.KeyMsg k.2))

/-- Whether a command operates on the store. -/
def isStoreCmd : Cmd → Bool
  | .widget _ => false
  | .Quit => false
  | _ => true

/-! ## Libraries for examples with a moving cursor and a filter -/

/-- Libraries for examples as `sampleLib`, with a list that moves its cursor: `down` moves
it to the next visible item, `up` to the one before. -/
def cursorLib : Lib :=
  { sampleLib with
    listUpdate := fun v msg =>
      match msg with
      | .KeyMsg s =>
        if s = "down" then
          ({ v with index := if v.index + 1 < v.items.length then v.index + 1 else v.index }, [])
        else if s = "up" then ({ v with index := v.index - 1 }, [])
        else (v, [])
      | _ => (v, []) }

/-- Libraries for examples as `sampleLib`, with a list that filters: `/` opens the filter
input, a printable key is appended to the filter text while the input is open, `enter`
applies the filter, and the visible items are those that start with the filter text. -/
def filterLib : Lib :=
  { sampleLib with
    listUpdate := fun v msg =>
      match msg with
      | .KeyMsg s =>
        if v.filterState = .Filtering then
          if s = "enter" then
            ({ v with filterState := .FilterApplied,
                      filtered := v.items.filter (fun k => v.filterValue.isPrefixOf k),
                      index := 0 }, [])
          else if s.length = 1 then ({ v with filterValue := v.filterValue ++ str s }, [])
          else (v, [])
        else if s = "/" then ({ v with filterState := .Filtering, filterValue := [] }, [])
        else (v, [])
      | _ => (v, []) }

/-- Whether a command is the match-count scan `countFilterCmd`. -/
def isCountFilterCmd : Cmd → Bool
  | .countFilterCmd _ => true
  | _ => false

/-- The filter of the list is applied and its trimmed text is `T`. -/
def filterApplied (T : GoString) (m : Model) : Bool :=
  decide (m.listFilterState = .FilterApplied) && decide (trimSpace m.listFilterValue = T)

/-- After every message of the sequence, handled in turn from `m`, the filter of the list
is applied with the trimmed text `T`. -/
def termHeld (env : Env) (T : GoString) : Model → List (Lib × Msg) → Bool
  | _, [] => true
  | m, e :: rest =>
    filterApplied T (Update env e.1 m e.2).1 && termHeld env T (Update env e.1 m e.2).1 rest

/-- Whether the message is the result of a match-count scan that failed. -/
def isCountFailure : Msg → Bool
  | .filterCountMsg msg => msg.err.isSome
  | _ => false

/-- The match count for the term `T` is known or being computed. -/
def countSettled (T : GoString) (m : Model) : Prop :=
  T = [] ∨ (m.filterTerm = T ∧ (m.filterCountLoading = true ∨ m.filterCountValid = true))

/-- The two models agree on the bookkeeping of the match count. -/
def sameCount (m1 m : Model) : Prop :=
  m1.filterTerm = m.filterTerm ∧ m1.filterCountLoading = m.filterCountLoading ∧
    m1.filterCountValid = m.filterCountValid

/-- The two models agree on the filter of the list. -/
def sameFilter (m1 m : Model) : Prop :=
  m1.listFilterState = m.listFilterState ∧ m1.listFilterValue = m.listFilterValue

/-- What a call of `Update` on the model `m` does about the match count when it leaves the
filter applied with the text `T`, `r` being its result: it issues no scan if the count is
settled and keeps it settled, and otherwise it issues at most one scan, after which the
count is settled. -/
def countStep (T : GoString) (m : Model) (r : Model × List Cmd) : Prop :=
  filterApplied T r.1 = true →
    (countSettled T m → r.2.countP isCountFilterCmd = 0 ∧ countSettled T r.1) ∧
    (r.2.countP isCountFilterCmd = 0 ∨
      (r.2.countP isCountFilterCmd = 1 ∧ countSettled T r.1))

/-! ## `internal/ui/json_editor.go`: the cursor in a colorized row -/

/-- Go `cursorStartMarker`, the byte `\x01`. -/
def cursorStartMarker : Byte := 1

/-- Go `cursorEndMarker`, the byte `\x02`. -/
def cursorEndMarker : Byte := 2

/-- The string `marked` of `colorizeJSONWithCursor`: the row with the two markers around the
rune under the cursor, a space being appended when the cursor is at the end. -/
def markCursor (raw : GoString) (cursorIdx : Int) : GoString :=
  let runes := runesOf raw
  let cursorIdx := if cursorIdx < 0 then 0 else cursorIdx
  let cursorIdx := if cursorIdx > runes.length then (runes.length : Int) else cursorIdx
  let runes := if runes.length = 0 ∨ cursorIdx = runes.length then runes ++ [32] else runes
  let cursorIdx := if cursorIdx ≥ runes.length then (runes.length : Int) - 1 else cursorIdx
  encodeRunes (runes.take cursorIdx.toNat) ++ [cursorStartMarker] ++
    encodeRune (runes.getD cursorIdx.toNat 0) ++ [cursorEndMarker] ++
    encodeRunes (runes.drop (cursorIdx.toNat + 1))

/-- Go `applyCursorMarker(s)`; the text is held byte by byte, one character per byte. -/
def applyCursorMarker (s : String) : String :=
  let cs := s.toList
  let before := cs.takeWhile (fun c => c ≠ Char.ofNat 1)
  if before.length = cs.length then s
  else
    let rest := cs.drop (before.length + 1)
    let mid := rest.takeWhile (fun c => c ≠ Char.ofNat 2)
    if mid.length = rest.length then
      String.mk (cs.filter (fun c => c ≠ Char.ofNat 1 ∧ c ≠ Char.ofNat 2))
    else
      String.mk before ++ "\x1b[4m" ++ String.mk mid ++ "\x1b[24m" ++
        String.mk (rest.drop (mid.length + 1))

/-- Go `colorizeJSONWithCursor(raw, cursorIdx)`. -/
def colorizeJSONWithCursor (lib : Lib) (raw : GoString) (cursorIdx : Int) : String :=
  applyCursorMarker (colorizeJSON lib (markCursor raw cursorIdx))

/-! ## `internal/ui/format.go`: the position of a JSON error -/

/-- The errors of `encoding/json` that `jsonErrorInfo` tells apart: `*json.SyntaxError` and
`*json.UnmarshalTypeError` with the text of their `Error()` and their `Offset`, and any
other error with its text. -/
inductive jsonParseError where
  | SyntaxError (text : String) (Offset : Int)
  | UnmarshalTypeError (text : String) (Offset : Int)
  | other (text : String)
deriving DecidableEq, Repr

/-- Go `err.Error()`. -/
def jsonParseError.Error : jsonParseError → String
  | .SyntaxError text _ => text
  | .UnmarshalTypeError text _ => text
  | .other text => text

/-- The loop of `offsetToLineCol`, on `s[i:]`. -/
def offsetLoop (offset : Int) : GoString → Int → Int → Int → Int × Int
  | [], _, line, col => (line, col)
  | c :: rest, i, line, col =>
    if i + 1 < offset then
      if c = 10 then offsetLoop offset rest (i + 1) (line + 1) 1
      else offsetLoop offset rest (i + 1) line (col + 1)
    else (line, col)

/-- Go `offsetToLineCol(s, offset)`. -/
def offsetToLineCol (s : GoString) (offset : Int) : Int × Int :=
  if offset < 1 then (1, 1)
  else offsetLoop (if offset > s.length then (s.length : Int) else offset) s 0 1 1

/-- Go `jsonErrorInfo(err, content)`. -/
def jsonErrorInfo (err : jsonParseError) (content : GoString) : String :=
  match err with
  | .SyntaxError text Offset =>
    "JSON error at " ++ toString (offsetToLineCol content Offset).1 ++ ":" ++
      toString (offsetToLineCol content Offset).2 ++ ": " ++ text
  | .UnmarshalTypeError text Offset =>
    "JSON type error at " ++ toString (offsetToLineCol content Offset).1 ++ ":" ++
      toString (offsetToLineCol content Offset).2 ++ ": " ++ text
  | .other text => text

/-- The error of `encoding/json` for the two-line text `\x7b`, `  x\x7d`: the fifth byte is no
object key. -/
def sampleSyntaxError : jsonParseError :=
  .SyntaxError "invalid character 'x' looking for beginning of object key string" 5

/-- The environment of the examples with a JSON parser that fails with
`sampleSyntaxError`. -/
def failingJSONEnv : Env :=
  { sampleEnv with jsonReindent := fun _ => .error sampleSyntaxError.Error }

/-! ## Display widths for examples -/

/-- A width of runes for examples: two cells from `U+1100` on, one cell below. -/
def wideRuneWidth (r : Rune) : Int :=
  if 0x1100 ≤ r then 2 else 1

/-- A width of strings for examples: the sum of the widths of the runes. -/
def wideStringWidth (l : List Rune) : Int :=
  (l.map wideRuneWidth).sum

/-! ## The position of a byte offset, in the words of the specification -/

/-- The line and column that the specification gives to the byte that comes after the bytes
`before`: the line is 1 plus the number of newline bytes among them, the column is 1 plus
the number of bytes that follow the last of these newlines. -/
def lineColSpec (before : GoString) : Int × Int :=
  (1 + (before.count 10 : Nat), 1 + ((before.reverse.takeWhile (fun b => b ≠ 10)).length : Nat))

/-! ## The content of a wrapped line, in the words of the specification -/

/-- The line with each whitespace character replaced by a single space. -/
def withSingleSpaces (runes : List Rune) : List Rune :=
  runes.map (fun r => if isSpaceRune r then 32 else r)

/-! ## String tokens of `colorizeJSON`, in the words of the specification -/

/-- The first byte of `after` that is not a space, tab, newline or carriage return is a
colon. -/
def followedByColonSpec (after : GoString) : Bool :=
  (after.dropWhile (fun b => decide (b = 32 ∨ b = 9 ∨ b = 10 ∨ b = 13))).head? = some 58

/-- What a string literal is made of before its closing quote: a byte that is neither a
backslash nor a quote, or a backslash with the byte it consumes. -/
def escapeUnit (u : GoString) : Prop :=
  (∃ c : Byte, u = [c] ∧ c ≠ 92 ∧ c ≠ 34) ∨ ∃ d : Byte, u = [92, d]

/-- The bytes `body` after an opening quote run to the first quote that is not consumed by
a backslash escape, or to the end of the input (`after`, what follows, is then empty; a
last backslash may have nothing to consume). -/
def stringTokenSpec (body after : GoString) : Prop :=
  ∃ units : List GoString, (∀ u ∈ units, escapeUnit u) ∧
    (body = units.flatten ++ [34] ∨
      (after = [] ∧ (body = units.flatten ∨ body = units.flatten ++ [92])))

/-- The style that the specification gives to the piece `p` of the scan, `after` being the
input that follows it: a piece that starts with a quote is a string token as
`stringTokenSpec` says, in the key style when a colon follows and in the string style
otherwise; no other piece has one of these two styles. -/
def stringStyleSpec (p : Option jsonStyle × GoString) (after : GoString) : Prop :=
  (p.2.head? = some 34 →
    ∃ body : GoString, p.2 = 34 :: body ∧ stringTokenSpec body after ∧
      p.1 = some (if followedByColonSpec after then jsonStyle.jsonKeyStyle
                  else jsonStyle.jsonStringStyle)) ∧
  ((p.1 = some jsonStyle.jsonKeyStyle ∨ p.1 = some jsonStyle.jsonStringStyle) →
    p.2.head? = some 34)

/-! ## The store calls of a pattern delete -/

/-- The store calls that the sweep of `deletePatternCmd` makes over the keys `post` still to
visit when no call fails, in order: `none` for a page listing, `some k` for the Delete of
the key `k`. `accept` tells the keys that the pattern matches; a page holds `pageSize` keys
and the sweep ends after the page that reaches the last key. The bound on the pages is
never reached when it exceeds the number of keys. -/
def sweepCalls (accept : GoString → Bool) (pageSize : Nat) :
    Nat → List GoString → List (Option GoString)
  | 0, _ => []
  | fuel + 1, post =>
    none :: (((post.take pageSize).filter accept).map some ++
      (if (post.drop pageSize).isEmpty then []
       else sweepCalls accept pageSize fuel (post.drop pageSize)))

/-! # Theorems -/

/-! ## Runes and the text area: proofs -/

theorem byte_ofNat (a : Byte) (x : Nat) (h : x = a.val) : (Fin.ofNat x : Byte) = a := by
  apply Fin.ext
  have := a.isLt
  simp only [Fin.ofNat, h]
  omega

theorem decodeRune_pos (b : Byte) (rest : GoString) : 1 ≤ (decodeRune (b :: rest)).2 := by
  rcases rest with _ | ⟨b1, _ | ⟨b2, _ | ⟨b3, rest⟩⟩⟩ <;> simp only [decodeRune] <;>
    split_ifs <;> simp

theorem encodeRune_one (b0 : Byte) (h : b0.val < 0x80) : encodeRune b0.val = [b0] := by
  unfold encodeRune
  unfold Rune at *
  rw [if_pos h, byte_ofNat b0 _ rfl]

theorem encodeRune_two (b0 b1 : Byte)
    (h : 0xC2 ≤ b0.val ∧ b0.val ≤ 0xDF ∧ 0x80 ≤ b1.val ∧ b1.val ≤ 0xBF) :
    encodeRune (b0.val % 32 * 64 + b1.val % 64) = [b0, b1] := by
  obtain ⟨h1, h2, h3, h4⟩ := h
  unfold encodeRune
  unfold Rune at *
  rw [if_neg (by omega), if_pos (by omega), byte_ofNat b0 _ (by omega),
    byte_ofNat b1 _ (by omega)]

theorem encodeRune_three (b0 b1 b2 : Byte)
    (h : 0xE0 ≤ b0.val ∧ b0.val ≤ 0xEF ∧
      (if b0.val = 0xE0 then 0xA0 else 0x80) ≤ b1.val ∧
      b1.val ≤ (if b0.val = 0xED then 0x9F else 0xBF) ∧ 0x80 ≤ b2.val ∧ b2.val ≤ 0xBF) :
    encodeRune (b0.val % 16 * 4096 + b1.val % 64 * 64 + b2.val % 64) = [b0, b1, b2] := by
  obtain ⟨h1, h2, h3, h4, h5, h6⟩ := h
  unfold encodeRune
  unfold Rune at *
  split_ifs at h3 h4 <;>
    rw [if_neg (by omega), if_neg (by omega), if_neg (by omega), if_pos (by omega),
      byte_ofNat b0 _ (by omega), byte_ofNat b1 _ (by omega), byte_ofNat b2 _ (by omega)]

theorem encodeRune_four (b0 b1 b2 b3 : Byte)
    (h : 0xF0 ≤ b0.val ∧ b0.val ≤ 0xF4 ∧
      (if b0.val = 0xF0 then 0x90 else 0x80) ≤ b1.val ∧
      b1.val ≤ (if b0.val = 0xF4 then 0x8F else 0xBF) ∧ 0x80 ≤ b2.val ∧ b2.val ≤ 0xBF ∧
      0x80 ≤ b3.val ∧ b3.val ≤ 0xBF) :
    encodeRune (b0.val % 8 * 262144 + b1.val % 64 * 4096 + b2.val % 64 * 64 + b3.val % 64)
      = [b0, b1, b2, b3] := by
  obtain ⟨h1, h2, h3, h4, h5, h6, h7, h8⟩ := h
  unfold encodeRune
  unfold Rune at *
  split_ifs at h3 h4 <;>
    rw [if_neg (by omega), if_neg (by omega), if_neg (by omega), if_neg (by omega),
      byte_ofNat b0 _ (by omega), byte_ofNat b1 _ (by omega), byte_ofNat b2 _ (by omega),
      byte_ofNat b3 _ (by omega)]

/-- One step of decoding a well-formed string: the rune decoded encodes to the bytes it was
decoded from, and what follows is well formed. -/
theorem utf8Valid_step (b : Byte) (rest : GoString) (h : utf8Valid (b :: rest) = true) :
    encodeRune (decodeRune (b :: rest)).1 = (b :: rest).take (decodeRune (b :: rest)).2 ∧
    utf8Valid ((b :: rest).drop (decodeRune (b :: rest)).2) = true := by
  rcases rest with _ | ⟨b1, _ | ⟨b2, _ | ⟨b3, rest⟩⟩⟩
  · simp only [utf8Valid, decide_eq_true_eq] at h
    simp only [decodeRune, if_pos h]
    exact ⟨encodeRune_one b h, rfl⟩
  · simp only [utf8Valid] at h
    simp only [decodeRune]
    by_cases c1 : b.val < 0x80
    · rw [if_pos c1] at h ⊢
      exact ⟨encodeRune_one b c1, h⟩
    · rw [if_neg c1] at h ⊢
      have c2 := of_decide_eq_true h
      rw [if_pos c2]
      exact ⟨encodeRune_two b b1 c2, rfl⟩
  · simp only [utf8Valid] at h
    simp only [decodeRune]
    by_cases c1 : b.val < 0x80
    · rw [if_pos c1] at h ⊢
      exact ⟨encodeRune_one b c1, h⟩
    · rw [if_neg c1] at h ⊢
      by_cases c2 : 0xC2 ≤ b.val ∧ b.val ≤ 0xDF ∧ 0x80 ≤ b1.val ∧ b1.val ≤ 0xBF
      · rw [if_pos c2] at h ⊢
        exact ⟨encodeRune_two b b1 c2, h⟩
      · rw [if_neg c2] at h ⊢
        have c3 := of_decide_eq_true h
        rw [if_pos c3]
        exact ⟨encodeRune_three b b1 b2 c3, rfl⟩
  · simp only [utf8Valid] at h
    simp only [decodeRune]
    by_cases c1 : b.val < 0x80
    · rw [if_pos c1] at h ⊢
      exact ⟨encodeRune_one b c1, h⟩
    · rw [if_neg c1] at h ⊢
      by_cases c2 : 0xC2 ≤ b.val ∧ b.val ≤ 0xDF ∧ 0x80 ≤ b1.val ∧ b1.val ≤ 0xBF
      · rw [if_pos c2] at h ⊢
        exact ⟨encodeRune_two b b1 c2, h⟩
      · rw [if_neg c2] at h ⊢
        by_cases c3 : 0xE0 ≤ b.val ∧ b.val ≤ 0xEF ∧
            (if b.val = 0xE0 then 0xA0 else 0x80) ≤ b1.val ∧
            b1.val ≤ (if b.val = 0xED then 0x9F else 0xBF) ∧ 0x80 ≤ b2.val ∧ b2.val ≤ 0xBF
        · rw [if_pos c3] at h ⊢
          exact ⟨encodeRune_three b b1 b2 c3, h⟩
        · rw [if_neg c3] at h ⊢
          by_cases c4 : 0xF0 ≤ b.val ∧ b.val ≤ 0xF4 ∧
              (if b.val = 0xF0 then 0x90 else 0x80) ≤ b1.val ∧
              b1.val ≤ (if b.val = 0xF4 then 0x8F else 0xBF) ∧ 0x80 ≤ b2.val ∧
              b2.val ≤ 0xBF ∧ 0x80 ≤ b3.val ∧ b3.val ≤ 0xBF
          · rw [if_pos c4] at h ⊢
            exact ⟨encodeRune_four b b1 b2 b3 c4, h⟩
          · rw [if_neg c4] at h
            cases h

theorem encodeRunes_cons (r : Rune) (l : List Rune) :
    encodeRunes (r :: l) = encodeRune r ++ encodeRunes l := rfl

theorem encodeRunes_append (l1 l2 : List Rune) :
    encodeRunes (l1 ++ l2) = encodeRunes l1 ++ encodeRunes l2 := by
  unfold encodeRunes
  exact List.flatMap_append _ _ _

theorem encodeRunes_runesLoop :
    ∀ (fuel : Nat) (s : GoString), s.length ≤ fuel → utf8Valid s = true →
      encodeRunes (runesLoop fuel s) = s := by
  intro fuel
  induction fuel with
  | zero =>
    intro s hl _
    have : s = [] := List.length_eq_zero.mp (Nat.le_zero.mp hl)
    subst this
    rfl
  | succ fuel ih =>
    intro s hl hv
    cases s with
    | nil => rfl
    | cons b rest =>
      obtain ⟨h1, h2⟩ := utf8Valid_step b rest hv
      have hpos := decodeRune_pos b rest
      unfold runesLoop
      rw [encodeRunes_cons, h1, ih _ (by rw [List.length_drop]; simp only [List.length_cons] at hl ⊢; omega) h2,
        List.take_append_drop]

/-- Go `string([]rune(s)) == s` for a well-formed string `s`. -/
theorem encodeRunes_runesOf (s : GoString) (h : utf8Valid s = true) :
    encodeRunes (runesOf s) = s :=
  encodeRunes_runesLoop s.length s (Nat.le_refl _) h

theorem Sanitize_single (r : Rune) :
    Sanitize [r] = [r] ↔
      r ≠ 0xFFFD ∧ r ≠ 13 ∧ r ≠ 9 ∧ (r = 10 ∨ IsControl r = false) := by
  unfold Sanitize
  by_cases c1 : r = 0xFFFD
  · simp [c1, Sanitize]
  · by_cases c2 : r = 13
    · simp [c2, Sanitize]
    · by_cases c3 : r = 10
      · simp [c3, Sanitize]
      · by_cases c4 : r = 9
        · simp [c4, Sanitize]
        · cases c5 : IsControl r <;> simp [c1, c2, c3, c4, c5, Sanitize]

theorem Sanitize_cons_kept (r : Rune) (rest : List Rune) (h : Sanitize [r] = [r]) :
    Sanitize (r :: rest) = r :: Sanitize rest := by
  obtain ⟨h1, h2, h3, h4⟩ := (Sanitize_single r).mp h
  by_cases c3 : r = 10
  · subst c3
    simp [Sanitize]
  · have h5 : IsControl r = false := h4.resolve_left c3
    simp [Sanitize, h1, h2, h3, c3, h5]

theorem Sanitize_kept : ∀ rs : List Rune, (∀ r ∈ rs, Sanitize [r] = [r]) → Sanitize rs = rs
  | [], _ => rfl
  | r :: rest, h => by
    rw [Sanitize_cons_kept r rest (h r (List.mem_cons_self _ _)),
      Sanitize_kept rest (fun x hx => h x (List.mem_cons_of_mem _ hx))]

theorem splitLinesLoop_ne_nil : ∀ (rs cur : List Rune), splitLinesLoop cur rs ≠ []
  | [], cur => by simp [splitLinesLoop]
  | r :: rest, cur => by
    unfold splitLinesLoop
    by_cases c : r = 10
    · rw [if_pos c]; exact List.cons_ne_nil _ _
    · rw [if_neg c]; exact splitLinesLoop_ne_nil rest _

theorem flatMap_splitLinesLoop : ∀ (rs cur : List Rune),
    (splitLinesLoop cur rs).flatMap (fun l => encodeRunes l ++ [10]) =
      encodeRunes cur ++ encodeRunes rs ++ [10]
  | [], cur => by simp [splitLinesLoop, encodeRunes]
  | r :: rest, cur => by
    unfold splitLinesLoop
    by_cases c : r = 10
    · rw [if_pos c, List.flatMap_cons, flatMap_splitLinesLoop rest [], encodeRunes_cons, c]
      have h10 : encodeRune 10 = [10] := by decide
      rw [h10]
      simp [encodeRunes]
    · rw [if_neg c, flatMap_splitLinesLoop rest (cur ++ [r]), encodeRunes_append,
        encodeRunes_cons r rest]
      simp [encodeRunes]

theorem textareaValue_splitLinesLoop (rs : List Rune) :
    textareaValue (splitLinesLoop [] rs) = encodeRunes rs := by
  unfold textareaValue
  simp only [flatMap_splitLinesLoop]
  have h0 : encodeRunes [] = [] := rfl
  rw [h0, List.nil_append, List.getLast?_append, List.getLast?_singleton]
  simp

/-- The text area stores unchanged a well-formed text whose runes the sanitizer keeps and
whose lines are within the line limit. -/
theorem editorSetValue_stable (maxLines : Nat) (s : GoString)
    (hv : utf8Valid s = true)
    (hkept : ∀ r ∈ runesOf s, Sanitize [r] = [r])
    (hlines : maxLines = 0 ∨ (splitLinesLoop [] (runesOf s)).length ≤ maxLines) :
    editorSetValue maxLines s = s := by
  unfold editorSetValue insertRunesFromUserInput
  rw [Sanitize_kept _ hkept]
  have hne := splitLinesLoop_ne_nil (runesOf s) []
  have hlen : (splitLinesLoop [] (runesOf s)).length ≠ 0 :=
    fun h0 => hne (List.length_eq_zero.mp h0)
  have hlim : ¬ (0 < maxLines ∧ maxLines < 1 + (splitLinesLoop [] (runesOf s)).length - 1) := by
    omega
  simp only [if_neg hlim, if_neg hlen]
  rw [textareaValue_splitLinesLoop, encodeRunes_runesOf s hv]

theorem decodeRune_ascii (b : Byte) (rest : GoString) (h : b.val < 0x80) :
    decodeRune (b :: rest) = (b.val, 1) := by
  rcases rest with _ | ⟨b1, _ | ⟨b2, _ | ⟨b3, rest⟩⟩⟩ <;> simp only [decodeRune, if_pos h]

theorem utf8Valid_ascii : ∀ s : GoString, (∀ b ∈ s, b.val < 0x80) → utf8Valid s = true
  | [], _ => rfl
  | b :: rest, h => by
    have hb : b.val < 0x80 := h b (List.mem_cons_self _ _)
    have ih := utf8Valid_ascii rest (fun x hx => h x (List.mem_cons_of_mem _ hx))
    rcases rest with _ | ⟨b1, _ | ⟨b2, _ | ⟨b3, rest⟩⟩⟩
    · simp only [utf8Valid, hb, decide_True]
    · simp only [utf8Valid, if_pos hb]; exact ih
    · simp only [utf8Valid, if_pos hb]; exact ih
    · simp only [utf8Valid, if_pos hb]; exact ih

theorem runesLoop_ascii : ∀ (fuel : Nat) (s : GoString), s.length ≤ fuel →
    (∀ b ∈ s, b.val < 0x80) → runesLoop fuel s = s.map (fun b => b.val) := by
  intro fuel
  induction fuel with
  | zero =>
    intro s hl _
    have : s = [] := List.length_eq_zero.mp (Nat.le_zero.mp hl)
    subst this
    rfl
  | succ fuel ih =>
    intro s hl h
    cases s with
    | nil => rfl
    | cons b rest =>
      have hb : b.val < 0x80 := h b (List.mem_cons_self _ _)
      unfold runesLoop
      rw [decodeRune_ascii b rest hb]
      simp only [List.drop_succ_cons, List.drop_zero, List.map_cons]
      rw [ih rest (by simp only [List.length_cons] at hl; omega)
        (fun x hx => h x (List.mem_cons_of_mem _ hx))]

theorem splitLinesLoop_one_line : ∀ (rs cur : List Rune), (∀ r ∈ rs, r ≠ 10) →
    splitLinesLoop cur rs = [cur ++ rs]
  | [], cur, _ => by simp [splitLinesLoop]
  | r :: rest, cur, h => by
    unfold splitLinesLoop
    rw [if_neg (h r (List.mem_cons_self _ _)),
      splitLinesLoop_one_line rest _ (fun x hx => h x (List.mem_cons_of_mem _ hx))]
    simp

/-- The text area stores a line of printable ASCII characters unchanged. -/
theorem editorSetValue_printable (maxLines : Nat) (s : GoString)
    (h : ∀ b ∈ s, 0x20 ≤ b.val ∧ b.val < 0x7F) : editorSetValue maxLines s = s := by
  have hascii : ∀ b ∈ s, b.val < 0x80 := fun b hb => by have := h b hb; omega
  have hrunes : runesOf s = s.map (fun b => b.val) :=
    runesLoop_ascii s.length s (Nat.le_refl _) hascii
  have hr : ∀ r ∈ runesOf s, 0x20 ≤ r ∧ r < 0x7F := by
    intro r hr
    rw [hrunes, List.mem_map] at hr
    obtain ⟨b, hb, rfl⟩ := hr
    exact h b hb
  apply editorSetValue_stable maxLines s (utf8Valid_ascii s hascii)
  · intro r hmem
    have h2 := hr r hmem
    rw [Sanitize_single]
    unfold IsControl
    unfold Rune at *
    refine ⟨by omega, by omega, by omega, Or.inr ?_⟩
    exact decide_eq_false (by omega)
  · have hno : ∀ r ∈ runesOf s, r ≠ 10 := by
      intro r hmem
      have h2 := hr r hmem
      unfold Rune at *
      omega
    rw [splitLinesLoop_one_line (runesOf s) [] hno]
    simp only [List.length_singleton]
    omega

set_option maxRecDepth 100000 in
theorem isLowerHexDigit_printable (c : Byte) (h : isLowerHexDigit c = true) :
    0x20 ≤ c.val ∧ c.val < 0x7F := by
  revert c
  decide

set_option maxRecDepth 100000 in
theorem isB64Byte_printable (c : Byte) (h : isB64Byte c = true) :
    0x20 ≤ c.val ∧ c.val < 0x7F := by
  revert c
  decide

theorem editorSetValue_nil (maxLines : Nat) : editorSetValue maxLines [] = [] := by
  have hlim : ¬ (0 < maxLines ∧ maxLines < 1 + ([[]] : List (List Rune)).length - 1) := by
    simp only [List.length_singleton]
    omega
  have hrunes : runesOf [] = [] := rfl
  unfold editorSetValue insertRunesFromUserInput
  rw [hrunes]
  simp only [Sanitize, splitLinesLoop, if_neg hlim]
  rfl

theorem splitLinesLoop_feeds : ∀ n : Nat,
    splitLinesLoop [] (List.replicate n (10 : Rune)) = List.replicate (n + 1) []
  | 0 => rfl
  | n + 1 => by
    rw [List.replicate_succ, splitLinesLoop, if_pos rfl, splitLinesLoop_feeds n]
    rfl

theorem flatMap_empty_rows : ∀ n : Nat,
    (List.replicate n ([] : List Rune)).flatMap (fun l => encodeRunes l ++ [10]) =
      List.replicate n (10 : Byte)
  | 0 => rfl
  | n + 1 => by
    rw [List.replicate_succ, List.flatMap_cons, flatMap_empty_rows n]
    rfl

/-- The line limit at work: of a text of `maxLines` line feeds, which has one line more than
the limit, the text area keeps the first `maxLines` lines, and the text read back is one
line feed short. -/
theorem editorSetValue_feeds (maxLines : Nat) (h : 0 < maxLines) :
    editorSetValue maxLines (List.replicate maxLines 10) = List.replicate (maxLines - 1) 10 := by
  have hascii : ∀ b ∈ List.replicate maxLines (10 : Byte), b.val < 0x80 := by
    intro b hb
    rw [List.eq_of_mem_replicate hb]
    decide
  have hrunes : runesOf (List.replicate maxLines (10 : Byte)) =
      List.replicate maxLines (10 : Rune) := by
    unfold runesOf
    rw [runesLoop_ascii _ _ (Nat.le_refl _) hascii, List.map_replicate]
    rfl
  have hsan : Sanitize (List.replicate maxLines (10 : Rune)) =
      List.replicate maxLines (10 : Rune) :=
    Sanitize_kept _ (fun r hr => by rw [List.eq_of_mem_replicate hr]; rfl)
  have hlim : 0 < maxLines ∧
      maxLines < 1 + (List.replicate (maxLines + 1) ([] : List Rune)).length - 1 := by
    rw [List.length_replicate]
    omega
  have htake : (List.replicate (maxLines + 1) ([] : List Rune)).take (maxLines - 1 + 1) =
      List.replicate maxLines [] := by
    rw [List.take_replicate]
    congr 1
    omega
  have hlen : ¬ (List.replicate maxLines ([] : List Rune)).length = 0 := by
    rw [List.length_replicate]
    omega
  unfold editorSetValue insertRunesFromUserInput
  rw [hrunes, hsan, splitLinesLoop_feeds]
  simp only [if_pos hlim, htake, if_neg hlen]
  unfold textareaValue
  simp only [flatMap_empty_rows]
  obtain ⟨k, rfl⟩ : ∃ k, maxLines = k + 1 := ⟨maxLines - 1, by omega⟩
  have hlast : (List.replicate (k + 1) (10 : Byte)).getLast? = some 10 := by
    rw [List.getLast?_eq_getLast _ (by simp), List.getLast_replicate]
  rw [if_pos hlast, Nat.add_sub_cancel]
  rw [List.replicate_succ', List.dropLast_concat]

/-! ## Fuzzy matching: proofs -/

theorem foldSubseq_nil (rel : Rune → Rune → Prop) (target : List Rune) :
    FoldSubseq rel [] target :=
  ⟨[], List.nil_sublist _, List.Forall₂.nil⟩

theorem foldSubseq_nil_right (rel : Rune → Rune → Prop) (p : Rune) (q : List Rune) :
    ¬ FoldSubseq rel (p :: q) [] := by
  rintro ⟨sub, hsub, hall⟩
  have hnil : sub = [] := List.sublist_nil.mp hsub
  subst hnil
  cases hall

theorem foldSubseq_tail (rel : Rune → Rune → Prop) (p : Rune) (q target : List Rune)
    (h : FoldSubseq rel (p :: q) target) : FoldSubseq rel q target := by
  obtain ⟨sub, hsub, hall⟩ := h
  cases hall with
  | cons _ htl => exact ⟨_, (List.sublist_cons_self _ _).trans hsub, htl⟩

theorem foldSubseq_cons_cons (rel : Rune → Rune → Prop) (p r : Rune) (q rest : List Rune) :
    FoldSubseq rel (p :: q) (r :: rest) ↔
      (rel r p ∧ FoldSubseq rel q rest) ∨ FoldSubseq rel (p :: q) rest := by
  constructor
  · rintro ⟨sub, hsub, hall⟩
    cases hsub with
    | cons _ h => exact Or.inr ⟨sub, h, hall⟩
    | cons₂ _ h =>
      cases hall with
      | cons hhd htl => exact Or.inl ⟨hhd, _, h, htl⟩
  · rintro (⟨hrel, sub, hsub, hall⟩ | ⟨sub, hsub, hall⟩)
    · exact ⟨r :: sub, hsub.cons₂ r, List.Forall₂.cons hrel hall⟩
    · exact ⟨sub, hsub.cons r, hall⟩

/-- Greedy choice loses nothing: when the head of the target corresponds to the head of the
pattern, matching the rest of the pattern in the rest of the target is enough. -/
theorem foldSubseq_cons_of_rel (rel : Rune → Rune → Prop) (p r : Rune) (q rest : List Rune)
    (hrel : rel r p) : FoldSubseq rel (p :: q) (r :: rest) ↔ FoldSubseq rel q rest := by
  rw [foldSubseq_cons_cons]
  constructor
  · rintro (⟨_, h⟩ | h)
    · exact h
    · exact foldSubseq_tail rel p q rest h
  · intro h
    exact Or.inl ⟨hrel, h⟩

theorem foldSubseq_cons_of_not_rel (rel : Rune → Rune → Prop) (p r : Rune)
    (q rest : List Rune) (hrel : ¬ rel r p) :
    FoldSubseq rel (p :: q) (r :: rest) ↔ FoldSubseq rel (p :: q) rest := by
  rw [foldSubseq_cons_cons]
  constructor
  · rintro (⟨h, _⟩ | h)
    · exact absurd h hrel
    · exact h
  · intro h
    exact Or.inr h

theorem fuzzyMatchLoop_spec (simpleFold : Rune → Rune) (fuel : Nat) (pattern : List Rune) :
    ∀ (target : List Rune) (pi : Nat), pi < pattern.length →
      (∀ t ∈ target, ∀ p ∈ pattern, (equalFold simpleFold fuel t p).isSome = true) →
      ∃ b, fuzzyMatchLoop simpleFold fuel pattern target pi = some b ∧
        (b = true ↔ FoldSubseq (fun t p => equalFold simpleFold fuel t p = some true)
          (pattern.drop pi) target) := by
  intro target
  induction target with
  | nil =>
    intro pi hpi _
    refine ⟨false, rfl, ?_⟩
    rw [List.drop_eq_getElem_cons hpi]
    constructor
    · intro h; cases h
    · intro h; exact absurd h (foldSubseq_nil_right _ _ _)
  | cons r rest ih =>
    intro pi hpi hsome
    have hrest : ∀ t ∈ rest, ∀ p ∈ pattern,
        (equalFold simpleFold fuel t p).isSome = true :=
      fun t ht p hp => hsome t (List.mem_cons_of_mem _ ht) p hp
    have hget : pattern[pi]? = some pattern[pi] := List.getElem?_eq_getElem hpi
    have hdrop := List.drop_eq_getElem_cons hpi
    have hp : (equalFold simpleFold fuel r pattern[pi]).isSome = true :=
      hsome r (List.mem_cons_self _ _) _ (List.getElem_mem hpi)
    rw [hdrop]
    unfold fuzzyMatchLoop
    rw [hget]
    cases hef : equalFold simpleFold fuel r pattern[pi] with
    | none => rw [hef] at hp; cases hp
    | some v =>
      cases v with
      | true =>
        have hrel : (fun t p => equalFold simpleFold fuel t p = some true) r pattern[pi] := hef
        by_cases hlast : pi + 1 = pattern.length
        · refine ⟨true, by simp [hef, hlast], ?_⟩
          have hnil : pattern.drop (pi + 1) = [] := by
            rw [hlast]; exact List.drop_length _
          rw [hnil, foldSubseq_cons_of_rel _ _ _ _ _ hrel]
          simp [foldSubseq_nil]
        · obtain ⟨b, hb, hiff⟩ := ih (pi + 1) (by omega) hrest
          refine ⟨b, by simp [hef, hlast, hb], ?_⟩
          rw [foldSubseq_cons_of_rel _ _ _ _ _ hrel]
          exact hiff
      | false =>
        have hrel : ¬ (fun t p => equalFold simpleFold fuel t p = some true) r pattern[pi] := by
          simp [hef]
        obtain ⟨b, hb, hiff⟩ := ih pi hpi hrest
        refine ⟨b, by simp [hef, hb], ?_⟩
        rw [foldSubseq_cons_of_not_rel _ _ _ _ _ hrel, ← hdrop]
        exact hiff

/-- C1: whenever `equalFold` returns on the rune pairs involved, `fuzzyMatch` returns, and it
returns `true` exactly when the pattern's runes occur in order as a (not necessarily
contiguous) subsequence of the target's runes, two runes corresponding when `equalFold`
holds for them; the empty pattern matches every target. -/
theorem fuzzyMatch_iff_subsequence (simpleFold : Rune → Rune) (fuel : Nat)
    (pattern target : List Rune)
    (hfold : ∀ t ∈ target, ∀ p ∈ pattern, (equalFold simpleFold fuel t p).isSome = true) :
    (∃ b, fuzzyMatch simpleFold fuel pattern target = some b ∧
      (b = true ↔ FoldSubseq (fun t p => equalFold simpleFold fuel t p = some true)
        pattern target)) ∧
    fuzzyMatch simpleFold fuel [] target = some true := by
  refine ⟨?_, rfl⟩
  unfold fuzzyMatch
  by_cases hlen : pattern.length = 0
  · have hnil : pattern = [] := List.length_eq_zero.mp hlen
    subst hnil
    exact ⟨true, rfl, by simp [foldSubseq_nil]⟩
  · rw [if_neg hlen]
    have h := fuzzyMatchLoop_spec simpleFold fuel pattern target 0 (by omega) hfold
    simpa using h

/-- C1 at a concrete input: pattern `Ka`, target `b`, Kelvin sign, `x`, `A`. -/
theorem fuzzyMatch_iff_subsequence_witness :
    (∀ t ∈ [98, 0x212A, 120, 65], ∀ p ∈ [75, 97],
        (equalFold sampleFold 8 t p).isSome = true) ∧
    ((∃ b, fuzzyMatch sampleFold 8 [75, 97] [98, 0x212A, 120, 65] = some b ∧
      (b = true ↔ FoldSubseq (fun t p => equalFold sampleFold 8 t p = some true)
        [75, 97] [98, 0x212A, 120, 65])) ∧
    fuzzyMatch sampleFold 8 [] [98, 0x212A, 120, 65] = some true) :=
  ⟨by decide, fuzzyMatch_iff_subsequence sampleFold 8 [75, 97] [98, 0x212A, 120, 65]
    (by decide)⟩


/-! ## Key listing: proofs -/

theorem listKeysLoop_eq (limit : Int) (n : Nat) (it : List GoString) :
    ∀ (keys : List GoString) (lastKey : GoString),
      0 < n → (keys.length : Int) + n = limit →
      listKeysLoop limit it keys lastKey =
        (keys ++ it.take n, ((it.take n).getLast?).getD lastKey, !(it.drop n).isEmpty) := by
  induction it generalizing n with
  | nil => intro keys lastKey _ _; simp [listKeysLoop]
  | cons key rest ih =>
    intro keys lastKey hn hlim
    unfold listKeysLoop
    by_cases hfull : ((keys ++ [key]).length : Int) ≥ limit
    · have h1 : n = 1 := by
        simp only [List.length_append, List.length_singleton, Nat.cast_add, Nat.cast_one] at hfull
        omega
      subst h1
      rw [if_pos hfull]
      simp
    · rw [if_neg hfull]
      have hlen : ((keys ++ [key]).length : Int) = keys.length + 1 := by simp
      obtain ⟨m, rfl⟩ : ∃ m, n = m + 1 := ⟨n - 1, by omega⟩
      have hm : 0 < m := by
        rw [hlen] at hfull
        push_cast at hlim
        omega
      rw [ih m (keys ++ [key]) key hm (by rw [hlen]; push_cast at hlim ⊢; omega)]
      simp [List.getLast?_cons]

theorem seek_cons (k after : GoString) (rest : List GoString) :
    seek (k :: rest) after = if k < after then seek rest after else k :: rest := by
  unfold seek
  by_cases h : k < after <;> simp [List.dropWhile, h]

theorem filter_gt_of_sorted_cons (k after : GoString) (rest : List GoString)
    (hs : (k :: rest).Sorted (· < ·)) (hk : after ≤ k) :
    rest.filter (fun x => decide (after < x)) = rest := by
  apply List.filter_eq_self.mpr
  intro x hx
  have hkx : k < x := List.rel_of_sorted_cons hs x hx
  exact decide_eq_true (lt_of_le_of_lt hk hkx)

theorem seek_skip_eq_filter (startAfter : GoString) :
    ∀ ks : List GoString, ks.Sorted (· < ·) →
      (match seek ks startAfter with
        | [] => []
        | key :: rest => if key = startAfter then rest else key :: rest)
        = ks.filter (fun k => decide (startAfter < k)) := by
  intro ks
  induction ks with
  | nil => intro _; simp [seek]
  | cons k rest ih =>
    intro hs
    rw [seek_cons]
    by_cases hlt : k < startAfter
    · rw [if_pos hlt, ih hs.of_cons]
      have : ¬ startAfter < k := not_lt.mpr (le_of_lt hlt)
      simp [List.filter_cons, this]
    · rw [if_neg hlt]
      have hge : startAfter ≤ k := not_lt.mp hlt
      have hrest := filter_gt_of_sorted_cons k startAfter rest hs hge
      by_cases heq : k = startAfter
      · subst heq
        simp [List.filter_cons, hrest]
      · have hgt : startAfter < k := lt_of_le_of_ne hge (Ne.symm heq)
        simp [List.filter_cons, hgt, heq, hrest]

theorem listKeysView_eq (ks : List GoString) (startAfter : GoString) (limit : Int)
    (hs : ks.Sorted (· < ·)) (hl : 1 ≤ limit) :
    listKeysView ks startAfter limit =
      ((keysAfter ks startAfter).take limit.toNat,
        (((keysAfter ks startAfter).take limit.toNat).getLast?).getD [],
        !((keysAfter ks startAfter).drop limit.toNat).isEmpty) := by
  have hit : (if startAfter = [] then ks
      else
        match seek ks startAfter with
        | [] => []
        | key :: rest => if key = startAfter then rest else key :: rest)
      = keysAfter ks startAfter := by
    unfold keysAfter
    by_cases h : startAfter = []
    · simp [h]
    · rw [if_neg h, if_neg h, seek_skip_eq_filter startAfter ks hs]
  unfold listKeysView
  simp only [hit]
  rw [listKeysLoop_eq limit limit.toNat (keysAfter ks startAfter) [] [] (by omega)
    (by simp; omega)]
  simp

theorem keysAfter_sorted (ks : List GoString) (startAfter : GoString)
    (hs : ks.Sorted (· < ·)) : (keysAfter ks startAfter).Sorted (· < ·) := by
  unfold keysAfter
  split
  · exact hs
  · exact hs.filter _

theorem keysAfter_subset (ks : List GoString) (startAfter x : GoString)
    (hx : x ∈ keysAfter ks startAfter) : x ∈ ks := by
  unfold keysAfter at hx
  split at hx
  · exact hx
  · exact (List.mem_filter.mp hx).1

theorem mem_keysAfter_of_lt (ks : List GoString) (startAfter a x : GoString)
    (ha : a ∈ keysAfter ks startAfter) (hx : x ∈ ks) (hax : a < x) :
    x ∈ keysAfter ks startAfter := by
  unfold keysAfter at ha ⊢
  split
  · exact hx
  · rename_i hne
    rw [if_neg hne] at ha
    have h1 : startAfter < a := of_decide_eq_true (List.mem_filter.mp ha).2
    exact List.mem_filter.mpr ⟨hx, decide_eq_true (lt_trans h1 hax)⟩

/-- In a strictly increasing list no element exceeds the last one. -/
theorem le_getLast_of_sorted (l : List GoString) (hs : l.Sorted (· < ·)) (last x : GoString)
    (hlast : l.getLast? = some last) (hx : x ∈ l) : x ≤ last := by
  induction l generalizing last with
  | nil => cases hx
  | cons a t ih =>
    rw [List.getLast?_cons] at hlast
    cases ht : t.getLast? with
    | none =>
      have htnil : t = [] := List.getLast?_eq_none_iff.mp ht
      subst htnil
      simp at hlast hx
      rw [hx, hlast]
    | some b =>
      rw [ht] at hlast
      simp at hlast
      subst hlast
      rcases List.mem_cons.mp hx with h | h
      · rw [h]
        exact le_of_lt (List.rel_of_sorted_cons hs b (List.mem_of_mem_getLast? ht))
      · exact ih hs.of_cons b ht h

theorem ListKeysPage_eq (ks : List GoString) (startAfter : GoString) (limit : Int)
    (hs : ks.Sorted (· < ·)) (hl : 1 ≤ limit) :
    ListKeysPage ⟨ks, []⟩ startAfter limit =
      ({ keys := (keysAfter ks startAfter).take limit.toNat,
         lastKey := (((keysAfter ks startAfter).take limit.toNat).getLast?).getD [],
         hasMore := !((keysAfter ks startAfter).drop limit.toNat).isEmpty,
         err := none }, ⟨ks, []⟩) := by
  unfold ListKeysPage
  rw [if_neg (by omega)]
  simp only [Store.nextOutcome]
  rw [listKeysView_eq ks startAfter limit hs hl]

theorem hasMore_iff (ks : List GoString) (startAfter : GoString) (n : Nat)
    (hs : ks.Sorted (· < ·)) (hn : 0 < n) :
    (!((keysAfter ks startAfter).drop n).isEmpty) = true ↔
      ∃ last, ((keysAfter ks startAfter).take n).getLast? = some last ∧
        ∃ k ∈ ks, last < k := by
  have hcs := keysAfter_sorted ks startAfter hs
  have hsplit := List.take_append_drop n (keysAfter ks startAfter)
  constructor
  · intro h
    have hne : (keysAfter ks startAfter).drop n ≠ [] := by
      intro h0
      rw [h0] at h
      simp at h
    obtain ⟨x, hx⟩ := List.exists_mem_of_ne_nil _ hne
    have htake : (keysAfter ks startAfter).take n ≠ [] := by
      intro h0
      have hc : keysAfter ks startAfter ≠ [] := by
        intro hc0
        rw [hc0] at hne
        simp at hne
      cases hc' : keysAfter ks startAfter with
      | nil => exact hc hc'
      | cons a t =>
        obtain ⟨m, rfl⟩ : ∃ m, n = m + 1 := ⟨n - 1, by omega⟩
        rw [hc'] at h0
        simp at h0
    refine ⟨((keysAfter ks startAfter).take n).getLast htake,
      List.getLast?_eq_getLast _ htake, x, ?_, ?_⟩
    · exact keysAfter_subset ks startAfter x (List.mem_of_mem_drop hx)
    · rw [← hsplit] at hcs
      exact (List.pairwise_append.mp hcs).2.2 _ (List.getLast_mem htake) x hx
  · rintro ⟨last, hlast, k, hk, hlt⟩
    by_contra hcon
    have hdrop : (keysAfter ks startAfter).drop n = [] := by
      cases hd : (keysAfter ks startAfter).drop n with
      | nil => rfl
      | cons a t => rw [hd] at hcon; simp at hcon
    have hall : (keysAfter ks startAfter).take n = keysAfter ks startAfter := by
      rw [hdrop, List.append_nil] at hsplit
      exact hsplit
    rw [hall] at hlast
    have hmem : last ∈ keysAfter ks startAfter := List.mem_of_mem_getLast? hlast
    have hkc := mem_keysAfter_of_lt ks startAfter last k hmem hk hlt
    have hle := le_getLast_of_sorted _ hcs last k hlast hkc
    exact absurd hlt (not_lt.mpr hle)

/-- C3: on a keyspace in store order and for `limit ≥ 1`, `ListKeysPage(startAfter, limit)`
succeeds, leaves the store as it was, and returns the first `min(limit, m)` of the `m` keys
strictly greater than `startAfter` (all keys when `startAfter` is empty), in store order;
`lastKey` is the last returned key, or empty when no key is returned; `hasMore` is true
exactly when some key of the store is greater than the last returned key. -/
theorem ListKeysPage_page (ks : List GoString) (startAfter : GoString) (limit : Int)
    (hs : ks.Sorted (· < ·)) (hl : 1 ≤ limit) :
    (ListKeysPage ⟨ks, []⟩ startAfter limit).2 = ⟨ks, []⟩ ∧
    (ListKeysPage ⟨ks, []⟩ startAfter limit).1.err = none ∧
    (ListKeysPage ⟨ks, []⟩ startAfter limit).1.keys
      = (keysAfter ks startAfter).take limit.toNat ∧
    (ListKeysPage ⟨ks, []⟩ startAfter limit).1.keys.length
      = min limit.toNat (keysAfter ks startAfter).length ∧
    (ListKeysPage ⟨ks, []⟩ startAfter limit).1.lastKey
      = ((ListKeysPage ⟨ks, []⟩ startAfter limit).1.keys.getLast?).getD [] ∧
    ((ListKeysPage ⟨ks, []⟩ startAfter limit).1.hasMore = true ↔
      ∃ last, (ListKeysPage ⟨ks, []⟩ startAfter limit).1.keys.getLast? = some last ∧
        ∃ k ∈ ks, last < k) := by
  rw [ListKeysPage_eq ks startAfter limit hs hl]
  refine ⟨rfl, rfl, rfl, ?_, rfl, ?_⟩
  · simp [List.length_take]
  · exact hasMore_iff ks startAfter limit.toNat hs (by omega)

/-- C3 at a concrete input: keys `a`, `b`, `c`, `d`, the page of two keys after `a`. -/
theorem ListKeysPage_page_witness :
    [str "a", str "b", str "c", str "d"].Sorted (· < ·) ∧ (1 : Int) ≤ 2 ∧
    (ListKeysPage ⟨[str "a", str "b", str "c", str "d"], []⟩ (str "a") 2).1
      = ⟨[str "b", str "c"], str "c", true, none⟩ ∧
    ((ListKeysPage ⟨[str "a", str "b", str "c", str "d"], []⟩ (str "a") 2).1.hasMore = true ↔
      ∃ last, (ListKeysPage ⟨[str "a", str "b", str "c", str "d"], []⟩
          (str "a") 2).1.keys.getLast? = some last ∧
        ∃ k ∈ [str "a", str "b", str "c", str "d"], last < k) :=
  ⟨by decide, by decide, by decide,
    (ListKeysPage_page [str "a", str "b", str "c", str "d"] (str "a") 2
      (by decide) (by decide)).2.2.2.2.2⟩

/-! ## Pagination: proofs -/

theorem not_lt_nil_key (x : GoString) : ¬ x < [] := by
  intro h
  exact absurd h (not_lt.mpr List.nil_le)

/-- The keys after the last key of a page are the candidates the page left over. -/
theorem keysAfter_last (ks : List GoString) (a last : GoString) (n : Nat)
    (hs : ks.Sorted (· < ·))
    (hlast : ((keysAfter ks a).take n).getLast? = some last) (hne : last ≠ []) :
    keysAfter ks last = (keysAfter ks a).drop n := by
  have hcs := keysAfter_sorted ks a hs
  have hsplit := List.take_append_drop n (keysAfter ks a)
  have hmemt : last ∈ (keysAfter ks a).take n := List.mem_of_mem_getLast? hlast
  have hmem : last ∈ keysAfter ks a := List.mem_of_mem_take hmemt
  have h1 : keysAfter ks last = (keysAfter ks a).filter (fun k => decide (last < k)) := by
    unfold keysAfter
    rw [if_neg hne]
    by_cases ha : a = []
    · rw [if_pos ha]
    · rw [if_neg ha, List.filter_filter]
      apply List.filter_congr
      intro x _
      have hal : a < last := by
        unfold keysAfter at hmem
        rw [if_neg ha] at hmem
        exact of_decide_eq_true (List.mem_filter.mp hmem).2
      by_cases hx : last < x
      · simp [hx, lt_trans hal hx]
      · simp [hx]
  rw [h1]
  conv_lhs => rw [← hsplit]
  rw [List.filter_append]
  have hts : ((keysAfter ks a).take n).Sorted (· < ·) := by
    rw [← hsplit] at hcs
    exact (List.pairwise_append.mp hcs).1
  have htake : ((keysAfter ks a).take n).filter (fun k => decide (last < k)) = [] := by
    apply List.filter_eq_nil_iff.mpr
    intro x hx
    have := le_getLast_of_sorted _ hts last x hlast hx
    simp [not_lt.mpr this]
  have hdrop : ((keysAfter ks a).drop n).filter (fun k => decide (last < k))
      = (keysAfter ks a).drop n := by
    apply List.filter_eq_self.mpr
    intro x hx
    rw [← hsplit] at hcs
    exact decide_eq_true ((List.pairwise_append.mp hcs).2.2 last hmemt x hx)
  rw [htake, hdrop, List.nil_append]

/-- The last key of a full page of at least two keys is not the empty string. -/
theorem last_ne_nil_of_two (c : List GoString) (n : Nat) (last : GoString)
    (hcs : c.Sorted (· < ·)) (hn : 2 ≤ n) (hlen : n ≤ c.length)
    (hlast : (c.take n).getLast? = some last) : last ≠ [] := by
  cases c with
  | nil => simp at hlen; omega
  | cons x c1 =>
    cases c1 with
    | nil => simp at hlen; omega
    | cons y t =>
      obtain ⟨m, rfl⟩ : ∃ m, n = m + 2 := ⟨n - 2, by omega⟩
      intro h0
      subst h0
      have hmem : ([] : GoString) ∈ (y :: t).take (m + 1) := by
        rw [List.take_succ_cons, List.getLast?_cons] at hlast
        have : ((y :: t).take (m + 1)).getLast? ≠ none := by simp
        cases hl : ((y :: t).take (m + 1)).getLast? with
        | none => exact absurd hl this
        | some b =>
          rw [hl] at hlast
          simp at hlast
          subst hlast
          exact List.mem_of_mem_getLast? hl
      have hx : x < [] := List.rel_of_sorted_cons hcs [] (List.mem_of_mem_take hmem)
      exact not_lt_nil_key x hx

theorem paginate_from (ks : List GoString) (limit : Int)
    (hs : ks.Sorted (· < ·)) (hl : 1 ≤ limit) (hk : [] ∉ ks ∨ 2 ≤ limit) :
    ∀ (fuel : Nat) (a : GoString), (keysAfter ks a).length < fuel →
      ∃ pages, paginate limit fuel ⟨ks, []⟩ a = some pages ∧
        (pages.map KeysPage.keys).flatten = keysAfter ks a ∧
        (∀ p ∈ pages.dropLast, p.hasMore = true) ∧
        (∃ p, pages.getLast? = some p ∧ p.hasMore = false) ∧
        (∀ p ∈ pages, p.err = none) := by
  intro fuel
  induction fuel with
  | zero => intro a h; omega
  | succ fuel ih =>
    intro a hfuel
    unfold paginate
    simp only [ListKeysPage_eq ks a limit hs hl]
    have hsplit := List.take_append_drop limit.toNat (keysAfter ks a)
    cases hmore : !((keysAfter ks a).drop limit.toNat).isEmpty with
    | false =>
      have hdrop : (keysAfter ks a).drop limit.toNat = [] := by
        cases hd : (keysAfter ks a).drop limit.toNat with
        | nil => rfl
        | cons x t => rw [hd] at hmore; simp at hmore
      refine ⟨[{ keys := (keysAfter ks a).take limit.toNat,
                 lastKey := (((keysAfter ks a).take limit.toNat).getLast?).getD [],
                 hasMore := false, err := none }], by simp, ?_, ?_, ?_, ?_⟩
      · rw [hdrop, List.append_nil] at hsplit
        simp [hsplit]
      · simp
      · exact ⟨_, rfl, rfl⟩
      · simp
    | true =>
      obtain ⟨last, hlast, k, hkmem, hlt⟩ :=
        (hasMore_iff ks a limit.toNat hs (by omega)).mp hmore
      have hdne : (keysAfter ks a).drop limit.toNat ≠ [] := by
        intro h0
        rw [h0] at hmore
        simp at hmore
      have hlen : limit.toNat < (keysAfter ks a).length := by
        by_contra hcon
        exact hdne (List.drop_eq_nil_of_le (by omega))
      have hne : last ≠ [] := by
        rcases hk with hk | hk
        · intro h0
          subst h0
          exact hk (keysAfter_subset ks a _
            (List.mem_of_mem_take (List.mem_of_mem_getLast? hlast)))
        · exact last_ne_nil_of_two _ limit.toNat last (keysAfter_sorted ks a hs)
            (by omega) (by omega) hlast
      have hnext := keysAfter_last ks a last limit.toNat hs hlast hne
      have hfuel2 : (keysAfter ks last).length < fuel := by
        rw [hnext, List.length_drop]
        omega
      obtain ⟨ps, hps, hjoin, hall, ⟨q, hq, hqf⟩, herr⟩ := ih last hfuel2
      have hpsne : ps ≠ [] := by
        intro h0
        rw [h0] at hq
        simp at hq
      refine ⟨{ keys := (keysAfter ks a).take limit.toNat,
                lastKey := last, hasMore := true, err := none } :: ps,
        by simp [hlast, hps], ?_, ?_, ?_, ?_⟩
      · simp only [List.map_cons, List.flatten_cons, hjoin, hnext]
        exact hsplit
      · intro p hp
        rw [List.dropLast_cons_of_ne_nil hpsne] at hp
        rcases List.mem_cons.mp hp with h | h
        · rw [h]
        · exact hall p h
      · refine ⟨q, ?_, hqf⟩
        rw [List.getLast?_cons]
        simp [hq]
      · intro p hp
        rcases List.mem_cons.mp hp with h | h
        · rw [h]
        · exact herr p h

/-- C2. Pagination completeness: for every keyspace in store order (a Badger keyspace never
holds the empty key) and every `limit ≥ 1`, the chain of `ListKeysPage` calls started at `""`
and continued with each returned `lastKey` ends (within one call more than there are keys);
the pages returned, concatenated, are exactly the keys, each once, in store order; every
call but the last has `hasMore = true`, the last has `hasMore = false`, and no call fails. -/
theorem pagination_complete (ks : List GoString) (limit : Int) (fuel : Nat)
    (hs : ks.Sorted (· < ·)) (hl : 1 ≤ limit) (hk : [] ∉ ks)
    (hfuel : ks.length < fuel) :
    ∃ pages, paginate limit fuel ⟨ks, []⟩ [] = some pages ∧
      (pages.map KeysPage.keys).flatten = ks ∧
      (∀ p ∈ pages.dropLast, p.hasMore = true) ∧
      (∃ p, pages.getLast? = some p ∧ p.hasMore = false) ∧
      (∀ p ∈ pages, p.err = none) := by
  have hall : keysAfter ks [] = ks := by simp [keysAfter]
  have h := paginate_from ks limit hs hl (Or.inl hk) fuel [] (by rw [hall]; exact hfuel)
  rw [hall] at h
  exact h

/-- C2 at a concrete input: three keys listed with `limit = 1`, one key per page. -/
theorem pagination_complete_witness :
    [str "a", str "b", str "c"].Sorted (· < ·) ∧ (1 : Int) ≤ 1 ∧
    ([] : GoString) ∉ [str "a", str "b", str "c"] ∧
    [str "a", str "b", str "c"].length < 4 ∧
    paginate 1 4 ⟨[str "a", str "b", str "c"], []⟩ []
      = some [⟨[str "a"], str "a", true, none⟩, ⟨[str "b"], str "b", true, none⟩,
          ⟨[str "c"], str "c", false, none⟩] ∧
    ∃ pages, paginate 1 4 ⟨[str "a", str "b", str "c"], []⟩ [] = some pages ∧
      (pages.map KeysPage.keys).flatten = [str "a", str "b", str "c"] ∧
      (∀ p ∈ pages.dropLast, p.hasMore = true) ∧
      (∃ p, pages.getLast? = some p ∧ p.hasMore = false) ∧
      (∀ p ∈ pages, p.err = none) :=
  ⟨by decide, by decide, by decide, by decide, by decide,
    pagination_complete [str "a", str "b", str "c"] 1 4
      (by decide) (by decide) (by decide) (by decide)⟩

/-! ## Hex codec: proofs -/

set_option maxRecDepth 100000 in
theorem fromHexChar_of_lower (c : Byte) (h : isLowerHexDigit c = true) :
    fromHexChar c = some (lowerHexValue c) := by
  revert c
  decide

theorem hexDecodeString_digits (n : Nat) :
    ∀ l : GoString, l.length = 2 * n → (∀ c ∈ l, isLowerHexDigit c = true) →
      hexDecodeString l = .ok (hexPairsValue l) := by
  induction n with
  | zero =>
    intro l hl _
    have : l = [] := List.length_eq_zero.mp (by omega)
    subst this
    rfl
  | succ n ih =>
    intro l hl hall
    match l, hl with
    | p :: q :: rest, hl =>
      have hp := fromHexChar_of_lower p (hall p (by simp))
      have hq := fromHexChar_of_lower q (hall q (by simp))
      have hrest := ih rest (by simp at hl; omega)
        (fun c hc => hall c (by simp [hc]))
      simp only [hexDecodeString, hp, hq, hrest, hexPairsValue]

theorem removeNonHex_all (s : GoString) : ∀ c ∈ removeNonHex s, isLowerHexDigit c = true := by
  intro c hc
  exact (List.mem_filter.mp hc).2

/-- C8: in Hex format, whatever the edit text, `bytesFromEditor` fails exactly when the
digits left after lower-casing the text, deleting every `0x` and deleting every character
outside `0-9a-f` are odd in number; when they are even in number it returns the bytes they
denote two at a time, so the "invalid hex" error of the decoder never occurs. -/
theorem bytesFromEditor_hex (env : Env) (m : Model) (content : GoString) :
    ((∃ e, bytesFromEditor env { m with valFormat := .fmtHex, editor := content } = .error e) ↔
      (removeNonHex (removeAll0x (toLower env.unicodeLower content))).length % 2 = 1) ∧
    ((removeNonHex (removeAll0x (toLower env.unicodeLower content))).length % 2 = 0 →
      bytesFromEditor env { m with valFormat := .fmtHex, editor := content } =
        .ok (hexPairsValue (removeNonHex (removeAll0x (toLower env.unicodeLower content))))) ∧
    (∀ e, bytesFromEditor env { m with valFormat := .fmtHex, editor := content } = .error e →
      e = "hex length must be even") := by
  have hall := removeNonHex_all (removeAll0x (toLower env.unicodeLower content))
  by_cases hodd : (removeNonHex (removeAll0x (toLower env.unicodeLower content))).length % 2 = 0
  · have hdec := hexDecodeString_digits
      ((removeNonHex (removeAll0x (toLower env.unicodeLower content))).length / 2) _
      (by omega) hall
    have hres : bytesFromEditor env { m with valFormat := .fmtHex, editor := content } =
        .ok (hexPairsValue (removeNonHex (removeAll0x (toLower env.unicodeLower content)))) := by
      simp only [bytesFromEditor, hodd, hdec]
      simp
    refine ⟨?_, fun _ => hres, ?_⟩
    · rw [hres]
      constructor
      · rintro ⟨e, he⟩; cases he
      · intro h; omega
    · intro e he
      rw [hres] at he
      cases he
  · have hres : bytesFromEditor env { m with valFormat := .fmtHex, editor := content } =
        .error "hex length must be even" := by
      simp only [bytesFromEditor]
      simp [hodd]
    refine ⟨?_, fun h => absurd h hodd, ?_⟩
    · rw [hres]
      constructor
      · intro _; omega
      · intro _; exact ⟨_, rfl⟩
    · intro e he
      rw [hres] at he
      cases he
      rfl

set_option maxRecDepth 100000 in
theorem hexDigit_isLower (v : Byte) :
    isLowerHexDigit (hextable.getD (v.val / 16) 0) = true ∧
    isLowerHexDigit (hextable.getD (v.val % 16) 0) = true := by
  revert v
  decide

set_option maxRecDepth 100000 in
theorem hexPair_value (v : Byte) :
    (Fin.ofNat (lowerHexValue (hextable.getD (v.val / 16) 0) * 16
      + lowerHexValue (hextable.getD (v.val % 16) 0)) : Byte) = v := by
  revert v
  decide

set_option maxRecDepth 100000 in
theorem asciiLower_of_lowerHex (c : Byte) (h : isLowerHexDigit c = true) :
    asciiLower c = c ∧ c.val < 128 ∧ c ≠ 120 := by
  revert c
  decide

theorem hexEncodeToString_all (raw : GoString) :
    ∀ c ∈ hexEncodeToString raw, isLowerHexDigit c = true := by
  induction raw with
  | nil => intro c hc; cases hc
  | cons v rest ih =>
    intro c hc
    simp only [hexEncodeToString, List.mem_cons] at hc
    rcases hc with h | h | h
    · rw [h]; exact (hexDigit_isLower v).1
    · rw [h]; exact (hexDigit_isLower v).2
    · exact ih c h

theorem hexEncodeToString_length (raw : GoString) :
    (hexEncodeToString raw).length = 2 * raw.length := by
  induction raw with
  | nil => rfl
  | cons v rest ih => simp only [hexEncodeToString, List.length_cons, ih]; omega

theorem hexPairsValue_encode (raw : GoString) :
    hexPairsValue (hexEncodeToString raw) = raw := by
  induction raw with
  | nil => rfl
  | cons v rest ih => simp only [hexEncodeToString, hexPairsValue, hexPair_value, ih]

theorem toLower_of_lowerHex (ul : GoString → GoString) (s : GoString)
    (h : ∀ c ∈ s, isLowerHexDigit c = true) : toLower ul s = s := by
  unfold toLower
  have hascii : s.all (fun c => decide (c.val < 128)) = true := by
    rw [List.all_eq_true]
    intro c hc
    exact decide_eq_true (asciiLower_of_lowerHex c (h c hc)).2.1
  rw [if_pos hascii]
  calc s.map asciiLower = s.map id :=
        List.map_congr_left (fun c hc => (asciiLower_of_lowerHex c (h c hc)).1)
    _ = s := List.map_id s

theorem removeAll0x_of_no_x : ∀ s : GoString, (∀ c ∈ s, c ≠ 120) → removeAll0x s = s
  | [], _ => rfl
  | [_], _ => rfl
  | c :: d :: rest, h => by
    have hd : d ≠ 120 := h d (by simp)
    have ih := removeAll0x_of_no_x (d :: rest) (fun x hx => h x (List.mem_cons_of_mem _ hx))
    simp only [removeAll0x, hd, and_false, if_false, ih]

theorem removeNonHex_of_lowerHex (s : GoString) (h : ∀ c ∈ s, isLowerHexDigit c = true) :
    removeNonHex s = s :=
  List.filter_eq_self.mpr h

/-- C4: Hex round trip. For every byte buffer `raw`, loading it into the edit buffer in Hex
format and encoding the buffer back with `bytesFromEditor` succeeds and returns `raw`. -/
theorem hex_round_trip (env : Env) (m : Model) (key raw : GoString) :
    bytesFromEditor env
      (startEditWithContent env { m with valFormat := .fmtHex } key raw) = .ok raw := by
  have hall := hexEncodeToString_all raw
  have hlow := toLower_of_lowerHex env.unicodeLower _ hall
  have hx : removeAll0x (hexEncodeToString raw) = hexEncodeToString raw :=
    removeAll0x_of_no_x _ (fun c hc => (asciiLower_of_lowerHex c (hall c hc)).2.2)
  have hf := removeNonHex_of_lowerHex _ hall
  have hlen := hexEncodeToString_length raw
  have hdec := hexDecodeString_digits raw.length _ hlen hall
  have heven : (hexEncodeToString raw).length % 2 = 0 := by omega
  have hed := editorSetValue_printable env.editorMaxLines (hexEncodeToString raw)
    (fun c hc => isLowerHexDigit_printable c (hall c hc))
  simp only [startEditWithContent, bytesFromEditor, hlow, hed, hx, hf, hdec,
    hexPairsValue_encode, heven]
  simp

/-! ## Text codec: proofs -/

theorem startEditWithContent_text (env : Env) (m : Model) (key raw : GoString)
    (hm : m.valFormat = .fmtText) :
    bytesFromEditor env (startEditWithContent env m key raw)
      = .ok (if utf8Valid raw then editorSetValue env.editorMaxLines raw else []) := by
  by_cases h : utf8Valid raw = true
  · simp [startEditWithContent, bytesFromEditor, hm, h]
  · simp [startEditWithContent, bytesFromEditor, hm, h, editorSetValue_nil]

/-- A text of as many line feeds as the line limit has one line too many: in Text format
the buffer that comes back from the edit buffer is one line feed short. -/
theorem text_lines_dropped (env : Env) (m : Model) (key : GoString)
    (hm : m.valFormat = .fmtText) (h : 0 < env.editorMaxLines) :
    bytesFromEditor env
        (startEditWithContent env m key (List.replicate env.editorMaxLines 10))
      = .ok (List.replicate (env.editorMaxLines - 1) 10) := by
  have hv : utf8Valid (List.replicate env.editorMaxLines 10) = true :=
    utf8Valid_ascii _ (fun b hb => by rw [List.eq_of_mem_replicate hb]; decide)
  rw [startEditWithContent_text env m key _ hm, if_pos hv,
    editorSetValue_feeds env.editorMaxLines h]

/-- C6 as stated fails. The single byte `0xff` is not valid UTF-8, so in Text format the edit
buffer is left empty and encoding it back gives the empty buffer, not the byte. And the text
area does not keep every valid text as it is: of `a`, tab, `b` it keeps `a`, four blanks,
`b`; of `a`, CR, LF, `b` it keeps `a`, LF, LF, `b`; of `a`, NUL, `b` and of `a`, U+FFFD, `b`
it keeps `ab`; and of 10000 line feeds, one line more than the text area of the example
holds, it keeps 9999. -/
theorem text_round_trip_counterexample :
    utf8Valid [0xff] = false ∧
    (startEditWithContent sampleEnv (sampleModel .fmtText) (str "k") [0xff]).editor = [] ∧
    bytesFromEditor sampleEnv
      (startEditWithContent sampleEnv (sampleModel .fmtText) (str "k") [0xff]) = .ok [] ∧
    bytesFromEditor sampleEnv
      (startEditWithContent sampleEnv (sampleModel .fmtText) (str "k") [0xff]) ≠ .ok [0xff] ∧
    bytesFromEditor sampleEnv
      (startEditWithContent sampleEnv (sampleModel .fmtText) (str "k") [97, 9, 98])
      = .ok (str "a    b") ∧
    bytesFromEditor sampleEnv
      (startEditWithContent sampleEnv (sampleModel .fmtText) (str "k") [97, 13, 10, 98])
      = .ok [97, 10, 10, 98] ∧
    bytesFromEditor sampleEnv
      (startEditWithContent sampleEnv (sampleModel .fmtText) (str "k") [97, 0, 98])
      = .ok (str "ab") ∧
    bytesFromEditor sampleEnv
      (startEditWithContent sampleEnv (sampleModel .fmtText) (str "k")
        [97, 0xEF, 0xBF, 0xBD, 98])
      = .ok (str "ab") ∧
    bytesFromEditor sampleEnv
      (startEditWithContent sampleEnv (sampleModel .fmtText) (str "k")
        (List.replicate 10000 10))
      = .ok (List.replicate 9999 10) :=
  ⟨by decide, by decide, by decide, by decide, by decide, by decide, by decide, by decide,
    text_lines_dropped sampleEnv (sampleModel .fmtText) (str "k") rfl (by decide)⟩

/-- C6, amended: in Text format, loading a byte buffer `raw` into the edit buffer and encoding
the buffer back with `bytesFromEditor` succeeds. For `raw` that is valid UTF-8 it returns the
text that the text area keeps of `raw` (sanitized: U+FFFD and the control characters other
than tab, carriage return and line feed dropped, a carriage return turned into a line feed,
a tab into four blanks; and cut at the line limit). This is exactly `raw` when `raw` is
valid UTF-8, each of its runes is one that the sanitizer keeps as it is (no tab, no carriage
return, no other control character than the line feed, no U+FFFD), and its lines are no more
than the text area holds. For `raw` that is not valid UTF-8 it returns the empty buffer
(the edit buffer is then left empty). -/
theorem text_round_trip (env : Env) (m : Model) (key raw : GoString) :
    bytesFromEditor env
      (startEditWithContent env { m with valFormat := .fmtText } key raw)
      = .ok (if utf8Valid raw then editorSetValue env.editorMaxLines raw else []) ∧
    (utf8Valid raw = true →
      (∀ r ∈ runesOf raw, Sanitize [r] = [r]) →
      (env.editorMaxLines = 0 ∨
        (splitLinesLoop [] (runesOf raw)).length ≤ env.editorMaxLines) →
      bytesFromEditor env
        (startEditWithContent env { m with valFormat := .fmtText } key raw) = .ok raw) ∧
    (utf8Valid raw = false →
      (startEditWithContent env { m with valFormat := .fmtText } key raw).editor = [] ∧
      bytesFromEditor env
        (startEditWithContent env { m with valFormat := .fmtText } key raw) = .ok []) := by
  have hgen := startEditWithContent_text env { m with valFormat := .fmtText } key raw rfl
  refine ⟨hgen, ?_, ?_⟩
  · intro hv hkept hlines
    rw [hgen, if_pos hv, editorSetValue_stable env.editorMaxLines raw hv hkept hlines]
  · intro hv
    refine ⟨?_, ?_⟩
    · simp [startEditWithContent, hv, editorSetValue_nil]
    · rw [hgen, hv]
      rfl

/-- C6, amended, at a concrete input: the two lines `hé` and `€`, which hold runes of one,
two and three bytes and a line feed, come back unchanged. -/
theorem text_round_trip_witness :
    utf8Valid [104, 0xC3, 0xA9, 10, 0xE2, 0x82, 0xAC] = true ∧
    (∀ r ∈ runesOf [104, 0xC3, 0xA9, 10, 0xE2, 0x82, 0xAC], Sanitize [r] = [r]) ∧
    (sampleEnv.editorMaxLines = 0 ∨
      (splitLinesLoop [] (runesOf [104, 0xC3, 0xA9, 10, 0xE2, 0x82, 0xAC])).length
        ≤ sampleEnv.editorMaxLines) ∧
    runesOf [104, 0xC3, 0xA9, 10, 0xE2, 0x82, 0xAC] = [104, 0xE9, 10, 0x20AC] ∧
    bytesFromEditor sampleEnv
      (startEditWithContent sampleEnv { sampleModel .fmtJSON with valFormat := .fmtText }
        (str "k") [104, 0xC3, 0xA9, 10, 0xE2, 0x82, 0xAC])
      = .ok [104, 0xC3, 0xA9, 10, 0xE2, 0x82, 0xAC] :=
  ⟨by decide, by decide, by decide, by decide,
    (text_round_trip sampleEnv (sampleModel .fmtJSON) (str "k")
      [104, 0xC3, 0xA9, 10, 0xE2, 0x82, 0xAC]).2.1 (by decide) (by decide) (by decide)⟩

/-! ## Base64 codec: proofs -/

set_option maxRecDepth 100000 in
theorem b64Char_fin (n : Fin 64) :
    b64Value (b64Char n.val) = some n.val ∧ b64Char n.val ≠ padChar ∧
      isB64Byte (b64Char n.val) = true := by
  revert n
  decide

theorem b64Value_b64Char (n : Nat) (h : n < 64) : b64Value (b64Char n) = some n :=
  (b64Char_fin ⟨n, h⟩).1

theorem b64Char_ne_pad (n : Nat) (h : n < 64) : b64Char n ≠ padChar :=
  (b64Char_fin ⟨n, h⟩).2.1

theorem b64Char_isB64 (n : Nat) (h : n < 64) : isB64Byte (b64Char n) = true :=
  (b64Char_fin ⟨n, h⟩).2.2

theorem byte_ofNat_mod (a : Byte) (x : Nat) (h : x % 256 = a.val) :
    (Fin.ofNat x : Byte) = a := by
  apply Fin.ext
  simp only [Fin.ofNat]
  exact h

theorem b64Value_padChar : b64Value padChar = none := by decide

theorem base64Decode_encode :
    ∀ (raw : GoString) (si : Nat) (out : GoString),
      base64Decode (base64EncodeToString raw) si 0 [] out = .ok (out ++ raw)
  | [], si, out => by simp [base64EncodeToString, base64Decode]
  | [a], si, out => by
    have ha := a.isLt
    simp only [base64EncodeToString, base64Decode,
      b64Value_b64Char (a.val / 4) (by omega), b64Value_b64Char (a.val % 4 * 16) (by omega),
      b64Value_padChar]
    simp [padChar, skipNewlines, decodePadded, quantumBytes]
    exact byte_ofNat a _ (by omega)
  | [a, b], si, out => by
    have ha := a.isLt
    have hb := b.isLt
    simp only [base64EncodeToString, base64Decode,
      b64Value_b64Char (a.val / 4) (by omega),
      b64Value_b64Char (a.val % 4 * 16 + b.val / 16) (by omega),
      b64Value_b64Char (b.val % 16 * 4) (by omega), b64Value_padChar]
    simp [padChar, skipNewlines, decodePadded, quantumBytes]
    exact ⟨byte_ofNat_mod a _ (by omega), byte_ofNat_mod b _ (by omega)⟩
  | a :: b :: c :: rest, si, out => by
    have ha := a.isLt
    have hb := b.isLt
    have hc := c.isLt
    simp only [base64EncodeToString, base64Decode,
      b64Value_b64Char (a.val / 4) (by omega),
      b64Value_b64Char (a.val % 4 * 16 + b.val / 16) (by omega),
      b64Value_b64Char (b.val % 16 * 4 + c.val / 64) (by omega),
      b64Value_b64Char (c.val % 64) (by omega)]
    simp only [Nat.zero_add, Nat.reduceAdd, Nat.reduceEqDiff, OfNat.ofNat_ne_zero,
      OfNat.zero_ne_ofNat, OfNat.ofNat_ne_one, OfNat.one_ne_ofNat, if_false, if_true,
      List.nil_append, List.cons_append]
    rw [base64Decode_encode rest _ _]
    simp [quantumBytes]
    exact ⟨byte_ofNat_mod a _ (by omega), byte_ofNat_mod b _ (by omega),
      byte_ofNat_mod c _ (by omega)⟩

theorem base64EncodeToString_all :
    ∀ raw : GoString, ∀ x ∈ base64EncodeToString raw, isB64Byte x = true
  | [], x, hx => by cases hx
  | [a], x, hx => by
    have ha := a.isLt
    simp only [base64EncodeToString, List.mem_cons, List.mem_singleton] at hx
    rcases hx with h | h | h | h | h
    · rw [h]; exact b64Char_isB64 _ (by omega)
    · rw [h]; exact b64Char_isB64 _ (by omega)
    · rw [h]; decide
    · rw [h]; decide
    · cases h
  | [a, b], x, hx => by
    have ha := a.isLt
    have hb := b.isLt
    simp only [base64EncodeToString, List.mem_cons, List.mem_singleton] at hx
    rcases hx with h | h | h | h | h
    · rw [h]; exact b64Char_isB64 _ (by omega)
    · rw [h]; exact b64Char_isB64 _ (by omega)
    · rw [h]; exact b64Char_isB64 _ (by omega)
    · rw [h]; decide
    · cases h
  | a :: b :: c :: rest, x, hx => by
    have ha := a.isLt
    have hb := b.isLt
    have hc := c.isLt
    simp only [base64EncodeToString, List.mem_cons] at hx
    rcases hx with h | h | h | h | h
    · rw [h]; exact b64Char_isB64 _ (by omega)
    · rw [h]; exact b64Char_isB64 _ (by omega)
    · rw [h]; exact b64Char_isB64 _ (by omega)
    · rw [h]; exact b64Char_isB64 _ (by omega)
    · exact base64EncodeToString_all rest x h

theorem findSome?_eq_of_forall {α β : Type} (f : α → Option β) (v : β) :
    ∀ l : List α, (∃ x ∈ l, f x = some v) → (∀ x ∈ l, f x = none ∨ f x = some v) →
      l.findSome? f = some v := by
  intro l
  induction l with
  | nil => rintro ⟨x, hx, _⟩ _; cases hx
  | cons a t ih =>
    intro hex hall
    rw [List.findSome?_cons]
    rcases hall a (List.mem_cons_self _ _) with ha | ha
    · rw [ha]
      apply ih
      · obtain ⟨x, hx, hfx⟩ := hex
        rcases List.mem_cons.mp hx with h | h
        · rw [h, ha] at hfx; cases hfx
        · exact ⟨x, h, hfx⟩
      · exact fun x hx => hall x (List.mem_cons_of_mem _ hx)
    · rw [ha]

theorem stripOne_append (cands : List GoString)
    (hpf : ∀ r ∈ cands, ∀ r' ∈ cands, r' <+: r → r' = r)
    (r : GoString) (hr : r ∈ cands) (t : GoString) :
    stripOne cands (r ++ t) = some t := by
  unfold stripOne
  apply findSome?_eq_of_forall
  · refine ⟨r, hr, ?_⟩
    have hp : r.isPrefixOf (r ++ t) = true :=
      List.isPrefixOf_iff_prefix.mpr (List.prefix_append r t)
    simp only [hp, if_true, List.drop_left]
  · intro r' hr'
    by_cases hp : r'.isPrefixOf (r ++ t) = true
    · right
      have hp' : r' <+: r ++ t := List.isPrefixOf_iff_prefix.mp hp
      have hrp : r <+: r ++ t := List.prefix_append r t
      have heq : r' = r := by
        rcases Nat.le_total r'.length r.length with hle | hle
        · exact hpf r hr r' hr' (List.prefix_of_prefix_length_le hp' hrp hle)
        · exact (hpf r' hr' r hr (List.prefix_of_prefix_length_le hrp hp' hle)).symm
      subst heq
      simp only [hp, if_true, List.drop_left]
    · left
      simp only [hp]
      rfl

theorem stripOne_none (cands : List GoString) (s : GoString)
    (h : ∀ r ∈ cands, ¬ r <+: s) : stripOne cands s = none := by
  unfold stripOne
  induction cands with
  | nil => rfl
  | cons a t ih =>
    rw [List.findSome?_cons]
    have ha : a.isPrefixOf s = false := by
      cases hp : a.isPrefixOf s with
      | false => rfl
      | true => exact absurd (List.isPrefixOf_iff_prefix.mp hp) (h a (List.mem_cons_self _ _))
    simp only [ha]
    exact ih (fun r hr => h r (List.mem_cons_of_mem _ hr))

theorem stripLeading_of_none (cands : List GoString) (fuel : Nat) (t : GoString)
    (ht : stripOne cands t = none) : stripLeading cands fuel t = t := by
  cases fuel with
  | zero => rfl
  | succ n => simp only [stripLeading, ht]

theorem stripLeading_runs (cands : List GoString)
    (hpf : ∀ r ∈ cands, ∀ r' ∈ cands, r' <+: r → r' = r) (t : GoString)
    (ht : stripOne cands t = none) :
    ∀ (runs : List GoString) (fuel : Nat), (∀ r ∈ runs, r ∈ cands) → runs.length ≤ fuel →
      stripLeading cands fuel (runs.flatten ++ t) = t := by
  intro runs
  induction runs with
  | nil =>
    intro fuel _ _
    simpa using stripLeading_of_none cands fuel t ht
  | cons r rest ih =>
    intro fuel hall hlen
    obtain ⟨n, rfl⟩ : ∃ n, fuel = n + 1 := ⟨fuel - 1, by simp at hlen; omega⟩
    have hstep : stripOne cands ((r :: rest).flatten ++ t) = some (rest.flatten ++ t) := by
      rw [List.flatten_cons, List.append_assoc]
      exact stripOne_append cands hpf r (hall r (List.mem_cons_self _ _)) _
    simp only [stripLeading, hstep]
    exact ih n (fun x hx => hall x (List.mem_cons_of_mem _ hx)) (by simp at hlen; omega)

/-- A concatenation of non-empty runs has at least as many bytes as runs. -/
theorem length_le_flatten (runs : List GoString) (h : ∀ r ∈ runs, r ≠ []) :
    runs.length ≤ runs.flatten.length := by
  induction runs with
  | nil => simp
  | cons r rest ih =>
    have hr : r ≠ [] := h r (List.mem_cons_self _ _)
    have hpos : 0 < r.length := List.length_pos.mpr hr
    have := ih (fun x hx => h x (List.mem_cons_of_mem _ hx))
    simp only [List.flatten_cons, List.length_append, List.length_cons]
    omega

theorem spaceRunes_prefixFree :
    ∀ r ∈ spaceRunes, ∀ r' ∈ spaceRunes, r' <+: r → r' = r := by
  decide

theorem spaceRunes_rev_prefixFree :
    ∀ r ∈ spaceRunes.map List.reverse, ∀ r' ∈ spaceRunes.map List.reverse,
      r' <+: r → r' = r := by
  decide

theorem spaceRunes_ne_nil : ∀ r ∈ spaceRunes, r ≠ [] := by
  decide

set_option maxRecDepth 1000000 in
theorem isB64Byte_not_space (c : Byte) (h : isB64Byte c = true) :
    c ≠ 10 ∧ c ≠ 13 ∧ (∀ r ∈ spaceRunes, r.head? ≠ some c) ∧
      (∀ r ∈ spaceRunes, r.getLast? ≠ some c) := by
  revert c
  decide

theorem spaceRune_not_head (c : Byte) (t : GoString) (hc : isB64Byte c = true) :
    ∀ r ∈ spaceRunes, ¬ r <+: c :: t := by
  intro r hr hp
  have hhead := (isB64Byte_not_space c hc).2.2.1 r hr
  cases r with
  | nil => exact spaceRunes_ne_nil [] hr rfl
  | cons a r' =>
    obtain ⟨u, hu⟩ := hp
    simp only [List.cons_append, List.cons.injEq] at hu
    exact hhead (by rw [List.head?_cons, hu.1])

theorem revSpaceRune_not_head (c : Byte) (t : GoString) (hc : isB64Byte c = true) :
    ∀ r ∈ spaceRunes.map List.reverse, ¬ r <+: c :: t := by
  intro r hr hp
  obtain ⟨r0, hr0, rfl⟩ := List.mem_map.mp hr
  have hlast := (isB64Byte_not_space c hc).2.2.2 r0 hr0
  cases hrev : r0.reverse with
  | nil =>
    have : r0 = [] := List.reverse_eq_nil_iff.mp hrev
    exact spaceRunes_ne_nil r0 hr0 this
  | cons a r' =>
    rw [hrev] at hp
    obtain ⟨u, hu⟩ := hp
    simp only [List.cons_append, List.cons.injEq] at hu
    apply hlast
    have h1 : r0.reverse.head? = some a := by rw [hrev]; rfl
    rw [List.head?_reverse] at h1
    rw [h1, hu.1]

theorem stripOne_nil (cands : List GoString) (h : ∀ r ∈ cands, r ≠ []) :
    stripOne cands [] = none :=
  stripOne_none cands [] (fun r hr hp => h r hr (List.prefix_nil.mp hp))

theorem trimSpace_padded (enc ws1 ws2 : GoString) (henc : ∀ x ∈ enc, isB64Byte x = true)
    (h1 : IsWhiteSpace ws1) (h2 : IsWhiteSpace ws2) :
    trimSpace (ws1 ++ enc ++ ws2) = enc := by
  obtain ⟨runs1, hr1, rfl⟩ := h1
  obtain ⟨runs2, hr2, rfl⟩ := h2
  have hlen1 := length_le_flatten runs1 (fun r hr => spaceRunes_ne_nil r (hr1 r hr))
  have hlen2 := length_le_flatten runs2 (fun r hr => spaceRunes_ne_nil r (hr2 r hr))
  cases enc with
  | nil =>
    have hs : runs1.flatten ++ [] ++ runs2.flatten = (runs1 ++ runs2).flatten ++ [] := by
      simp
    have hleft : stripLeading spaceRunes (runs1.flatten ++ [] ++ runs2.flatten).length
        (runs1.flatten ++ [] ++ runs2.flatten) = [] := by
      rw [hs]
      apply stripLeading_runs spaceRunes spaceRunes_prefixFree [] 
        (stripOne_nil spaceRunes spaceRunes_ne_nil)
      · intro r hr
        rcases List.mem_append.mp hr with h | h
        · exact hr1 r h
        · exact hr2 r h
      · simp only [List.append_nil, List.flatten_append, List.length_append]
        omega
    simp only [trimSpace, hleft]
    rfl
  | cons c t =>
    have hc : isB64Byte c = true := henc c (List.mem_cons_self _ _)
    have hleft : stripLeading spaceRunes (runs1.flatten ++ (c :: t) ++ runs2.flatten).length
        (runs1.flatten ++ (c :: t) ++ runs2.flatten) = c :: t ++ runs2.flatten := by
      rw [List.append_assoc]
      apply stripLeading_runs spaceRunes spaceRunes_prefixFree _
        (stripOne_none spaceRunes _ (spaceRune_not_head c _ hc)) runs1 _ hr1
      simp only [List.length_append]
      omega
    have hrevne : (c :: t).reverse ≠ [] := by simp
    obtain ⟨d, u, hdu⟩ : ∃ d u, (c :: t).reverse = d :: u := by
      cases hr : (c :: t).reverse with
      | nil => exact absurd hr hrevne
      | cons d u => exact ⟨d, u, rfl⟩
    have hd : isB64Byte d = true := by
      apply henc d
      have : d ∈ (c :: t).reverse := by rw [hdu]; exact List.mem_cons_self _ _
      exact List.mem_reverse.mp this
    have hrev : (c :: t ++ runs2.flatten).reverse
        = ((runs2.map List.reverse).reverse).flatten ++ d :: u := by
      rw [List.reverse_append, hdu, List.reverse_flatten]
    have hright : stripLeading (spaceRunes.map List.reverse) (c :: t ++ runs2.flatten).length
        (c :: t ++ runs2.flatten).reverse = d :: u := by
      rw [hrev]
      apply stripLeading_runs (spaceRunes.map List.reverse) spaceRunes_rev_prefixFree _
        (stripOne_none _ _ (revSpaceRune_not_head d u hd))
      · intro r hr
        have hr' := List.mem_reverse.mp hr
        obtain ⟨r0, hr0, rfl⟩ := List.mem_map.mp hr'
        exact List.mem_map.mpr ⟨r0, hr2 r0 hr0, rfl⟩
      · simp only [List.length_reverse, List.length_map, List.length_append]
        omega
    simp only [trimSpace, hleft, hright]
    rw [← hdu, List.reverse_reverse]

theorem base64DecodeString_encode (raw : GoString) :
    base64DecodeString (base64EncodeToString raw) = .ok raw := by
  unfold base64DecodeString
  rw [base64Decode_encode raw 0 []]
  rfl

/-- The padded and the broken forms of one text: line breaks are skipped, and an error
carries the index that Go reports. -/
theorem base64DecodeString_samples :
    base64DecodeString (str "3q2+7w==") = .ok [0xde, 0xad, 0xbe, 0xef] ∧
    base64DecodeString (str "3q2+\n7w=\r=\n") = .ok [0xde, 0xad, 0xbe, 0xef] ∧
    base64DecodeString (str "3q2+7w") = .error "illegal base64 data at input byte 4" ∧
    base64DecodeString (str "3q2+7w=") = .error "illegal base64 data at input byte 7" ∧
    base64DecodeString (str "3q2+7w=x") = .error "illegal base64 data at input byte 6" ∧
    base64DecodeString (str "3q2+7w==x") = .error "illegal base64 data at input byte 8" ∧
    base64DecodeString (str "3q*+") = .error "illegal base64 data at input byte 2" ∧
    base64DecodeString (str "=q2+") = .error "illegal base64 data at input byte 0" := by
  decide

/-- C5: Base64 round trip. For every byte buffer `raw`, the text that `startEditWithContent`
puts in the edit buffer in Base64 format is the padded standard-alphabet encoding of `raw`,
and that text, surrounded by any leading and trailing white space, is decoded by
`bytesFromEditor` to exactly `raw`, without error. -/
theorem base64_round_trip (env : Env) (m : Model) (key raw ws1 ws2 : GoString)
    (h1 : IsWhiteSpace ws1) (h2 : IsWhiteSpace ws2) :
    (startEditWithContent env { m with valFormat := .fmtBase64 } key raw).editor
      = base64EncodeToString raw ∧
    bytesFromEditor env
      { startEditWithContent env { m with valFormat := .fmtBase64 } key raw with
        editor := ws1 ++
          (startEditWithContent env { m with valFormat := .fmtBase64 } key raw).editor
          ++ ws2 } = .ok raw := by
  have hed : (startEditWithContent env { m with valFormat := .fmtBase64 } key raw).editor
      = base64EncodeToString raw := by
    simp only [startEditWithContent]
    exact editorSetValue_printable env.editorMaxLines (base64EncodeToString raw)
      (fun c hc => isB64Byte_printable c (base64EncodeToString_all raw c hc))
  refine ⟨hed, ?_⟩
  have htrim := trimSpace_padded (base64EncodeToString raw) ws1 ws2
    (base64EncodeToString_all raw) h1 h2
  have hfmt : (startEditWithContent env { m with valFormat := .fmtBase64 } key raw).valFormat
      = .fmtBase64 := by
    simp [startEditWithContent]
  simp only [bytesFromEditor, hed, hfmt, htrim, base64DecodeString_encode]

/-- C5 at a concrete input: the bytes `de ad be ef`, with a space and a line feed before the
text and a no-break space and a tab after it. -/
theorem base64_round_trip_witness :
    IsWhiteSpace [32, 10] ∧ IsWhiteSpace [0xC2, 0xA0, 9] ∧
    (startEditWithContent sampleEnv { sampleModel .fmtText with valFormat := .fmtBase64 }
        (str "k") [0xde, 0xad, 0xbe, 0xef]).editor = str "3q2+7w==" ∧
    bytesFromEditor sampleEnv
      { startEditWithContent sampleEnv { sampleModel .fmtText with valFormat := .fmtBase64 }
          (str "k") [0xde, 0xad, 0xbe, 0xef] with
        editor := [32, 10] ++
          (startEditWithContent sampleEnv
            { sampleModel .fmtText with valFormat := .fmtBase64 }
            (str "k") [0xde, 0xad, 0xbe, 0xef]).editor
          ++ [0xC2, 0xA0, 9] } = .ok [0xde, 0xad, 0xbe, 0xef] :=
  ⟨⟨[[32], [10]], by decide, by decide⟩, ⟨[[0xC2, 0xA0], [9]], by decide, by decide⟩,
    by decide,
    (base64_round_trip sampleEnv (sampleModel .fmtText) (str "k") [0xde, 0xad, 0xbe, 0xef]
      [32, 10] [0xC2, 0xA0, 9]
      ⟨[[32], [10]], by decide, by decide⟩ ⟨[[0xC2, 0xA0], [9]], by decide, by decide⟩).2⟩

/-! ## Pattern delete: proofs -/

theorem Delete_ok (S : List GoString) (k : GoString) :
    Delete ⟨S, []⟩ k = (none, ⟨S.filter (fun x => decide (x ≠ k)), []⟩) := rfl

/-- The inner loop on a store without failures: the accepted keys of the page are appended
to `deleted` and removed from the store. -/
theorem deletePatternKeys_ok (env : Env) (pattern : GoString) :
    ∀ (pg S deleted : List GoString),
      (∀ k ∈ pg, ∃ b, matchPattern env pattern k = .ok b) →
      deletePatternKeys env pattern pg ⟨S, []⟩ deleted =
        (none, deleted ++ pg.filter (accepts env pattern),
          ⟨S.filter (fun x => decide (x ∉ pg.filter (accepts env pattern))), []⟩) := by
  intro pg
  induction pg with
  | nil =>
    intro S deleted _
    simp [deletePatternKeys]
  | cons k rest ih =>
    intro S deleted hval
    have hrest : ∀ x ∈ rest, ∃ b, matchPattern env pattern x = .ok b :=
      fun x hx => hval x (List.mem_cons_of_mem _ hx)
    obtain ⟨b, hb⟩ := hval k (List.mem_cons_self _ _)
    cases b with
    | false =>
      have hacc : accepts env pattern k = false := by simp [accepts, hb]
      simp only [deletePatternKeys, hb, List.filter_cons, hacc]
      exact ih S deleted hrest
    | true =>
      have hacc : accepts env pattern k = true := by simp [accepts, hb]
      simp only [deletePatternKeys, hb, List.filter_cons, hacc, Delete_ok, if_true]
      rw [ih _ _ hrest, List.filter_filter]
      simp only [List.append_assoc, List.singleton_append, List.mem_cons, not_or]
      congr 3
      apply List.filter_congr
      intro x _
      by_cases h1 : x = k <;> by_cases h2 : x ∈ List.filter (accepts env pattern) rest <;>
        simp [h1, h2]

/-- The candidates of the next page during a sweep: when the keys `pre` have been swept
(some of them deleted) and the cursor is the last of them, the keys after the cursor are
exactly the keys `post` still to sweep. -/
theorem keysAfter_swept (keep : GoString → Bool) (pre post : List GoString)
    (hs : (pre ++ post).Sorted (· < ·))
    (hsent : pre ≠ [] → pre.getLast?.getD [] ≠ []) :
    keysAfter (pre.filter keep ++ post) (pre.getLast?.getD []) = post := by
  cases hlast : pre.getLast? with
  | none =>
    have hpre : pre = [] := List.getLast?_eq_none_iff.mp hlast
    subst hpre
    simp [keysAfter]
  | some a =>
    have hprene : pre ≠ [] := by
      intro h0
      rw [h0] at hlast
      cases hlast
    have ha : a ≠ [] := by
      have := hsent hprene
      rw [hlast] at this
      exact this
    have hpw := List.pairwise_append.mp hs
    simp only [Option.getD_some, keysAfter, if_neg ha, List.filter_append]
    have h1 : (pre.filter keep).filter (fun k => decide (a < k)) = [] := by
      apply List.filter_eq_nil_iff.mpr
      intro x hx
      have hxpre : x ∈ pre := (List.mem_filter.mp hx).1
      have := le_getLast_of_sorted pre hpw.1 a x hlast hxpre
      simp [not_lt.mpr this]
    have h2 : post.filter (fun k => decide (a < k)) = post := by
      apply List.filter_eq_self.mpr
      intro x hx
      exact decide_eq_true (hpw.2.2 a (List.mem_of_mem_getLast? hlast) x hx)
    rw [h1, h2, List.nil_append]

/-- The store after one page of a sweep. -/
theorem swept_store_step (acc : GoString → Bool) (pre pg dr : List GoString)
    (hs : (pg ++ dr).Sorted (· < ·)) :
    (pre.filter (fun k => !acc k) ++ (pg ++ dr)).filter
        (fun x => decide (x ∉ pg.filter acc))
      = (pre ++ pg).filter (fun k => !acc k) ++ dr := by
  have hpw := List.pairwise_append.mp hs
  rw [List.filter_append, List.filter_append, List.filter_append]
  have h1 : (pre.filter (fun k => !acc k)).filter (fun x => decide (x ∉ pg.filter acc))
      = pre.filter (fun k => !acc k) := by
    apply List.filter_eq_self.mpr
    intro x hx
    have hnot : (!acc x) = true := (List.mem_filter.mp hx).2
    apply decide_eq_true
    intro hmem
    have : acc x = true := (List.mem_filter.mp hmem).2
    rw [this] at hnot
    cases hnot
  have h2 : pg.filter (fun x => decide (x ∉ pg.filter acc)) = pg.filter (fun k => !acc k) := by
    apply List.filter_congr
    intro x hx
    cases hacc : acc x with
    | false => simp [List.mem_filter, hacc]
    | true => simp [List.mem_filter, hacc, hx]
  have h3 : dr.filter (fun x => decide (x ∉ pg.filter acc)) = dr := by
    apply List.filter_eq_self.mpr
    intro x hx
    apply decide_eq_true
    intro hmem
    have hxpg : x ∈ pg := (List.mem_filter.mp hmem).1
    exact absurd (hpw.2.2 x hxpg x hx) (lt_irrefl x)
  rw [h1, h2, h3, List.append_assoc]

theorem getLast?_append_of_ne_nil (pre pg : List GoString) (h : pg ≠ []) :
    (pre ++ pg).getLast? = pg.getLast? := by
  cases pg with
  | nil => exact absurd rfl h
  | cons a t =>
    rw [List.getLast?_append, List.getLast?_cons]
    rfl

/-- The sweep on a store without failures, from any page boundary: `pre` are the keys
already swept, `post` the keys still to sweep. -/
theorem deletePatternLoop_ok (env : Env) (pattern : GoString) (pageSize : Int)
    (hsize : 2 ≤ pageSize) :
    ∀ (fuel : Nat) (pre post : List GoString),
      (pre ++ post).Sorted (· < ·) →
      (∀ k ∈ pre ++ post, ∃ b, matchPattern env pattern k = .ok b) →
      (pre ≠ [] → pre.getLast?.getD [] ≠ []) →
      post.length < fuel →
      deletePatternLoop env pattern pageSize fuel
          ⟨pre.filter (fun k => !accepts env pattern k) ++ post, []⟩
          (pre.getLast?.getD []) (pre.filter (accepts env pattern)) =
        some (⟨pattern, (pre ++ post).filter (accepts env pattern), none⟩,
          ⟨(pre ++ post).filter (fun k => !accepts env pattern k), []⟩) := by
  intro fuel
  induction fuel with
  | zero => intro pre post _ _ _ h; omega
  | succ fuel ih =>
    intro pre post hs hval hsent hfuel
    have hpw := List.pairwise_append.mp hs
    have hsub : (pre.filter (fun k => !accepts env pattern k) ++ post).Sublist (pre ++ post) :=
      List.Sublist.append (List.filter_sublist _) (List.Sublist.refl _)
    have hS : (pre.filter (fun k => !accepts env pattern k) ++ post).Sorted (· < ·) :=
      List.Pairwise.sublist hsub hs
    have hpage := ListKeysPage_eq _ (pre.getLast?.getD []) pageSize hS (by omega)
    rw [keysAfter_swept _ pre post hs hsent] at hpage
    have hsplit := List.take_append_drop pageSize.toNat post
    have hvalpg : ∀ k ∈ post.take pageSize.toNat, ∃ b, matchPattern env pattern k = .ok b :=
      fun k hk => hval k (List.mem_append_right _ (List.mem_of_mem_take hk))
    have hkeys := deletePatternKeys_ok env pattern (post.take pageSize.toNat)
      (pre.filter (fun k => !accepts env pattern k) ++ post)
      (pre.filter (accepts env pattern)) hvalpg
    have hstore : (pre.filter (fun k => !accepts env pattern k) ++ post).filter
        (fun x => decide (x ∉ (post.take pageSize.toNat).filter (accepts env pattern)))
        = (pre ++ post.take pageSize.toNat).filter (fun k => !accepts env pattern k)
          ++ post.drop pageSize.toNat := by
      have hs2 : (post.take pageSize.toNat ++ post.drop pageSize.toNat).Sorted (· < ·) := by
        rw [hsplit]; exact hpw.2.1
      have := swept_store_step (accepts env pattern) pre (post.take pageSize.toNat)
        (post.drop pageSize.toNat) hs2
      rw [hsplit] at this
      exact this
    rw [hstore, ← List.filter_append] at hkeys
    unfold deletePatternLoop
    simp only [hpage, hkeys]
    cases hd : post.drop pageSize.toNat with
    | nil =>
      have hall : post.take pageSize.toNat = post := by
        rw [hd, List.append_nil] at hsplit
        exact hsplit
      try rw [hd]
      simp only [List.isEmpty_nil, Bool.not_true, Bool.not_false, Bool.true_or, if_true,
        hall, List.append_nil]
    | cons x dr =>
      have hlen : pageSize.toNat < post.length := by
        by_contra hcon
        have := List.drop_eq_nil_of_le (Nat.le_of_not_lt hcon)
        rw [this] at hd
        cases hd
      have hpgne : post.take pageSize.toNat ≠ [] := by
        intro h0
        have := congrArg List.length h0
        simp only [List.length_take, List.length_nil] at this
        omega
      have hlast : (pre ++ post.take pageSize.toNat).getLast?
          = (post.take pageSize.toNat).getLast? :=
        getLast?_append_of_ne_nil pre _ hpgne
      have hsent2 : pre ++ post.take pageSize.toNat ≠ [] →
          (pre ++ post.take pageSize.toNat).getLast?.getD [] ≠ [] := by
        intro _
        rw [hlast, List.getLast?_eq_getLast _ hpgne]
        exact last_ne_nil_of_two post pageSize.toNat _ hpw.2.1 (by omega) (by omega)
          (List.getLast?_eq_getLast _ hpgne)
      have hs3 : (pre ++ post.take pageSize.toNat ++ post.drop pageSize.toNat).Sorted
          (· < ·) := by
        rw [List.append_assoc, hsplit]; exact hs
      have hval3 : ∀ k ∈ pre ++ post.take pageSize.toNat ++ post.drop pageSize.toNat,
          ∃ b, matchPattern env pattern k = .ok b := by
        rw [List.append_assoc, hsplit]; exact hval
      have hfuel3 : (post.drop pageSize.toNat).length < fuel := by
        rw [List.length_drop]; omega
      have hrec := ih (pre ++ post.take pageSize.toNat) (post.drop pageSize.toNat)
        hs3 hval3 hsent2 hfuel3
      rw [hlast, List.append_assoc, hsplit, hd] at hrec
      have hlen0 : (post.take pageSize.toNat).length ≠ 0 := by
        intro h0
        exact hpgne (List.length_eq_zero.mp h0)
      try rw [hd]
      rw [decide_eq_false hlen0]
      simp only [List.isEmpty_cons, Bool.not_false, Bool.not_true, Bool.or_self,
        Bool.false_eq_true, if_false]
      exact hrec

/-- C9: on a keyspace in store order, for a pattern on which `matchPattern` returns without
error, and when no store call fails, `deletePatternCmd` returns (within one page listing
more than there are keys) the list of exactly the keys `matchPattern` accepts, in store
order, and no error; the store then holds exactly the keys not accepted; and `Update`
reports the length of that list as the count of deleted records. -/
theorem deletePatternCmd_exact (env : Env) (pattern : GoString) (ks : List GoString)
    (fuel : Nat) (m : Model)
    (hs : ks.Sorted (· < ·))
    (hvalid : ∀ k ∈ ks, ∃ b, matchPattern env pattern k = .ok b)
    (hfuel : ks.length < fuel) :
    deletePatternCmd env fuel ⟨ks, []⟩ pattern =
      some (⟨pattern, ks.filter (accepts env pattern), none⟩,
        ⟨ks.filter (fun k => !accepts env pattern k), []⟩) ∧
    (ks.filter (accepts env pattern) ≠ [] →
      (updateDeletePatternResultMsg env m
          ⟨pattern, ks.filter (accepts env pattern), none⟩).status =
        env.okStyle ("Deleted " ++ toString (ks.filter (accepts env pattern)).length
          ++ " records (pattern: " ++ goText pattern ++ ").")) := by
  constructor
  · have h := deletePatternLoop_ok env pattern 1000 (by omega) fuel [] ks
      (by simpa using hs) (by simpa using hvalid) (fun h => absurd rfl h) hfuel
    simpa [deletePatternCmd] using h
  · intro hne
    have hlen : (ks.filter (accepts env pattern)).length ≠ 0 :=
      fun h0 => hne (List.length_eq_zero.mp h0)
    simp only [updateDeletePatternResultMsg, hlen, if_false]

/-- C9 at the claim's example: keys `rec:1`, `rec:2`, `other:1` and pattern `rec:*`. -/
theorem deletePatternCmd_exact_witness :
    [str "other:1", str "rec:1", str "rec:2"].Sorted (· < ·) ∧
    (∀ k ∈ [str "other:1", str "rec:1", str "rec:2"],
      ∃ b, matchPattern sampleEnv (str "rec:*") k = .ok b) ∧
    [str "other:1", str "rec:1", str "rec:2"].length < 4 ∧
    deletePatternCmd sampleEnv 4 ⟨[str "other:1", str "rec:1", str "rec:2"], []⟩ (str "rec:*")
      = some (⟨str "rec:*", [str "rec:1", str "rec:2"], none⟩, ⟨[str "other:1"], []⟩) ∧
    (updateDeletePatternResultMsg sampleEnv (sampleModel .fmtJSON)
        ⟨str "rec:*", [str "rec:1", str "rec:2"], none⟩).status
      = "Deleted 2 records (pattern: rec:*)." ∧
    deletePatternCmd sampleEnv 4 ⟨[str "other:1", str "rec:1", str "rec:2"], []⟩ (str "rec:*")
      = some (⟨str "rec:*",
          [str "other:1", str "rec:1", str "rec:2"].filter (accepts sampleEnv (str "rec:*")),
          none⟩,
        ⟨[str "other:1", str "rec:1", str "rec:2"].filter
          (fun k => !accepts sampleEnv (str "rec:*") k), []⟩) :=
  ⟨by decide, fun _ _ => ⟨_, rfl⟩, by decide, by decide, by decide,
    (deletePatternCmd_exact sampleEnv (str "rec:*")
      [str "other:1", str "rec:1", str "rec:2"] 4 (sampleModel .fmtJSON)
      (by decide) (fun _ _ => ⟨_, rfl⟩) (by decide)).1⟩

/-! ## Pattern delete with failures: proofs -/

theorem nextOutcome_keys (s : Store) : s.nextOutcome.2.keys = s.keys := by
  unfold Store.nextOutcome
  cases s.faults <;> rfl

theorem ListKeysPage_keys (s : Store) (startAfter : GoString) (limit : Int) :
    (ListKeysPage s startAfter limit).2.keys = s.keys := by
  unfold ListKeysPage
  split
  · rfl
  · have hk := nextOutcome_keys s
    cases hno : s.nextOutcome with
    | mk o s1 =>
      rw [hno] at hk
      cases o <;> exact hk

theorem Delete_sublist (s : Store) (k : GoString) : (Delete s k).2.keys.Sublist s.keys := by
  unfold Delete
  have hk := nextOutcome_keys s
  cases hno : s.nextOutcome with
  | mk o s1 =>
    rw [hno] at hk
    cases o with
    | none =>
      simp only
      rw [← hk]
      exact List.filter_sublist _
    | some e =>
      simp only
      rw [← hk]

theorem deletePatternKeys_sublist (env : Env) (pattern : GoString) :
    ∀ (pg : List GoString) (s : Store) (deleted : List GoString),
      (deletePatternKeys env pattern pg s deleted).2.2.keys.Sublist s.keys := by
  intro pg
  induction pg with
  | nil => intro s deleted; exact List.Sublist.refl _
  | cons k rest ih =>
    intro s deleted
    unfold deletePatternKeys
    cases hm : matchPattern env pattern k with
    | error e => exact List.Sublist.refl _
    | ok b =>
      cases b with
      | false => exact ih s deleted
      | true =>
        have hd := Delete_sublist s k
        cases hdel : Delete s k with
        | mk o s1 =>
          rw [hdel] at hd
          cases o with
          | some e => exact hd
          | none => exact (ih s1 (deleted ++ [k])).trans hd

theorem deletePatternLoop_error (env : Env) (pattern : GoString) (pageSize : Int) :
    ∀ (fuel : Nat) (s : Store) (startAfter : GoString) (deleted : List GoString)
      (msg : deletePatternResultMsg) (s' : Store),
      deletePatternLoop env pattern pageSize fuel s startAfter deleted = some (msg, s') →
      msg.pattern = pattern ∧ (msg.err ≠ none → msg.keys = []) ∧ s'.keys.Sublist s.keys := by
  intro fuel
  induction fuel with
  | zero => intro s a deleted msg s' h; cases h
  | succ fuel ih =>
    intro s a deleted msg s' h
    unfold deletePatternLoop at h
    have hpk := ListKeysPage_keys s a pageSize
    cases hperr : (ListKeysPage s a pageSize).1.err with
    | some e =>
      simp only [hperr] at h
      cases h
      exact ⟨rfl, fun _ => rfl, by rw [hpk]⟩
    | none =>
      simp only [hperr] at h
      have hsub := deletePatternKeys_sublist env pattern (ListKeysPage s a pageSize).1.keys
        (ListKeysPage s a pageSize).2 deleted
      cases hk : deletePatternKeys env pattern (ListKeysPage s a pageSize).1.keys
          (ListKeysPage s a pageSize).2 deleted with
      | mk o rest =>
        cases rest with
        | mk deleted2 s2 =>
          rw [hk] at h hsub
          rw [hpk] at hsub
          cases o with
          | some e =>
            simp only at h
            cases h
            exact ⟨rfl, fun _ => rfl, hsub⟩
          | none =>
            simp only at h
            split at h
            · cases h
              exact ⟨rfl, fun hne => absurd rfl hne, hsub⟩
            · obtain ⟨h1, h2, h3⟩ := ih s2 _ deleted2 msg s' h
              exact ⟨h1, h2, h3.trans hsub⟩

/-- C10 as stated fails: with the keys `rec:1`, `rec:2`, `rec:3` and the pattern `rec:*`, a
`Delete` that fails after one key has been deleted and a `Delete` that fails after two keys
have been deleted give the same error result (no deleted key listed) and the same status
line, so neither includes the count of deletions already completed. -/
theorem deletePattern_count_counterexample :
    deletePatternCmd sampleEnv 4
        ⟨[str "rec:1", str "rec:2", str "rec:3"], [none, none, some "disk full"]⟩
        (str "rec:*")
      = some (⟨str "rec:*", [], some "disk full"⟩, ⟨[str "rec:2", str "rec:3"], []⟩) ∧
    deletePatternCmd sampleEnv 4
        ⟨[str "rec:1", str "rec:2", str "rec:3"], [none, none, none, some "disk full"]⟩
        (str "rec:*")
      = some (⟨str "rec:*", [], some "disk full"⟩, ⟨[str "rec:3"], []⟩) ∧
    (updateDeletePatternResultMsg sampleEnv (sampleModel .fmtJSON)
        ⟨str "rec:*", [], some "disk full"⟩).status
      = "Error: pattern delete failed: disk full" := by
  decide

/-- Every error result of `deletePatternCmd`, whatever the failures of the store or of the
pattern and however many keys were deleted before, carries the pattern and the error only
(its list of deleted keys is empty), the status `Update` shows for it is
`Error: pattern delete failed: ` followed by the error, and the store keeps a sub-list of
the keys it had. -/
theorem deletePattern_partial_failure (env : Env) (fuel : Nat) (store store' : Store)
    (pattern : GoString) (msg : deletePatternResultMsg) (e : String) (m : Model)
    (hrun : deletePatternCmd env fuel store pattern = some (msg, store'))
    (herr : msg.err = some e) :
    msg = ⟨pattern, [], some e⟩ ∧
    (updateDeletePatternResultMsg env m msg).status
      = env.errStyle ("Error: pattern delete failed: " ++ e) ∧
    updateDeletePatternResultMsg env m msg
      = { m with status := env.errStyle ("Error: pattern delete failed: " ++ e) } ∧
    store'.keys.Sublist store.keys := by
  obtain ⟨h1, h2, h3⟩ := deletePatternLoop_error env pattern 1000 fuel store [] [] msg store' hrun
  have hkeys : msg.keys = [] := h2 (by rw [herr]; exact Option.some_ne_none e)
  have hmsg : msg = ⟨pattern, [], some e⟩ := by
    cases msg
    simp only at h1 hkeys herr
    subst h1 hkeys herr
    rfl
  refine ⟨hmsg, ?_, ?_, h3⟩
  · simp only [updateDeletePatternResultMsg, herr]
  · simp only [updateDeletePatternResultMsg, herr]

/-- The statement `deletePattern_partial_failure` at a concrete input: the second `Delete`
fails after one key is deleted. -/
theorem deletePattern_partial_failure_witness :
    deletePatternCmd sampleEnv 4
        ⟨[str "rec:1", str "rec:2", str "rec:3"], [none, none, some "disk full"]⟩
        (str "rec:*")
      = some (⟨str "rec:*", [], some "disk full"⟩, ⟨[str "rec:2", str "rec:3"], []⟩) ∧
    (⟨str "rec:*", [], some "disk full"⟩ : deletePatternResultMsg).err = some "disk full" ∧
    ((⟨str "rec:*", [], some "disk full"⟩ : deletePatternResultMsg)
        = ⟨str "rec:*", [], some "disk full"⟩ ∧
      (updateDeletePatternResultMsg sampleEnv (sampleModel .fmtJSON)
          ⟨str "rec:*", [], some "disk full"⟩).status
        = sampleEnv.errStyle ("Error: pattern delete failed: " ++ "disk full") ∧
      updateDeletePatternResultMsg sampleEnv (sampleModel .fmtJSON)
          ⟨str "rec:*", [], some "disk full"⟩
        = { sampleModel .fmtJSON with
            status := sampleEnv.errStyle ("Error: pattern delete failed: " ++ "disk full") } ∧
      (⟨[str "rec:2", str "rec:3"], []⟩ : Store).keys.Sublist
        (⟨[str "rec:1", str "rec:2", str "rec:3"], [none, none, some "disk full"]⟩ : Store).keys) :=
  ⟨by decide, rfl,
    deletePattern_partial_failure sampleEnv 4
      ⟨[str "rec:1", str "rec:2", str "rec:3"], [none, none, some "disk full"]⟩
      ⟨[str "rec:2", str "rec:3"], []⟩ (str "rec:*") ⟨str "rec:*", [], some "disk full"⟩
      "disk full" (sampleModel .fmtJSON) (by decide) rfl⟩

/-! ## Groups: proofs -/

theorem take_indexOf_eq_takeWhile (c : Byte) :
    ∀ s : GoString, s.take (s.indexOf c) = s.takeWhile (fun x => decide (x ≠ c)) := by
  intro s
  induction s with
  | nil => rfl
  | cons a t ih =>
    by_cases h : a = c
    · subst h
      simp [List.indexOf_cons_self, List.takeWhile]
    · have h' : ¬ (a == c) = true := by simpa using h
      rw [List.indexOf_cons_ne _ h, List.take_succ_cons, ih]
      simp [List.takeWhile, h]

theorem indexByte_pos_iff (key : GoString) :
    indexByte key 58 > 0 ↔ (58 ∈ key ∧ key.head? ≠ some 58) := by
  unfold indexByte
  cases key with
  | nil => simp
  | cons a t =>
    by_cases hmem : (58 : Byte) ∈ a :: t
    · rw [if_pos hmem]
      by_cases h : a = 58
      · subst h
        simp [List.indexOf_cons_self]
      · rw [List.indexOf_cons_ne _ h]
        simp [hmem, h]
    · rw [if_neg hmem]
      simp [hmem]

/-- C13 as stated fails: the key `:x` contains `:`, the substring before its first `:` is
empty, and `keyGroup` returns the sentinel `(no prefix)` for it. -/
theorem keyGroup_leadingColon_counterexample :
    (58 : Byte) ∈ str ":x" ∧ beforeFirstColon (str ":x") = [] ∧
    keyGroup (str ":x") = str "(no prefix)" ∧
    keyGroup (str ":x") ≠ beforeFirstColon (str ":x") := by
  decide

/-- C13, amended: `keyGroup(key)` is the sentinel `(empty)` when the key is empty, the sentinel
`(no prefix)` when the key contains no `:` or starts with `:`, and otherwise exactly the
substring of the key before its first `:`. -/
theorem keyGroup_spec (key : GoString) :
    keyGroup key =
      if key = [] then str "(empty)"
      else if (58 : Byte) ∉ key ∨ key.head? = some 58 then str "(no prefix)"
      else beforeFirstColon key := by
  unfold keyGroup
  by_cases hk : key = []
  · simp [hk]
  · rw [if_neg hk, if_neg hk]
    by_cases hpos : indexByte key 58 > 0
    · rw [if_pos hpos]
      have h := (indexByte_pos_iff key).mp hpos
      rw [if_neg (by rintro (h1 | h1); exact h1 h.1; exact h.2 h1)]
      have hidx : indexByte key 58 = (key.indexOf 58 : Int) := by
        unfold indexByte
        rw [if_pos h.1]
      rw [hidx, Int.toNat_ofNat, take_indexOf_eq_takeWhile]
      rfl
    · rw [if_neg hpos]
      have h : ¬ (58 ∈ key ∧ key.head? ≠ some 58) := fun h => hpos ((indexByte_pos_iff key).mpr h)
      rw [if_pos]
      by_cases hm : (58 : Byte) ∈ key
      · right
        by_contra hh
        exact h ⟨hm, hh⟩
      · left; exact hm

theorem groupCountLess_iff (a b : groupCount) :
    groupCountLess a b = true ↔
      (a.count > b.count ∨ (a.count = b.count ∧ a.group < b.group)) := by
  unfold groupCountLess
  by_cases h : a.count = b.count
  · simp [h]
  · simp [h]

theorem groupCount_total :
    IsTotal groupCount (fun a b => groupCountLess b a = false) where
  total a b := by
    by_cases h1 : groupCountLess b a = true
    · right
      cases h2 : groupCountLess a b with
      | false => rfl
      | true =>
        rw [groupCountLess_iff] at h1 h2
        rcases h1 with h1 | ⟨h1, h1'⟩ <;> rcases h2 with h2 | ⟨h2, h2'⟩
        · omega
        · omega
        · omega
        · exact absurd h1' (lt_asymm h2')
    · left
      simpa using h1

theorem groupCount_trans :
    IsTrans groupCount (fun a b => groupCountLess b a = false) where
  trans a b c hab hbc := by
    cases hca : groupCountLess c a with
    | false => rfl
    | true =>
      have hab' : ¬ groupCountLess b a = true := by simp [hab]
      have hbc' : ¬ groupCountLess c b = true := by simp [hbc]
      rw [groupCountLess_iff] at hca hab' hbc'
      push_neg at hab' hbc'
      exfalso
      rcases hca with h | ⟨h, h'⟩
      · rcases Int.lt_trichotomy b.count a.count with h1 | h1 | h1
        · rcases Int.lt_trichotomy c.count b.count with h2 | h2 | h2
          · omega
          · omega
          · exact absurd h2 (not_lt.mpr hbc'.1)
        · have := hbc'.1
          omega
        · exact absurd h1 (not_lt.mpr hab'.1)
      · have h1 : b.count = a.count := by
          have := hab'.1
          have := hbc'.1
          omega
        have h2 : c.count = b.count := by omega
        have g1 := hab'.2 h1
        have g2 := hbc'.2 h2
        exact absurd h' (not_lt.mpr (le_trans g1 g2))

theorem groupCount_antisymm :
    IsAntisymm groupCount (fun a b => groupCountLess b a = false) where
  antisymm a b hab hba := by
    have hab' : ¬ groupCountLess b a = true := by simp [hab]
    have hba' : ¬ groupCountLess a b = true := by simp [hba]
    rw [groupCountLess_iff] at hab' hba'
    push_neg at hab' hba'
    have hc : a.count = b.count := by
      have := hab'.1
      have := hba'.1
      omega
    have hg : a.group = b.group := le_antisymm (hab'.2 hc.symm) (hba'.2 hc)
    cases a
    cases b
    simp only at hc hg
    rw [hc, hg]

theorem sortSlice_groupCount (out : List groupCount)
    (hnodup : (out.map groupCount.group).Nodup) :
    (sortSlice groupCountLess out).Perm out ∧
    (sortSlice groupCountLess out).Pairwise
      (fun a b => a.count > b.count ∨ (a.count = b.count ∧ a.group < b.group)) := by
  haveI := groupCount_total
  haveI := groupCount_trans
  have hperm : (sortSlice groupCountLess out).Perm out := List.perm_insertionSort _ out
  refine ⟨hperm, ?_⟩
  have hsorted : (sortSlice groupCountLess out).Pairwise
      (fun a b => groupCountLess b a = false) := List.sorted_insertionSort _ out
  have hnd : ((sortSlice groupCountLess out).map groupCount.group).Nodup :=
    (hperm.map groupCount.group).nodup_iff.mpr hnodup
  have hne : (sortSlice groupCountLess out).Pairwise (fun a b => a.group ≠ b.group) := by
    rw [List.Nodup, List.pairwise_map] at hnd
    exact hnd
  refine (hsorted.and hne).imp ?_
  rintro a b ⟨hba, hg⟩
  have hba' : ¬ groupCountLess b a = true := by simp [hba]
  rw [groupCountLess_iff] at hba'
  push_neg at hba'
  rcases Int.lt_trichotomy b.count a.count with h | h | h
  · left; exact h
  · right
    refine ⟨h.symm, ?_⟩
    exact lt_of_le_of_ne (hba'.2 h) hg
  · exact absurd h (not_lt.mpr hba'.1)

/-- C14: for every group-count map returned by the store (its entries in whatever order
`range` visits them, the groups distinct), the list produced by `loadGroupCountsCmd` is a
rearrangement of the entries, each exactly once, ordered by descending count, entries of
equal count by ascending group label; and it carries no error. -/
theorem loadGroupCountsCmd_sorted (counts : List (GoString × Int))
    (hnodup : (counts.map Prod.fst).Nodup) :
    (loadGroupCountsCmd counts none).err = none ∧
    (loadGroupCountsCmd counts none).counts.Perm
      (counts.map (fun kv => (⟨kv.1, kv.2⟩ : groupCount))) ∧
    (loadGroupCountsCmd counts none).counts.Pairwise
      (fun a b => a.count > b.count ∨ (a.count = b.count ∧ a.group < b.group)) := by
  have hnd : ((counts.map (fun kv => (⟨kv.1, kv.2⟩ : groupCount))).map groupCount.group).Nodup := by
    rw [List.map_map]
    exact hnodup
  have h := sortSlice_groupCount _ hnd
  exact ⟨rfl, h.1, h.2⟩

/-- C14 at a concrete input: three groups, two of them with the same count. -/
theorem loadGroupCountsCmd_sorted_witness :
    ([(str "b", (1 : Int)), (str "a", 2), (str "(no prefix)", 1)].map Prod.fst).Nodup ∧
    (loadGroupCountsCmd [(str "b", 1), (str "a", 2), (str "(no prefix)", 1)] none).counts
      = [⟨str "a", 2⟩, ⟨str "(no prefix)", 1⟩, ⟨str "b", 1⟩] ∧
    (loadGroupCountsCmd [(str "b", 1), (str "a", 2), (str "(no prefix)", 1)] none).counts.Pairwise
      (fun a b => a.count > b.count ∨ (a.count = b.count ∧ a.group < b.group)) :=
  ⟨by decide, by decide,
    (loadGroupCountsCmd_sorted [(str "b", 1), (str "a", 2), (str "(no prefix)", 1)]
      (by decide)).2.2⟩

/-- C15 as stated fails: for the keys `a:1`, `a:2`, `b:1`, `noprefix` the counts are as
claimed, but the sorted output puts `(no prefix)` before `b`: the two have the same count and
`(` sorts before `b`. -/
theorem groupExample_order_counterexample :
    (GroupKeyCounts ⟨[str "a:1", str "a:2", str "b:1", str "noprefix"], []⟩).1
      = ([(str "a", 2), (str "b", 1), (str "(no prefix)", 1)], none) ∧
    (loadGroupCountsCmd [(str "a", 2), (str "b", 1), (str "(no prefix)", 1)] none).counts
      = [⟨str "a", 2⟩, ⟨str "(no prefix)", 1⟩, ⟨str "b", 1⟩] ∧
    (loadGroupCountsCmd [(str "a", 2), (str "b", 1), (str "(no prefix)", 1)] none).counts
      ≠ [⟨str "a", 2⟩, ⟨str "b", 1⟩, ⟨str "(no prefix)", 1⟩] := by
  decide

/-- C15, amended: for the keys `a:1`, `a:2`, `b:1`, `noprefix`, grouping with `keyGroup` gives
the counts `a: 2`, `b: 1`, `(no prefix): 1`, and whatever the order in which the map is
visited the sorted output of `loadGroupCountsCmd` is `[(a, 2), ((no prefix), 1), (b, 1)]`,
in that order. -/
theorem groupExample_sorted :
    (GroupKeyCounts ⟨[str "a:1", str "a:2", str "b:1", str "noprefix"], []⟩).1
      = ([(str "a", 2), (str "b", 1), (str "(no prefix)", 1)], none) ∧
    ∀ counts : List (GoString × Int),
      counts.Perm [(str "a", 2), (str "b", 1), (str "(no prefix)", 1)] →
      loadGroupCountsCmd counts none
        = ⟨[⟨str "a", 2⟩, ⟨str "(no prefix)", 1⟩, ⟨str "b", 1⟩], none⟩ := by
  haveI := groupCount_total
  haveI := groupCount_trans
  haveI := groupCount_antisymm
  refine ⟨by decide, ?_⟩
  intro counts hperm
  have h1 : (sortSlice groupCountLess (counts.map (fun kv => (⟨kv.1, kv.2⟩ : groupCount)))).Perm
      [⟨str "a", 2⟩, ⟨str "(no prefix)", 1⟩, ⟨str "b", 1⟩] := by
    refine (List.perm_insertionSort _ _).trans ?_
    refine (hperm.map _).trans ?_
    decide
  have h2 : (sortSlice groupCountLess (counts.map (fun kv => (⟨kv.1, kv.2⟩ : groupCount)))).Sorted
      (fun a b => groupCountLess b a = false) := List.sorted_insertionSort _ _
  have h3 : ([⟨str "a", 2⟩, ⟨str "(no prefix)", 1⟩, ⟨str "b", 1⟩] : List groupCount).Sorted
      (fun a b => groupCountLess b a = false) := by
    decide
  have heq := List.eq_of_perm_of_sorted h1 h2 h3
  simp only [loadGroupCountsCmd, heq]

/-! ## Fuzzy matching: greedy completeness, case, counting -/

theorem fuzzyMatchLoop_false (simpleFold : Rune → Rune) (fuel : Nat) (pattern : List Rune) :
    ∀ (target : List Rune) (pi : Nat), pi < pattern.length →
      fuzzyMatchLoop simpleFold fuel pattern target pi = some false →
      ¬ FoldSubseq (fun t p => equalFold simpleFold fuel t p = some true)
        (pattern.drop pi) target := by
  intro target
  induction target with
  | nil =>
    intro pi hpi _
    rw [List.drop_eq_getElem_cons hpi]
    exact foldSubseq_nil_right _ _ _
  | cons r rest ih =>
    intro pi hpi hloop
    have hget : pattern[pi]? = some pattern[pi] := List.getElem?_eq_getElem hpi
    have hdrop := List.drop_eq_getElem_cons hpi
    unfold fuzzyMatchLoop at hloop
    rw [hget] at hloop
    rw [hdrop]
    cases hef : equalFold simpleFold fuel r pattern[pi] with
    | none => simp [hef] at hloop
    | some v =>
      cases v with
      | true =>
        have hrel : (fun t p => equalFold simpleFold fuel t p = some true) r pattern[pi] := hef
        rw [foldSubseq_cons_of_rel _ _ _ _ _ hrel]
        by_cases hlast : pi + 1 = pattern.length
        · simp [hef, hlast] at hloop
        · simp only [hef, hlast, if_false] at hloop
          exact ih (pi + 1) (by omega) hloop
      | false =>
        have hrel : ¬ (fun t p => equalFold simpleFold fuel t p = some true) r pattern[pi] := by
          simp [hef]
        rw [foldSubseq_cons_of_not_rel _ _ _ _ _ hrel, ← hdrop]
        simp only [hef] at hloop
        exact ih pi hpi hloop

theorem fuzzyMatch_false (simpleFold : Rune → Rune) (fuel : Nat) (pattern target : List Rune)
    (h : fuzzyMatch simpleFold fuel pattern target = some false) :
    ¬ FoldSubseq (fun t p => equalFold simpleFold fuel t p = some true) pattern target := by
  unfold fuzzyMatch at h
  by_cases hlen : pattern.length = 0
  · rw [if_pos hlen] at h
    cases h
  · rw [if_neg hlen] at h
    have := fuzzyMatchLoop_false simpleFold fuel pattern target 0 (by omega) h
    simpa using this

theorem fuzzyMatch_true_of_subseq (simpleFold : Rune → Rune) (fuel : Nat)
    (pattern target : List Rune)
    (hfold : ∀ t ∈ target, ∀ p ∈ pattern, (equalFold simpleFold fuel t p).isSome = true)
    (h : FoldSubseq (fun t p => equalFold simpleFold fuel t p = some true) pattern target) :
    fuzzyMatch simpleFold fuel pattern target = some true := by
  unfold fuzzyMatch
  by_cases hlen : pattern.length = 0
  · rw [if_pos hlen]
  · rw [if_neg hlen]
    obtain ⟨b, hb, hiff⟩ :=
      fuzzyMatchLoop_spec simpleFold fuel pattern target 0 (by omega) hfold
    rw [List.drop_zero] at hiff
    rw [hb, hiff.mpr h]

/-- C17 as stated fails: there are no pattern and target such that the pattern's runes occur
in order as a case-folded subsequence of the target and `fuzzyMatch` returns false, whatever
the case-folding table. -/
theorem fuzzyMatch_false_negative_counterexample :
    ¬ ∃ (simpleFold : Rune → Rune) (fuel : Nat) (pattern target : List Rune),
      FoldSubseq (fun t p => equalFold simpleFold fuel t p = some true) pattern target ∧
      fuzzyMatch simpleFold fuel pattern target = some false := by
  rintro ⟨simpleFold, fuel, pattern, target, hsub, hfalse⟩
  exact fuzzyMatch_false simpleFold fuel pattern target hfalse hsub

/-- C17, amended: the greedy matcher produces no false negative. Whenever the pattern's runes
occur in order as a case-folded subsequence of the target, `fuzzyMatch` does not return
false, and it returns true when `equalFold` returns on the rune pairs involved. -/
theorem fuzzyMatch_no_false_negative (simpleFold : Rune → Rune) (fuel : Nat)
    (pattern target : List Rune)
    (h : FoldSubseq (fun t p => equalFold simpleFold fuel t p = some true) pattern target) :
    fuzzyMatch simpleFold fuel pattern target ≠ some false ∧
    ((∀ t ∈ target, ∀ p ∈ pattern, (equalFold simpleFold fuel t p).isSome = true) →
      fuzzyMatch simpleFold fuel pattern target = some true) :=
  ⟨fun hfalse => fuzzyMatch_false simpleFold fuel pattern target hfalse h,
    fun hfold => fuzzyMatch_true_of_subseq simpleFold fuel pattern target hfold h⟩

/-- C17, amended, at a concrete input: pattern `aa`, target `aba`; the first `a` of the
target is consumed greedily and the match still succeeds. -/
theorem fuzzyMatch_no_false_negative_witness :
    FoldSubseq (fun t p => equalFold sampleFold 8 t p = some true) [97, 97] [65, 98, 97] ∧
    fuzzyMatch sampleFold 8 [97, 97] [65, 98, 97] = some true ∧
    fuzzyMatch sampleFold 8 [97, 97] [65, 98, 97] ≠ some false :=
  ⟨⟨[65, 97], List.Sublist.cons₂ _ (List.Sublist.cons _ (List.Sublist.cons₂ _ List.Sublist.slnil)),
      List.Forall₂.cons (by decide) (List.Forall₂.cons (by decide) List.Forall₂.nil)⟩,
    by decide,
    (fuzzyMatch_no_false_negative sampleFold 8 [97, 97] [65, 98, 97]
      ⟨[65, 97],
        List.Sublist.cons₂ _ (List.Sublist.cons _ (List.Sublist.cons₂ _ List.Sublist.slnil)),
        List.Forall₂.cons (by decide) (List.Forall₂.cons (by decide) List.Forall₂.nil)⟩).1⟩

theorem equalFold_ascii (simpleFold : Rune → Rune) (fuel : Nat) (t q : Nat)
    (ht : t < 128) (hq : q < 128) :
    equalFold simpleFold fuel t q = some (asciiFoldEq t q) := by
  unfold equalFold asciiFoldEq
  by_cases h1 : t = q
  · simp [h1]
  · rw [if_neg h1]
    by_cases h2 : t < q
    · rw [if_pos h2]
      unfold equalFoldOrdered RuneSelf
      rw [if_pos (by (try unfold Rune at *); omega)]
      by_cases h3 : 65 ≤ t ∧ t ≤ 90 ∧ q = t + 97 - 65
      · rw [if_pos h3]
        congr 1
        symm
        apply decide_eq_true
        right; left
        (try unfold Rune at *)
        omega
      · rw [if_neg h3]
        congr 1
        symm
        apply decide_eq_false
        (try unfold Rune at *)
        omega
    · rw [if_neg h2]
      unfold equalFoldOrdered RuneSelf
      rw [if_pos (by (try unfold Rune at *); omega)]
      by_cases h3 : 65 ≤ q ∧ q ≤ 90 ∧ t = q + 97 - 65
      · rw [if_pos h3]
        congr 1
        symm
        apply decide_eq_true
        right; right
        (try unfold Rune at *)
        omega
      · rw [if_neg h3]
        congr 1
        symm
        apply decide_eq_false
        (try unfold Rune at *)
        omega

theorem asciiFoldEq_case (t q : Nat) :
    asciiFoldEq (asciiUpperRune t) (asciiLowerRune q) = asciiFoldEq t q := by
  unfold asciiFoldEq
  rw [decide_eq_decide]
  unfold asciiUpperRune asciiLowerRune
  split_ifs <;> (try unfold Rune at *) <;> omega

theorem asciiCase_lt (r : Nat) (h : r < 128) :
    asciiUpperRune r < 128 ∧ asciiLowerRune r < 128 := by
  unfold asciiUpperRune asciiLowerRune
  constructor <;> split_ifs <;> (try unfold Rune at *) <;> omega

/-- The loop depends on the runes only through `equalFold`. -/
theorem fuzzyMatchLoop_map (simpleFold : Rune → Rune) (fuel : Nat) (f g : Rune → Rune)
    (pattern : List Rune) :
    ∀ (target : List Rune) (pi : Nat),
      (∀ t ∈ target, ∀ p ∈ pattern,
        equalFold simpleFold fuel (f t) (g p) = equalFold simpleFold fuel t p) →
      fuzzyMatchLoop simpleFold fuel (pattern.map g) (target.map f) pi
        = fuzzyMatchLoop simpleFold fuel pattern target pi := by
  intro target
  induction target with
  | nil => intro pi _; rfl
  | cons r rest ih =>
    intro pi h
    have hrest : ∀ t ∈ rest, ∀ p ∈ pattern,
        equalFold simpleFold fuel (f t) (g p) = equalFold simpleFold fuel t p :=
      fun t ht p hp => h t (List.mem_cons_of_mem _ ht) p hp
    simp only [List.map_cons]
    unfold fuzzyMatchLoop
    rw [List.getElem?_map]
    cases hget : pattern[pi]? with
    | none => rfl
    | some p =>
      have hp : p ∈ pattern := List.getElem?_mem hget
      simp only [Option.map_some', h r (List.mem_cons_self _ _) p hp, List.length_map,
        ih _ hrest]

/-- C16 as stated fails: the dotless i (U+0131) matches itself, but its upper-case form is
`I`, which simple case folding does not put in one class with it (the class of `I` is
`I`, `i`), so the pattern `ı` no longer matches the upper-cased key. -/
theorem fuzzyMatch_case_counterexample :
    ([0x131] : List Rune) ≠ [] ∧
    fuzzyMatch sampleFold 8 [0x131] [0x131] = some true ∧
    fuzzyMatch sampleFold 8 ([0x131].map asciiLowerRune) ([0x131].map sampleUpper)
      = some false := by
  decide

/-- Case-insensitivity on ASCII: for every pattern and key made of ASCII runes, `fuzzyMatch`
returns, and `fuzzyMatch(p, k)` equals `fuzzyMatch(lower(p), upper(k))`, where `lower` and
`upper` map each rune to its lower-case and upper-case form; this holds whatever the
case-folding table. -/
theorem fuzzyMatch_ascii_case_insensitive (simpleFold : Rune → Rune) (fuel : Nat)
    (p k : List Rune) (hp : ∀ r ∈ p, r < 128) (hk : ∀ r ∈ k, r < 128) :
    (∃ b, fuzzyMatch simpleFold fuel p k = some b) ∧
    fuzzyMatch simpleFold fuel p k
      = fuzzyMatch simpleFold fuel (p.map asciiLowerRune) (k.map asciiUpperRune) := by
  constructor
  · by_cases hlen : p.length = 0
    · exact ⟨true, by simp [fuzzyMatch, hlen]⟩
    · obtain ⟨b, hb, _⟩ := fuzzyMatchLoop_spec simpleFold fuel p k 0 (by omega)
        (fun t ht q hq => by rw [equalFold_ascii simpleFold fuel t q (hk t ht) (hp q hq)]; rfl)
      exact ⟨b, by simp [fuzzyMatch, hlen, hb]⟩
  · unfold fuzzyMatch
    rw [List.length_map]
    by_cases hlen : p.length = 0
    · rw [if_pos hlen, if_pos hlen]
    · rw [if_neg hlen, if_neg hlen]
      symm
      apply fuzzyMatchLoop_map
      intro t ht q hq
      rw [equalFold_ascii simpleFold fuel t q (hk t ht) (hp q hq),
        equalFold_ascii simpleFold fuel _ _ (asciiCase_lt t (hk t ht)).1
          (asciiCase_lt q (hp q hq)).2,
        asciiFoldEq_case]

/-- The statement `fuzzyMatch_ascii_case_insensitive` at a concrete input: pattern `Ka`, key
`xkxA`. -/
theorem fuzzyMatch_ascii_case_insensitive_witness :
    (∀ r ∈ [75, 97], r < 128) ∧ (∀ r ∈ [120, 107, 120, 65], r < 128) ∧
    fuzzyMatch sampleFold 8 [75, 97] [120, 107, 120, 65] = some true ∧
    fuzzyMatch sampleFold 8 ([75, 97].map asciiLowerRune) ([120, 107, 120, 65].map asciiUpperRune)
      = some true ∧
    fuzzyMatch sampleFold 8 [75, 97] [120, 107, 120, 65]
      = fuzzyMatch sampleFold 8 ([75, 97].map asciiLowerRune)
          ([120, 107, 120, 65].map asciiUpperRune) :=
  ⟨by decide, by decide, by decide, by decide,
    (fuzzyMatch_ascii_case_insensitive sampleFold 8 [75, 97] [120, 107, 120, 65]
      (by decide) (by decide)).2⟩

/-- C16, amended: for every pattern `p` and key `k` whose runes keep their case-folding
class under the case mappings, that is `equalFold(upper(t), lower(q)) = equalFold(t, q)` for
every rune `t` of `k` and `q` of `p`, `fuzzyMatch(p, k)` equals
`fuzzyMatch(lower(p), upper(k))`; `lower`, `upper` and the case-folding table are any
functions. All ASCII runes satisfy the condition (`fuzzyMatch_ascii_case_insensitive`); a
rune such as U+0131, whose upper-case form `I` lies in another folding class, does not. -/
theorem fuzzyMatch_case_insensitive (simpleFold : Rune → Rune) (fuel : Nat)
    (lower upper : Rune → Rune) (p k : List Rune)
    (hcase : ∀ t ∈ k, ∀ q ∈ p,
      equalFold simpleFold fuel (upper t) (lower q) = equalFold simpleFold fuel t q) :
    fuzzyMatch simpleFold fuel p k
      = fuzzyMatch simpleFold fuel (p.map lower) (k.map upper) := by
  unfold fuzzyMatch
  rw [List.length_map]
  by_cases hlen : p.length = 0
  · rw [if_pos hlen, if_pos hlen]
  · rw [if_neg hlen, if_neg hlen]
    exact (fuzzyMatchLoop_map simpleFold fuel upper lower p k 0 hcase).symm

/-- C16, amended, at a concrete input: pattern `Ka` and the key `x`, Kelvin sign (U+212A),
`x`, `A`, where the Kelvin sign is in the folding class of `K` and `k`. -/
theorem fuzzyMatch_case_insensitive_witness :
    (∀ t ∈ [120, 0x212A, 120, 65], ∀ q ∈ [75, 97],
      equalFold sampleFold 8 (sampleUpper t) (asciiLowerRune q) = equalFold sampleFold 8 t q) ∧
    fuzzyMatch sampleFold 8 [75, 97] [120, 0x212A, 120, 65] = some true ∧
    fuzzyMatch sampleFold 8 [75, 97] [120, 0x212A, 120, 65]
      = fuzzyMatch sampleFold 8 ([75, 97].map asciiLowerRune)
          ([120, 0x212A, 120, 65].map sampleUpper) :=
  ⟨by decide, by decide,
    fuzzyMatch_case_insensitive sampleFold 8 asciiLowerRune sampleUpper [75, 97]
      [120, 0x212A, 120, 65] (by decide)⟩

theorem countKeysLoop_eq (simpleFold : Rune → Rune) (fuel : Nat) (pr : List Rune) :
    ∀ (ks : List GoString) (count : Int),
      (∀ key ∈ ks, (fuzzyMatch simpleFold fuel pr (runesOf key)).isSome = true) →
      countKeysLoop simpleFold fuel pr ks count =
        some (count + ((ks.filter
          (fun k => decide (fuzzyMatch simpleFold fuel pr (runesOf k) = some true))).length : Int)) := by
  intro ks
  induction ks with
  | nil => intro count _; simp [countKeysLoop]
  | cons key rest ih =>
    intro count h
    have hrest : ∀ k ∈ rest, (fuzzyMatch simpleFold fuel pr (runesOf k)).isSome = true :=
      fun k hk => h k (List.mem_cons_of_mem _ hk)
    have hkey := h key (List.mem_cons_self _ _)
    unfold countKeysLoop
    cases hm : fuzzyMatch simpleFold fuel pr (runesOf key) with
    | none => rw [hm] at hkey; cases hkey
    | some b =>
      cases b with
      | true =>
        simp only [List.filter_cons, hm, decide_True, if_true, List.length_cons]
        rw [ih (count + 1) hrest]
        congr 1
        push_cast
        ring
      | false =>
        simp only [List.filter_cons, hm]
        rw [ih count hrest]
        simp

theorem trimSpace_of_whiteSpace (term : GoString) (h : IsWhiteSpace term) :
    trimSpace term = [] := by
  have := trimSpace_padded [] term [] (by simp) h ⟨[], by simp, by simp⟩
  simpa using this

/-- C18: on a store whose transaction runs, and when `fuzzyMatch` returns on every key,
`CountKeysMatching(term)` returns no error and the count 0 when the white-space-trimmed term
is empty, in particular when the term is white space only, and otherwise the number of keys
on whose runes `fuzzyMatch`, given the runes of the trimmed term, is true; the store is left
as it was. -/
theorem CountKeysMatching_spec (simpleFold : Rune → Rune) (fuel : Nat) (ks : List GoString)
    (term : GoString)
    (hret : ∀ key ∈ ks,
      (fuzzyMatch simpleFold fuel (runesOf (trimSpace term)) (runesOf key)).isSome = true) :
    CountKeysMatching simpleFold fuel ⟨ks, []⟩ term =
      some ((if trimSpace term = [] then 0
          else ((ks.filter (fun k => decide
            (fuzzyMatch simpleFold fuel (runesOf (trimSpace term)) (runesOf k) = some true))).length
              : Int), none), ⟨ks, []⟩) ∧
    (IsWhiteSpace term →
      CountKeysMatching simpleFold fuel ⟨ks, []⟩ term = some ((0, none), ⟨ks, []⟩)) := by
  constructor
  · unfold CountKeysMatching
    by_cases h : trimSpace term = []
    · rw [if_pos h, if_pos h]
    · rw [if_neg h, if_neg h]
      simp only [Store.nextOutcome]
      rw [countKeysLoop_eq simpleFold fuel _ ks 0 hret]
      simp
  · intro hws
    unfold CountKeysMatching
    rw [if_pos (trimSpace_of_whiteSpace term hws)]

/-- C18 at a concrete input: three keys and the term ` ka `, which two of them match. -/
theorem CountKeysMatching_spec_witness :
    (∀ key ∈ [str "Kab", str "b", str "xkxA"],
      (fuzzyMatch sampleFold 8 (runesOf (trimSpace (str " ka "))) (runesOf key)).isSome = true) ∧
    CountKeysMatching sampleFold 8 ⟨[str "Kab", str "b", str "xkxA"], []⟩ (str " ka ")
      = some ((2, none), ⟨[str "Kab", str "b", str "xkxA"], []⟩) ∧
    CountKeysMatching sampleFold 8 ⟨[str "Kab", str "b", str "xkxA"], []⟩ (str " ka ") =
      some ((if trimSpace (str " ka ") = [] then 0
          else (([str "Kab", str "b", str "xkxA"].filter (fun k => decide
            (fuzzyMatch sampleFold 8 (runesOf (trimSpace (str " ka "))) (runesOf k)
              = some true))).length : Int), none),
        ⟨[str "Kab", str "b", str "xkxA"], []⟩) :=
  ⟨by decide, by decide,
    (CountKeysMatching_spec sampleFold 8 [str "Kab", str "b", str "xkxA"] (str " ka ")
      (by decide)).1⟩

/-! ## Word wrap: proofs -/

theorem rowAppend_last (init : List (List Rune)) (last xs : List Rune) :
    rowAppend (init ++ [last]) init.length xs = some (init ++ [last ++ xs]) := by
  unfold rowAppend
  simp

theorem rowAppend_new (lines : List (List Rune)) (xs : List Rune) (n : Nat)
    (hn : n = lines.length) :
    rowAppend (lines ++ [[]]) n xs = some (lines ++ [xs]) := by
  subst hn
  have := rowAppend_last lines [] xs
  simpa using this

theorem wrapLoop_append (sw : List Rune → Int) (rw : Rune → Int) (width : Int)
    (p q : List Rune) (st : WrapState) :
    wrapLoop sw rw width st (p ++ q) =
      (wrapLoop sw rw width st p).bind (fun st1 => wrapLoop sw rw width st1 q) := by
  induction p generalizing st with
  | nil => simp [wrapLoop]
  | cons r p ih =>
    simp only [List.cons_append, wrapLoop]
    cases wrapStep sw rw width st r with
    | none => simp
    | some st1 => simpa using ih st1

/-- A non-space single-cell character that leaves the word shorter than the width is only
appended to the word. -/
theorem wrapStep_grow (sw : List Rune → Int) (rw : Rune → Int) (w : Nat)
    (lines : List (List Rune)) (cur : List Rune) (row : Nat) (r : Rune)
    (hns : isSpaceRune r = false) (hrw : rw r = 1)
    (hsw : sw (cur ++ [r]) = ((cur ++ [r]).length : Int)) (hlt : cur.length + 1 < w) :
    wrapStep sw rw w ⟨lines, cur, row, 0⟩ r = some ⟨lines, cur ++ [r], row, 0⟩ := by
  have hgl : (cur ++ [r]).getLast? = some r := by simp
  unfold wrapStep
  simp only [hns, Bool.false_eq_true, if_false, gt_iff_lt, lt_self_iff_false, hgl, hsw, hrw]
  rw [if_neg (by simp only [List.length_append, List.length_singleton]; push_cast; omega)]

/-- A non-space single-cell character that makes the word as long as the width flushes the
word: to a new line when the current line is not empty, to the current line otherwise. -/
theorem wrapStep_flush (sw : List Rune → Int) (rw : Rune → Int) (w : Nat)
    (init : List (List Rune)) (last cur : List Rune) (r : Rune)
    (hns : isSpaceRune r = false) (hrw : rw r = 1)
    (hsw : sw (cur ++ [r]) = ((cur ++ [r]).length : Int)) (hlt : cur.length + 1 = w) :
    wrapStep sw rw w ⟨init ++ [last], cur, init.length, 0⟩ r =
      some (if last = [] then ⟨init ++ [cur ++ [r]], [], init.length, 0⟩
        else ⟨init ++ [last] ++ [cur ++ [r]], [], init.length + 1, 0⟩) := by
  have hgl : (cur ++ [r]).getLast? = some r := by simp
  unfold wrapStep
  simp only [hns, Bool.false_eq_true, if_false, gt_iff_lt, lt_self_iff_false, hgl, hsw, hrw]
  rw [if_pos (by simp only [List.length_append, List.length_singleton]; push_cast; omega)]
  have hget : (init ++ [last])[init.length]? = some last := by simp
  simp only [hget]
  by_cases hl : last = []
  · subst hl
    simp only [List.length_nil, lt_self_iff_false, if_false, if_true]
    have := rowAppend_last init [] (cur ++ [r])
    simp only [List.nil_append] at this
    simp only [this]
  · have hpos : 0 < last.length := List.length_pos.mpr hl
    simp only [hpos, if_true, if_neg hl]
    rw [rowAppend_new (init ++ [last]) (cur ++ [r]) (init.length + 1) (by simp)]

/-- Characters that leave the word shorter than the width are collected in the word. -/
theorem wrapLoop_grow (sw : List Rune → Int) (rw : Rune → Int) (w : Nat)
    (lines : List (List Rune)) (row : Nat) (p : List Rune) :
    ∀ cur : List Rune,
    (∀ r ∈ p, isSpaceRune r = false) → (∀ r ∈ p, rw r = 1) →
    (∀ l : List Rune, (∀ r ∈ l, r ∈ cur ++ p) → sw l = (l.length : Int)) →
    cur.length + p.length < w →
    wrapLoop sw rw w ⟨lines, cur, row, 0⟩ p = some ⟨lines, cur ++ p, row, 0⟩ := by
  induction p with
  | nil => intro cur _ _ _ _; simp [wrapLoop]
  | cons r p ih =>
    intro cur hns hrw hsw hlt
    simp only [List.length_cons] at hlt
    simp only [wrapLoop]
    rw [wrapStep_grow sw rw w lines cur row r (hns r (List.mem_cons_self _ _))
      (hrw r (List.mem_cons_self _ _))
      (hsw _ (by intro x hx; simp only [List.mem_append, List.mem_singleton] at hx
                 simp only [List.mem_append, List.mem_cons]; tauto))
      (by omega)]
    simp only
    have := ih (cur ++ [r]) (fun x hx => hns x (List.mem_cons_of_mem _ hx))
      (fun x hx => hrw x (List.mem_cons_of_mem _ hx))
      (by simpa using hsw) (by simp only [List.length_append, List.length_singleton]; omega)
    simpa using this

theorem hardBreak_short (w : Nat) (l : List Rune) (h : l.length < w) :
    hardBreak w l = [l ++ [32]] := by
  unfold hardBreak
  simp [Nat.div_eq_of_lt h]

theorem hardBreak_long (w : Nat) (l : List Rune) (hw : 1 ≤ w) (h : w ≤ l.length) :
    hardBreak w l = l.take w :: hardBreak w (l.drop w) := by
  unfold hardBreak
  have hdiv : l.length / w = (l.length - w) / w + 1 := by
    have : l.length = (l.length - w) + w := by omega
    conv_lhs => rw [this]
    exact Nat.add_div_right _ (by omega)
  rw [hdiv, List.length_drop, List.range_succ_eq_map]
  simp only [List.map_cons, List.map_map, Nat.zero_mul, List.drop_zero, List.cons_append,
    List.drop_drop]
  congr 1
  congr 1
  · apply List.map_congr_left
    intro i _
    simp only [Function.comp, Nat.succ_eq_add_one]
    congr 2
    ring_nf
  · congr 2
    ring_nf

/-- The loop and the final statements on a run of non-space single-cell characters, started
with an empty word on a last line that is empty or full. -/
theorem wrapFinish_hardBreak (sw : List Rune → Int) (rw : Rune → Int) (w : Nat) (hw : 1 ≤ w)
    (C : List Rune) (hns : ∀ r ∈ C, isSpaceRune r = false) (hrw : ∀ r ∈ C, rw r = 1)
    (hsw : ∀ l : List Rune, (∀ r ∈ l, r ∈ C) → sw l = (l.length : Int)) :
    ∀ (n : Nat) (l : List Rune), l.length ≤ n → (∀ r ∈ l, r ∈ C) →
    ∀ (init : List (List Rune)) (last : List Rune), (∀ r ∈ last, r ∈ C) →
      (last = [] ∨ last.length = w) →
      (wrapLoop sw rw w ⟨init ++ [last], [], init.length, 0⟩ l).bind (wrapFinish sw w) =
        some (init ++ (if last = [] then [] else [last]) ++ hardBreak w l) := by
  intro n
  induction n with
  | zero =>
    intro l hl hC init last hlast hfull
    have : l = [] := List.length_eq_zero.mp (by omega)
    subst this
    simp only [wrapLoop, Option.some_bind]
    rw [hardBreak_short w [] (by simp; omega)]
    unfold wrapFinish
    have hget : (init ++ [last])[init.length]? = some last := by simp
    simp only [hget, hsw [] (by simp), hsw last hlast]
    rcases hfull with h | h
    · subst h
      rw [if_neg (by simp; omega)]
      simp only [rowAppend_last]
      simp [repeatSpaces]
    · have hne : last ≠ [] := by intro h0; subst h0; simp at h; omega
      rw [if_pos (by simp [h])]
      rw [rowAppend_new (init ++ [last]) [] (init.length + 1) (by simp)]
      have := rowAppend_last (init ++ [last]) [] (repeatSpaces (0 + 1))
      simp only [List.length_append, List.length_singleton] at this
      simp only [this, if_neg hne]
      simp [repeatSpaces]
  | succ n ih =>
    intro l hl hC init last hlast hfull
    by_cases hshort : l.length < w
    · rw [wrapLoop_grow sw rw w (init ++ [last]) init.length l []
        (fun r hr => hns r (hC r hr)) (fun r hr => hrw r (hC r hr))
        (fun l1 h1 => hsw l1 (fun r hr => hC r (by simpa using h1 r hr)))
        (by simpa using hshort)]
      simp only [Option.some_bind, List.nil_append]
      rw [hardBreak_short w l hshort]
      unfold wrapFinish
      have hget : (init ++ [last])[init.length]? = some last := by simp
      simp only [hget, hsw l hC, hsw last hlast]
      rcases hfull with h | h
      · subst h
        rw [if_neg (by simp; omega)]
        simp only [rowAppend_last]
        simp [repeatSpaces]
      · have hne : last ≠ [] := by intro h0; subst h0; simp at h; omega
        rw [if_pos (by simp [h])]
        rw [rowAppend_new (init ++ [last]) l (init.length + 1) (by simp)]
        have := rowAppend_last (init ++ [last]) l (repeatSpaces (0 + 1))
        simp only [List.length_append, List.length_singleton] at this
        simp only [this, if_neg hne]
        simp [repeatSpaces]
    · have hge : w ≤ l.length := by omega
      have hsplit : l = l.take (w - 1) ++ (l.get ⟨w - 1, by omega⟩ :: l.drop w) := by
        have h1 : l.drop (w - 1) = l.get ⟨w - 1, by omega⟩ :: l.drop w := by
          have := List.drop_eq_getElem_cons (l := l) (n := w - 1) (by omega)
          rw [this]
          simp only [List.get_eq_getElem]
          congr 2
          omega
        rw [← h1, List.take_append_drop]
      have htake : l.take w = l.take (w - 1) ++ [l.get ⟨w - 1, by omega⟩] := by
        have := List.take_succ (l := l) (n := w - 1)
        rw [show w - 1 + 1 = w by omega] at this
        rw [this]
        simp [List.getElem?_eq_getElem (show w - 1 < l.length by omega)]
      set p := l.take (w - 1) with hp
      set r := l.get ⟨w - 1, by omega⟩ with hr
      have hpC : ∀ x ∈ p, x ∈ C := fun x hx => hC x (List.mem_of_mem_take hx)
      have hrC : r ∈ C := hC r (List.get_mem _ _ _)
      have hplen : p.length = w - 1 := by simp [hp]; omega
      rw [hsplit, wrapLoop_append,
        wrapLoop_grow sw rw w (init ++ [last]) init.length p []
          (fun x hx => hns x (hpC x hx)) (fun x hx => hrw x (hpC x hx))
          (fun l1 h1 => hsw l1 (fun x hx => hpC x (by simpa using h1 x hx)))
          (by simp only [List.length_nil]; omega)]
      simp only [Option.some_bind, List.nil_append, wrapLoop]
      rw [wrapStep_flush sw rw w init last p r (hns r hrC) (hrw r hrC)
        (hsw _ (by intro x hx; simp only [List.mem_append, List.mem_singleton] at hx
                   rcases hx with hx | hx
                   · exact hpC x hx
                   · rw [hx]; exact hrC))
        (by omega)]
      have hfullC : ∀ x ∈ p ++ [r], x ∈ C := by
        intro x hx
        simp only [List.mem_append, List.mem_singleton] at hx
        rcases hx with hx | hx
        · exact hpC x hx
        · rw [hx]; exact hrC
      have hfulllen : (p ++ [r]).length = w := by simp [hplen]; omega
      have hne2 : p ++ [r] ≠ [] := by simp
      rw [← hsplit, hardBreak_long w l hw hge, htake]
      have hdropC : ∀ x ∈ l.drop w, x ∈ C := fun x hx => hC x (List.mem_of_mem_drop hx)
      have hdroplen : (l.drop w).length ≤ n := by simp only [List.length_drop]; omega
      by_cases hl0 : last = []
      · subst hl0
        simp only [if_true]
        have := ih (l.drop w) hdroplen hdropC init (p ++ [r]) hfullC (Or.inr hfulllen)
        rw [if_neg hne2] at this
        simpa using this
      · simp only [if_neg hl0]
        have := ih (l.drop w) hdroplen hdropC (init ++ [last]) (p ++ [r]) hfullC
          (Or.inr hfulllen)
        rw [if_neg hne2] at this
        simp only [List.length_append, List.length_singleton] at this
        simpa using this

/-- C19 as stated fails: with one cell per character, `wrapRunes` returns four visual lines
for `hello world` at width 5, not the two of the claim: the space that follows `hello` does
not fit on the first line and goes to a line of its own, and the trailing space appended after
the loop goes to a fourth line. -/
theorem wrapRunes_helloWorld_counterexample :
    wrapRunes singleCellStringWidth singleCellRuneWidth (runesOfLiteral "hello world") 5
      ≠ some [runesOfLiteral "hello", runesOfLiteral "world"] := by
  decide

/-- C19, amended: with one cell per character, wrapping `hello world` at width 5 produces
exactly the four visual lines `hello`, one space, `world`, one space. -/
theorem wrapRunes_helloWorld :
    wrapRunes singleCellStringWidth singleCellRuneWidth (runesOfLiteral "hello world") 5
      = some [runesOfLiteral "hello", runesOfLiteral " ", runesOfLiteral "world",
          runesOfLiteral " "] := by
  decide

/-- C20 as stated fails: with one cell per character, `abcdef` at width 3 gives the three
lines `abc`, `def` and one space, not `abc`, `def`; and `abcde` at width 3 gives `abc` and
`de` followed by a space, where the chunks are `abc` and `de`. -/
theorem wrapRunes_hardBreak_counterexample :
    wrapRunes singleCellStringWidth singleCellRuneWidth (runesOfLiteral "abcdef") 3
      = some [runesOfLiteral "abc", runesOfLiteral "def", runesOfLiteral " "] ∧
    wrapRunes singleCellStringWidth singleCellRuneWidth (runesOfLiteral "abcdef") 3
      ≠ some [runesOfLiteral "abc", runesOfLiteral "def"] ∧
    wrapRunes singleCellStringWidth singleCellRuneWidth (runesOfLiteral "abcde") 3
      = some [runesOfLiteral "abc", runesOfLiteral "de "] := by
  decide

/-- C20, amended: for every word without whitespace whose characters are one cell wide and
every width `w` with `1 ≤ w` smaller than the length of the word, `wrapRunes` returns the
consecutive chunks of exactly `w` characters of the word, followed by one more line that
holds the characters left over (fewer than `w`, possibly none) and one space. -/
theorem wrapRunes_hardBreak (stringWidth : List Rune → Int) (runeWidth : Rune → Int)
    (word : List Rune) (w : Nat)
    (hns : ∀ r ∈ word, isSpaceRune r = false)
    (hrw : ∀ r ∈ word, runeWidth r = 1)
    (hsw : ∀ l : List Rune, (∀ r ∈ l, r ∈ word) → stringWidth l = (l.length : Int))
    (hw : 1 ≤ w) (hlen : w < word.length) :
    wrapRunes stringWidth runeWidth word w =
      some ((List.range (word.length / w)).map (fun i => (word.drop (i * w)).take w) ++
        [word.drop (word.length / w * w) ++ [32]]) := by
  unfold wrapRunes
  rw [if_neg (by omega), if_neg (by omega)]
  have h := wrapFinish_hardBreak stringWidth runeWidth w hw word hns hrw hsw word.length word
    (le_refl _) (fun _ h => h) [] [] (by simp) (Or.inl rfl)
  simp only [List.nil_append, List.length_nil, if_true] at h
  cases hloop : wrapLoop stringWidth runeWidth w ⟨[[]], [], 0, 0⟩ word with
  | none => rw [hloop] at h; simp at h
  | some st =>
    rw [hloop] at h
    simp only [Option.some_bind] at h
    show wrapFinish stringWidth (w : Int) st = _
    rw [h]
    rfl

/-- C20 at a concrete input: `abcde` at width 3. -/
theorem wrapRunes_hardBreak_witness :
    (∀ r ∈ runesOfLiteral "abcde", isSpaceRune r = false) ∧ (1 ≤ 3 ∧ 3 < 5) ∧
    wrapRunes singleCellStringWidth singleCellRuneWidth (runesOfLiteral "abcde") 3 =
      some ((List.range (5 / 3)).map
          (fun i => ((runesOfLiteral "abcde").drop (i * 3)).take 3) ++
        [(runesOfLiteral "abcde").drop (5 / 3 * 3) ++ [32]]) :=
  ⟨by decide, by decide,
    wrapRunes_hardBreak singleCellStringWidth singleCellRuneWidth (runesOfLiteral "abcde") 3
      (by decide) (fun _ _ => rfl) (fun _ _ => rfl) (by decide) (by decide)⟩

/-! ## Go `path.Match`: the error does not depend on the name -/

theorem getEsc_length (chunk rest : GoString) (r : Rune) (h : getEsc chunk = .ok (r, rest)) :
    rest ≠ [] ∧ rest.length < chunk.length := by
  cases chunk with
  | nil => simp [getEsc] at h
  | cons c tl =>
    by_cases hc : c = 92
    · subst hc
      simp only [getEsc, if_true] at h
      split_ifs at h with h1 h2 h3 h4
      simp only [Except.ok.injEq, Prod.mk.injEq] at h
      obtain ⟨-, rfl⟩ := h
      refine ⟨fun h0 => h4 (by rw [h0]; rfl), ?_⟩
      cases tl with
      | nil => simp at h2
      | cons d tl2 =>
        have := decodeRune_pos d tl2
        simp only [List.length_drop, List.length_cons]
        omega
    · simp only [getEsc, if_neg hc] at h
      split_ifs at h with h1 h2 h3 h4
      simp only [Except.ok.injEq, Prod.mk.injEq] at h
      obtain ⟨-, rfl⟩ := h
      refine ⟨fun h0 => h4 (by rw [h0]; rfl), ?_⟩
      have := decodeRune_pos c tl
      simp only [List.length_drop, List.length_cons]
      omega

theorem scanStars_head (p : GoString) : ∀ b : Bool, (scanStars b p).2.head? ≠ some 42 := by
  induction p with
  | nil => intro b; simp [scanStars]
  | cons x xs ih =>
    intro b
    simp only [scanStars]
    split_ifs with hx
    · exact ih true
    · simpa using hx

theorem scanSplit_append_aux (n : Nat) :
    ∀ q : GoString, q.length ≤ n → ∀ b : Bool, (scanSplit b q).1 ++ (scanSplit b q).2 = q := by
  induction n with
  | zero =>
    intro q hq b
    have : q = [] := List.length_eq_zero.mp (by omega)
    subst this
    rfl
  | succ n ihn =>
    intro q hq b
    rcases q with _ | ⟨y, _ | ⟨d, q2⟩⟩
    · rfl
    · simp only [scanSplit]
      split_ifs <;> rfl
    · simp only [List.length_cons] at hq
      have h1 : ∀ b2 : Bool, (scanSplit b2 (d :: q2)).1 ++ (scanSplit b2 (d :: q2)).2 = d :: q2 :=
        fun b2 => ihn (d :: q2) (by simp only [List.length_cons]; omega) b2
      have h2 : (scanSplit b q2).1 ++ (scanSplit b q2).2 = q2 := ihn q2 (by omega) b
      simp only [scanSplit]
      split_ifs
      · simp only [List.cons_append, h2]
      · simp only [List.cons_append, h1]
      · simp only [List.cons_append, h1]
      · rfl
      · simp only [List.cons_append, h1]
      · simp only [List.cons_append, h1]

theorem scanSplit_append (q : GoString) (b : Bool) :
    (scanSplit b q).1 ++ (scanSplit b q).2 = q :=
  scanSplit_append_aux q.length q (le_refl _) b

theorem scanSplit_nil (q : GoString) (h42 : q.head? ≠ some 42)
    (h : (scanSplit false q).1 = []) : q = [] := by
  rcases q with _ | ⟨x, _ | ⟨d, q2⟩⟩
  · rfl
  · exfalso
    have hx : x ≠ 42 := by simpa using h42
    simp only [scanSplit, hx, if_false] at h
    split_ifs at h
  · exfalso
    have hx : x ≠ 42 := by simpa using h42
    simp only [scanSplit, hx, if_false] at h
    split_ifs at h

/-- A chunk scanned from a non-empty pattern leaves a shorter pattern. -/
theorem scanChunk_length (c : Byte) (p : GoString) :
    (scanChunk (c :: p)).2.2.length < (c :: p).length := by
  simp only [scanChunk]
  have happ := scanSplit_append (scanStars false (c :: p)).2 false
  have hlen := congrArg List.length happ
  simp only [List.length_append] at hlen
  by_cases hc : c = 42
  · have hst : ∀ (q : GoString) (b : Bool), (scanStars b q).2.length ≤ q.length := by
      intro q
      induction q with
      | nil => intro b; simp [scanStars]
      | cons x xs ih =>
        intro b
        simp only [scanStars]
        split_ifs
        · have := ih true
          simp only [List.length_cons]
          omega
        · simp
    have h1 : (scanStars false (c :: p)).2 = (scanStars true p).2 := by
      simp [scanStars, hc]
    have h2 := hst p true
    rw [h1] at hlen ⊢
    simp only [List.length_cons]
    omega
  · have h1 : (scanStars false (c :: p)).2 = c :: p := by
      simp [scanStars, hc]
    rw [h1] at hlen ⊢
    have hne : (scanSplit false (c :: p)).1 ≠ [] := by
      intro h0
      have := scanSplit_nil (c :: p) (by simpa using hc) h0
      cases this
    have hpos : 0 < (scanSplit false (c :: p)).1.length := List.length_pos.mpr hne
    omega

theorem matchRanges_indep (fuel : Nat) :
    ∀ (chunk : GoString) (r r2 : Rune) (m m2 : Bool) (n : Nat),
      rangesRest (matchRanges r fuel chunk m n) = rangesRest (matchRanges r2 fuel chunk m2 n) := by
  induction fuel with
  | zero => intro chunk r r2 m m2 n; rfl
  | succ fuel ih =>
    intro chunk r r2 m m2 n
    simp only [matchRanges]
    by_cases hclose : chunk.head? = some 93 ∧ n > 0
    · simp only [hclose, and_self, if_true, rangesRest]
    · rw [if_neg hclose, if_neg hclose]
      cases h1 : getEsc chunk with
      | error e => rfl
      | ok x =>
        obtain ⟨lo, chunk1⟩ := x
        simp only
        by_cases hdash : chunk1.head? = some 45
        · simp only [hdash, if_true]
          cases h2 : getEsc chunk1.tail with
          | error e => rfl
          | ok y =>
            obtain ⟨hi, chunk2⟩ := y
            exact ih chunk2 r r2 _ _ (n + 1)
        · simp only [hdash, if_false]
          exact ih chunk1 r r2 _ _ (n + 1)

theorem matchRanges_returns (fuel : Nat) :
    ∀ (chunk : GoString) (r : Rune) (m : Bool) (n : Nat), chunk.length < fuel →
      ∃ res, matchRanges r fuel chunk m n = some res ∧
        ∀ x, res = .ok x → x.2.length < chunk.length := by
  induction fuel with
  | zero => intro chunk r m n h; omega
  | succ fuel ih =>
    intro chunk r m n hlen
    simp only [matchRanges]
    by_cases hclose : chunk.head? = some 93 ∧ n > 0
    · rw [if_pos hclose]
      refine ⟨_, rfl, ?_⟩
      intro x hx
      simp only [Except.ok.injEq] at hx
      subst hx
      cases chunk with
      | nil => simp at hclose
      | cons c tl => simp
    · rw [if_neg hclose]
      cases h1 : getEsc chunk with
      | error e => exact ⟨_, rfl, fun x hx => by cases hx⟩
      | ok x =>
        obtain ⟨lo, chunk1⟩ := x
        have hl1 := (getEsc_length chunk chunk1 lo h1).2
        simp only
        by_cases hdash : chunk1.head? = some 45
        · simp only [hdash, if_true]
          cases h2 : getEsc chunk1.tail with
          | error e => exact ⟨_, rfl, fun x hx => by cases hx⟩
          | ok y =>
            obtain ⟨hi, chunk2⟩ := y
            have hl2 := (getEsc_length chunk1.tail chunk2 hi h2).2
            have ht : chunk1.tail.length ≤ chunk1.length := by simp
            obtain ⟨res, hres, hsmall⟩ := ih chunk2 r
              (m || (decide (lo ≤ r) && decide (r ≤ hi))) (n + 1) (by omega)
            exact ⟨res, hres, fun x hx => by have := hsmall x hx; omega⟩
        · simp only [hdash, if_false]
          obtain ⟨res, hres, hsmall⟩ := ih chunk1 r
            (m || (decide (lo ≤ r) && decide (r ≤ lo))) (n + 1) (by omega)
          exact ⟨res, hres, fun x hx => by have := hsmall x hx; omega⟩

theorem matchChunk_indep (fuel : Nat) :
    ∀ (chunk s s2 : GoString) (f f2 : Bool),
      patternError (matchChunk fuel chunk s f) = patternError (matchChunk fuel chunk s2 f2) := by
  induction fuel with
  | zero => intro chunk s s2 f f2; rfl
  | succ fuel ih =>
    intro chunk s s2 f f2
    cases chunk with
    | nil => simp [matchChunk, patternError]
    | cons c rest =>
      simp only [matchChunk]
      by_cases h91 : c = 91
      · simp only [h91, if_true]
        have hr := matchRanges_indep fuel
          (if decide (rest.head? = some 94) = true then rest.tail else rest)
          (if (f || decide (s.length = 0)) = true then 0 else (decodeRune s).1)
          (if (f2 || decide (s2.length = 0)) = true then 0 else (decodeRune s2).1)
          false false 0
        cases h1 : matchRanges
            (if (f || decide (s.length = 0)) = true then 0 else (decodeRune s).1) fuel
            (if decide (rest.head? = some 94) = true then rest.tail else rest) false 0 with
        | none =>
          rw [h1] at hr
          cases h2 : matchRanges
              (if (f2 || decide (s2.length = 0)) = true then 0 else (decodeRune s2).1) fuel
              (if decide (rest.head? = some 94) = true then rest.tail else rest) false 0 with
          | none => rfl
          | some y => rw [h2] at hr; cases y <;> simp [rangesRest] at hr
        | some x =>
          rw [h1] at hr
          cases h2 : matchRanges
              (if (f2 || decide (s2.length = 0)) = true then 0 else (decodeRune s2).1) fuel
              (if decide (rest.head? = some 94) = true then rest.tail else rest) false 0 with
          | none => rw [h2] at hr; cases x <;> simp [rangesRest] at hr
          | some y =>
            rw [h2] at hr
            cases x with
            | error e =>
              cases y with
              | error e2 =>
                simp only [rangesRest, Option.some.injEq, Except.error.injEq] at hr
                simp [patternError, hr]
              | ok b => simp [rangesRest] at hr
            | ok a =>
              cases y with
              | error e2 => simp [rangesRest] at hr
              | ok b =>
                simp only [rangesRest, Option.some.injEq, Except.ok.injEq] at hr
                obtain ⟨ma, ca⟩ := a
                obtain ⟨mb, cb⟩ := b
                simp only at hr
                subst hr
                exact ih ca _ _ _ _
      · simp only [h91, if_false]
        by_cases h63 : c = 63
        · simp only [h63, if_true]
          exact ih rest _ _ _ _
        · simp only [h63, if_false]
          by_cases h92 : c = 92
          · simp only [h92, if_true]
            cases rest with
            | nil => rfl
            | cons d rest1 => exact ih rest1 _ _ _ _
          · simp only [h92, if_false]
            exact ih rest _ _ _ _

theorem matchChunk_returns (fuel : Nat) :
    ∀ (chunk s : GoString) (f : Bool), chunk.length < fuel →
      ∃ res, matchChunk fuel chunk s f = some res := by
  induction fuel with
  | zero => intro chunk s f h; omega
  | succ fuel ih =>
    intro chunk s f hlen
    cases chunk with
    | nil => exact ⟨_, rfl⟩
    | cons c rest =>
      simp only [List.length_cons] at hlen
      simp only [matchChunk]
      by_cases h91 : c = 91
      · simp only [h91, if_true]
        have hc1 : (if decide (rest.head? = some 94) = true then rest.tail else rest).length
            ≤ rest.length := by
          split_ifs <;> simp
        obtain ⟨res, hres, hsmall⟩ := matchRanges_returns fuel
          (if decide (rest.head? = some 94) = true then rest.tail else rest)
          (if (f || decide (s.length = 0)) = true then 0 else (decodeRune s).1) false 0
          (by omega)
        rw [hres]
        cases res with
        | error e => exact ⟨_, rfl⟩
        | ok x =>
          obtain ⟨mx, cx⟩ := x
          have := hsmall (mx, cx) rfl
          exact ih cx _ _ (by simp only at this; omega)
      · simp only [h91, if_false]
        by_cases h63 : c = 63
        · simp only [h63, if_true]
          exact ih rest _ _ (by omega)
        · simp only [h63, if_false]
          by_cases h92 : c = 92
          · simp only [h92, if_true]
            cases rest with
            | nil => exact ⟨_, rfl⟩
            | cons d rest1 =>
              simp only [List.length_cons] at hlen
              exact ih rest1 _ _ (by omega)
          · simp only [h92, if_false]
            exact ih rest _ _ (by omega)

/-- A chunk without error gives no error in the search after a star. -/
theorem matchStar_ok (fuel : Nat) (chunk : GoString) (pe : Bool)
    (hok : patternError (matchChunk fuel chunk [] false) = some none) :
    ∀ name : GoString, ∃ x, matchStar fuel chunk pe name = some (.ok x) := by
  intro name
  induction name with
  | nil => exact ⟨none, rfl⟩
  | cons b rest ih =>
    simp only [matchStar]
    by_cases h47 : b = 47
    · exact ⟨none, by simp [h47]⟩
    · rw [if_neg h47]
      have h := matchChunk_indep fuel chunk rest [] false false
      rw [hok] at h
      cases hm : matchChunk fuel chunk rest false with
      | none => rw [hm] at h; simp [patternError] at h
      | some res =>
        cases res with
        | error e => rw [hm] at h; simp [patternError] at h
        | ok r =>
          cases r with
          | none => simpa using ih
          | some t =>
            simp only
            split_ifs
            · exact ih
            · exact ⟨some t, rfl⟩

/-- The error of `matchLoop` is the error of the first malformed chunk of the pattern,
whatever the name. -/
theorem matchLoop_error (fuel : Nat) :
    ∀ (pattern name : GoString),
      patternError (matchLoop fuel pattern name) = matchRest fuel pattern := by
  induction fuel with
  | zero =>
    intro pattern name
    cases pattern <;> rfl
  | succ fuel ih =>
    intro pattern name
    cases pattern with
    | nil => rfl
    | cons c p =>
      simp only [matchLoop, matchRest]
      by_cases htrail : ((scanChunk (c :: p)).1 && decide ((scanChunk (c :: p)).2.1 = [])) = true
      · rw [if_pos htrail]
        simp only [Bool.and_eq_true, decide_eq_true_eq] at htrail
        have hsplit : (scanChunk (c :: p)).2.2 = [] := by
          have h1 := htrail.2
          simp only [scanChunk] at h1 ⊢
          have hq := scanSplit_nil _ (scanStars_head (c :: p) false) h1
          rw [hq]
          rfl
        rw [htrail.2, hsplit]
        simp [matchChunk, patternError, matchRest]
      · rw [if_neg htrail]
        have hind := matchChunk_indep ((scanChunk (c :: p)).2.1.length + 1)
          (scanChunk (c :: p)).2.1 name [] false false
        cases hm : matchChunk ((scanChunk (c :: p)).2.1.length + 1) (scanChunk (c :: p)).2.1
            name false with
        | none =>
          rw [hm] at hind
          cases hm0 : matchChunk ((scanChunk (c :: p)).2.1.length + 1) (scanChunk (c :: p)).2.1
              [] false with
          | none => rfl
          | some y => rw [hm0] at hind; cases y <;> simp [patternError] at hind
        | some res =>
          rw [hm] at hind
          cases hm0 : matchChunk ((scanChunk (c :: p)).2.1.length + 1) (scanChunk (c :: p)).2.1
              [] false with
          | none => rw [hm0] at hind; cases res <;> simp [patternError] at hind
          | some y =>
            rw [hm0] at hind
            cases res with
            | error e =>
              cases y with
              | error e2 =>
                simp only [patternError, Option.some.injEq] at hind
                simp [patternError, hind]
              | ok b => simp [patternError] at hind
            | ok r =>
              cases y with
              | error e2 => simp [patternError] at hind
              | ok b =>
                simp only
                have hchunk : patternError (matchChunk ((scanChunk (c :: p)).2.1.length + 1)
                    (scanChunk (c :: p)).2.1 [] false) = some none := by
                  rw [hm0]; rfl
                have hstar : ∀ x : Option (Except String (Option GoString)),
                    (∃ r, x = some (.ok r)) →
                    patternError (match x with
                      | none => none
                      | some (.error e) => some (.error e)
                      | some (.ok (some t)) => matchLoop fuel (scanChunk (c :: p)).2.2 t
                      | some (.ok none) =>
                        match matchRest fuel (scanChunk (c :: p)).2.2 with
                        | none => none
                        | some (some e) => some (.error e)
                        | some none => some (.ok false))
                      = matchRest fuel (scanChunk (c :: p)).2.2 := by
                  intro x hx
                  obtain ⟨r0, rfl⟩ := hx
                  cases r0 with
                  | some t => exact ih _ t
                  | none =>
                    simp only
                    cases hr : matchRest fuel (scanChunk (c :: p)).2.2 with
                    | none => rfl
                    | some o => cases o <;> rfl
                have hvia : ∃ r0, (if (scanChunk (c :: p)).1 = true then
                      matchStar ((scanChunk (c :: p)).2.1.length + 1) (scanChunk (c :: p)).2.1
                        (decide ((scanChunk (c :: p)).2.2.length = 0)) name
                    else some (.ok none)) = some (.ok r0) := by
                  split_ifs
                  · exact matchStar_ok _ _ _ hchunk name
                  · exact ⟨none, rfl⟩
                cases r with
                | none =>
                  simp only
                  exact hstar _ hvia
                | some t =>
                  simp only
                  by_cases hd : t.length = 0 ∨ (scanChunk (c :: p)).2.2.length > 0
                  · rw [if_pos hd]
                    exact ih _ t
                  · rw [if_neg hd]
                    exact hstar _ hvia

theorem matchRest_returns (fuel : Nat) :
    ∀ pattern : GoString, pattern.length ≤ fuel → ∃ r, matchRest fuel pattern = some r := by
  induction fuel with
  | zero =>
    intro pattern h
    have : pattern = [] := List.length_eq_zero.mp (by omega)
    subst this
    exact ⟨none, rfl⟩
  | succ fuel ih =>
    intro pattern h
    cases pattern with
    | nil => exact ⟨none, rfl⟩
    | cons c p =>
      simp only [matchRest]
      obtain ⟨res, hres⟩ := matchChunk_returns ((scanChunk (c :: p)).2.1.length + 1)
        (scanChunk (c :: p)).2.1 [] false (by omega)
      rw [hres]
      cases res with
      | error e => exact ⟨_, rfl⟩
      | ok r =>
        have := scanChunk_length c p
        exact ih _ (by omega)

/-- The fuel of `pathMatch` is never used up. -/
theorem matchLoop_returns (pattern name : GoString) :
    ∃ r, matchLoop pattern.length pattern name = some r := by
  have h := matchLoop_error pattern.length pattern name
  obtain ⟨r, hr⟩ := matchRest_returns pattern.length pattern (le_refl _)
  rw [hr] at h
  cases hm : matchLoop pattern.length pattern name with
  | none => rw [hm] at h; simp [patternError] at h
  | some x => exact ⟨x, rfl⟩

theorem pathMatch_error_iff (pattern name : GoString) (e : String) :
    pathMatch pattern name = .error e ↔ matchRest pattern.length pattern = some (some e) := by
  have h := matchLoop_error pattern.length pattern name
  obtain ⟨x, hx⟩ := matchLoop_returns pattern name
  unfold pathMatch
  rw [hx] at h ⊢
  simp only [Option.getD_some]
  cases x with
  | error e2 =>
    simp only [patternError] at h
    rw [← h]
    simp
  | ok b =>
    simp only [patternError] at h
    rw [← h]
    simp

/-- Go `path.Match` reports a malformed pattern whatever the name is. -/
theorem pathMatch_error_indep (pattern name name2 : GoString) (e : String)
    (h : pathMatch pattern name = .error e) : pathMatch pattern name2 = .error e :=
  (pathMatch_error_iff pattern name2 e).mpr ((pathMatch_error_iff pattern name e).mp h)

theorem pathMatch_ok_indep (pattern name name2 : GoString) (b : Bool)
    (h : pathMatch pattern name = .ok b) : ∃ b2, pathMatch pattern name2 = .ok b2 := by
  cases h2 : pathMatch pattern name2 with
  | ok b2 => exact ⟨b2, rfl⟩
  | error e =>
    have := pathMatch_error_indep pattern name2 name e h2
    rw [h] at this
    cases this


/-! ## `Update` and the pattern held for confirmation -/

theorem samePattern_refl (m : Model) : samePattern m m := ⟨rfl, rfl⟩

theorem samePattern_trans (a b c : Model) (h1 : samePattern a b) (h2 : samePattern b c) :
    samePattern a c := ⟨h1.1.trans h2.1, h1.2.trans h2.2⟩

theorem startEditWithContent_samePattern (env : Env) (m : Model) (key raw : GoString) :
    samePattern (startEditWithContent env m key raw) m := by
  unfold startEditWithContent samePattern
  cases m
  simp only
  split <;> (try split_ifs) <;> (try split) <;> simp

theorem updateDeletePatternResultMsg_samePattern (env : Env) (m : Model)
    (msg : deletePatternResultMsg) :
    samePattern (updateDeletePatternResultMsg env m msg) m := by
  unfold updateDeletePatternResultMsg samePattern
  cases m
  simp only
  split <;> (try split_ifs) <;> simp

theorem maybeLoadMore_samePattern (m : Model) :
    samePattern (maybeLoadMore m).1 m ∧ ∀ p, Cmd.deletePatternCmd p ∉ (maybeLoadMore m).2 := by
  unfold maybeLoadMore samePattern
  split_ifs <;> simp

theorem maybeStartFilterWork_samePattern (m : Model) :
    samePattern (maybeStartFilterWork m).1 m ∧
      ∀ p, Cmd.deletePatternCmd p ∉ (maybeStartFilterWork m).2 := by
  unfold maybeStartFilterWork samePattern clearFilterWork
  simp only
  (repeat' split) <;> simp

theorem reloadSelected_samePattern (m : Model) :
    samePattern (reloadSelected m).1 m ∧ ∀ p, Cmd.deletePatternCmd p ∉ (reloadSelected m).2 := by
  unfold reloadSelected samePattern
  split_ifs
  · split <;> simp
  · simp

theorem toggleGroupCounts_samePattern (m : Model) :
    samePattern (toggleGroupCounts m).1 m ∧
      ∀ p, Cmd.deletePatternCmd p ∉ (toggleGroupCounts m).2 := by
  unfold toggleGroupCounts samePattern
  simp only
  split_ifs <;> simp

theorem SetItems_samePattern (lib : Lib) (m : Model) (items : List GoString) :
    samePattern (SetItems lib m items).1 m ∧
      ∀ p, Cmd.deletePatternCmd p ∉ (SetItems lib m items).2 := by
  unfold SetItems samePattern withListView
  simp

theorem RemoveItem_samePattern (lib : Lib) (m : Model) (idx : Nat) :
    samePattern (RemoveItem lib m idx) m := by
  unfold RemoveItem samePattern withListView
  simp

theorem updateList_samePattern (lib : Lib) (m : Model) (msg : Msg) :
    samePattern (updateList lib m msg).1 m ∧
      ∀ p, Cmd.deletePatternCmd p ∉ (updateList lib m msg).2 := by
  have h1 := maybeLoadMore_samePattern (withListView m (lib.listUpdate (listView m) msg).1)
  have h2 := maybeStartFilterWork_samePattern
    (maybeLoadMore (withListView m (lib.listUpdate (listView m) msg).1)).1
  have h0 : samePattern (withListView m (lib.listUpdate (listView m) msg).1) m := ⟨rfl, rfl⟩
  have h3 := samePattern_trans _ _ _ h2.1 (samePattern_trans _ _ _ h1.1 h0)
  have hc : ∀ p, Cmd.deletePatternCmd p ∉
      (lib.listUpdate (listView m) msg).2.map Cmd.widget ++
        (maybeLoadMore (withListView m (lib.listUpdate (listView m) msg).1)).2 ++
        (maybeStartFilterWork
          (maybeLoadMore (withListView m (lib.listUpdate (listView m) msg).1)).1).2 := by
    intro p hp
    simp only [List.mem_append, List.mem_map] at hp
    rcases hp with (⟨x, -, hx⟩ | hp) | hp
    · cases hx
    · exact h1.2 p hp
    · exact h2.2 p hp
  have hc2 : ∀ (p : GoString) (key : GoString), Cmd.deletePatternCmd p ∉
      (lib.listUpdate (listView m) msg).2.map Cmd.widget ++
        (maybeLoadMore (withListView m (lib.listUpdate (listView m) msg).1)).2 ++
        (maybeStartFilterWork
          (maybeLoadMore (withListView m (lib.listUpdate (listView m) msg).1)).1).2 ++
        [Cmd.loadValueCmd key] := by
    intro p key hp
    rw [List.mem_append] at hp
    rcases hp with hp | hp
    · exact hc p hp
    · simp at hp
  unfold updateList
  simp only
  (repeat' split) <;>
    first
    | exact ⟨h3, hc⟩
    | exact ⟨⟨h3.1, h3.2⟩, fun p => hc2 p _⟩

theorem patternStep_of_same (env : Env) (m : Model) (r : Model × List Cmd)
    (h : samePattern r.1 m ∧ ∀ p, Cmd.deletePatternCmd p ∉ r.2) : patternStep env m r :=
  ⟨Or.inr (Or.inl h.1), fun p hp => absurd hp (h.2 p)⟩

theorem keyConfirmDelete_patternStep (env : Env) (m : Model) (s : String) :
    patternStep env m (keyConfirmDelete m s) := by
  apply patternStep_of_same
  unfold keyConfirmDelete samePattern
  split_ifs <;> simp

theorem keyConfirmPatternDelete_patternStep (env : Env) (m : Model) (s : String)
    (h : m.confirmPatternDelete = true) : patternStep env m (keyConfirmPatternDelete m s) := by
  unfold keyConfirmPatternDelete patternStep samePattern
  split_ifs <;> simp [h]

theorem keyEditing_patternStep (env : Env) (lib : Lib) (m : Model) (s : String) :
    patternStep env m (keyEditing env lib m s) := by
  apply patternStep_of_same
  unfold keyEditing
  by_cases c1 : s = "esc"
  · rw [if_pos c1]
    exact ⟨⟨rfl, rfl⟩, by simp⟩
  · rw [if_neg c1]
    by_cases c2 : s = "ctrl+s"
    · rw [if_pos c2]
      cases bytesFromEditor env m with
      | error e => exact ⟨⟨rfl, rfl⟩, by simp⟩
      | ok bytes => exact ⟨⟨rfl, rfl⟩, by simp⟩
    · rw [if_neg c2]
      exact ⟨⟨rfl, rfl⟩, by simp⟩

theorem keyPatternDelete_patternStep (env : Env) (lib : Lib) (m : Model) (s : String) :
    patternStep env m (keyPatternDelete env lib m s) := by
  unfold keyPatternDelete
  split_ifs
  · exact patternStep_of_same _ _ _ ⟨⟨rfl, rfl⟩, by simp⟩
  · exact patternStep_of_same _ _ _ ⟨⟨rfl, rfl⟩, by simp⟩
  · cases hm : matchPattern env (trimSpace m.patternInput) [] with
    | error e => exact patternStep_of_same _ _ _ ⟨⟨rfl, rfl⟩, by simp⟩
    | ok b =>
      refine ⟨Or.inr (Or.inr ⟨b, ?_⟩), by simp⟩
      exact hm
  · exact patternStep_of_same _ _ _ ⟨⟨rfl, rfl⟩, by simp⟩

theorem keySettingFilter_patternStep (env : Env) (lib : Lib) (m : Model) (s : String) :
    patternStep env m (keySettingFilter lib m s) := by
  apply patternStep_of_same
  have h := maybeStartFilterWork_samePattern
    (withListView m (lib.listUpdate (listView m) (.KeyMsg s)).1)
  unfold keySettingFilter
  refine ⟨samePattern_trans _ _ _ h.1 ⟨rfl, rfl⟩, ?_⟩
  intro p hp
  simp only [List.mem_append, List.mem_map] at hp
  rcases hp with ⟨x, -, hx⟩ | hp
  · cases hx
  · exact h.2 p hp

theorem keyFocusRight_patternStep (env : Env) (lib : Lib) (m : Model) (s : String) :
    patternStep env m (keyFocusRight lib m s) := by
  apply patternStep_of_same
  unfold keyFocusRight
  split_ifs
  · exact ⟨⟨rfl, rfl⟩, by simp⟩
  · exact ⟨⟨rfl, rfl⟩, by simp⟩
  · exact ⟨samePattern_trans _ _ _ (reloadSelected_samePattern _).1 ⟨rfl, rfl⟩,
      (reloadSelected_samePattern _).2⟩
  · exact ⟨samePattern_trans _ _ _ (reloadSelected_samePattern _).1 ⟨rfl, rfl⟩,
      (reloadSelected_samePattern _).2⟩
  · exact ⟨samePattern_trans _ _ _ (reloadSelected_samePattern _).1 ⟨rfl, rfl⟩,
      (reloadSelected_samePattern _).2⟩
  · exact ⟨samePattern_trans _ _ _ (reloadSelected_samePattern _).1 ⟨rfl, rfl⟩,
      (reloadSelected_samePattern _).2⟩
  · exact ⟨⟨rfl, rfl⟩, by simp⟩
  · exact toggleGroupCounts_samePattern m
  · exact ⟨⟨rfl, rfl⟩, by simp⟩

theorem keyNormal_patternStep (env : Env) (m : Model) (s : String) (r : Model × List Cmd)
    (h : keyNormal m s = some r) : patternStep env m r := by
  apply patternStep_of_same
  have hrel : ∀ m0 : Model, samePattern m0 m →
      samePattern (reloadSelected m0).1 m ∧ ∀ p, Cmd.deletePatternCmd p ∉ (reloadSelected m0).2 :=
    fun m0 h0 => ⟨samePattern_trans _ _ _ (reloadSelected_samePattern m0).1 h0,
      (reloadSelected_samePattern m0).2⟩
  unfold keyNormal at h
  by_cases c1 : s = "ctrl+c" ∨ s = "q" ∨ s = "esc"
  · rw [if_pos c1] at h; cases h; exact ⟨⟨rfl, rfl⟩, by simp⟩
  rw [if_neg c1] at h
  by_cases c2 : s = "t"
  · rw [if_pos c2] at h; cases h; exact hrel _ ⟨rfl, rfl⟩
  rw [if_neg c2] at h
  by_cases c3 : s = "h"
  · rw [if_pos c3] at h; cases h; exact hrel _ ⟨rfl, rfl⟩
  rw [if_neg c3] at h
  by_cases c4 : s = "b"
  · rw [if_pos c4] at h; cases h; exact hrel _ ⟨rfl, rfl⟩
  rw [if_neg c4] at h
  by_cases c5 : s = "j"
  · rw [if_pos c5] at h; cases h; exact hrel _ ⟨rfl, rfl⟩
  rw [if_neg c5] at h
  by_cases c6 : s = "enter"
  · rw [if_pos c6] at h
    cases hsel : SelectedItem m with
    | none => rw [hsel] at h; cases h
    | some key => rw [hsel] at h; cases h; exact ⟨⟨rfl, rfl⟩, by simp⟩
  rw [if_neg c6] at h
  by_cases c7 : s = "d" ∨ s = "delete"
  · rw [if_pos c7] at h
    cases hsel : SelectedItem m with
    | none => rw [hsel] at h; cases h; exact ⟨⟨rfl, rfl⟩, by simp⟩
    | some key => rw [hsel] at h; cases h; exact ⟨⟨rfl, rfl⟩, by simp⟩
  rw [if_neg c7] at h
  by_cases c8 : s = "p"
  · rw [if_pos c8] at h; cases h; exact ⟨⟨rfl, rfl⟩, by simp⟩
  rw [if_neg c8] at h
  by_cases c9 : s = "e"
  · rw [if_pos c9] at h
    cases hsel : SelectedItem m with
    | none => rw [hsel] at h; cases h
    | some key => rw [hsel] at h; cases h; exact ⟨⟨rfl, rfl⟩, by simp⟩
  rw [if_neg c9] at h
  by_cases c10 : s = "g" ∨ s = "G" ∨ s = "ctrl+g"
  · rw [if_pos c10] at h; cases h; exact toggleGroupCounts_samePattern m
  rw [if_neg c10] at h
  cases h

theorem updateKeyMsg_patternStep (env : Env) (lib : Lib) (m : Model) (s : String)
    (r : Model × List Cmd) (h : updateKeyMsg env lib m s = some r) : patternStep env m r := by
  unfold updateKeyMsg at h
  by_cases c1 : s = "f1"
  · rw [if_pos c1] at h; cases h; exact patternStep_of_same _ _ _ ⟨⟨rfl, rfl⟩, by simp⟩
  rw [if_neg c1] at h
  by_cases c2 : m.showAbout = true
  · rw [if_pos c2] at h
    cases h
    refine patternStep_of_same _ _ _ ⟨?_, by simp⟩
    by_cases c : s = "esc"
    · rw [if_pos c]; exact ⟨rfl, rfl⟩
    · rw [if_neg c]; exact ⟨rfl, rfl⟩
  rw [if_neg c2] at h
  by_cases c3 : m.confirmDelete = true
  · rw [if_pos c3] at h; cases h; exact keyConfirmDelete_patternStep env m s
  rw [if_neg c3] at h
  by_cases c4 : m.confirmPatternDelete = true
  · rw [if_pos c4] at h; cases h; exact keyConfirmPatternDelete_patternStep env m s c4
  rw [if_neg c4] at h
  by_cases c5 : m.editing = true
  · rw [if_pos c5] at h; cases h; exact keyEditing_patternStep env lib m s
  rw [if_neg c5] at h
  by_cases c6 : m.patternDelete = true
  · rw [if_pos c6] at h; cases h; exact keyPatternDelete_patternStep env lib m s
  rw [if_neg c6] at h
  by_cases c7 : SettingFilter m = true
  · rw [if_pos c7] at h; cases h; exact keySettingFilter_patternStep env lib m s
  rw [if_neg c7] at h
  by_cases c8 : (m.focusRight && !m.editing) = true
  · rw [if_pos c8] at h; cases h; exact keyFocusRight_patternStep env lib m s
  rw [if_neg c8] at h
  exact keyNormal_patternStep env m s r h

theorem updateWindowSizeMsg_patternStep (env : Env) (lib : Lib) (m : Model)
    (Width Height : Int) : patternStep env m (updateWindowSizeMsg lib m Width Height) := by
  apply patternStep_of_same
  unfold updateWindowSizeMsg
  simp only
  generalize hm1 : updateEditorLayout _ _ = m1
  have h1 : samePattern m1 m := by rw [← hm1]; exact ⟨rfl, rfl⟩
  have hf := maybeStartFilterWork_samePattern m1
  have hl := maybeLoadMore_samePattern m1
  refine ⟨samePattern_trans _ _ _ hf.1 h1, ?_⟩
  intro p hp
  rw [List.mem_append] at hp
  rcases hp with hp | hp
  · exact hl.2 p hp
  · exact hf.2 p hp

theorem updateLoadKeysMsg_patternStep (env : Env) (lib : Lib) (m : Model)
    (msg : loadKeysMsg) : patternStep env m (updateLoadKeysMsg env lib m msg) := by
  apply patternStep_of_same
  unfold updateLoadKeysMsg
  simp only
  cases msg.err with
  | some e => exact ⟨⟨rfl, rfl⟩, by simp⟩
  | none =>
    simp only
    by_cases c : msg.keys.length = 0
    · rw [if_pos c]; exact ⟨⟨rfl, rfl⟩, by simp⟩
    · rw [if_neg c]
      have hs := SetItems_samePattern lib { m with loadingKeys := false } (m.list ++ msg.keys)
      have hf := maybeStartFilterWork_samePattern
        { (SetItems lib { m with loadingKeys := false } (m.list ++ msg.keys)).1 with
          lastKey := msg.lastKey, hasMoreKeys := msg.hasMore }
      have hl := maybeLoadMore_samePattern
        { (SetItems lib { m with loadingKeys := false } (m.list ++ msg.keys)).1 with
          lastKey := msg.lastKey, hasMoreKeys := msg.hasMore }
      refine ⟨samePattern_trans _ _ _ hf.1
        (samePattern_trans _ _ _ ⟨rfl, rfl⟩ (samePattern_trans _ _ _ hs.1 ⟨rfl, rfl⟩)), ?_⟩
      intro p hp
      simp only [List.mem_append] at hp
      rcases hp with (hp | hp) | hp
      · exact hs.2 p hp
      · exact hl.2 p hp
      · exact hf.2 p hp

theorem updateFilterCountMsg_patternStep (env : Env) (m : Model) (msg : filterCountMsg) :
    patternStep env m (updateFilterCountMsg m msg) := by
  apply patternStep_of_same
  unfold updateFilterCountMsg
  by_cases c : msg.term ≠ trimSpace m.listFilterValue
  · rw [if_pos c]; exact ⟨⟨rfl, rfl⟩, by simp⟩
  · rw [if_neg c]
    cases msg.err <;> exact ⟨⟨rfl, rfl⟩, by simp⟩

theorem updateGroupCountsMsg_patternStep (env : Env) (m : Model) (msg : groupCountsMsg) :
    patternStep env m (updateGroupCountsMsg m msg) := by
  apply patternStep_of_same
  unfold updateGroupCountsMsg
  cases msg.err <;> exact ⟨⟨rfl, rfl⟩, by simp⟩

theorem updateLoadValueMsg_patternStep (env : Env) (lib : Lib) (m : Model)
    (msg : loadValueMsg) : patternStep env m (updateLoadValueMsg env lib m msg) := by
  apply patternStep_of_same
  unfold updateLoadValueMsg
  by_cases c : msg.key ≠ m.selected ∧ m.editKey ≠ msg.key
  · rw [if_pos c]; exact ⟨⟨rfl, rfl⟩, by simp⟩
  · rw [if_neg c]
    cases msg.err with
    | some e =>
      simp only
      refine ⟨?_, by simp⟩
      by_cases c2 : m.editKey = msg.key
      · rw [if_pos c2]; exact ⟨rfl, rfl⟩
      · rw [if_neg c2]; exact ⟨rfl, rfl⟩
    | none =>
      simp only
      by_cases c2 : m.editKey = msg.key ∧ m.editing = false
      · rw [if_pos c2]
        refine ⟨?_, by simp⟩
        exact samePattern_trans _ _ _ ⟨rfl, rfl⟩
          (samePattern_trans _ _ _ (startEditWithContent_samePattern env _ msg.key msg.value)
            ⟨rfl, rfl⟩)
      · rw [if_neg c2]; exact ⟨⟨rfl, rfl⟩, by simp⟩

theorem updateDeleteResultMsg_patternStep (env : Env) (lib : Lib) (m : Model)
    (msg : deleteResultMsg) : patternStep env m (updateDeleteResultMsg env lib m msg) := by
  apply patternStep_of_same
  unfold updateDeleteResultMsg
  cases msg.err with
  | some e => exact ⟨⟨rfl, rfl⟩, by simp⟩
  | none =>
    simp only
    refine ⟨?_, by simp⟩
    by_cases c : m.listIndex < m.list.length
    · rw [if_pos c]
      exact samePattern_trans _ _ _ ⟨rfl, rfl⟩ (RemoveItem_samePattern lib m m.listIndex)
    · rw [if_neg c]; exact ⟨rfl, rfl⟩

theorem updateSaveResultMsg_patternStep (env : Env) (lib : Lib) (m : Model)
    (msg : saveResultMsg) : patternStep env m (updateSaveResultMsg env lib m msg) := by
  apply patternStep_of_same
  unfold updateSaveResultMsg
  cases msg.err with
  | some e => exact ⟨⟨rfl, rfl⟩, by simp⟩
  | none => exact ⟨⟨rfl, rfl⟩, by simp⟩

/-- Every call of `Update` drops the pattern held for confirmation, leaves it, or replaces
it by one that passed the check; and it hands to `deletePatternCmd` only the pattern held. -/
theorem Update_patternStep (env : Env) (lib : Lib) (m : Model) (msg : Msg) :
    patternStep env m (Update env lib m msg) := by
  cases msg with
  | KeyMsg s =>
    simp only [Update]
    cases h : updateKeyMsg env lib m s with
    | some r => exact updateKeyMsg_patternStep env lib m s r h
    | none => exact patternStep_of_same _ _ _ (updateList_samePattern lib m _)
  | WindowSizeMsg Width Height => exact updateWindowSizeMsg_patternStep env lib m Width Height
  | loadKeysMsg msg => exact updateLoadKeysMsg_patternStep env lib m msg
  | filterCountMsg msg => exact updateFilterCountMsg_patternStep env m msg
  | groupCountsMsg msg => exact updateGroupCountsMsg_patternStep env m msg
  | loadValueMsg msg => exact updateLoadValueMsg_patternStep env lib m msg
  | deleteResultMsg msg => exact updateDeleteResultMsg_patternStep env lib m msg
  | deletePatternResultMsg msg =>
    apply patternStep_of_same
    simp only [Update]
    have h0 := updateDeletePatternResultMsg_samePattern env m msg
    by_cases c : (msg.err.isSome || decide (msg.keys.length = 0)) = true
    · rw [if_pos c]; exact ⟨h0, by simp⟩
    · rw [if_neg c]
      have hs := SetItems_samePattern lib (updateDeletePatternResultMsg env m msg)
        (updateDeletePatternResultMsg env m msg).list
      exact ⟨samePattern_trans _ _ _ hs.1 h0, hs.2⟩
  | saveResultMsg msg => exact updateSaveResultMsg_patternStep env lib m msg
  | other tag => exact patternStep_of_same _ _ _ (updateList_samePattern lib m _)

/-- With Go `path.Match` as the matcher, a pattern that passes the check on the empty key
does not make `matchPattern` fail on any key. -/
theorem patternSafe_step (env : Env) (hmatch : env.pathMatch = pathMatch) (lib : Lib)
    (m : Model) (msg : Msg) (h : patternSafe env m) :
    patternSafe env (Update env lib m msg).1 := by
  have hs := (Update_patternStep env lib m msg).1
  intro hc key
  rcases hs with h1 | h2 | ⟨b, hb⟩
  · rw [h1] at hc; cases hc
  · rw [h2.2]
    exact h (by rw [← h2.1]; exact hc) key
  · simp only [matchPattern, hmatch] at hb ⊢
    exact pathMatch_ok_indep _ [] key b hb

theorem patternSafe_run (env : Env) (hmatch : env.pathMatch = pathMatch) (dbPath : String)
    (msgs : List (Lib × Msg)) : patternSafe env (runUpdates env dbPath msgs) := by
  unfold runUpdates
  have hstart : patternSafe env (NewModel dbPath) := by
    intro hc
    cases hc
  generalize NewModel dbPath = m0 at hstart
  induction msgs generalizing m0 with
  | nil => exact hstart
  | cons e rest ih =>
    simp only [List.foldl_cons]
    exact ih _ (patternSafe_step env hmatch e.1 m0 e.2 hstart)

theorem pathMatch_nil (key : GoString) : ∃ ok, pathMatch [] key = .ok ok :=
  ⟨decide (key.length = 0), rfl⟩

/-- C11. Eager pattern validation, with Go `path.Match` (Go 1.16 and later) as the matcher.
The pattern is the text of the prompt without surrounding white space, which is what the
code checks and would delete with. If `matchPattern` returns an error for it on some key,
then Enter in the pattern prompt changes nothing but the status line and issues no command:
the model stays out of the confirm state, `pendingPattern` and the list are unchanged. And
in every run of `Update` from `NewModel`, whatever the messages and the behaviour of the
widgets, a pattern handed to `deletePatternCmd` makes `matchPattern` fail on no key. -/
theorem patternPrompt_eager_validation (env : Env) (hmatch : env.pathMatch = pathMatch) :
    (∀ (lib : Lib) (m : Model) (key : GoString) (e : String),
      m.showAbout = false → m.confirmDelete = false → m.confirmPatternDelete = false →
      m.editing = false → m.patternDelete = true →
      matchPattern env (trimSpace m.patternInput) key = .error e →
      Update env lib m (.KeyMsg "enter") =
        ({ m with status := env.errStyle ("Error: invalid pattern: " ++ e) }, [])) ∧
    (∀ (dbPath : String) (msgs : List (Lib × Msg)) (lib : Lib) (msg : Msg) (pattern : GoString),
      Cmd.deletePatternCmd pattern ∈ (Update env lib (runUpdates env dbPath msgs) msg).2 →
      ∀ key : GoString, ∃ ok : Bool, matchPattern env pattern key = .ok ok) := by
  constructor
  · intro lib m key e h1 h2 h3 h4 h5 herr
    have hne : trimSpace m.patternInput ≠ [] := by
      intro h0
      rw [h0] at herr
      simp only [matchPattern, hmatch] at herr
      obtain ⟨ok, hok⟩ := pathMatch_nil key
      rw [hok] at herr
      cases herr
    have h0 : matchPattern env (trimSpace m.patternInput) [] = .error e := by
      simp only [matchPattern, hmatch] at herr ⊢
      exact pathMatch_error_indep _ key [] e herr
    have hk : updateKeyMsg env lib m "enter" = some (keyPatternDelete env lib m "enter") := by
      unfold updateKeyMsg
      rw [if_neg (by decide), h1, h2, h3, h4, h5]
      rfl
    simp only [Update, hk]
    unfold keyPatternDelete
    rw [if_neg (by decide), if_pos rfl, if_neg hne, h0]
  · intro dbPath msgs lib msg pattern hmem key
    have hsafe := patternSafe_run env hmatch dbPath msgs
    have hstep := (Update_patternStep env lib (runUpdates env dbPath msgs) msg).2 pattern hmem
    rw [hstep.2]
    exact hsafe hstep.1 key

/-- C11 at a concrete input: the prompt holds ` a[ ` and the key is `x`; and the run
`p`, `*`, Enter, `y` hands the pattern `*` to `deletePatternCmd`. -/
theorem patternPrompt_eager_validation_witness :
    goEnv.pathMatch = pathMatch ∧
    matchPattern goEnv (trimSpace (str " a[ ")) (str "x") = .error ErrBadPattern ∧
    Update goEnv sampleLib
        { NewModel "" with patternDelete := true, patternInput := str " a[ " }
        (.KeyMsg "enter") =
      ({ NewModel "" with patternDelete := true, patternInput := str " a[ ",
                          status := goEnv.errStyle ("Error: invalid pattern: " ++ ErrBadPattern) },
        []) ∧
    Cmd.deletePatternCmd (str "*") ∈
      (Update goEnv sampleLib
        (runUpdates goEnv "" [(sampleLib, .KeyMsg "p"), (sampleLib, .KeyMsg "*"),
          (sampleLib, .KeyMsg "enter")]) (.KeyMsg "y")).2 ∧
    ∀ key : GoString, ∃ ok : Bool, matchPattern goEnv (str "*") key = .ok ok :=
  ⟨rfl, by decide,
    (patternPrompt_eager_validation goEnv rfl).1 sampleLib
      { NewModel "" with patternDelete := true, patternInput := str " a[ " } (str "x")
      ErrBadPattern rfl rfl rfl rfl rfl (by decide),
    by decide,
    (patternPrompt_eager_validation goEnv rfl).2 ""
      [(sampleLib, .KeyMsg "p"), (sampleLib, .KeyMsg "*"), (sampleLib, .KeyMsg "enter")]
      sampleLib (.KeyMsg "y") (str "*") (by decide)⟩


/-! ## Page fetches in flight -/

theorem ListKeysPage_first (ks : List GoString) (limit : Int) (hl : 1 ≤ limit) :
    ListKeysPage ⟨ks, []⟩ [] limit =
      ({ keys := ks.take limit.toNat, lastKey := ((ks.take limit.toNat).getLast?).getD [],
         hasMore := !(ks.drop limit.toNat).isEmpty, err := none }, ⟨ks, []⟩) := by
  unfold ListKeysPage
  rw [if_neg (by omega)]
  simp only [Store.nextOutcome, listKeysView, if_true]
  rw [listKeysLoop_eq limit limit.toNat ks [] [] (by omega) (by simp; omega)]
  simp

/-- The sweep of `deletePatternCmd` on a store of fewer than 1000 keys without failures. -/
theorem deletePatternCmd_onePage (env : Env) (pattern : GoString) (ks : List GoString)
    (fuel : Nat) (hlen : ks.length < 1000)
    (hvalid : ∀ k ∈ ks, ∃ b, matchPattern env pattern k = .ok b) :
    deletePatternCmd env (fuel + 1) ⟨ks, []⟩ pattern =
      some (⟨pattern, ks.filter (accepts env pattern), none⟩,
        ⟨ks.filter (fun x => decide (x ∉ ks.filter (accepts env pattern))), []⟩) := by
  unfold deletePatternCmd deletePatternLoop
  have hpage := ListKeysPage_first ks 1000 (by omega)
  have htake : ks.take (1000 : Int).toNat = ks := List.take_of_length_le (by simp; omega)
  have hdrop : ks.drop (1000 : Int).toNat = [] := List.drop_of_length_le (by simp; omega)
  rw [htake, hdrop] at hpage
  simp only [hpage]
  rw [deletePatternKeys_ok env pattern ks ks [] hvalid]
  simp

theorem SetItems_sampleLib (m : Model) (items : List GoString) :
    SetItems sampleLib m items = ({ m with list := items }, []) := rfl

theorem listSetSize_sampleLib (m : Model) (a b : Int) :
    withListView m (sampleLib.listSetSize (listView m) a b) = m := rfl

theorem maybeLoadMore_none (m : Model) (h1 : m.hasMoreKeys = true) (h2 : m.loadingKeys = false)
    (h3 : m.listFilterState = .Unfiltered) (h4 : m.list.length ≠ 0)
    (h5 : (m.listIndex : Int) < (m.list.length : Int) - 1 - 5) :
    maybeLoadMore m = (m, []) := by
  unfold maybeLoadMore
  rw [if_neg (by simp [h1, h2]), if_neg (by simp [IsFiltered, SettingFilter, h3]), if_neg h4,
    if_neg (by omega)]

theorem maybeLoadMore_fetch (m : Model) (h1 : m.hasMoreKeys = true)
    (h2 : m.loadingKeys = false) (h3 : m.listFilterState = .Unfiltered)
    (h4 : m.list.length ≠ 0) (h5 : (m.listIndex : Int) ≥ (m.list.length : Int) - 1 - 5) :
    maybeLoadMore m = ({ m with loadingKeys := true }, [.loadKeysCmd m.lastKey m.pageSize]) := by
  unfold maybeLoadMore
  rw [if_neg (by simp [h1, h2]), if_neg (by simp [IsFiltered, SettingFilter, h3]), if_neg h4,
    if_pos h5]

theorem maybeStartFilterWork_unfiltered (m : Model) (h : m.listFilterState = .Unfiltered) :
    maybeStartFilterWork m = (clearFilterWork m, []) := by
  unfold maybeStartFilterWork
  rw [if_pos h]

theorem Update_loadFirstPage (env : Env) (dbPath : String) (keys : List GoString)
    (last : GoString) (hlen : keys.length = 500) :
    browsing (Update env sampleLib (NewModel dbPath)
        (.loadKeysMsg ⟨keys, last, true, [], none⟩)).1 false [] false [] keys last ∧
      (Update env sampleLib (NewModel dbPath) (.loadKeysMsg ⟨keys, last, true, [], none⟩)).2
        = [] := by
  have hne : ¬ keys.length = 0 := by omega
  simp only [Update, updateLoadKeysMsg, hne, if_false, SetItems_sampleLib]
  rw [maybeLoadMore_none _ rfl rfl rfl (by simpa [NewModel] using hne)
    (by simp [NewModel, hlen])]
  rw [maybeStartFilterWork_unfiltered _ rfl]
  refine ⟨?_, rfl⟩
  simp [browsing, clearFilterWork, NewModel, defaultPageSize]

theorem updateKeyMsg_browsing (env : Env) (lib : Lib) (m : Model) (s : String)
    (pd : Bool) (pin : GoString) (cpd : Bool) (pp : GoString) (items : List GoString)
    (last : GoString) (h : browsing m pd pin cpd pp items last) (hs : s ≠ "f1") :
    updateKeyMsg env lib m s =
      if cpd then some (keyConfirmPatternDelete m s)
      else if pd then some (keyPatternDelete env lib m s)
      else keyNormal m s := by
  obtain ⟨h1, h2, h3, h4, h5, h6, h7, h8, h9, h10, h11, h12, h13, h14, h15, h16⟩ := h
  unfold updateKeyMsg
  rw [if_neg hs, h1, h2, h3, h11, h13, h4]
  simp [SettingFilter, h5]

theorem Update_key_p (env : Env) (lib : Lib) (m : Model) (pin pp : GoString)
    (items : List GoString) (last : GoString)
    (h : browsing m false pin false pp items last) :
    browsing (Update env lib m (.KeyMsg "p")).1 true [] false pp items last ∧
      (Update env lib m (.KeyMsg "p")).2 = [] := by
  have hk := updateKeyMsg_browsing env lib m "p" _ _ _ _ _ _ h (by decide)
  have hn : keyNormal m "p" = some (startPatternDelete m, []) := by
    unfold keyNormal
    rw [if_neg (by decide), if_neg (by decide), if_neg (by decide), if_neg (by decide),
      if_neg (by decide), if_neg (by decide), if_neg (by decide), if_pos rfl]
  have hU : Update env lib m (.KeyMsg "p") = (startPatternDelete m, []) := by
    unfold Update
    simp only [hk, hn, Bool.false_eq_true, if_false]
  rw [hU]
  obtain ⟨h1, h2, h3, h4, h5, h6, h7, h8, h9, h10, h11, h12, h13, h14, h15, h16⟩ := h
  exact ⟨⟨h1, h2, h3, h4, h5, h6, h7, h8, h9, h10, rfl, rfl, h13, h14, h15, h16⟩, rfl⟩

theorem Update_key_type (env : Env) (m : Model) (s : String) (pin pp : GoString)
    (items : List GoString) (last : GoString)
    (h : browsing m true pin false pp items last)
    (hs1 : s ≠ "f1") (hs2 : s ≠ "esc") (hs3 : s ≠ "enter") (hlen : s.length = 1) :
    browsing (Update env sampleLib m (.KeyMsg s)).1 true (pin ++ str s) false pp items last ∧
      (Update env sampleLib m (.KeyMsg s)).2 = [] := by
  have hk := updateKeyMsg_browsing env sampleLib m s _ _ _ _ _ _ h hs1
  obtain ⟨h1, h2, h3, h4, h5, h6, h7, h8, h9, h10, h11, h12, h13, h14, h15, h16⟩ := h
  have hU : Update env sampleLib m (.KeyMsg s) =
      ({ m with patternInput := m.patternInput ++ str s }, []) := by
    unfold Update
    simp only [hk, Bool.false_eq_true, if_false, if_true]
    unfold keyPatternDelete
    rw [if_neg hs2, if_neg hs3]
    simp [sampleLib, hlen]
  rw [hU]
  exact ⟨⟨h1, h2, h3, h4, h5, h6, h7, h8, h9, h10, h11, by show m.patternInput ++ str s = _; rw [h12],
    h13, h14, h15, h16⟩, rfl⟩

theorem Update_key_enter (env : Env) (lib : Lib) (m : Model) (pin pp : GoString)
    (items : List GoString) (last : GoString) (ok : Bool)
    (h : browsing m true pin false pp items last)
    (hne : trimSpace pin ≠ []) (hok : matchPattern env (trimSpace pin) [] = .ok ok) :
    browsing (Update env lib m (.KeyMsg "enter")).1 false pin true (trimSpace pin) items last ∧
      (Update env lib m (.KeyMsg "enter")).2 = [] := by
  have hk := updateKeyMsg_browsing env lib m "enter" _ _ _ _ _ _ h (by decide)
  obtain ⟨h1, h2, h3, h4, h5, h6, h7, h8, h9, h10, h11, h12, h13, h14, h15, h16⟩ := h
  have hU : Update env lib m (.KeyMsg "enter") =
      ({ m with patternDelete := false, confirmPatternDelete := true,
                pendingPattern := trimSpace pin,
                status := "Delete pattern '" ++ goText (trimSpace pin) ++ "'? (y/n)" }, []) := by
    unfold Update
    simp only [hk, Bool.false_eq_true, if_false, if_true]
    unfold keyPatternDelete
    rw [if_neg (by decide), if_pos rfl, h12, if_neg hne, hok]
  rw [hU]
  exact ⟨⟨h1, h2, h3, h4, h5, h6, h7, h8, h9, h10, rfl, h12, rfl, rfl, h15, h16⟩, rfl⟩

theorem Update_key_y (env : Env) (lib : Lib) (m : Model) (pd : Bool) (pin pp : GoString)
    (items : List GoString) (last : GoString)
    (h : browsing m pd pin true pp items last) :
    browsing (Update env lib m (.KeyMsg "y")).1 pd pin false [] items last ∧
      (Update env lib m (.KeyMsg "y")).2 = [.deletePatternCmd pp] := by
  have hk := updateKeyMsg_browsing env lib m "y" _ _ _ _ _ _ h (by decide)
  obtain ⟨h1, h2, h3, h4, h5, h6, h7, h8, h9, h10, h11, h12, h13, h14, h15, h16⟩ := h
  have hU : Update env lib m (.KeyMsg "y") =
      ({ m with confirmPatternDelete := false, pendingPattern := [],
                status := "Deleting by pattern..." }, [.deletePatternCmd pp]) := by
    unfold Update
    simp only [hk, if_true]
    unfold keyConfirmPatternDelete
    rw [if_pos (Or.inl rfl), h14]
  rw [hU]
  exact ⟨⟨h1, h2, h3, h4, h5, h6, h7, h8, h9, h10, h11, h12, rfl, rfl, h15, h16⟩, rfl⟩

theorem Update_deleted (env : Env) (m : Model) (pin pp pattern : GoString)
    (items keys : List GoString) (last : GoString)
    (h : browsing m false pin false pp items last) (hne : keys.length ≠ 0) :
    browsing (Update env sampleLib m (.deletePatternResultMsg ⟨pattern, keys, none⟩)).1
        false pin false pp (items.filter (fun k => decide (k ∉ keys))) last ∧
      (Update env sampleLib m (.deletePatternResultMsg ⟨pattern, keys, none⟩)).2 = [] := by
  obtain ⟨h1, h2, h3, h4, h5, h6, h7, h8, h9, h10, h11, h12, h13, h14, h15, h16⟩ := h
  have hc : (((none : Option String).isSome) || decide (keys.length = 0)) = false := by
    simp [hne]
  have hm : updateDeletePatternResultMsg env m ⟨pattern, keys, none⟩ =
      { m with list := m.list.filter (fun k => decide (k ∉ keys)),
               selected := if m.selected ∈ keys then [] else m.selected,
               viewport := if m.selected ∈ keys then "" else m.viewport,
               status := env.okStyle ("Deleted " ++ toString keys.length ++
                 " records (pattern: " ++ goText pattern ++ ").") } := by
    unfold updateDeletePatternResultMsg
    simp only [hne, if_false]
    by_cases hsel : m.selected ∈ keys
    · simp only [hsel, if_true]
    · simp only [hsel, if_false]
  have hU : Update env sampleLib m (.deletePatternResultMsg ⟨pattern, keys, none⟩) =
      (updateDeletePatternResultMsg env m ⟨pattern, keys, none⟩, []) := by
    unfold Update
    simp only [hc, Bool.false_eq_true, if_false, SetItems_sampleLib]
  rw [hU, hm]
  refine ⟨⟨h1, h2, h3, h4, h5, h6, h7, h8, h9, ?_, h11, h12, h13, h14, ?_, h16⟩, rfl⟩
  · show (if m.selected ∈ keys then [] else m.selected) = []
    rw [h10]
    simp
  · show m.list.filter (fun k => decide (k ∉ keys)) = _
    rw [h15]

/-- The case `tea.WindowSizeMsg` with a short unfiltered list and more keys to fetch: a
page fetch is issued, and the model returned still says that no fetch is in flight. -/
theorem Update_resize (env : Env) (m : Model) (pin pp : GoString)
    (items : List GoString) (last : GoString) (Width Height : Int)
    (h : browsing m false pin false pp items last)
    (h1 : items.length ≠ 0) (h6 : items.length ≤ 6) :
    browsing (Update env sampleLib m (.WindowSizeMsg Width Height)).1
        false pin false pp items last ∧
      (Update env sampleLib m (.WindowSizeMsg Width Height)).2 = [.loadKeysCmd last 500] := by
  obtain ⟨g1, g2, g3, g4, g5, g6, g7, g8, g9, g10, g11, g12, g13, g14, g15, g16⟩ := h
  have hU : ∃ m1 : Model, browsing m1 false pin false pp items last ∧
      Update env sampleLib m (.WindowSizeMsg Width Height) =
        ((maybeStartFilterWork m1).1, (maybeLoadMore m1).2 ++ (maybeStartFilterWork m1).2) :=
    ⟨updateEditorLayout
        { (withListView { m with ready := true, width := Width, height := Height }
            (sampleLib.listSetSize
              (listView { m with ready := true, width := Width, height := Height })
              (computeLayout sampleLib Width Height).listWidth
              (computeLayout sampleLib Width Height).listHeight)) with viewport := "" }
        (computeLayout sampleLib Width Height),
      ⟨g1, g2, g3, g4, g5, g6, g7, g8, g9, g10, g11, g12, g13, g14, g15, g16⟩, rfl⟩
  obtain ⟨m1, ⟨f1, f2, f3, f4, f5, f6, f7, f8, f9, f10, f11, f12, f13, f14, f15, f16⟩, hU⟩ := hU
  rw [hU, maybeStartFilterWork_unfiltered m1 f5,
    maybeLoadMore_fetch m1 f7 f8 f5 (by rw [f15]; exact h1) (by rw [f6, f15]; omega)]
  refine ⟨⟨f1, f2, f3, f4, f5, f6, f7, f8, f9, f10, f11, f12, f13, f14, f15, f16⟩, ?_⟩
  show [Cmd.loadKeysCmd m1.lastKey m1.pageSize] ++ [] = _
  rw [f16, f9]
  rfl

/-! ### The run -/

theorem sampleKeysA_length : sampleKeysA.length = 495 := by
  simp [sampleKeysA]

theorem pathMatch_aStar (d1 d2 d3 : Byte) :
    pathMatch (str "a*") [97, d1, d2, d3] = .ok (decide ((47 : Byte) ∉ [d1, d2, d3])) := rfl

theorem digits3_noSlash (i : Nat) (hi : i < 1000) : (47 : Byte) ∉ digits3 i := by
  have h47 : ((47 : Byte) : Nat) = 47 := rfl
  have h1 : (47 : Byte) ≠ Fin.ofNat (48 + i / 100) := by
    intro h0
    have := congrArg Fin.val h0
    simp only [Fin.ofNat] at this
    rw [h47] at this
    omega
  have h2 : (47 : Byte) ≠ Fin.ofNat (48 + i / 10 % 10) := by
    intro h0
    have := congrArg Fin.val h0
    simp only [Fin.ofNat] at this
    rw [h47] at this
    omega
  have h3 : (47 : Byte) ≠ Fin.ofNat (48 + i % 10) := by
    intro h0
    have := congrArg Fin.val h0
    simp only [Fin.ofNat] at this
    rw [h47] at this
    omega
  simp only [digits3, List.mem_cons, List.mem_singleton, List.not_mem_nil, or_false, not_or]
  exact ⟨h1, h2, h3⟩

theorem sampleKeysA_match : ∀ k ∈ sampleKeysA, pathMatch (str "a*") k = .ok true := by
  intro k hk
  simp only [sampleKeysA, List.mem_map, List.mem_range] at hk
  obtain ⟨i, hi, rfl⟩ := hk
  have h := digits3_noSlash i (by omega)
  have he := pathMatch_aStar (Fin.ofNat (48 + i / 100)) (Fin.ofNat (48 + i / 10 % 10))
    (Fin.ofNat (48 + i % 10))
  have hd : digits3 i = [Fin.ofNat (48 + i / 100), Fin.ofNat (48 + i / 10 % 10),
      Fin.ofNat (48 + i % 10)] := rfl
  rw [hd] at h ⊢
  rw [he]
  simp only [decide_eq_true_eq.mpr h]

theorem run_cons_some (env : Env) (lib : Lib) (fuel : Nat) (w w1 : World) (e : Event)
    (rest : List Event) (h : step env lib fuel w e = some w1) :
    run env lib fuel w (e :: rest) = run env lib fuel w1 rest := by
  simp only [run, h]

theorem worldAt_deliver (env : Env) (lib : Lib) (w : World) (msg : Msg)
    (pd : Bool) (pin : GoString) (cpd : Bool) (pp : GoString) (items : List GoString)
    (last : GoString) (ks : List GoString) (tasks cmds : List Cmd)
    (hs : w.store = ⟨ks, []⟩) (ht : w.tasks = tasks)
    (hU : browsing (Update env lib w.model msg).1 pd pin cpd pp items last ∧
      (Update env lib w.model msg).2 = cmds) :
    worldAt (deliver env lib w msg) pd pin cpd pp items last ks (tasks ++ cmds) := by
  refine ⟨hU.1, hs, ?_⟩
  show w.tasks ++ (Update env lib w.model msg).2 = _
  rw [ht, hU.2]

/-- The run of the example on a store whose first 495 keys match `a*`, followed by the keys
`b000` to `b005`: after the resize a page fetch is outstanding and the model says that none
is in flight; a second resize issues a second fetch. -/
theorem run_sampleEvents (as : List GoString) (hlen : as.length = 495)
    (hmatch : ∀ k ∈ as, pathMatch (str "a*") k = .ok true) (fuel : Nat) :
    ∃ w, run goEnv sampleLib (fuel + 1) (start ⟨as ++ sampleKeysB ++ [str "b005"], []⟩)
        sampleEvents = some w ∧
      worldAt w false (str "a*") false [] sampleKeysB (str "b004")
        (sampleKeysB ++ [str "b005"]) [.loadKeysCmd (str "b004") 500] := by
  have hAB : (as ++ sampleKeysB).length = 500 := by
    simp [hlen, sampleKeysB]
  have htake : (as ++ sampleKeysB ++ [str "b005"]).take 500 = as ++ sampleKeysB :=
    List.take_left' hAB
  have hdrop : (as ++ sampleKeysB ++ [str "b005"]).drop 500 = [str "b005"] :=
    List.drop_left' hAB
  have hlast : (as ++ sampleKeysB).getLast? = some (str "b004") := by
    simp [sampleKeysB, List.getLast?_append]
  -- the first page arrives
  have e1 : step goEnv sampleLib (fuel + 1) (start ⟨as ++ sampleKeysB ++ [str "b005"], []⟩)
      (.complete 0) = some (deliver goEnv sampleLib
        ⟨NewModel "", ⟨as ++ sampleKeysB ++ [str "b005"], []⟩, []⟩
        (.loadKeysMsg ⟨as ++ sampleKeysB, str "b004", true, [], none⟩)) := by
    have hpage := ListKeysPage_first (as ++ sampleKeysB ++ [str "b005"]) 500 (by omega)
    have h500 : (500 : Int).toNat = 500 := rfl
    rw [h500, htake, hdrop, hlast] at hpage
    show (match runCmd goEnv (fuel + 1) ⟨as ++ sampleKeysB ++ [str "b005"], []⟩
        (.loadKeysCmd [] 500) with
      | none => none
      | some r => some (deliver goEnv sampleLib
          ⟨NewModel "", r.2, []⟩ r.1)) = _
    simp only [runCmd, hpage]
    rfl
  have w1 := worldAt_deliver goEnv sampleLib
    ⟨NewModel "", ⟨as ++ sampleKeysB ++ [str "b005"], []⟩, []⟩
    (.loadKeysMsg ⟨as ++ sampleKeysB, str "b004", true, [], none⟩) _ _ _ _ _ _ _ _ _ rfl rfl
    (Update_loadFirstPage goEnv "" (as ++ sampleKeysB) (str "b004") hAB)
  generalize deliver goEnv sampleLib ⟨NewModel "", ⟨as ++ sampleKeysB ++ [str "b005"], []⟩, []⟩
    (.loadKeysMsg ⟨as ++ sampleKeysB, str "b004", true, [], none⟩) = W1 at e1 w1
  -- the pattern is typed and confirmed
  have w2 := worldAt_deliver goEnv sampleLib W1 (.KeyMsg "p") _ _ _ _ _ _ _ _ _ w1.2.1 w1.2.2
    (Update_key_p goEnv sampleLib W1.model _ _ _ _ w1.1)
  generalize hW2 : deliver goEnv sampleLib W1 (.KeyMsg "p") = W2 at w2
  have w3 := worldAt_deliver goEnv sampleLib W2 (.KeyMsg "a") _ _ _ _ _ _ _ _ _ w2.2.1 w2.2.2
    (Update_key_type goEnv W2.model "a" _ _ _ _ w2.1 (by decide) (by decide) (by decide) rfl)
  generalize hW3 : deliver goEnv sampleLib W2 (.KeyMsg "a") = W3 at w3
  have w4 := worldAt_deliver goEnv sampleLib W3 (.KeyMsg "*") _ _ _ _ _ _ _ _ _ w3.2.1 w3.2.2
    (Update_key_type goEnv W3.model "*" _ _ _ _ w3.1 (by decide) (by decide) (by decide) rfl)
  generalize hW4 : deliver goEnv sampleLib W3 (.KeyMsg "*") = W4 at w4
  have hpin : ([] ++ str "a" ++ str "*" : GoString) = str "a*" := by decide
  rw [hpin] at w4
  have htrim : trimSpace (str "a*") = str "a*" := by decide
  have w5 := worldAt_deliver goEnv sampleLib W4 (.KeyMsg "enter") _ _ _ _ _ _ _ _ _
    w4.2.1 w4.2.2
    (Update_key_enter goEnv sampleLib W4.model _ _ _ _ false w4.1 (by rw [htrim]; decide)
      (by rw [htrim]; decide))
  generalize hW5 : deliver goEnv sampleLib W4 (.KeyMsg "enter") = W5 at w5
  rw [htrim] at w5
  have w6 := worldAt_deliver goEnv sampleLib W5 (.KeyMsg "y") _ _ _ _ _ _ _ _ _ w5.2.1 w5.2.2
    (Update_key_y goEnv sampleLib W5.model _ _ _ _ _ w5.1)
  generalize hW6 : deliver goEnv sampleLib W5 (.KeyMsg "y") = W6 at w6
  -- the sweep
  have hrej : ∀ k ∈ sampleKeysB ++ [str "b005"], accepts goEnv (str "a*") k = false := by
    decide
  have hacc : ∀ k ∈ as, accepts goEnv (str "a*") k = true := by
    intro k hk
    simp only [accepts, matchPattern, goEnv, hmatch k hk, decide_True]
  have hfilter : (as ++ sampleKeysB ++ [str "b005"]).filter (accepts goEnv (str "a*")) = as := by
    rw [List.append_assoc, List.filter_append, List.filter_eq_self.mpr hacc,
      List.filter_eq_nil_iff.mpr (fun k hk => by rw [hrej k hk]; simp), List.append_nil]
  have hnot : ∀ k ∈ sampleKeysB ++ [str "b005"], k ∉ as := by
    intro k hk hin
    have := hacc k hin
    rw [hrej k hk] at this
    cases this
  have hstore : (as ++ sampleKeysB ++ [str "b005"]).filter (fun x => decide (x ∉ as))
      = sampleKeysB ++ [str "b005"] := by
    rw [List.append_assoc, List.filter_append,
      List.filter_eq_nil_iff.mpr (fun k hk => by simp [hk]),
      List.filter_eq_self.mpr (fun k hk => by simp [hnot k hk]), List.nil_append]
  have hitems : (as ++ sampleKeysB).filter (fun k => decide (k ∉ as)) = sampleKeysB := by
    rw [List.filter_append, List.filter_eq_nil_iff.mpr (fun k hk => by simp [hk]),
      List.filter_eq_self.mpr (fun k hk => by
        simp [hnot k (List.mem_append_left _ hk)]), List.nil_append]
  have hvalid : ∀ k ∈ as ++ sampleKeysB ++ [str "b005"],
      ∃ b, matchPattern goEnv (str "a*") k = .ok b := by
    intro k hk
    exact pathMatch_ok_indep (str "a*") [] k false (by decide)
  have hsweep := deletePatternCmd_onePage goEnv (str "a*") (as ++ sampleKeysB ++ [str "b005"])
    fuel (by simp [hlen, sampleKeysB]) hvalid
  rw [hfilter, hstore] at hsweep
  have e7 : step goEnv sampleLib (fuel + 1) W6 (.complete 0) = some (deliver goEnv sampleLib
      { W6 with store := ⟨sampleKeysB ++ [str "b005"], []⟩, tasks := [] }
      (.deletePatternResultMsg ⟨str "a*", as, none⟩)) := by
    obtain ⟨-, hs6, ht6⟩ := w6
    simp only [step, ht6, hs6, List.nil_append, List.getElem?_cons_zero, runCmd, hsweep,
      Option.map_some', List.eraseIdx_cons_zero]
  have w7 := worldAt_deliver goEnv sampleLib
    { W6 with store := ⟨sampleKeysB ++ [str "b005"], []⟩, tasks := [] }
    (.deletePatternResultMsg ⟨str "a*", as, none⟩) _ _ _ _ _ _ _ _ _ rfl rfl
    (Update_deleted goEnv W6.model _ _ (str "a*") _ as _ w6.1 (by omega))
  rw [hitems] at w7
  generalize hW7 : deliver goEnv sampleLib
    { W6 with store := ⟨sampleKeysB ++ [str "b005"], []⟩, tasks := [] }
    (.deletePatternResultMsg ⟨str "a*", as, none⟩) = W7 at e7 w7
  -- the resize
  have w8 := worldAt_deliver goEnv sampleLib W7 (.WindowSizeMsg 120 40) _ _ _ _ _ _ _ _ _
    w7.2.1 w7.2.2
    (Update_resize goEnv W7.model _ _ _ _ 120 40 w7.1 (by decide) (by decide))
  refine ⟨deliver goEnv sampleLib W7 (.WindowSizeMsg 120 40), ?_, w8⟩
  unfold sampleEvents
  rw [run_cons_some _ _ _ _ _ _ _ e1]
  rw [run_cons_some _ _ _ W1 W2 (.key "p") _ (by rw [← hW2]; rfl)]
  rw [run_cons_some _ _ _ W2 W3 (.key "a") _ (by rw [← hW3]; rfl)]
  rw [run_cons_some _ _ _ W3 W4 (.key "*") _ (by rw [← hW4]; rfl)]
  rw [run_cons_some _ _ _ W4 W5 (.key "enter") _ (by rw [← hW5]; rfl)]
  rw [run_cons_some _ _ _ W5 W6 (.key "y") _ (by rw [← hW6]; rfl)]
  rw [run_cons_some _ _ _ W6 W7 (.complete 0) _ e7]
  rfl

theorem run_append (env : Env) (lib : Lib) (fuel : Nat) (xs ys : List Event) :
    ∀ w : World, run env lib fuel w (xs ++ ys) =
      (run env lib fuel w xs).bind (fun w1 => run env lib fuel w1 ys) := by
  induction xs with
  | nil => intro w; rfl
  | cons e rest ih =>
    intro w
    simp only [List.cons_append, run]
    cases step env lib fuel w e with
    | none => rfl
    | some w1 => exact ih w1

theorem digitByte_val (n : Nat) (h : n < 10) : ((Fin.ofNat (48 + n) : Byte) : Nat) = 48 + n := by
  simp only [Fin.ofNat]
  omega

theorem digits3_lt (i j : Nat) (hij : i < j) (hj : j < 1000) : digits3 i < digits3 j := by
  have a1 := digitByte_val (i / 100) (by omega)
  have a2 := digitByte_val (i / 10 % 10) (by omega)
  have a3 := digitByte_val (i % 10) (by omega)
  have b1 := digitByte_val (j / 100) (by omega)
  have b2 := digitByte_val (j / 10 % 10) (by omega)
  have b3 := digitByte_val (j % 10) (by omega)
  unfold digits3
  by_cases h1 : i / 100 < j / 100
  · exact List.Lex.rel (Fin.lt_def.mpr (by rw [a1, b1]; omega))
  · have e1 : i / 100 = j / 100 := by omega
    rw [e1]
    refine List.Lex.cons ?_
    by_cases h2 : i / 10 % 10 < j / 10 % 10
    · exact List.Lex.rel (Fin.lt_def.mpr (by rw [a2, b2]; omega))
    · have e2 : i / 10 % 10 = j / 10 % 10 := by omega
      rw [e2]
      refine List.Lex.cons ?_
      exact List.Lex.rel (Fin.lt_def.mpr (by rw [a3, b3]; omega))

/-- The keys of the example are in store order, without repetition. -/
theorem sampleKeys_sorted : sampleKeys.Sorted (· < ·) := by
  unfold sampleKeys
  rw [List.append_assoc]
  refine List.pairwise_append.mpr ⟨?_, by decide, ?_⟩
  · unfold sampleKeysA
    rw [List.pairwise_map]
    refine List.Pairwise.imp_of_mem ?_ (List.pairwise_lt_range 495)
    intro i j hi hj hij
    have hj2 : j < 495 := List.mem_range.mp hj
    exact List.Lex.cons (digits3_lt i j hij (by omega))
  · intro a ha b hb
    simp only [sampleKeysA, List.mem_map] at ha
    obtain ⟨i, -, rfl⟩ := ha
    have hb0 : ∀ b ∈ sampleKeysB ++ [str "b005"], b.head? = some 98 := by decide
    have hb1 := hb0 b hb
    cases b with
    | nil => cases hb1
    | cons c rest =>
      simp only [List.head?_cons, Option.some.injEq] at hb1
      subst hb1
      exact List.Lex.rel (by decide)

/-- C12 fails in the code. The store holds the 501 keys `a000` to `a494` and `b000` to
`b005`, in order and without failures. The first page of 500 keys arrives, the pattern `a*`
is typed into the pattern prompt (`p`, `a`, `*`, Enter), confirmed (`y`), and the sweep
deletes the 495 keys it matches, which leaves 5 keys in the list. A resize of the window now
issues a page fetch, because the cursor is within 5 items of the end of the list, but
`Update` drops the model in which `maybeLoadMore` set `loadingKeys`: a fetch is outstanding
while `loadingKeys` is false. A second resize issues a second fetch while the first is still
outstanding. -/
theorem loadKeys_fetch_twice :
    sampleKeys.Sorted (· < ·) ∧
    (run goEnv sampleLib 2 (start ⟨sampleKeys, []⟩) sampleEvents).map
        (fun w => (w.model.loadingKeys, w.tasks)) =
      some (false, [.loadKeysCmd (str "b004") 500]) ∧
    (run goEnv sampleLib 2 (start ⟨sampleKeys, []⟩) (sampleEvents ++ [.resize 100 30])).map
        (fun w => (w.model.loadingKeys, w.tasks)) =
      some (false, [.loadKeysCmd (str "b004") 500, .loadKeysCmd (str "b004") 500]) := by
  obtain ⟨w, hrun, hw⟩ := run_sampleEvents sampleKeysA sampleKeysA_length sampleKeysA_match 1
  have hrun2 : run goEnv sampleLib 2 (start ⟨sampleKeys, []⟩) sampleEvents = some w := hrun
  refine ⟨sampleKeys_sorted, ?_, ?_⟩
  · rw [hrun2]
    simp only [Option.map_some', hw.1.2.2.2.2.2.2.2.1, hw.2.2]
  · have w9 := worldAt_deliver goEnv sampleLib w (.WindowSizeMsg 100 30) _ _ _ _ _ _ _ _ _
      hw.2.1 hw.2.2
      (Update_resize goEnv w.model _ _ _ _ 100 30 hw.1 (by decide) (by decide))
    rw [run_append, hrun2]
    show (some (deliver goEnv sampleLib w (.WindowSizeMsg 100 30))).map _ = _
    simp only [Option.map_some', w9.1.2.2.2.2.2.2.2.1, w9.2.2]
    rfl

/-! ## The window of visible rows, save and cancel in edit mode, format keys -/

theorem goInt_of_range (x : Int) (h1 : -9223372036854775808 ≤ x) (h2 : x < 9223372036854775808) :
    goInt x = x := by
  unfold goInt
  omega

/-- C27. Viewport scrolling keeps the cursor visible and in bounds: for `n ≥ 1` visual
lines, a cursor row `c` with `0 ≤ c < n` and a visible height `h` (values below 1 count as
1), the window `[start, end)` that `renderJSONEditor` computes satisfies
`0 ≤ start ≤ c < end ≤ n`, `end - start ≤ h` and `start ≤ max(0, n - h)`, and `start = 0`
when `c < h`. The sizes are Go `int` values. -/
theorem scrollWindow_bounds (c h n : Int)
    (hc : 0 ≤ c) (hcn : c < n) (hn : n < 9223372036854775808)
    (hh1 : -9223372036854775808 ≤ h) (hh2 : h < 9223372036854775808) :
    0 ≤ (scrollWindow c h n).1 ∧ (scrollWindow c h n).1 ≤ c ∧ c < (scrollWindow c h n).2 ∧
    (scrollWindow c h n).2 ≤ n ∧
    (scrollWindow c h n).2 - (scrollWindow c h n).1 ≤ (if h < 1 then 1 else h) ∧
    (scrollWindow c h n).1 ≤ max 0 (n - (if h < 1 then 1 else h)) ∧
    (c < (if h < 1 then 1 else h) → (scrollWindow c h n).1 = 0) := by
  have hv1 : 1 ≤ (if h < 1 then 1 else h) := by split_ifs <;> omega
  have hv2 : (if h < 1 then 1 else h) < 9223372036854775808 := by split_ifs <;> omega
  unfold scrollWindow
  simp only
  generalize (if h < 1 then 1 else h) = v at hv1 hv2 ⊢
  rw [goInt_of_range (n - v) (by omega) (by omega)]
  by_cases hcv : c ≥ v
  · have e1 : (if c ≥ v then goInt (goInt (c - v) + 1) else 0) = c - v + 1 := by
      rw [if_pos hcv, goInt_of_range (c - v) (by omega) (by omega),
        goInt_of_range (c - v + 1) (by omega) (by omega)]
    have e2 : (if c - v + 1 < 0 then 0 else c - v + 1) = c - v + 1 := if_neg (by omega)
    have e3 : (if n > 0 ∧ c - v + 1 > n - v then max 0 (n - v) else c - v + 1) = c - v + 1 :=
      if_neg (by omega)
    have e4 : goInt (c - v + 1 + v) = c + 1 := by
      rw [goInt_of_range (c - v + 1 + v) (by omega) (by omega)]; omega
    have e5 : min (c + 1) n = c + 1 := min_eq_left (by omega)
    have e6 : (if c + 1 < c - v + 1 then c - v + 1 else c + 1) = c + 1 := if_neg (by omega)
    simp only [e1, e2, e3, e4, e5, e6]
    refine ⟨by omega, by omega, by omega, by omega, by omega, ?_, by omega⟩
    exact le_max_of_le_right (by omega)
  · have e1 : (if c ≥ v then goInt (goInt (c - v) + 1) else 0) = 0 := if_neg hcv
    have e2 : (if (0 : Int) < 0 then 0 else 0) = 0 := if_neg (by omega)
    have e3 : (if n > 0 ∧ 0 > n - v then max 0 (n - v) else 0) = 0 := by
      split_ifs with h0
      · exact max_eq_left (by omega)
      · rfl
    have e4 : goInt (0 + v) = v := by
      rw [goInt_of_range (0 + v) (by omega) (by omega)]; omega
    have e5 : c < min v n ∧ min v n ≤ n ∧ min v n ≤ v ∧ 0 ≤ min v n :=
      ⟨lt_min (by omega) hcn, min_le_right _ _, min_le_left _ _, le_min (by omega) (by omega)⟩
    have e6 : (if min v n < 0 then 0 else min v n) = min v n := if_neg (by omega)
    simp only [e1, lt_self_iff_false, if_false, e3, e4, e6]
    refine ⟨by omega, by omega, by omega, by omega, by omega, ?_, fun _ => trivial⟩
    exact le_max_left _ _

/-- C27 at a concrete input: 10 visual lines, cursor on row 7, height 3: rows 5 to 7. -/
theorem scrollWindow_bounds_witness :
    scrollWindow 7 3 10 = (5, 8) ∧
    (0 ≤ (scrollWindow 7 3 10).1 ∧ (scrollWindow 7 3 10).1 ≤ 7 ∧ 7 < (scrollWindow 7 3 10).2 ∧
      (scrollWindow 7 3 10).2 ≤ 10 ∧
      (scrollWindow 7 3 10).2 - (scrollWindow 7 3 10).1 ≤ (if (3 : Int) < 1 then 1 else 3) ∧
      (scrollWindow 7 3 10).1 ≤ max 0 (10 - (if (3 : Int) < 1 then 1 else 3)) ∧
      ((7 : Int) < (if (3 : Int) < 1 then 1 else 3) → (scrollWindow 7 3 10).1 = 0)) :=
  ⟨by decide, scrollWindow_bounds 7 3 10 (by decide) (by decide) (by decide) (by decide)
    (by decide)⟩

theorem updateKeyMsg_editing (env : Env) (lib : Lib) (m : Model) (s : String)
    (hs : s ≠ "f1") (h1 : m.showAbout = false) (h2 : m.confirmDelete = false)
    (h3 : m.confirmPatternDelete = false) (h4 : m.editing = true) :
    updateKeyMsg env lib m s = some (keyEditing env lib m s) := by
  unfold updateKeyMsg
  rw [if_neg hs, if_neg (by simp [h1]), if_neg (by simp [h2]), if_neg (by simp [h3]),
    if_pos h4]

theorem Update_editing (env : Env) (lib : Lib) (m : Model) (s : String)
    (hs : s ≠ "f1") (h1 : m.showAbout = false) (h2 : m.confirmDelete = false)
    (h3 : m.confirmPatternDelete = false) (h4 : m.editing = true) :
    Update env lib m (.KeyMsg s) = keyEditing env lib m s := by
  show (match updateKeyMsg env lib m s with
    | some r => r
    | none => updateList lib m (.KeyMsg s)) = _
  rw [updateKeyMsg_editing env lib m s hs h1 h2 h3 h4]

theorem keyEditing_save_error (env : Env) (lib : Lib) (m : Model) (e : String)
    (he : bytesFromEditor env m = .error e) :
    keyEditing env lib m "ctrl+s" =
      ({ m with status := env.errStyle ("Error: save failed: " ++ e) }, []) := by
  unfold keyEditing
  rw [if_neg (by decide), if_pos rfl, he]

/-- C23. Save with an encode failure is atomic: in every model with `editing = true`, if
`bytesFromEditor` fails on the buffer, `Update` on `ctrl+s` returns no command and a model
that differs from the old one in the status message at most, so `editing`, `editKey` and
the edit buffer are as before; when edit mode has the keyboard (no About overlay and no
confirmation open) the status is the styled text `Error: save failed: ` with the error. -/
theorem save_encode_failure_atomic (env : Env) (lib : Lib) (m : Model) (e : String)
    (hed : m.editing = true) (he : bytesFromEditor env m = .error e) :
    (Update env lib m (.KeyMsg "ctrl+s")).2 = [] ∧
    (Update env lib m (.KeyMsg "ctrl+s")).1 =
      { m with status := (Update env lib m (.KeyMsg "ctrl+s")).1.status } ∧
    (Update env lib m (.KeyMsg "ctrl+s")).1.editing = true ∧
    (Update env lib m (.KeyMsg "ctrl+s")).1.editKey = m.editKey ∧
    (Update env lib m (.KeyMsg "ctrl+s")).1.editor = m.editor ∧
    (m.showAbout = false → m.confirmDelete = false → m.confirmPatternDelete = false →
      Update env lib m (.KeyMsg "ctrl+s") =
        ({ m with status := env.errStyle ("Error: save failed: " ++ e) }, [])) := by
  have key : ∀ r : Model × List Cmd, Update env lib m (.KeyMsg "ctrl+s") = r →
      r.2 = [] → r.1 = { m with status := r.1.status } →
      (Update env lib m (.KeyMsg "ctrl+s")).2 = [] ∧
      (Update env lib m (.KeyMsg "ctrl+s")).1 =
        { m with status := (Update env lib m (.KeyMsg "ctrl+s")).1.status } ∧
      (Update env lib m (.KeyMsg "ctrl+s")).1.editing = true ∧
      (Update env lib m (.KeyMsg "ctrl+s")).1.editKey = m.editKey ∧
      (Update env lib m (.KeyMsg "ctrl+s")).1.editor = m.editor := by
    intro r hr h2 h1
    rw [hr]
    refine ⟨h2, h1, ?_, ?_, ?_⟩
    · rw [h1]; exact hed
    · rw [h1]
    · rw [h1]
  have hfull : m.showAbout = false → m.confirmDelete = false → m.confirmPatternDelete = false →
      Update env lib m (.KeyMsg "ctrl+s") =
        ({ m with status := env.errStyle ("Error: save failed: " ++ e) }, []) := by
    intro h1 h2 h3
    rw [Update_editing env lib m "ctrl+s" (by decide) h1 h2 h3 hed,
      keyEditing_save_error env lib m e he]
  have hU : ∀ r, updateKeyMsg env lib m "ctrl+s" = some r →
      Update env lib m (.KeyMsg "ctrl+s") = r := by
    intro r hr
    show (match updateKeyMsg env lib m "ctrl+s" with
      | some r => r
      | none => updateList lib m (.KeyMsg "ctrl+s")) = _
    rw [hr]
  have hrest : (Update env lib m (.KeyMsg "ctrl+s")).2 = [] ∧
      (Update env lib m (.KeyMsg "ctrl+s")).1 =
        { m with status := (Update env lib m (.KeyMsg "ctrl+s")).1.status } ∧
      (Update env lib m (.KeyMsg "ctrl+s")).1.editing = true ∧
      (Update env lib m (.KeyMsg "ctrl+s")).1.editKey = m.editKey ∧
      (Update env lib m (.KeyMsg "ctrl+s")).1.editor = m.editor := by
    by_cases h1 : m.showAbout = true
    · refine key (m, []) (hU _ ?_) rfl rfl
      unfold updateKeyMsg
      rw [if_neg (by decide), if_pos h1, if_neg (by decide)]
    · by_cases h2 : m.confirmDelete = true
      · refine key (m, []) (hU _ ?_) rfl rfl
        unfold updateKeyMsg keyConfirmDelete
        rw [if_neg (by decide), if_neg h1, if_pos h2, if_neg (by decide), if_neg (by decide)]
      · by_cases h3 : m.confirmPatternDelete = true
        · refine key (m, []) (hU _ ?_) rfl rfl
          unfold updateKeyMsg keyConfirmPatternDelete
          rw [if_neg (by decide), if_neg h1, if_neg h2, if_pos h3, if_neg (by decide),
            if_neg (by decide)]
        · exact key _ (hfull (by simpa using h1) (by simpa using h2) (by simpa using h3))
            rfl rfl
  exact ⟨hrest.1, hrest.2.1, hrest.2.2.1, hrest.2.2.2.1, hrest.2.2.2.2, hfull⟩

/-- C23 at a concrete input: the hex editor holds the three characters `abc`. -/
theorem save_encode_failure_atomic_witness :
    bytesFromEditor sampleEnv
        { NewModel "" with editing := true, valFormat := .fmtHex, editor := str "abc",
                           editKey := str "k" } = .error "hex length must be even" ∧
    (Update sampleEnv sampleLib
        { NewModel "" with editing := true, valFormat := .fmtHex, editor := str "abc",
                           editKey := str "k" } (.KeyMsg "ctrl+s")).2 = [] :=
  ⟨by decide,
    (save_encode_failure_atomic sampleEnv sampleLib
      { NewModel "" with editing := true, valFormat := .fmtHex, editor := str "abc",
                         editKey := str "k" } "hex length must be even" rfl (by decide)).1⟩

/-- C22, counterexample. With the value of the key `k` loaded and shown, the key `h`
makes `Update` return the command that loads `k` from the store again. -/
theorem formatKey_reloads_counterexample :
    Update sampleEnv sampleLib
        { NewModel "" with selected := str "k", lastLoadValue := str "v", viewport := "v",
                           focusRight := true, list := [str "k"] } (.KeyMsg "h") =
      ({ NewModel "" with selected := str "k", lastLoadValue := str "v", viewport := "v",
                          focusRight := true, list := [str "k"], valFormat := .fmtHex },
        [.loadValueCmd (str "k")]) := by
  rfl

theorem reloadSelected_selected (m : Model) (h : m.selected ≠ []) :
    reloadSelected m = ({ m with editKey := [] }, [.loadValueCmd m.selected]) := by
  unfold reloadSelected
  rw [if_neg h]

theorem updateKeyMsg_formatKey (env : Env) (lib : Lib) (m : Model) (s : String)
    (f : valueFormat)
    (hs : (s, f) ∈ [("t", valueFormat.fmtText), ("h", valueFormat.fmtHex),
      ("b", valueFormat.fmtBase64), ("j", valueFormat.fmtJSON)])
    (h1 : m.showAbout = false) (h2 : m.confirmDelete = false)
    (h3 : m.confirmPatternDelete = false) (h4 : m.editing = false)
    (h5 : m.patternDelete = false) (h6 : SettingFilter m = false) :
    updateKeyMsg env lib m s = some (reloadSelected { m with valFormat := f }) := by
  have hk : keyFocusRight lib m s = reloadSelected { m with valFormat := f } ∧
      keyNormal m s = some (reloadSelected { m with valFormat := f }) := by
    simp only [List.mem_cons, Prod.mk.injEq, List.mem_singleton, List.mem_nil_iff,
      or_false] at hs
    rcases hs with ⟨rfl, rfl⟩ | ⟨rfl, rfl⟩ | ⟨rfl, rfl⟩ | ⟨rfl, rfl⟩
    · constructor
      · unfold keyFocusRight
        rw [if_neg (by decide), if_neg (by decide), if_pos rfl]
      · unfold keyNormal
        rw [if_neg (by decide), if_pos rfl]
    · constructor
      · unfold keyFocusRight
        rw [if_neg (by decide), if_neg (by decide), if_neg (by decide), if_pos rfl]
      · unfold keyNormal
        rw [if_neg (by decide), if_neg (by decide), if_pos rfl]
    · constructor
      · unfold keyFocusRight
        rw [if_neg (by decide), if_neg (by decide), if_neg (by decide), if_neg (by decide),
          if_pos rfl]
      · unfold keyNormal
        rw [if_neg (by decide), if_neg (by decide), if_neg (by decide), if_pos rfl]
    · constructor
      · unfold keyFocusRight
        rw [if_neg (by decide), if_neg (by decide), if_neg (by decide), if_neg (by decide),
          if_neg (by decide), if_pos rfl]
      · unfold keyNormal
        rw [if_neg (by decide), if_neg (by decide), if_neg (by decide), if_neg (by decide),
          if_pos rfl]
  have hf1 : s ≠ "f1" := by
    simp only [List.mem_cons, Prod.mk.injEq, List.mem_singleton, List.mem_nil_iff,
      or_false] at hs
    rcases hs with ⟨rfl, _⟩ | ⟨rfl, _⟩ | ⟨rfl, _⟩ | ⟨rfl, _⟩ <;> decide
  unfold updateKeyMsg
  rw [if_neg hf1, if_neg (by simp [h1]), if_neg (by simp [h2]), if_neg (by simp [h3]),
    if_neg (by simp [h4]), if_neg (by simp [h5]), if_neg (by simp [h6])]
  by_cases hfr : (m.focusRight && !m.editing) = true
  · rw [if_pos hfr, hk.1]
  · rw [if_neg hfr, hk.2]

/-- C22, amended. While a value is loaded (`selected` is a key) and the format keys are
live (no overlay, confirmation, edit mode, pattern prompt or filter input), a format key
`t`, `h`, `b` or `j` sets the format and returns exactly one command, the load of the
selected key from the store; the view is decoded anew from the bytes that this load
delivers. -/
theorem formatKey_reloads (env : Env) (lib : Lib) (m : Model) (s : String) (f : valueFormat)
    (v : GoString)
    (hs : (s, f) ∈ [("t", valueFormat.fmtText), ("h", valueFormat.fmtHex),
      ("b", valueFormat.fmtBase64), ("j", valueFormat.fmtJSON)])
    (h1 : m.showAbout = false) (h2 : m.confirmDelete = false)
    (h3 : m.confirmPatternDelete = false) (h4 : m.editing = false)
    (h5 : m.patternDelete = false) (h6 : SettingFilter m = false)
    (hsel : m.selected ≠ []) :
    Update env lib m (.KeyMsg s) =
      ({ m with valFormat := f, editKey := [] }, [.loadValueCmd m.selected]) ∧
    Update env lib { m with valFormat := f, editKey := [] }
        (.loadValueMsg { key := m.selected, value := v, err := none }) =
      ({ m with valFormat := f, editKey := [], lastLoadValue := v,
                viewport := formatValue env lib
                  { m with valFormat := f, editKey := [], lastLoadValue := v } v }, []) := by
  constructor
  · show (match updateKeyMsg env lib m s with
      | some r => r
      | none => updateList lib m (.KeyMsg s)) = _
    rw [updateKeyMsg_formatKey env lib m s f hs h1 h2 h3 h4 h5 h6,
      reloadSelected_selected { m with valFormat := f } hsel]
  · show updateLoadValueMsg env lib _ _ = _
    unfold updateLoadValueMsg
    rw [if_neg (by simp)]
    simp only
    rw [if_neg (by
      intro h
      exact hsel h.1.symm)]

/-- C22, amended, at a concrete input: the key `h` with the value of `k` loaded. -/
theorem formatKey_reloads_witness :
    (Update sampleEnv sampleLib
        { NewModel "" with selected := str "k", lastLoadValue := str "v", viewport := "v",
                           focusRight := true } (.KeyMsg "h")).2 =
      [.loadValueCmd (str "k")] :=
  congrArg Prod.snd (formatKey_reloads sampleEnv sampleLib
    { NewModel "" with selected := str "k", lastLoadValue := str "v", viewport := "v",
                       focusRight := true } "h" .fmtHex (str "v")
    (by decide) rfl rfl rfl rfl rfl (by decide) (by decide)).1

theorem keyEditing_other (env : Env) (lib : Lib) (m : Model) (s : String)
    (h1 : s ≠ "esc") (h2 : s ≠ "ctrl+s") :
    keyEditing env lib m s =
      ({ m with editor := (lib.editorUpdate m.editor (.KeyMsg s)).1 },
        ((lib.editorUpdate m.editor (.KeyMsg s)).2).map Cmd.widget) := by
  unfold keyEditing
  rw [if_neg h1, if_neg h2]

theorem keyEditing_esc (env : Env) (lib : Lib) (m : Model) :
    keyEditing env lib m "esc" =
      (updateEditorLayout
        { m with editing := false, editKey := [], focusRight := true,
                 status := "Edit canceled." }
        (computeLayout lib m.width m.height), []) := by
  unfold keyEditing
  rw [if_pos rfl]

theorem reachesEditMode_iff (m : Model) (s : String) :
    reachesEditMode m s = true ↔
      s ≠ "f1" ∧ m.showAbout = false ∧ m.confirmDelete = false ∧
        m.confirmPatternDelete = false ∧ m.editing = true := by
  unfold reachesEditMode
  simp [and_assoc]

theorem runFrom_cons (env : Env) (m : Model) (e : Lib × Msg) (rest : List (Lib × Msg)) :
    runFrom env m (e :: rest) = runFrom env (Update env e.1 m e.2).1 rest := rfl

theorem issued_append (env : Env) (a b : List (Lib × Msg)) : ∀ m : Model,
    issued env m (a ++ b) = issued env m a ++ issued env (runFrom env m a) b := by
  induction a with
  | nil => intro m; rfl
  | cons e rest ih =>
    intro m
    show _ ++ issued env _ (rest ++ b) = (_ ++ issued env _ rest) ++ _
    rw [ih, runFrom_cons, List.append_assoc]

theorem editorKeyEvents_run (env : Env) (lib : Lib) (keys : List (Lib × String)) :
    ∀ m : Model, editorKeyEvents env m (keys ++ [(lib, "esc")]) = true →
      (∀ k ∈ keys, k.2 ≠ "ctrl+s") →
      (∀ c ∈ issued env m (keyMsgs keys), isStoreCmd c = false) ∧
        reachesEditMode (runFrom env m (keyMsgs keys)) "esc" = true ∧
        (runFrom env m (keyMsgs keys)).editKey = m.editKey := by
  induction keys with
  | nil =>
    intro m h _
    refine ⟨fun c hc => absurd hc (List.not_mem_nil c), ?_, rfl⟩
    have h2 : (reachesEditMode m "esc" && true) = true := h
    simpa using h2
  | cons k rest ih =>
    intro m h hs
    have h2 : (reachesEditMode m k.2 &&
        editorKeyEvents env (Update env k.1 m (.KeyMsg k.2)).1 (rest ++ [(lib, "esc")])) = true := h
    rw [Bool.and_eq_true] at h2
    obtain ⟨hr, hrest⟩ := h2
    obtain ⟨hf1, ha, hcd, hcp, hed⟩ := (reachesEditMode_iff m k.2).1 hr
    have hU := Update_editing env k.1 m k.2 hf1 ha hcd hcp hed
    have hne : k.2 ≠ "esc" := by
      intro hesc
      rw [hU, hesc, keyEditing_esc] at hrest
      have h3 := (ih _ hrest (fun x hx => hs x (List.mem_cons_of_mem _ hx)))
      cases rest with
      | nil =>
        have h4 : (reachesEditMode (updateEditorLayout
            { m with editing := false, editKey := [], focusRight := true,
                     status := "Edit canceled." }
            (computeLayout k.1 m.width m.height)) "esc" && true) = true := hrest
        rw [Bool.and_true, reachesEditMode_iff] at h4
        exact absurd h4.2.2.2.2 (by simp [updateEditorLayout])
      | cons x xs =>
        have h4 : (reachesEditMode (updateEditorLayout
            { m with editing := false, editKey := [], focusRight := true,
                     status := "Edit canceled." }
            (computeLayout k.1 m.width m.height)) x.2 &&
            editorKeyEvents env (Update env x.1 (updateEditorLayout
              { m with editing := false, editKey := [], focusRight := true,
                       status := "Edit canceled." }
              (computeLayout k.1 m.width m.height)) (.KeyMsg x.2)).1
              (xs ++ [(lib, "esc")])) = true := hrest
        rw [Bool.and_eq_true, reachesEditMode_iff] at h4
        exact absurd h4.1.2.2.2.2 (by simp [updateEditorLayout])
    have hK := keyEditing_other env k.1 m k.2 hne (hs k (List.mem_cons_self _ _))
    rw [hU, hK] at hrest
    obtain ⟨i1, i2, i3⟩ := ih _ hrest (fun x hx => hs x (List.mem_cons_of_mem _ hx))
    have hrun : runFrom env m (keyMsgs (k :: rest)) =
        runFrom env { m with editor := (k.1.editorUpdate m.editor (.KeyMsg k.2)).1 }
          (keyMsgs rest) := by
      show runFrom env (Update env k.1 m (.KeyMsg k.2)).1 (keyMsgs rest) = _
      rw [hU, hK]
    have hiss : issued env m (keyMsgs (k :: rest)) =
        ((k.1.editorUpdate m.editor (.KeyMsg k.2)).2).map Cmd.widget ++
          issued env { m with editor := (k.1.editorUpdate m.editor (.KeyMsg k.2)).1 }
            (keyMsgs rest) := by
      show (Update env k.1 m (.KeyMsg k.2)).2 ++
        issued env (Update env k.1 m (.KeyMsg k.2)).1 (keyMsgs rest) = _
      rw [hU, hK]
    rw [hrun, hiss]
    refine ⟨?_, i2, i3⟩
    intro c hc
    rcases List.mem_append.1 hc with hc | hc
    · obtain ⟨n, _, rfl⟩ := List.mem_map.1 hc
      rfl
    · exact i1 c hc

theorem editorKeyEvents_plain (env : Env) (keys : List (Lib × String)) :
    ∀ m : Model, m.showAbout = false → m.confirmDelete = false →
      m.confirmPatternDelete = false → m.editing = true →
      (∀ k ∈ keys, k.2 ≠ "f1" ∧ k.2 ≠ "esc" ∧ k.2 ≠ "ctrl+s") →
      editorKeyEvents env m keys = true ∧
        reachesEditMode (runFrom env m (keyMsgs keys)) "esc" = true := by
  induction keys with
  | nil =>
    intro m h1 h2 h3 h4 _
    exact ⟨rfl, (reachesEditMode_iff m "esc").2 ⟨by decide, h1, h2, h3, h4⟩⟩
  | cons k rest ih =>
    intro m h1 h2 h3 h4 hk
    obtain ⟨k1, k2, k3⟩ := hk k (List.mem_cons_self _ _)
    have hU := Update_editing env k.1 m k.2 k1 h1 h2 h3 h4
    have hK := keyEditing_other env k.1 m k.2 k2 k3
    have ih2 := ih { m with editor := (k.1.editorUpdate m.editor (.KeyMsg k.2)).1 }
      h1 h2 h3 h4 (fun x hx => hk x (List.mem_cons_of_mem _ hx))
    constructor
    · show (reachesEditMode m k.2 &&
        editorKeyEvents env (Update env k.1 m (.KeyMsg k.2)).1 rest) = true
      rw [hU, hK, ih2.1, (reachesEditMode_iff m k.2).2 ⟨k1, h1, h2, h3, h4⟩]
      rfl
    · show reachesEditMode (runFrom env (Update env k.1 m (.KeyMsg k.2)).1 (keyMsgs rest))
        "esc" = true
      rw [hU, hK]
      exact ih2.2

/-- Edit-then-cancel while edit mode has the keyboard: take any sequence of key presses
that contains no `ctrl+s`, ends with `esc`, and whose every key press reaches the edit
mode of `Update` (so the first model is an editing state). No command issued along the
sequence operates on the store (the editor widget's own commands are all there is), and
the final `esc` returns no command and a model with `editing = false` and an empty
`editKey`; until then `editKey` is as at the start. -/
theorem edit_then_cancel (env : Env) (lib : Lib) (m : Model) (keys : List (Lib × String))
    (hk : editorKeyEvents env m (keys ++ [(lib, "esc")]) = true)
    (hs : ∀ k ∈ keys, k.2 ≠ "ctrl+s") :
    (∀ c ∈ issued env m (keyMsgs (keys ++ [(lib, "esc")])), isStoreCmd c = false) ∧
    m.editing = true ∧
    (runFrom env m (keyMsgs keys)).editKey = m.editKey ∧
    (Update env lib (runFrom env m (keyMsgs keys)) (.KeyMsg "esc")).2 = [] ∧
    (Update env lib (runFrom env m (keyMsgs keys)) (.KeyMsg "esc")).1.editing = false ∧
    (Update env lib (runFrom env m (keyMsgs keys)) (.KeyMsg "esc")).1.editKey = [] := by
  obtain ⟨i1, i2, i3⟩ := editorKeyEvents_run env lib keys m hk hs
  obtain ⟨hf1, ha, hcd, hcp, hed⟩ := (reachesEditMode_iff _ _).1 i2
  have hU := Update_editing env lib (runFrom env m (keyMsgs keys)) "esc" hf1 ha hcd hcp hed
  rw [keyEditing_esc] at hU
  have hm : m.editing = true := by
    cases keys with
    | nil => exact hed
    | cons k rest =>
      have h2 : (reachesEditMode m k.2 &&
          editorKeyEvents env (Update env k.1 m (.KeyMsg k.2)).1
            (rest ++ [(lib, "esc")])) = true := hk
      rw [Bool.and_eq_true, reachesEditMode_iff] at h2
      exact h2.1.2.2.2.2
  refine ⟨?_, hm, i3, ?_, ?_, ?_⟩
  · intro c hc
    have hsplit : keyMsgs (keys ++ [(lib, "esc")]) = keyMsgs keys ++ [(lib, Msg.KeyMsg "esc")] := by
      simp [keyMsgs]
    rw [hsplit, issued_append] at hc
    rcases List.mem_append.1 hc with hc | hc
    · exact i1 c hc
    · have h5 : issued env (runFrom env m (keyMsgs keys)) [(lib, Msg.KeyMsg "esc")] =
          (Update env lib (runFrom env m (keyMsgs keys)) (.KeyMsg "esc")).2 ++ [] := rfl
      rw [h5, hU] at hc
      cases hc
  · rw [hU]
  · rw [hU]; rfl
  · rw [hU]; rfl

/-- The statement `edit_then_cancel` at a concrete input: two characters are typed into the
editor of the key `k`, then `esc`. -/
theorem edit_then_cancel_witness :
    editorKeyEvents sampleEnv
        { NewModel "" with editing := true, editKey := str "k", editor := str "v" }
        ([(sampleLib, "a"), (sampleLib, "b")] ++ [(sampleLib, "esc")]) = true ∧
    (Update sampleEnv sampleLib
        (runFrom sampleEnv
          { NewModel "" with editing := true, editKey := str "k", editor := str "v" }
          (keyMsgs [(sampleLib, "a"), (sampleLib, "b")])) (.KeyMsg "esc")).1.editing = false :=
  ⟨rfl,
    (edit_then_cancel sampleEnv sampleLib
      { NewModel "" with editing := true, editKey := str "k", editor := str "v" }
      [(sampleLib, "a"), (sampleLib, "b")] rfl (by decide)).2.2.2.2.1⟩

/-- C24, evaluated. From the initial model the page with the key `k` arrives, `e` asks for
the value of `k` to edit it, `esc` returns to the list and `d` opens the delete
confirmation while the load is outstanding, then the value arrives: the model is editing
with the delete confirmation open. The key presses `y`, `esc` that follow contain no
`ctrl+s` and end with an `esc` that leaves edit mode, and the `y` issues the Delete of
`k`. -/
theorem editCancel_issues_delete :
    (runFrom goEnv (NewModel "")
        [(sampleLib, .loadKeysMsg ⟨[str "k"], str "k", false, [], none⟩),
         (sampleLib, .KeyMsg "e"), (sampleLib, .KeyMsg "esc"), (sampleLib, .KeyMsg "d"),
         (sampleLib, .loadValueMsg ⟨str "k", str "v", none⟩)]).editing = true ∧
    (runFrom goEnv (NewModel "")
        [(sampleLib, .loadKeysMsg ⟨[str "k"], str "k", false, [], none⟩),
         (sampleLib, .KeyMsg "e"), (sampleLib, .KeyMsg "esc"), (sampleLib, .KeyMsg "d"),
         (sampleLib, .loadValueMsg ⟨str "k", str "v", none⟩)]).confirmDelete = true ∧
    issued goEnv
        (runFrom goEnv (NewModel "")
          [(sampleLib, .loadKeysMsg ⟨[str "k"], str "k", false, [], none⟩),
           (sampleLib, .KeyMsg "e"), (sampleLib, .KeyMsg "esc"), (sampleLib, .KeyMsg "d"),
           (sampleLib, .loadValueMsg ⟨str "k", str "v", none⟩)])
        [(sampleLib, .KeyMsg "y"), (sampleLib, .KeyMsg "esc")] =
      [.deleteKeyCmd (str "k")] ∧
    (runFrom goEnv (NewModel "")
        [(sampleLib, .loadKeysMsg ⟨[str "k"], str "k", false, [], none⟩),
         (sampleLib, .KeyMsg "e"), (sampleLib, .KeyMsg "esc"), (sampleLib, .KeyMsg "d"),
         (sampleLib, .loadValueMsg ⟨str "k", str "v", none⟩),
         (sampleLib, .KeyMsg "y"), (sampleLib, .KeyMsg "esc")]).editing = false := by
  refine ⟨?_, ?_, ?_, ?_⟩ <;> rfl

/-! ## Single delete, modes, and the match-count scan -/

/-- C25, evaluated. The store holds the keys `a` and `b`; the first page arrives, `d` and
`y` delete the key `a` under the cursor, `down` moves the cursor to `b` while the delete is
outstanding, then the delete completes. The store no longer holds `a`, but the list still
shows `a` and has lost `b`. -/
theorem deleteResult_removes_cursor_item :
    (run goEnv cursorLib 10 (start ⟨[str "a", str "b"], []⟩)
        [.complete 0, .key "d", .key "y", .key "down", .complete 0]).map
        (fun w => (w.model.list, w.store.keys, w.model.selected)) =
      some ([str "a"], [str "b"], []) := by
  rfl

/-- C26, evaluated. From the initial model: the page with the key `k` arrives, `e` asks
for the value of `k` to edit it, `p` opens the pattern prompt while the load is
outstanding, then the value arrives. The model is then editing with the pattern prompt
open. -/
theorem modes_not_exclusive :
    issued goEnv (NewModel "")
        [(sampleLib, .loadKeysMsg ⟨[str "k"], str "k", false, [], none⟩),
         (sampleLib, .KeyMsg "e"), (sampleLib, .KeyMsg "p")] = [.loadValueCmd (str "k")] ∧
    (runFrom goEnv (NewModel "")
        [(sampleLib, .loadKeysMsg ⟨[str "k"], str "k", false, [], none⟩),
         (sampleLib, .KeyMsg "e"), (sampleLib, .KeyMsg "p"),
         (sampleLib, .loadValueMsg ⟨str "k", str "v", none⟩)]).editing = true ∧
    (runFrom goEnv (NewModel "")
        [(sampleLib, .loadKeysMsg ⟨[str "k"], str "k", false, [], none⟩),
         (sampleLib, .KeyMsg "e"), (sampleLib, .KeyMsg "p"),
         (sampleLib, .loadValueMsg ⟨str "k", str "v", none⟩)]).patternDelete = true := by
  refine ⟨?_, ?_, ?_⟩ <;> rfl

/-- C28, evaluated. From the initial model the filter `a` is typed and applied, which
issues the scan for `a`; the scan fails; the window is resized. The filter is applied with
the text `a` from `enter` on, and the scan for `a` is issued twice: the failed scan is
started again by the next event. -/
theorem countFilter_retried :
    termHeld goEnv (str "a")
        (runFrom goEnv (NewModel "") [(filterLib, .KeyMsg "/"), (filterLib, .KeyMsg "a")])
        [(filterLib, .KeyMsg "enter"),
         (filterLib, .filterCountMsg ⟨str "a", 0, some "closed"⟩),
         (filterLib, .WindowSizeMsg 80 24)] = true ∧
    issued goEnv (NewModel "")
        [(filterLib, .KeyMsg "/"), (filterLib, .KeyMsg "a"), (filterLib, .KeyMsg "enter"),
         (filterLib, .filterCountMsg ⟨str "a", 0, some "closed"⟩),
         (filterLib, .WindowSizeMsg 80 24)] =
      [.countFilterCmd (str "a"), .countFilterCmd (str "a")] := by
  constructor <;> rfl

theorem numCount_widget (l : List Nat) : (l.map Cmd.widget).countP isCountFilterCmd = 0 := by
  induction l with
  | nil => rfl
  | cons x xs ih => rw [List.map_cons, List.countP_cons_of_neg _ _ (by simp [isCountFilterCmd])]; exact ih

theorem sameCount_refl (m : Model) : sameCount m m := ⟨rfl, rfl, rfl⟩

theorem sameCount_trans (a b c : Model) (h1 : sameCount a b) (h2 : sameCount b c) :
    sameCount a c := ⟨h1.1.trans h2.1, h1.2.1.trans h2.2.1, h1.2.2.trans h2.2.2⟩

theorem countSettled_congr (T : GoString) (a b : Model) (h : sameCount a b) :
    countSettled T a ↔ countSettled T b := by
  unfold countSettled
  rw [h.1, h.2.1, h.2.2]

theorem filterApplied_congr (T : GoString) (a b : Model) (h : sameFilter a b) :
    filterApplied T a = filterApplied T b := by
  unfold filterApplied
  rw [h.1, h.2]

theorem countStep_of_same (T : GoString) (m : Model) (r : Model × List Cmd)
    (h : sameCount r.1 m) (hc : r.2.countP isCountFilterCmd = 0) : countStep T m r := by
  intro _
  exact ⟨fun hs => ⟨hc, (countSettled_congr T _ _ h).2 hs⟩, Or.inl hc⟩

theorem countStep_pre (T : GoString) (m x : Model) (r : Model × List Cmd)
    (h : sameCount x m) (hs : countStep T x r) : countStep T m r := by
  intro ha
  obtain ⟨h1, h2⟩ := hs ha
  exact ⟨fun hm => h1 ((countSettled_congr T _ _ h).2 hm), h2⟩

theorem countStep_post (T : GoString) (m : Model) (r r2 : Model × List Cmd)
    (hf : sameFilter r2.1 r.1) (hc : sameCount r2.1 r.1)
    (hn : r2.2.countP isCountFilterCmd = r.2.countP isCountFilterCmd)
    (hs : countStep T m r) : countStep T m r2 := by
  intro ha
  rw [filterApplied_congr T _ _ hf] at ha
  obtain ⟨h1, h2⟩ := hs ha
  rw [hn, countSettled_congr T _ _ hc]
  exact ⟨h1, h2⟩

theorem maybeStartFilterWork_sameFilter (m : Model) :
    sameFilter (maybeStartFilterWork m).1 m := by
  unfold maybeStartFilterWork sameFilter clearFilterWork
  simp only
  (repeat' split) <;> simp

theorem maybeStartFilterWork_countStep (T : GoString) (m : Model) :
    countStep T m (maybeStartFilterWork m) := by
  intro ha
  rw [filterApplied_congr T _ _ (maybeStartFilterWork_sameFilter m)] at ha
  unfold filterApplied at ha
  rw [Bool.and_eq_true, decide_eq_true_iff, decide_eq_true_iff] at ha
  obtain ⟨hst, hT⟩ := ha
  unfold maybeStartFilterWork
  rw [if_neg (by rw [hst]; decide)]
  simp only
  rw [hT]
  by_cases hnil : T = []
  · rw [if_pos hnil]
    exact ⟨fun _ => ⟨rfl, Or.inl hnil⟩, Or.inl rfl⟩
  rw [if_neg hnil, if_pos hst]
  by_cases hkeep : T = m.filterTerm ∧ m.filterCountValid = true ∧ m.filterCountLoading = false
  · rw [if_pos hkeep]
    have hset : ∀ m2 : Model, sameCount m2 m → countSettled T m → countSettled T m2 :=
      fun m2 h2 hs => (countSettled_congr T _ _ h2).2 hs
    split_ifs
    · exact ⟨fun hs => ⟨rfl, hset _ ⟨rfl, rfl, rfl⟩ hs⟩, Or.inl rfl⟩
    · exact ⟨fun hs => ⟨rfl, hset _ ⟨rfl, rfl, rfl⟩ hs⟩, Or.inl rfl⟩
  rw [if_neg hkeep]
  by_cases hgo : m.filterCountLoading = false ∨ T ≠ m.filterTerm
  · rw [if_pos hgo]
    have hnot : ¬ countSettled T m := by
      rintro (h | ⟨h1, h2⟩)
      · exact hnil h
      · rcases hgo with hg | hg
        · rcases h2 with h2 | h2
          · rw [hg] at h2; cases h2
          · exact hkeep ⟨h1.symm, h2, hg⟩
        · exact hg h1.symm
    split_ifs
    · exact ⟨fun hs => absurd hs hnot, Or.inr ⟨rfl, Or.inr ⟨rfl, Or.inl rfl⟩⟩⟩
    · exact ⟨fun hs => absurd hs hnot, Or.inr ⟨rfl, Or.inr ⟨rfl, Or.inl rfl⟩⟩⟩
  · rw [if_neg hgo]
    have hset : ∀ m2 : Model, sameCount m2 m → countSettled T m → countSettled T m2 :=
      fun m2 h2 hs => (countSettled_congr T _ _ h2).2 hs
    split_ifs
    · exact ⟨fun hs => ⟨rfl, hset _ ⟨rfl, rfl, rfl⟩ hs⟩, Or.inl rfl⟩
    · exact ⟨fun hs => ⟨rfl, hset _ ⟨rfl, rfl, rfl⟩ hs⟩, Or.inl rfl⟩

theorem startEditWithContent_sameCount (env : Env) (m : Model) (key raw : GoString) :
    sameCount (startEditWithContent env m key raw) m := by
  unfold startEditWithContent sameCount
  cases m
  simp only
  split <;> (try split_ifs) <;> (try split) <;> simp

theorem updateDeletePatternResultMsg_sameCount (env : Env) (m : Model)
    (msg : deletePatternResultMsg) :
    sameCount (updateDeletePatternResultMsg env m msg) m := by
  unfold updateDeletePatternResultMsg sameCount
  cases m
  simp only
  split <;> (try split_ifs) <;> simp

theorem maybeLoadMore_sameCount (m : Model) :
    (sameCount (maybeLoadMore m).1 m ∧ sameFilter (maybeLoadMore m).1 m) ∧
      (maybeLoadMore m).2.countP isCountFilterCmd = 0 := by
  unfold maybeLoadMore sameCount sameFilter
  split_ifs <;> simp [isCountFilterCmd]

theorem reloadSelected_sameCount (m : Model) :
    sameCount (reloadSelected m).1 m ∧ (reloadSelected m).2.countP isCountFilterCmd = 0 := by
  unfold reloadSelected sameCount
  split_ifs
  · split <;> simp [isCountFilterCmd]
  · simp [isCountFilterCmd]

theorem toggleGroupCounts_sameCount (m : Model) :
    sameCount (toggleGroupCounts m).1 m ∧
      (toggleGroupCounts m).2.countP isCountFilterCmd = 0 := by
  unfold toggleGroupCounts sameCount
  simp only
  split_ifs <;> simp [isCountFilterCmd]

theorem SetItems_sameCount (lib : Lib) (m : Model) (items : List GoString) :
    sameCount (SetItems lib m items).1 m ∧
      (SetItems lib m items).2.countP isCountFilterCmd = 0 := by
  refine ⟨?_, numCount_widget _⟩
  unfold SetItems sameCount withListView
  simp

theorem RemoveItem_sameCount (lib : Lib) (m : Model) (idx : Nat) :
    sameCount (RemoveItem lib m idx) m := by
  unfold RemoveItem sameCount withListView
  simp

theorem keyConfirmDelete_countStep (T : GoString) (m : Model) (s : String) :
    countStep T m (keyConfirmDelete m s) := by
  apply countStep_of_same
  · unfold keyConfirmDelete sameCount
    split_ifs <;> simp
  · unfold keyConfirmDelete
    split_ifs <;> simp [isCountFilterCmd]

theorem keyConfirmPatternDelete_countStep (T : GoString) (m : Model) (s : String) :
    countStep T m (keyConfirmPatternDelete m s) := by
  apply countStep_of_same
  · unfold keyConfirmPatternDelete sameCount
    split_ifs <;> simp
  · unfold keyConfirmPatternDelete
    split_ifs <;> simp [isCountFilterCmd]

theorem keyEditing_countStep (T : GoString) (env : Env) (lib : Lib) (m : Model) (s : String) :
    countStep T m (keyEditing env lib m s) := by
  unfold keyEditing
  by_cases c1 : s = "esc"
  · rw [if_pos c1]
    exact countStep_of_same _ _ _ ⟨rfl, rfl, rfl⟩ rfl
  · rw [if_neg c1]
    by_cases c2 : s = "ctrl+s"
    · rw [if_pos c2]
      cases bytesFromEditor env m with
      | error e => exact countStep_of_same _ _ _ ⟨rfl, rfl, rfl⟩ rfl
      | ok bytes => exact countStep_of_same _ _ _ ⟨rfl, rfl, rfl⟩ rfl
    · rw [if_neg c2]
      exact countStep_of_same _ _ _ ⟨rfl, rfl, rfl⟩ (numCount_widget _)

theorem keyPatternDelete_countStep (T : GoString) (env : Env) (lib : Lib) (m : Model)
    (s : String) : countStep T m (keyPatternDelete env lib m s) := by
  unfold keyPatternDelete
  split_ifs
  · exact countStep_of_same _ _ _ ⟨rfl, rfl, rfl⟩ rfl
  · exact countStep_of_same _ _ _ ⟨rfl, rfl, rfl⟩ rfl
  · cases hm : matchPattern env (trimSpace m.patternInput) [] with
    | error e => exact countStep_of_same _ _ _ ⟨rfl, rfl, rfl⟩ rfl
    | ok b => exact countStep_of_same _ _ _ ⟨rfl, rfl, rfl⟩ rfl
  · exact countStep_of_same _ _ _ ⟨rfl, rfl, rfl⟩ (numCount_widget _)

theorem keySettingFilter_countStep (T : GoString) (lib : Lib) (m : Model) (s : String) :
    countStep T m (keySettingFilter lib m s) := by
  have h := maybeStartFilterWork_countStep T
    (withListView m (lib.listUpdate (listView m) (.KeyMsg s)).1)
  have h2 : countStep T m
      (maybeStartFilterWork (withListView m (lib.listUpdate (listView m) (.KeyMsg s)).1)) :=
    countStep_pre T m _ _ ⟨rfl, rfl, rfl⟩ h
  refine countStep_post T m
    (maybeStartFilterWork (withListView m (lib.listUpdate (listView m) (.KeyMsg s)).1))
    (keySettingFilter lib m s) ⟨rfl, rfl⟩ ⟨rfl, rfl, rfl⟩ ?_ h2
  unfold keySettingFilter
  simp only
  rw [List.countP_append, numCount_widget, Nat.zero_add]

theorem keyFocusRight_countStep (T : GoString) (lib : Lib) (m : Model) (s : String) :
    countStep T m (keyFocusRight lib m s) := by
  have hrel : ∀ m0 : Model, sameCount m0 m → countStep T m (reloadSelected m0) :=
    fun m0 h0 => countStep_of_same _ _ _
      (sameCount_trans _ _ _ (reloadSelected_sameCount m0).1 h0) (reloadSelected_sameCount m0).2
  unfold keyFocusRight
  split_ifs
  · exact countStep_of_same _ _ _ ⟨rfl, rfl, rfl⟩ rfl
  · exact countStep_of_same _ _ _ ⟨rfl, rfl, rfl⟩ rfl
  · exact hrel _ ⟨rfl, rfl, rfl⟩
  · exact hrel _ ⟨rfl, rfl, rfl⟩
  · exact hrel _ ⟨rfl, rfl, rfl⟩
  · exact hrel _ ⟨rfl, rfl, rfl⟩
  · exact countStep_of_same _ _ _ ⟨rfl, rfl, rfl⟩ rfl
  · exact countStep_of_same _ _ _ (toggleGroupCounts_sameCount m).1
      (toggleGroupCounts_sameCount m).2
  · exact countStep_of_same _ _ _ ⟨rfl, rfl, rfl⟩ (numCount_widget _)

theorem keyNormal_countStep (T : GoString) (m : Model) (s : String) (r : Model × List Cmd)
    (h : keyNormal m s = some r) : countStep T m r := by
  have hrel : ∀ m0 : Model, sameCount m0 m → countStep T m (reloadSelected m0) :=
    fun m0 h0 => countStep_of_same _ _ _
      (sameCount_trans _ _ _ (reloadSelected_sameCount m0).1 h0) (reloadSelected_sameCount m0).2
  unfold keyNormal at h
  by_cases c1 : s = "ctrl+c" ∨ s = "q" ∨ s = "esc"
  · rw [if_pos c1] at h; cases h; exact countStep_of_same _ _ _ ⟨rfl, rfl, rfl⟩ rfl
  rw [if_neg c1] at h
  by_cases c2 : s = "t"
  · rw [if_pos c2] at h; cases h; exact hrel _ ⟨rfl, rfl, rfl⟩
  rw [if_neg c2] at h
  by_cases c3 : s = "h"
  · rw [if_pos c3] at h; cases h; exact hrel _ ⟨rfl, rfl, rfl⟩
  rw [if_neg c3] at h
  by_cases c4 : s = "b"
  · rw [if_pos c4] at h; cases h; exact hrel _ ⟨rfl, rfl, rfl⟩
  rw [if_neg c4] at h
  by_cases c5 : s = "j"
  · rw [if_pos c5] at h; cases h; exact hrel _ ⟨rfl, rfl, rfl⟩
  rw [if_neg c5] at h
  by_cases c6 : s = "enter"
  · rw [if_pos c6] at h
    cases hsel : SelectedItem m with
    | none => rw [hsel] at h; cases h
    | some key =>
      rw [hsel] at h; cases h; exact countStep_of_same _ _ _ ⟨rfl, rfl, rfl⟩ rfl
  rw [if_neg c6] at h
  by_cases c7 : s = "d" ∨ s = "delete"
  · rw [if_pos c7] at h
    cases hsel : SelectedItem m with
    | none => rw [hsel] at h; cases h; exact countStep_of_same _ _ _ ⟨rfl, rfl, rfl⟩ rfl
    | some key =>
      rw [hsel] at h; cases h; exact countStep_of_same _ _ _ ⟨rfl, rfl, rfl⟩ rfl
  rw [if_neg c7] at h
  by_cases c8 : s = "p"
  · rw [if_pos c8] at h; cases h; exact countStep_of_same _ _ _ ⟨rfl, rfl, rfl⟩ rfl
  rw [if_neg c8] at h
  by_cases c9 : s = "e"
  · rw [if_pos c9] at h
    cases hsel : SelectedItem m with
    | none => rw [hsel] at h; cases h
    | some key =>
      rw [hsel] at h; cases h; exact countStep_of_same _ _ _ ⟨rfl, rfl, rfl⟩ rfl
  rw [if_neg c9] at h
  by_cases c10 : s = "g" ∨ s = "G" ∨ s = "ctrl+g"
  · rw [if_pos c10] at h; cases h
    exact countStep_of_same _ _ _ (toggleGroupCounts_sameCount m).1
      (toggleGroupCounts_sameCount m).2
  rw [if_neg c10] at h
  cases h

theorem updateKeyMsg_countStep (T : GoString) (env : Env) (lib : Lib) (m : Model) (s : String)
    (r : Model × List Cmd) (h : updateKeyMsg env lib m s = some r) : countStep T m r := by
  unfold updateKeyMsg at h
  by_cases c1 : s = "f1"
  · rw [if_pos c1] at h; cases h; exact countStep_of_same _ _ _ ⟨rfl, rfl, rfl⟩ rfl
  rw [if_neg c1] at h
  by_cases c2 : m.showAbout = true
  · rw [if_pos c2] at h
    cases h
    refine countStep_of_same _ _ _ ?_ rfl
    by_cases c : s = "esc"
    · rw [if_pos c]; exact ⟨rfl, rfl, rfl⟩
    · rw [if_neg c]; exact ⟨rfl, rfl, rfl⟩
  rw [if_neg c2] at h
  by_cases c3 : m.confirmDelete = true
  · rw [if_pos c3] at h; cases h; exact keyConfirmDelete_countStep T m s
  rw [if_neg c3] at h
  by_cases c4 : m.confirmPatternDelete = true
  · rw [if_pos c4] at h; cases h; exact keyConfirmPatternDelete_countStep T m s
  rw [if_neg c4] at h
  by_cases c5 : m.editing = true
  · rw [if_pos c5] at h; cases h; exact keyEditing_countStep T env lib m s
  rw [if_neg c5] at h
  by_cases c6 : m.patternDelete = true
  · rw [if_pos c6] at h; cases h; exact keyPatternDelete_countStep T env lib m s
  rw [if_neg c6] at h
  by_cases c7 : SettingFilter m = true
  · rw [if_pos c7] at h; cases h; exact keySettingFilter_countStep T lib m s
  rw [if_neg c7] at h
  by_cases c8 : (m.focusRight && !m.editing) = true
  · rw [if_pos c8] at h; cases h; exact keyFocusRight_countStep T lib m s
  rw [if_neg c8] at h
  exact keyNormal_countStep T m s r h

theorem updateList_countStep (T : GoString) (lib : Lib) (m : Model) (msg : Msg) :
    countStep T m (updateList lib m msg) := by
  have h1 := maybeLoadMore_sameCount (withListView m (lib.listUpdate (listView m) msg).1)
  have h2 := maybeStartFilterWork_countStep T
    (maybeLoadMore (withListView m (lib.listUpdate (listView m) msg).1)).1
  have h3 : countStep T m (maybeStartFilterWork
      (maybeLoadMore (withListView m (lib.listUpdate (listView m) msg).1)).1) :=
    countStep_pre T m _ _ (sameCount_trans _ _ _ h1.1.1 ⟨rfl, rfl, rfl⟩) h2
  have hc : ((lib.listUpdate (listView m) msg).2.map Cmd.widget ++
        (maybeLoadMore (withListView m (lib.listUpdate (listView m) msg).1)).2 ++
        (maybeStartFilterWork
          (maybeLoadMore (withListView m (lib.listUpdate (listView m) msg).1)).1).2).countP
          isCountFilterCmd =
      (maybeStartFilterWork
          (maybeLoadMore (withListView m (lib.listUpdate (listView m) msg).1)).1).2.countP
          isCountFilterCmd := by
    rw [List.countP_append, List.countP_append, numCount_widget, h1.2]
    omega
  have hc2 : ∀ key : GoString, ((lib.listUpdate (listView m) msg).2.map Cmd.widget ++
        (maybeLoadMore (withListView m (lib.listUpdate (listView m) msg).1)).2 ++
        (maybeStartFilterWork
          (maybeLoadMore (withListView m (lib.listUpdate (listView m) msg).1)).1).2 ++
        [Cmd.loadValueCmd key]).countP isCountFilterCmd =
      (maybeStartFilterWork
          (maybeLoadMore (withListView m (lib.listUpdate (listView m) msg).1)).1).2.countP
          isCountFilterCmd := by
    intro key
    rw [List.countP_append, hc]
    rfl
  refine countStep_post T m
    (maybeStartFilterWork (maybeLoadMore (withListView m (lib.listUpdate (listView m) msg).1)).1)
    (updateList lib m msg) ?_ ?_ ?_ h3
  · unfold updateList
    simp only
    (repeat' split) <;> exact ⟨rfl, rfl⟩
  · unfold updateList
    simp only
    (repeat' split) <;> exact ⟨rfl, rfl, rfl⟩
  · unfold updateList
    simp only
    (repeat' split) <;>
      first
      | exact hc
      | exact hc2 _

theorem updateWindowSizeMsg_countStep (T : GoString) (lib : Lib) (m : Model)
    (Width Height : Int) : countStep T m (updateWindowSizeMsg lib m Width Height) := by
  unfold updateWindowSizeMsg
  simp only
  generalize hm1 : updateEditorLayout _ _ = m1
  have h1 : sameCount m1 m := by rw [← hm1]; exact ⟨rfl, rfl, rfl⟩
  have hf := countStep_pre T m m1 _ h1 (maybeStartFilterWork_countStep T m1)
  have hl := maybeLoadMore_sameCount m1
  refine countStep_post T m (maybeStartFilterWork m1)
    ((maybeStartFilterWork m1).1, (maybeLoadMore m1).2 ++ (maybeStartFilterWork m1).2)
    ⟨rfl, rfl⟩ ⟨rfl, rfl, rfl⟩ ?_ hf
  show List.countP isCountFilterCmd (_ ++ _) = _
  rw [List.countP_append, hl.2, Nat.zero_add]

theorem updateLoadKeysMsg_countStep (T : GoString) (env : Env) (lib : Lib) (m : Model)
    (msg : loadKeysMsg) : countStep T m (updateLoadKeysMsg env lib m msg) := by
  unfold updateLoadKeysMsg
  simp only
  cases msg.err with
  | some e => exact countStep_of_same _ _ _ ⟨rfl, rfl, rfl⟩ rfl
  | none =>
    simp only
    by_cases c : msg.keys.length = 0
    · rw [if_pos c]; exact countStep_of_same _ _ _ ⟨rfl, rfl, rfl⟩ rfl
    · rw [if_neg c]
      have hs := SetItems_sameCount lib { m with loadingKeys := false } (m.list ++ msg.keys)
      have hf := maybeStartFilterWork_countStep T
        { (SetItems lib { m with loadingKeys := false } (m.list ++ msg.keys)).1 with
          lastKey := msg.lastKey, hasMoreKeys := msg.hasMore }
      have hl := maybeLoadMore_sameCount
        { (SetItems lib { m with loadingKeys := false } (m.list ++ msg.keys)).1 with
          lastKey := msg.lastKey, hasMoreKeys := msg.hasMore }
      have hf2 := countStep_pre T m _ _
        (sameCount_trans _ _ _ ⟨rfl, rfl, rfl⟩ (sameCount_trans _ _ _ hs.1 ⟨rfl, rfl, rfl⟩)) hf
      refine countStep_post T m
        (maybeStartFilterWork
          { (SetItems lib { m with loadingKeys := false } (m.list ++ msg.keys)).1 with
            lastKey := msg.lastKey, hasMoreKeys := msg.hasMore })
        ((maybeStartFilterWork
          { (SetItems lib { m with loadingKeys := false } (m.list ++ msg.keys)).1 with
            lastKey := msg.lastKey, hasMoreKeys := msg.hasMore }).1,
          (SetItems lib { m with loadingKeys := false } (m.list ++ msg.keys)).2 ++
            (maybeLoadMore
              { (SetItems lib { m with loadingKeys := false } (m.list ++ msg.keys)).1 with
                lastKey := msg.lastKey, hasMoreKeys := msg.hasMore }).2 ++
            (maybeStartFilterWork
              { (SetItems lib { m with loadingKeys := false } (m.list ++ msg.keys)).1 with
                lastKey := msg.lastKey, hasMoreKeys := msg.hasMore }).2)
        ⟨rfl, rfl⟩ ⟨rfl, rfl, rfl⟩ ?_ hf2
      show List.countP isCountFilterCmd (_ ++ _ ++ _) = _
      rw [List.countP_append, List.countP_append, hs.2, hl.2]
      omega

theorem updateFilterCountMsg_countStep (T : GoString) (m : Model) (msg : filterCountMsg)
    (hok : msg.err = none) : countStep T m (updateFilterCountMsg m msg) := by
  unfold updateFilterCountMsg
  by_cases c : msg.term ≠ trimSpace m.listFilterValue
  · rw [if_pos c]; exact countStep_of_same _ _ _ ⟨rfl, rfl, rfl⟩ rfl
  · rw [if_neg c, hok]
    intro _
    refine ⟨fun hs => ⟨rfl, ?_⟩, Or.inl rfl⟩
    rcases hs with hs | hs
    · exact Or.inl hs
    · exact Or.inr ⟨hs.1, Or.inr rfl⟩

theorem updateGroupCountsMsg_countStep (T : GoString) (m : Model) (msg : groupCountsMsg) :
    countStep T m (updateGroupCountsMsg m msg) := by
  unfold updateGroupCountsMsg
  cases msg.err <;> exact countStep_of_same _ _ _ ⟨rfl, rfl, rfl⟩ rfl

theorem updateLoadValueMsg_countStep (T : GoString) (env : Env) (lib : Lib) (m : Model)
    (msg : loadValueMsg) : countStep T m (updateLoadValueMsg env lib m msg) := by
  unfold updateLoadValueMsg
  by_cases c : msg.key ≠ m.selected ∧ m.editKey ≠ msg.key
  · rw [if_pos c]; exact countStep_of_same _ _ _ ⟨rfl, rfl, rfl⟩ rfl
  · rw [if_neg c]
    cases msg.err with
    | some e =>
      simp only
      refine countStep_of_same _ _ _ ?_ rfl
      by_cases c2 : m.editKey = msg.key
      · rw [if_pos c2]; exact ⟨rfl, rfl, rfl⟩
      · rw [if_neg c2]; exact ⟨rfl, rfl, rfl⟩
    | none =>
      simp only
      by_cases c2 : m.editKey = msg.key ∧ m.editing = false
      · rw [if_pos c2]
        refine countStep_of_same _ _ _ ?_ (numCount_widget _)
        exact sameCount_trans _ _ _ ⟨rfl, rfl, rfl⟩
          (sameCount_trans _ _ _ (startEditWithContent_sameCount env _ msg.key msg.value)
            ⟨rfl, rfl, rfl⟩)
      · rw [if_neg c2]; exact countStep_of_same _ _ _ ⟨rfl, rfl, rfl⟩ rfl

theorem updateDeleteResultMsg_countStep (T : GoString) (env : Env) (lib : Lib) (m : Model)
    (msg : deleteResultMsg) : countStep T m (updateDeleteResultMsg env lib m msg) := by
  unfold updateDeleteResultMsg
  cases msg.err with
  | some e => exact countStep_of_same _ _ _ ⟨rfl, rfl, rfl⟩ rfl
  | none =>
    simp only
    refine countStep_of_same _ _ _ ?_ rfl
    by_cases c : m.listIndex < m.list.length
    · rw [if_pos c]
      exact sameCount_trans _ _ _ ⟨rfl, rfl, rfl⟩ (RemoveItem_sameCount lib m m.listIndex)
    · rw [if_neg c]; exact ⟨rfl, rfl, rfl⟩

theorem updateSaveResultMsg_countStep (T : GoString) (env : Env) (lib : Lib) (m : Model)
    (msg : saveResultMsg) : countStep T m (updateSaveResultMsg env lib m msg) := by
  unfold updateSaveResultMsg
  cases msg.err with
  | some e => exact countStep_of_same _ _ _ ⟨rfl, rfl, rfl⟩ rfl
  | none => exact countStep_of_same _ _ _ ⟨rfl, rfl, rfl⟩ rfl

/-- Every call of `Update` that does not handle a failed scan and leaves the filter applied
with the text `T` issues no scan if the count for `T` is settled, and at most one
otherwise, which settles it. -/
theorem Update_countStep (T : GoString) (env : Env) (lib : Lib) (m : Model) (msg : Msg)
    (hok : isCountFailure msg = false) : countStep T m (Update env lib m msg) := by
  cases msg with
  | KeyMsg s =>
    simp only [Update]
    cases h : updateKeyMsg env lib m s with
    | some r => exact updateKeyMsg_countStep T env lib m s r h
    | none => exact updateList_countStep T lib m _
  | WindowSizeMsg Width Height => exact updateWindowSizeMsg_countStep T lib m Width Height
  | loadKeysMsg msg => exact updateLoadKeysMsg_countStep T env lib m msg
  | filterCountMsg msg =>
    refine updateFilterCountMsg_countStep T m msg ?_
    cases he : msg.err with
    | none => rfl
    | some e => simp [isCountFailure, he] at hok
  | groupCountsMsg msg => exact updateGroupCountsMsg_countStep T m msg
  | loadValueMsg msg => exact updateLoadValueMsg_countStep T env lib m msg
  | deleteResultMsg msg => exact updateDeleteResultMsg_countStep T env lib m msg
  | deletePatternResultMsg msg =>
    simp only [Update]
    have h0 := updateDeletePatternResultMsg_sameCount env m msg
    by_cases c : (msg.err.isSome || decide (msg.keys.length = 0)) = true
    · rw [if_pos c]; exact countStep_of_same _ _ _ h0 rfl
    · rw [if_neg c]
      have hs := SetItems_sameCount lib (updateDeletePatternResultMsg env m msg)
        (updateDeletePatternResultMsg env m msg).list
      exact countStep_of_same _ _ _ (sameCount_trans _ _ _ hs.1 h0) hs.2
  | saveResultMsg msg => exact updateSaveResultMsg_countStep T env lib m msg
  | other tag => exact updateList_countStep T lib m _

theorem issued_settled (env : Env) (T : GoString) (msgs : List (Lib × Msg)) :
    ∀ m : Model, termHeld env T m msgs = true →
      (∀ e ∈ msgs, isCountFailure e.2 = false) → countSettled T m →
      (issued env m msgs).countP isCountFilterCmd = 0 := by
  induction msgs with
  | nil => intro m _ _ _; rfl
  | cons e rest ih =>
    intro m hh hf hs
    have hh2 : (filterApplied T (Update env e.1 m e.2).1 &&
        termHeld env T (Update env e.1 m e.2).1 rest) = true := hh
    rw [Bool.and_eq_true] at hh2
    have hstep := (Update_countStep T env e.1 m e.2 (hf e (List.mem_cons_self _ _)) hh2.1).1 hs
    show ((Update env e.1 m e.2).2 ++ issued env (Update env e.1 m e.2).1 rest).countP
      isCountFilterCmd = 0
    rw [List.countP_append, hstep.1,
      ih _ hh2.2 (fun x hx => hf x (List.mem_cons_of_mem _ hx)) hstep.2]

theorem issued_atMostOne (env : Env) (T : GoString) (msgs : List (Lib × Msg)) :
    ∀ m : Model, termHeld env T m msgs = true →
      (∀ e ∈ msgs, isCountFailure e.2 = false) →
      (issued env m msgs).countP isCountFilterCmd ≤ 1 := by
  induction msgs with
  | nil => intro m _ _; exact Nat.zero_le _
  | cons e rest ih =>
    intro m hh hf
    have hh2 : (filterApplied T (Update env e.1 m e.2).1 &&
        termHeld env T (Update env e.1 m e.2).1 rest) = true := hh
    rw [Bool.and_eq_true] at hh2
    have hstep := (Update_countStep T env e.1 m e.2 (hf e (List.mem_cons_self _ _)) hh2.1).2
    show ((Update env e.1 m e.2).2 ++ issued env (Update env e.1 m e.2).1 rest).countP
      isCountFilterCmd ≤ 1
    rw [List.countP_append]
    rcases hstep with h0 | ⟨h1, hs⟩
    · rw [h0, Nat.zero_add]
      exact ih _ hh2.2 (fun x hx => hf x (List.mem_cons_of_mem _ hx))
    · rw [h1, issued_settled env T rest _ hh2.2
        (fun x hx => hf x (List.mem_cons_of_mem _ hx)) hs]

/-- The scan is issued once as long as none fails: while the filter stays applied with the
same trimmed text `T` (after every event of the sequence) and no event is the result of a
failed scan, the sequence of `Update` events issues `countFilterCmd` at most once, whatever
the model it starts from and however the widgets behave. -/
theorem countFilter_once (env : Env) (T : GoString) (m : Model) (msgs : List (Lib × Msg))
    (hheld : termHeld env T m msgs = true)
    (hok : ∀ e ∈ msgs, isCountFailure e.2 = false) :
    (issued env m msgs).count (.countFilterCmd T) ≤ 1 ∧
    (issued env m msgs).countP isCountFilterCmd ≤ 1 := by
  have h := issued_atMostOne env T msgs m hheld hok
  refine ⟨le_trans ?_ h, h⟩
  rw [List.count]
  apply List.countP_mono_left
  intro c _ hc
  rw [beq_iff_eq] at hc
  rw [hc]
  rfl

/-- The statement `countFilter_once` at a concrete input: the filter `a` is applied, the
scan succeeds, and the window is resized. -/
theorem countFilter_once_witness :
    issued goEnv
        (runFrom goEnv (NewModel "") [(filterLib, .KeyMsg "/"), (filterLib, .KeyMsg "a")])
        [(filterLib, .KeyMsg "enter"), (filterLib, .filterCountMsg ⟨str "a", 3, none⟩),
         (filterLib, .WindowSizeMsg 80 24)] = [.countFilterCmd (str "a")] ∧
    (issued goEnv
        (runFrom goEnv (NewModel "") [(filterLib, .KeyMsg "/"), (filterLib, .KeyMsg "a")])
        [(filterLib, .KeyMsg "enter"), (filterLib, .filterCountMsg ⟨str "a", 3, none⟩),
         (filterLib, .WindowSizeMsg 80 24)]).count (.countFilterCmd (str "a")) ≤ 1 :=
  ⟨rfl, (countFilter_once goEnv (str "a")
    (runFrom goEnv (NewModel "") [(filterLib, .KeyMsg "/"), (filterLib, .KeyMsg "a")])
    [(filterLib, .KeyMsg "enter"), (filterLib, .filterCountMsg ⟨str "a", 3, none⟩),
     (filterLib, .WindowSizeMsg 80 24)] rfl (by decide)).1⟩

/-! ## The cursor in a colorized row, JSON errors, and the width of wrapped lines -/

/-- C21, evaluated. The row is `true`, alone or followed by the space that `wrapRunes`
appends, and the cursor is on its second character. Without the cursor the keyword is one
token in the style of booleans; with the cursor the markers split the keyword, and `t`, `u`
and `e` are written without any style. -/
theorem colorizeJSONWithCursor_splits_keyword (lib : Lib) :
    colorizeJSON lib (str "true") = lib.render .jsonBoolStyle "true" ∧
    colorizeJSONWithCursor lib (str "true") 1 = "t\x1b[4mr\x1b[24mue" ∧
    colorizeJSON lib (str "true ") = lib.render .jsonBoolStyle "true" ++ " " ∧
    colorizeJSONWithCursor lib (str "true ") 1 = "t\x1b[4mr\x1b[24mue " := by
  refine ⟨?_, ?_, ?_, ?_⟩ <;> rfl

/-- C29, evaluated. For the two-line value `\x7b`, `  x\x7d`, whose parse fails at byte 5,
`jsonErrorInfo` gives the position 2:3, and the text that `formatValue` displays is the
warning with the bare error, which has no position. -/
theorem formatValue_no_position :
    jsonErrorInfo sampleSyntaxError (str "\x7b\n  x\x7d") =
      "JSON error at 2:3: invalid character 'x' looking for beginning of object key string" ∧
    formatValue failingJSONEnv sampleLib (sampleModel .fmtJSON) (str "\x7b\n  x\x7d") =
      "Warning: invalid JSON: invalid character 'x' looking for beginning of object key string\n\n\x7b\n  x\x7d" ∧
    formatValue failingJSONEnv sampleLib (sampleModel .fmtJSON) (str "\x7b\n  x\x7d") ≠
      sampleLib.jsonErrorStyle (jsonErrorInfo sampleSyntaxError (str "\x7b\n  x\x7d")) ++ "\n\n" ++
        colorizeJSON sampleLib (str "\x7b\n  x\x7d") := by
  refine ⟨by rfl, by rfl, by decide⟩

/-- What `formatValue` displays for a parse failure: when a value in JSON format is valid
UTF-8 but fails to parse, the text
`formatValue` displays is the styled line `Warning: invalid JSON: ` with the text of the
parse error as the parser gives it, an empty line, and the colorized raw text of the
value. -/
theorem formatValue_invalid_json (env : Env) (lib : Lib) (m : Model) (v : GoString)
    (e : String) (hf : m.valFormat = .fmtJSON) (hu : utf8Valid v = true)
    (he : env.jsonReindent v = .error e) :
    formatValue env lib m v =
      lib.jsonErrorStyle ("Warning: invalid JSON: " ++ e) ++ "\n\n" ++ colorizeJSON lib v := by
  unfold formatValue
  rw [hf]
  simp only [hu, he]
  rfl

/-- The statement `formatValue_invalid_json` at a concrete input: the two-line value `\x7b`, `  x\x7d`. -/
theorem formatValue_invalid_json_witness :
    formatValue failingJSONEnv sampleLib (sampleModel .fmtJSON) (str "\x7b\n  x\x7d") =
      sampleLib.jsonErrorStyle ("Warning: invalid JSON: " ++ sampleSyntaxError.Error) ++
        "\n\n" ++ colorizeJSON sampleLib (str "\x7b\n  x\x7d") :=
  formatValue_invalid_json failingJSONEnv sampleLib (sampleModel .fmtJSON)
    (str "\x7b\n  x\x7d") sampleSyntaxError.Error rfl (by decide) rfl

/-- C30, evaluated. The line is `abcdefghi` followed by a character two cells wide, the
width is 10 cells, and no character is wider than 2 cells. `wrapRunes` puts the ten
characters on one visual line, which is 11 cells wide. -/
theorem wrapRunes_exceeds_width :
    wrapRunes wideStringWidth wideRuneWidth (runesOfLiteral "abcdefghi" ++ [0x4E16]) 10 =
      some [runesOfLiteral "abcdefghi" ++ [0x4E16], [32]] ∧
    wideStringWidth (runesOfLiteral "abcdefghi" ++ [0x4E16]) = 11 ∧
    (∀ r ∈ runesOfLiteral "abcdefghi" ++ [0x4E16], wideRuneWidth r ≤ 2) := by
  decide

/-! ## `offsetToLineCol` and the list after a pattern delete -/

theorem offsetLoop_eq_foldl (offset : Int) : ∀ (s : GoString) (i line col : Int),
    offsetLoop offset s i line col =
      (s.take (offset - 1 - i).toNat).foldl
        (fun (a : Int × Int) (b : Byte) => if b = 10 then (a.1 + 1, 1) else (a.1, a.2 + 1))
        (line, col) := by
  intro s
  induction s with
  | nil => intro i line col; simp [offsetLoop]
  | cons c rest ih =>
    intro i line col
    unfold offsetLoop
    by_cases h : i + 1 < offset
    · rw [if_pos h]
      have hk : (offset - 1 - i).toNat = (offset - 1 - (i + 1)).toNat + 1 := by omega
      rw [hk, List.take_succ_cons, List.foldl_cons]
      by_cases hc : c = 10
      · rw [if_pos hc, if_pos hc]; exact ih _ _ _
      · rw [if_neg hc, if_neg hc]; exact ih _ _ _
    · rw [if_neg h]
      have hk : (offset - 1 - i).toNat = 0 := by omega
      rw [hk]
      rfl

theorem foldl_lineColSpec (before : GoString) :
    before.foldl
        (fun (a : Int × Int) (b : Byte) => if b = 10 then (a.1 + 1, 1) else (a.1, a.2 + 1))
        (1, 1) = lineColSpec before := by
  induction before using List.reverseRecOn with
  | nil => rfl
  | append_singleton init b ih =>
    rw [List.foldl_append, ih]
    unfold lineColSpec
    by_cases hb : b = 10
    · subst hb
      simp
      omega
    · simp [hb, List.count_singleton]
      omega

/-- C32. For every string `s` and byte offset with `1 ≤ offset ≤ len(s)`,
`offsetToLineCol(s, offset)` is the line and column of the specification for the first
`offset - 1` bytes of `s`: the line is 1 plus the number of newline bytes among them, the
column is 1 plus the number of bytes after the last of these newlines. Every offset below 1
gives `(1, 1)`, and every offset above `len(s)` gives what the offset `len(s)` gives. -/
theorem offsetToLineCol_spec (s : GoString) (offset : Int) :
    (1 ≤ offset → offset ≤ s.length →
      offsetToLineCol s offset = lineColSpec (s.take (offset.toNat - 1))) ∧
    (offset < 1 → offsetToLineCol s offset = (1, 1)) ∧
    (offset > s.length → offsetToLineCol s offset = offsetToLineCol s s.length) := by
  have hin : ∀ o : Int, 1 ≤ o → o ≤ s.length →
      offsetToLineCol s o = lineColSpec (s.take (o.toNat - 1)) := by
    intro o h1 h2
    unfold offsetToLineCol
    rw [if_neg (by omega), if_neg (by omega), offsetLoop_eq_foldl]
    have hk : (o - 1 - 0).toNat = o.toNat - 1 := by omega
    rw [hk]
    exact foldl_lineColSpec _
  refine ⟨hin offset, ?_, ?_⟩
  · intro h
    unfold offsetToLineCol
    rw [if_pos h]
  · intro h
    by_cases h0 : s.length = 0
    · have hs : s = [] := List.length_eq_zero.1 h0
      subst hs
      unfold offsetToLineCol
      by_cases h1 : offset < 1
      · rw [if_pos h1]; rfl
      · rw [if_neg h1]; rfl
    · have hl : (1 : Int) ≤ s.length := by omega
      rw [hin s.length hl (le_refl _)]
      unfold offsetToLineCol
      rw [if_neg (by omega), if_pos h, offsetLoop_eq_foldl]
      have hk : ((s.length : Int) - 1 - 0).toNat = (s.length : Int).toNat - 1 := by omega
      rw [hk]
      exact foldl_lineColSpec _

/-- C32 at a concrete input: offset 7 of the three-line text `ab`, `cd`, `e` is the byte
`e`, at line 3, column 1. -/
theorem offsetToLineCol_spec_witness :
    offsetToLineCol (str "ab\ncd\ne") 7 = (3, 1) ∧
    offsetToLineCol (str "ab\ncd\ne") 7 =
      lineColSpec ((str "ab\ncd\ne").take ((7 : Int).toNat - 1)) :=
  ⟨by decide, (offsetToLineCol_spec (str "ab\ncd\ne") 7).1 (by decide) (by decide)⟩

theorem SetItems_frame (lib : Lib) (m : Model) (items : List GoString) :
    (SetItems lib m items).1.list = items ∧ (SetItems lib m items).1.selected = m.selected ∧
      (SetItems lib m items).1.viewport = m.viewport ∧
      (SetItems lib m items).1.status = m.status := by
  unfold SetItems withListView
  exact ⟨rfl, rfl, rfl, rfl⟩

/-- C33. List reconciliation after a pattern delete: for every model, every behaviour of
the list widget and every `deletePatternResultMsg` without error that carries a non-empty
list `K` of deleted keys, the items of the list after `Update` are the previous items
without those whose key is in `K`, in their previous order; the selection and the value
pane are cleared when the selected key is in `K` and are left as they were otherwise; and
the status is the styled text `Deleted n records (pattern: p).` with `n = len(K)`. -/
theorem deletePattern_reconciles (env : Env) (lib : Lib) (m : Model)
    (msg : deletePatternResultMsg) (herr : msg.err = none) (hK : msg.keys ≠ []) :
    (Update env lib m (.deletePatternResultMsg msg)).1.list =
      m.list.filter (fun k => decide (k ∉ msg.keys)) ∧
    (m.selected ∈ msg.keys →
      (Update env lib m (.deletePatternResultMsg msg)).1.selected = [] ∧
      (Update env lib m (.deletePatternResultMsg msg)).1.viewport = "") ∧
    (m.selected ∉ msg.keys →
      (Update env lib m (.deletePatternResultMsg msg)).1.selected = m.selected ∧
      (Update env lib m (.deletePatternResultMsg msg)).1.viewport = m.viewport) ∧
    (Update env lib m (.deletePatternResultMsg msg)).1.status =
      env.okStyle ("Deleted " ++ toString msg.keys.length ++ " records (pattern: " ++
        goText msg.pattern ++ ").") := by
  have hlen : ¬ msg.keys.length = 0 := fun h => hK (List.length_eq_zero.1 h)
  have hU : Update env lib m (.deletePatternResultMsg msg) =
      SetItems lib (updateDeletePatternResultMsg env m msg)
        (updateDeletePatternResultMsg env m msg).list := by
    show (if (msg.err.isSome || decide (msg.keys.length = 0)) = true then _ else _) = _
    rw [if_neg (by simp [herr, hlen])]
  have hf := SetItems_frame lib (updateDeletePatternResultMsg env m msg)
    (updateDeletePatternResultMsg env m msg).list
  rw [hU, hf.1, hf.2.1, hf.2.2.1, hf.2.2.2]
  unfold updateDeletePatternResultMsg
  rw [herr]
  simp only
  rw [if_neg hlen]
  by_cases hs : m.selected ∈ msg.keys
  · rw [if_pos hs]
    exact ⟨rfl, fun _ => ⟨rfl, rfl⟩, fun h => absurd hs h, rfl⟩
  · rw [if_neg hs]
    exact ⟨rfl, fun h => absurd h hs, fun _ => ⟨rfl, rfl⟩, rfl⟩

/-- C33 at a concrete input: the list `a`, `b`, `c` with `b` selected, and the keys `b` and
`c` deleted. -/
theorem deletePattern_reconciles_witness :
    (Update sampleEnv sampleLib
        { NewModel "" with list := [str "a", str "b", str "c"], selected := str "b",
                           viewport := "v" }
        (.deletePatternResultMsg ⟨str "*", [str "b", str "c"], none⟩)).1.list = [str "a"] ∧
    (Update sampleEnv sampleLib
        { NewModel "" with list := [str "a", str "b", str "c"], selected := str "b",
                           viewport := "v" }
        (.deletePatternResultMsg ⟨str "*", [str "b", str "c"], none⟩)).1.list =
      [str "a", str "b", str "c"].filter (fun k => decide (k ∉ [str "b", str "c"])) :=
  ⟨by rfl, (deletePattern_reconciles sampleEnv sampleLib
    { NewModel "" with list := [str "a", str "b", str "c"], selected := str "b",
                       viewport := "v" }
    ⟨str "*", [str "b", str "c"], none⟩ rfl (by decide)).1⟩

/-! ## `wrapRunes` keeps the content of the line -/

theorem getElem?_last_row (init : List (List Rune)) (last : List Rune) :
    (init ++ [last])[init.length]? = some last := by
  simp

theorem wrapStep_content (sw : List Rune → Int) (rw : Rune → Int) (width : Int)
    (init : List (List Rune)) (last word : List Rune) (r : Rune) :
    ∃ (init2 : List (List Rune)) (last2 word2 : List Rune),
      wrapStep sw rw width
          { lines := init ++ [last], word := word, row := init.length, spaces := 0 } r =
        some { lines := init2 ++ [last2], word := word2, row := init2.length, spaces := 0 } ∧
      (init2 ++ [last2]).flatten ++ word2 =
        (init ++ [last]).flatten ++ word ++ [if isSpaceRune r then 32 else r] := by
  unfold wrapStep
  simp only [getElem?_last_row]
  by_cases hsp : isSpaceRune r = true
  · simp only [hsp, if_true]
    have h1 : (0 : Int) + 1 > 0 := by decide
    rw [if_pos h1]
    have hrep : repeatSpaces (0 + 1) = [32] := rfl
    rw [hrep]
    by_cases hw : sw last + sw word + (0 + 1) > width
    · rw [if_pos hw, rowAppend_new (init ++ [last]) (word ++ [32]) (init.length + 1) (by simp)]
      refine ⟨init ++ [last], word ++ [32], [], ?_, ?_⟩
      · simp
      · simp
    · rw [if_neg hw, rowAppend_last]
      refine ⟨init, last ++ (word ++ [32]), [], rfl, ?_⟩
      simp
  · simp only [hsp, if_false, Bool.false_eq_true]
    have h0 : ¬ (0 : Int) > 0 := by decide
    rw [if_neg h0]
    have hgl : (word ++ [r]).getLast? = some r := by simp
    rw [hgl]
    simp only
    by_cases hw : sw (word ++ [r]) + rw r > width
    · rw [if_pos hw]
      by_cases hl : last.length > 0
      · rw [if_pos hl, rowAppend_new (init ++ [last]) (word ++ [r]) (init.length + 1) (by simp)]
        refine ⟨init ++ [last], word ++ [r], [], ?_, ?_⟩
        · simp
        · simp
      · rw [if_neg hl, rowAppend_last]
        refine ⟨init, last ++ (word ++ [r]), [], rfl, ?_⟩
        simp
    · rw [if_neg hw]
      refine ⟨init, last, word ++ [r], rfl, ?_⟩
      simp

theorem wrapLoop_content (sw : List Rune → Int) (rw : Rune → Int) (width : Int)
    (runes : List Rune) : ∀ (init : List (List Rune)) (last word : List Rune),
    ∃ (init2 : List (List Rune)) (last2 word2 : List Rune),
      wrapLoop sw rw width
          { lines := init ++ [last], word := word, row := init.length, spaces := 0 } runes =
        some { lines := init2 ++ [last2], word := word2, row := init2.length, spaces := 0 } ∧
      (init2 ++ [last2]).flatten ++ word2 =
        (init ++ [last]).flatten ++ word ++ withSingleSpaces runes := by
  induction runes with
  | nil =>
    intro init last word
    exact ⟨init, last, word, rfl, by simp [withSingleSpaces]⟩
  | cons r rest ih =>
    intro init last word
    obtain ⟨i1, l1, w1, hs, hc⟩ := wrapStep_content sw rw width init last word r
    obtain ⟨i2, l2, w2, hl, hc2⟩ := ih i1 l1 w1
    refine ⟨i2, l2, w2, ?_, ?_⟩
    · show (match wrapStep sw rw width _ r with
        | none => none
        | some st1 => wrapLoop sw rw width st1 rest) = _
      rw [hs]
      exact hl
    · rw [hc2, hc]
      simp [withSingleSpaces]

theorem wrapFinish_content (sw : List Rune → Int) (width : Int)
    (init : List (List Rune)) (last word : List Rune) :
    ∃ lines : List (List Rune),
      wrapFinish sw width
          { lines := init ++ [last], word := word, row := init.length, spaces := 0 } =
        some lines ∧
      lines.flatten = (init ++ [last]).flatten ++ word ++ [32] ∧ lines ≠ [] := by
  unfold wrapFinish
  simp only [getElem?_last_row]
  have hrep : repeatSpaces (0 + 1) = [32] := rfl
  rw [hrep]
  by_cases hw : sw last + sw word + 0 ≥ width
  · rw [if_pos hw, rowAppend_new (init ++ [last]) word (init.length + 1) (by simp)]
    simp only
    have h2 := rowAppend_last (init ++ [last]) word [32]
    rw [show (init ++ [last]).length = init.length + 1 by simp] at h2
    rw [h2]
    exact ⟨_, rfl, by simp, by simp⟩
  · rw [if_neg hw, rowAppend_last]
    simp only
    rw [rowAppend_last]
    exact ⟨_, rfl, by simp, by simp⟩

/-- C34. Wrap preserves content, whatever the display widths are: for every non-empty
line and every width of at least 1, `wrapRunes` returns visual lines whose concatenation
is the line with each whitespace character replaced by a single space, followed by
exactly one more space; for a width of 0 or less it returns the line unchanged as the
only visual line; and it always returns, with at least one visual line. -/
theorem wrapRunes_content (sw : List Rune → Int) (rw : Rune → Int) (runes : List Rune)
    (width : Int) :
    (runes ≠ [] → 1 ≤ width →
      ∃ lines, wrapRunes sw rw runes width = some lines ∧
        lines.flatten = withSingleSpaces runes ++ [32]) ∧
    (width ≤ 0 → wrapRunes sw rw runes width = some [runes]) ∧
    (∃ lines, wrapRunes sw rw runes width = some lines ∧ lines ≠ []) := by
  have hmain : ¬ width ≤ 0 → ¬ runes.length = 0 →
      ∃ lines, wrapRunes sw rw runes width = some lines ∧
        lines.flatten = withSingleSpaces runes ++ [32] ∧ lines ≠ [] := by
    intro hw hr
    obtain ⟨i1, l1, w1, hl, hc⟩ := wrapLoop_content sw rw width runes [] [] []
    obtain ⟨lines, hf, hflat, hne⟩ := wrapFinish_content sw width i1 l1 w1
    refine ⟨lines, ?_, ?_, hne⟩
    · unfold wrapRunes
      rw [if_neg hw, if_neg hr]
      have hl2 : wrapLoop sw rw width { lines := [[]], word := [], row := 0, spaces := 0 }
          runes = some { lines := i1 ++ [l1], word := w1, row := i1.length, spaces := 0 } := hl
      rw [hl2]
      exact hf
    · rw [hflat, hc]
      simp
  refine ⟨?_, ?_, ?_⟩
  · intro hne hw
    obtain ⟨lines, h1, h2, _⟩ := hmain (by omega)
      (fun h => hne (List.length_eq_zero.1 h))
    exact ⟨lines, h1, h2⟩
  · intro hw
    unfold wrapRunes
    rw [if_pos hw]
  · by_cases hw : width ≤ 0
    · exact ⟨[runes], by unfold wrapRunes; rw [if_pos hw], by simp⟩
    · by_cases hr : runes.length = 0
      · exact ⟨[[]], by unfold wrapRunes; rw [if_neg hw, if_pos hr], by simp⟩
      · obtain ⟨lines, h1, _, h3⟩ := hmain hw hr
        exact ⟨lines, h1, h3⟩

/-- C34 at a concrete input: `a`, a tab and `bc` at width 2, one cell per character. -/
theorem wrapRunes_content_witness :
    wrapRunes singleCellStringWidth singleCellRuneWidth [97, 9, 98, 99] 2 =
      some [[97, 32], [98, 99], [32]] ∧
    (∃ lines, wrapRunes singleCellStringWidth singleCellRuneWidth [97, 9, 98, 99] 2 =
        some lines ∧ lines.flatten = withSingleSpaces [97, 9, 98, 99] ++ [32]) :=
  ⟨by decide, (wrapRunes_content singleCellStringWidth singleCellRuneWidth [97, 9, 98, 99]
    2).1 (by decide) (by decide)⟩

/-! ## The scan of `colorizeJSON` -/

theorem scanString_facts : ∀ (n : Nat) (rest : GoString), rest.length ≤ n →
    (scanString rest).1 ++ (scanString rest).2 = rest ∧
      stringTokenSpec (scanString rest).1 (scanString rest).2 := by
  intro n
  induction n using Nat.strong_induction_on with
  | _ n ih =>
    intro rest hn
    rcases rest with _ | ⟨c, _ | ⟨d, rest1⟩⟩
    · exact ⟨rfl, [], by simp, Or.inr ⟨rfl, Or.inl rfl⟩⟩
    · simp only [scanString]
      by_cases h92 : c = 92
      · rw [if_pos h92]
        subst h92
        exact ⟨rfl, [], by simp, Or.inr ⟨rfl, Or.inr rfl⟩⟩
      · rw [if_neg h92]
        by_cases h34 : c = 34
        · rw [if_pos h34]
          subst h34
          exact ⟨rfl, [], by simp, Or.inl rfl⟩
        · rw [if_neg h34]
          refine ⟨rfl, [[c]], ?_, Or.inr ⟨rfl, Or.inl (by simp)⟩⟩
          intro u hu
          rw [List.mem_singleton] at hu
          exact Or.inl ⟨c, hu, h92, h34⟩
    · simp only [scanString]
      by_cases h92 : c = 92
      · rw [if_pos h92]
        subst h92
        have hlen : rest1.length ≤ n - 2 := by simp at hn; omega
        obtain ⟨ha, units, hu, hb⟩ := ih (n - 2) (by simp at hn; omega) rest1 hlen
        refine ⟨by simp [ha], [92, d] :: units, ?_, ?_⟩
        · intro u hmem
          rcases List.mem_cons.1 hmem with h | h
          · exact Or.inr ⟨d, h⟩
          · exact hu u h
        · rcases hb with hb | ⟨h0, hb | hb⟩
          · exact Or.inl (by simp [hb])
          · exact Or.inr ⟨h0, Or.inl (by simp [hb])⟩
          · exact Or.inr ⟨h0, Or.inr (by simp [hb])⟩
      · rw [if_neg h92]
        by_cases h34 : c = 34
        · rw [if_pos h34]
          subst h34
          exact ⟨rfl, [], by simp, Or.inl rfl⟩
        · rw [if_neg h34]
          have hlen : (d :: rest1).length ≤ n - 1 := by simp at hn ⊢; omega
          obtain ⟨ha, units, hu, hb⟩ := ih (n - 1) (by simp at hn; omega) (d :: rest1) hlen
          refine ⟨by simp [ha], [c] :: units, ?_, ?_⟩
          · intro u hmem
            rcases List.mem_cons.1 hmem with h | h
            · exact Or.inl ⟨c, h, h92, h34⟩
            · exact hu u h
          · rcases hb with hb | ⟨h0, hb | hb⟩
            · exact Or.inl (by simp [hb])
            · exact Or.inr ⟨h0, Or.inl (by simp [hb])⟩
            · exact Or.inr ⟨h0, Or.inr (by simp [hb])⟩

theorem scanString_append (rest : GoString) :
    (scanString rest).1 ++ (scanString rest).2 = rest :=
  (scanString_facts rest.length rest (le_refl _)).1

theorem scanString_spec (rest : GoString) :
    stringTokenSpec (scanString rest).1 (scanString rest).2 :=
  (scanString_facts rest.length rest (le_refl _)).2

theorem isJSONKey_eq_spec (after : GoString) : isJSONKey after = followedByColonSpec after := by
  induction after with
  | nil => simp [isJSONKey, followedByColonSpec]
  | cons b rest ih =>
    unfold isJSONKey
    by_cases hw : isWhitespace b = true
    · rw [if_pos hw, ih]
      have hb : b = 32 ∨ b = 9 ∨ b = 10 ∨ b = 13 := by
        simp [isWhitespace] at hw
        tauto
      unfold followedByColonSpec
      rw [List.dropWhile_cons_of_pos (by simpa using hb)]
    · rw [if_neg hw]
      have hb : ¬ (b = 32 ∨ b = 9 ∨ b = 10 ∨ b = 13) := by
        simp [isWhitespace] at hw
        tauto
      unfold followedByColonSpec
      rw [List.dropWhile_cons_of_neg (by simpa using hb)]
      simp

theorem hasKeyword_split (s kw : GoString) (h : hasKeyword s kw = true) :
    kw ++ s.drop kw.length = s := by
  unfold hasKeyword at h
  by_cases hp : kw.isPrefixOf s = true
  · exact List.prefix_iff_eq_append.1 (List.isPrefixOf_iff_prefix.1 hp)
  · simp [hp] at h

theorem colorizeLoop_step (ch : Byte) (rest : GoString) :
    ∃ (st : Option jsonStyle) (tok after : GoString),
      (∀ fuel, colorizeLoop (fuel + 1) (ch :: rest) = (st, tok) :: colorizeLoop fuel after) ∧
      tok ++ after = ch :: rest ∧ tok ≠ [] ∧
      (ch = 34 → tok = 34 :: (scanString rest).1 ∧ after = (scanString rest).2 ∧
        st = some (if isJSONKey (scanString rest).2 then jsonStyle.jsonKeyStyle
                   else jsonStyle.jsonStringStyle)) ∧
      (ch ≠ 34 → tok.head? ≠ some 34 ∧ st ≠ some jsonStyle.jsonKeyStyle ∧
        st ≠ some jsonStyle.jsonStringStyle) := by
  by_cases c1 : ch = 34
  · refine ⟨_, ch :: (scanString rest).1, (scanString rest).2,
      fun fuel => by rw [colorizeLoop, if_pos c1], ?_, by simp, ?_, fun h => absurd c1 h⟩
    · rw [List.cons_append, scanString_append]
    · intro _
      exact ⟨by rw [c1], rfl, rfl⟩
  by_cases c2 : ch = 123 ∨ ch = 125 ∨ ch = 91 ∨ ch = 93 ∨ ch = 58 ∨ ch = 44
  · refine ⟨_, [ch], rest, fun fuel => by rw [colorizeLoop, if_neg c1, if_pos c2], rfl,
      by simp, fun h => absurd h c1, fun _ => ⟨?_, by simp, by simp⟩⟩
    simpa using c1
  by_cases c3 : ch = 45 ∨ isDigit ch = true
  · by_cases c3a : ch = 45 ∧ (∀ d, rest.head? = some d → isDigit d = false)
    · refine ⟨none, [ch], rest, fun fuel => ?_, rfl,
        by simp, fun h => absurd h c1, fun _ => ⟨?_, by simp, by simp⟩⟩
      · rw [colorizeLoop, if_neg c1, if_neg c2, if_pos c3]
        rcases rest with _ | ⟨d, rest2⟩
        · simp [c3a.1]
        · have hd := c3a.2 d rfl
          simp [c3a.1, hd]
      · simpa using c1
    · refine ⟨some jsonStyle.jsonNumberStyle, ch :: rest.takeWhile isNumberChar,
        rest.dropWhile isNumberChar, fun fuel => ?_, ?_,
        by simp, fun h => absurd h c1, fun _ => ⟨?_, by simp, by simp⟩⟩
      · rw [colorizeLoop, if_neg c1, if_neg c2, if_pos c3]
        rcases rest with _ | ⟨d, rest2⟩
        · have h45 : ¬ ch = 45 := fun h => c3a ⟨h, fun d hd => by cases hd⟩
          simp [h45]
        · by_cases h45 : ch = 45
          · have hd : isDigit d = true := by
              by_contra hd
              exact c3a ⟨h45, fun d2 h2 => by
                simp only [List.head?_cons, Option.some.injEq] at h2
                rw [← h2]
                simpa using hd⟩
            simp [h45, hd]
          · simp [h45]
      · rw [List.cons_append, List.takeWhile_append_dropWhile]
      · simpa using c1
  by_cases c4 : hasKeyword (ch :: rest) (str "true") = true
  · refine ⟨_, str "true", (ch :: rest).drop 4,
      fun fuel => by rw [colorizeLoop, if_neg c1, if_neg c2, if_neg c3, if_pos c4],
      hasKeyword_split _ _ c4, by decide, fun h => absurd h c1,
      fun _ => ⟨by decide, by simp, by simp⟩⟩
  by_cases c5 : hasKeyword (ch :: rest) (str "false") = true
  · refine ⟨_, str "false", (ch :: rest).drop 5,
      fun fuel => by rw [colorizeLoop, if_neg c1, if_neg c2, if_neg c3, if_neg c4, if_pos c5],
      hasKeyword_split _ _ c5, by decide, fun h => absurd h c1,
      fun _ => ⟨by decide, by simp, by simp⟩⟩
  by_cases c6 : hasKeyword (ch :: rest) (str "null") = true
  · refine ⟨_, str "null", (ch :: rest).drop 4,
      fun fuel => by
        rw [colorizeLoop, if_neg c1, if_neg c2, if_neg c3, if_neg c4, if_neg c5, if_pos c6],
      hasKeyword_split _ _ c6, by decide, fun h => absurd h c1,
      fun _ => ⟨by decide, by simp, by simp⟩⟩
  · refine ⟨_, [ch], rest,
      fun fuel => by
        rw [colorizeLoop, if_neg c1, if_neg c2, if_neg c3, if_neg c4, if_neg c5, if_neg c6],
      rfl, by simp, fun h => absurd h c1, fun _ => ⟨?_, by simp, by simp⟩⟩
    simpa using c1

theorem after_length_lt (tok after s : GoString) (h : tok ++ after = s) (hne : tok ≠ []) :
    after.length < s.length := by
  rw [← h, List.length_append]
  have : 0 < tok.length := List.length_pos.2 hne
  omega

theorem colorizeLoop_content : ∀ (fuel : Nat) (s : GoString), s.length ≤ fuel →
    ((colorizeLoop fuel s).map Prod.snd).flatten = s ∧
      (∀ p ∈ colorizeLoop fuel s, p.2 ≠ []) ∧
      colorizeLoop fuel s = colorizeLoop s.length s := by
  intro fuel
  induction fuel using Nat.strong_induction_on with
  | _ fuel ih =>
    intro s hs
    rcases s with _ | ⟨ch, rest⟩
    · cases fuel with
      | zero => exact ⟨rfl, fun p hp => absurd hp (List.not_mem_nil p), rfl⟩
      | succ f => exact ⟨rfl, fun p hp => absurd hp (List.not_mem_nil p), rfl⟩
    · cases fuel with
      | zero => simp at hs
      | succ f =>
        obtain ⟨st, tok, after, hstep, happ, hne, -, -⟩ := colorizeLoop_step ch rest
        have hlt := after_length_lt tok after (ch :: rest) happ hne
        have hlen : after.length ≤ rest.length := by simp at hlt; omega
        have hf : rest.length ≤ f := by simp at hs; omega
        obtain ⟨i1, i2, i3⟩ := ih f (Nat.lt_succ_self f) after (le_trans hlen hf)
        rw [hstep f]
        refine ⟨?_, ?_, ?_⟩
        · rw [List.map_cons, List.flatten_cons, i1]
          exact happ
        · intro p hp
          rcases List.mem_cons.1 hp with h | h
          · rw [h]; exact hne
          · exact i2 p h
        · show _ = colorizeLoop (rest.length + 1) (ch :: rest)
          rw [hstep rest.length, i3]
          by_cases hfr : rest.length = f
          · rw [hfr, i3]
          · have hlt2 : rest.length < f + 1 := by omega
            rw [(ih rest.length hlt2 after hlen).2.2]

theorem goText_append (a b : GoString) : goText (a ++ b) = goText a ++ goText b := by
  unfold goText
  rw [List.map_append]
  rfl

theorem join_goText (init : String) (l : List GoString) :
    List.foldl (fun r s => r ++ s) init (l.map goText) = init ++ goText l.flatten := by
  induction l generalizing init with
  | nil => simp [goText]
  | cons a rest ih =>
    rw [List.map_cons, List.foldl_cons, ih, List.flatten_cons, goText_append,
      String.append_assoc]

theorem map_eq_goText (F : Option jsonStyle × GoString → String)
    (l : List (Option jsonStyle × GoString)) (hF : ∀ p, F p = goText p.2) :
    l.map F = (l.map Prod.snd).map goText := by
  rw [List.map_map]
  exact List.map_congr_left (fun p _ => hF p)

/-- C35. The tokenizer is total and content-preserving: for every input `s`, the scan of
`colorizeJSON` takes at least one byte at every turn, so it ends within `len(s)` turns
(more turns change nothing); the texts of the pieces it writes, in order and without their
styles, make up exactly `s`; and with renderers that add no styling `colorizeJSON(s)` is
`s`. -/
theorem colorizeJSON_total (s : GoString) :
    ((colorizeLoop s.length s).map Prod.snd).flatten = s ∧
    (∀ p ∈ colorizeLoop s.length s, p.2 ≠ []) ∧
    (∀ fuel, s.length ≤ fuel → colorizeLoop fuel s = colorizeLoop s.length s) ∧
    (∀ lib : Lib, (∀ style text, lib.render style text = text) →
      colorizeJSON lib s = goText s) := by
  obtain ⟨h1, h2, -⟩ := colorizeLoop_content s.length s (le_refl _)
  refine ⟨h1, h2, fun fuel hf => (colorizeLoop_content fuel s hf).2.2, ?_⟩
  intro lib hlib
  unfold colorizeJSON
  by_cases h0 : s.length = 0
  · rw [if_pos h0, List.length_eq_zero.1 h0]
    rfl
  · rw [if_neg h0]
    rw [map_eq_goText]
    · show List.foldl (fun r s => r ++ s) "" _ = _
      rw [join_goText, h1]
      simp
    · intro p
      obtain ⟨a, b⟩ := p
      cases a with
      | none => rfl
      | some style => exact hlib style (goText b)

/-- C35 at a concrete input: the text `[1,true]` with renderers that add no styling. -/
theorem colorizeJSON_total_witness :
    (colorizeLoop (str "[1,true]").length (str "[1,true]")).map Prod.snd =
      [str "[", str "1", str ",", str "true", str "]"] ∧
    colorizeJSON sampleLib (str "[1,true]") = goText (str "[1,true]") :=
  ⟨by decide, (colorizeJSON_total (str "[1,true]")).2.2.2 sampleLib (fun _ _ => rfl)⟩

theorem colorizeLoop_stringStyle : ∀ (fuel : Nat) (s : GoString), s.length ≤ fuel →
    ∀ (ps1 : List (Option jsonStyle × GoString)) (p : Option jsonStyle × GoString)
      (ps2 : List (Option jsonStyle × GoString)),
      colorizeLoop fuel s = ps1 ++ p :: ps2 →
      stringStyleSpec p ((ps2.map Prod.snd).flatten) := by
  intro fuel
  induction fuel with
  | zero =>
    intro s _ ps1 p ps2 h
    have h0 : colorizeLoop 0 s = [] := by cases s <;> rfl
    rw [h0] at h
    exact absurd h (by simp)
  | succ f ih =>
    intro s hs ps1 p ps2 h
    rcases s with _ | ⟨ch, rest⟩
    · have h0 : colorizeLoop (f + 1) [] = [] := rfl
      rw [h0] at h
      exact absurd h (by simp)
    · obtain ⟨st, tok, after, hstep, happ, hne, hq, hnq⟩ := colorizeLoop_step ch rest
      have hlt := after_length_lt tok after (ch :: rest) happ hne
      have hlen : after.length ≤ f := by simp at hlt hs; omega
      rw [hstep f] at h
      rcases ps1 with _ | ⟨q, ps1⟩
      · rw [List.nil_append, List.cons.injEq] at h
        obtain ⟨hp, hps⟩ := h
        have hafter : (ps2.map Prod.snd).flatten = after := by
          rw [← hps]
          exact (colorizeLoop_content f after hlen).1
        rw [hafter, ← hp]
        by_cases c1 : ch = 34
        · obtain ⟨h1, h2, h3⟩ := hq c1
          refine ⟨fun _ => ⟨(scanString rest).1, h1, ?_, ?_⟩, fun _ => by rw [h1]; rfl⟩
          · rw [h2]; exact scanString_spec rest
          · show st = _
            rw [h3, h2, isJSONKey_eq_spec]
        · obtain ⟨h1, h2, h3⟩ := hnq c1
          exact ⟨fun h => absurd h h1, fun h => h.elim (fun h => absurd h h2)
            (fun h => absurd h h3)⟩
      · rw [List.cons_append, List.cons.injEq] at h
        exact ih after hlen ps1 p ps2 h.2

/-- C31. For every input text and every piece that the scan of `colorizeJSON` writes, with
`after` the input that follows the piece: a piece that starts with a quote is a string
token, running from the opening quote to the first later quote that no backslash escape
consumes or to the end of the input, and its style is the key style if the first byte of
`after` that is not a space, tab, newline or carriage return is a colon, and the string
style otherwise; no other piece gets one of these two styles. A backslash consumes the
byte after it, so an escaped quote does not end the token. -/
theorem stringToken_style (s : GoString) (ps1 : List (Option jsonStyle × GoString))
    (p : Option jsonStyle × GoString) (ps2 : List (Option jsonStyle × GoString))
    (h : colorizeLoop s.length s = ps1 ++ p :: ps2) :
    s = (ps1.map Prod.snd).flatten ++ p.2 ++ (ps2.map Prod.snd).flatten ∧
    stringStyleSpec p ((ps2.map Prod.snd).flatten) := by
  refine ⟨?_, colorizeLoop_stringStyle s.length s (le_refl _) ps1 p ps2 h⟩
  have hc := (colorizeLoop_content s.length s (le_refl _)).1
  rw [h] at hc
  rw [← hc]
  simp

/-- C31 at a concrete input: in the text `"a\"b" : 1` the token `"a\"b"` holds an escaped
quote and is followed by a blank and a colon; it is written in the key style. -/
theorem stringToken_style_witness :
    colorizeLoop (str "\"a\\\"b\" : 1").length (str "\"a\\\"b\" : 1") =
      [] ++ (some jsonStyle.jsonKeyStyle, str "\"a\\\"b\"") ::
        [(none, str " "), (some jsonStyle.jsonPunctStyle, str ":"), (none, str " "),
         (some jsonStyle.jsonNumberStyle, str "1")] ∧
    stringStyleSpec (some jsonStyle.jsonKeyStyle, str "\"a\\\"b\"")
      (([(none, str " "), (some jsonStyle.jsonPunctStyle, str ":"), (none, str " "),
         (some jsonStyle.jsonNumberStyle, str "1")].map Prod.snd).flatten) :=
  ⟨by decide, (stringToken_style (str "\"a\\\"b\" : 1") []
    (some jsonStyle.jsonKeyStyle, str "\"a\\\"b\"")
    [(none, str " "), (some jsonStyle.jsonPunctStyle, str ":"), (none, str " "),
     (some jsonStyle.jsonNumberStyle, str "1")] (by decide)).2⟩

/-! ## Pattern delete: a store call fails -/

theorem ListKeysPage_run (ks : List GoString) (faults : List (Option String))
    (startAfter : GoString) (limit : Int) (hs : ks.Sorted (· < ·)) (hl : 1 ≤ limit) :
    ListKeysPage ⟨ks, none :: faults⟩ startAfter limit =
      ({ keys := (keysAfter ks startAfter).take limit.toNat,
         lastKey := (((keysAfter ks startAfter).take limit.toNat).getLast?).getD [],
         hasMore := !((keysAfter ks startAfter).drop limit.toNat).isEmpty,
         err := none }, ⟨ks, faults⟩) := by
  unfold ListKeysPage
  rw [if_neg (by omega)]
  simp only [Store.nextOutcome]
  rw [listKeysView_eq ks startAfter limit hs hl]

theorem ListKeysPage_fail (ks : List GoString) (faults : List (Option String)) (e : String)
    (startAfter : GoString) (limit : Int) (hl : 1 ≤ limit) :
    ListKeysPage ⟨ks, some e :: faults⟩ startAfter limit =
      ({ keys := [], lastKey := [], hasMore := false, err := some e }, ⟨ks, faults⟩) := by
  unfold ListKeysPage
  rw [if_neg (by omega)]
  rfl

theorem Delete_run (S : List GoString) (faults : List (Option String)) (k : GoString) :
    Delete ⟨S, none :: faults⟩ k = (none, ⟨S.filter (fun x => decide (x ≠ k)), faults⟩) :=
  rfl

theorem Delete_fail (S : List GoString) (faults : List (Option String)) (e : String)
    (k : GoString) :
    Delete ⟨S, some e :: faults⟩ k = (some e, ⟨S, faults⟩) := rfl

theorem filter_not_mem_append (S A D : List GoString) :
    S.filter (fun x => decide (x ∉ A ++ D)) =
      (S.filter (fun x => decide (x ∉ A))).filter (fun x => decide (x ∉ D)) := by
  rw [List.filter_filter]
  apply List.filter_congr
  intro x _
  by_cases h1 : x ∈ A <;> by_cases h2 : x ∈ D <;> simp [h1, h2]

theorem filter_not_mem_cons (S : List GoString) (k : GoString) (D : List GoString) :
    S.filter (fun x => decide (x ∉ k :: D)) =
      (S.filter (fun x => decide (x ≠ k))).filter (fun x => decide (x ∉ D)) := by
  rw [List.filter_filter]
  apply List.filter_congr
  intro x _
  by_cases h1 : x = k <;> by_cases h2 : x ∈ D <;> simp [h1, h2]

/-- The inner loop when the store call number `j` from now fails: if that call is one of
the Deletes of the page, the loop ends with the error, the keys deleted before it are gone
from the store and stay gone; otherwise the page is swept and the failure is still to
come. -/
theorem deletePatternKeys_faults (env : Env) (pattern : GoString) (e : String)
    (rest : List (Option String)) :
    ∀ (pg S deleted : List GoString) (j : Nat),
      (∀ k ∈ pg, ∃ b, matchPattern env pattern k = .ok b) →
      deletePatternKeys env pattern pg
          ⟨S, List.replicate j none ++ some e :: rest⟩ deleted =
        if j < (pg.filter (accepts env pattern)).length then
          (some e, deleted ++ (pg.filter (accepts env pattern)).take j,
            ⟨S.filter (fun x => decide (x ∉ (pg.filter (accepts env pattern)).take j)),
              rest⟩)
        else
          (none, deleted ++ pg.filter (accepts env pattern),
            ⟨S.filter (fun x => decide (x ∉ pg.filter (accepts env pattern))),
              List.replicate (j - (pg.filter (accepts env pattern)).length) none ++
                some e :: rest⟩) := by
  intro pg
  induction pg with
  | nil =>
    intro S deleted j _
    simp [deletePatternKeys]
  | cons k pgrest ih =>
    intro S deleted j hval
    have hrest : ∀ x ∈ pgrest, ∃ b, matchPattern env pattern x = .ok b :=
      fun x hx => hval x (List.mem_cons_of_mem _ hx)
    obtain ⟨b, hb⟩ := hval k (List.mem_cons_self _ _)
    cases b with
    | false =>
      have hacc : accepts env pattern k = false := by simp [accepts, hb]
      simp only [deletePatternKeys, hb, List.filter_cons, hacc]
      exact ih S deleted j hrest
    | true =>
      have hacc : accepts env pattern k = true := by simp [accepts, hb]
      simp only [deletePatternKeys, hb, List.filter_cons, hacc, if_true]
      cases j with
      | zero =>
        simp only [List.replicate_zero, List.nil_append, Delete_fail, List.length_cons]
        rw [if_pos (by omega)]
        simp
      | succ j2 =>
        simp only [List.replicate_succ, List.cons_append, Delete_run, List.length_cons]
        rw [ih _ _ j2 hrest]
        by_cases hj : j2 < (pgrest.filter (accepts env pattern)).length
        · rw [if_pos hj, if_pos (by omega)]
          simp only [List.take_succ_cons, List.append_assoc, List.singleton_append,
            filter_not_mem_cons]
        · rw [if_neg hj, if_neg (by omega)]
          simp only [List.append_assoc, List.singleton_append, filter_not_mem_cons,
            Nat.add_sub_add_right]

theorem sweepCalls_succ (accept : GoString → Bool) (pageSize fuel : Nat)
    (post : List GoString) :
    sweepCalls accept pageSize (fuel + 1) post =
      none :: (((post.take pageSize).filter accept).map some ++
        (if (post.drop pageSize).isEmpty then []
         else sweepCalls accept pageSize fuel (post.drop pageSize))) := rfl

theorem filterMap_id_map_some (A : List GoString) : (A.map some).filterMap id = A := by
  induction A with
  | nil => rfl
  | cons a t ih => simp [ih]

theorem filterMap_id_take_map_some (A : List GoString) (j : Nat) :
    ((A.map some).take j).filterMap id = A.take j := by
  induction A generalizing j with
  | nil => simp
  | cons a t ih =>
    cases j with
    | zero => simp
    | succ j => simp [ih]

/-- The keys deleted by the first `j + 1` calls of a page when the failing call is one of
the page's Deletes. -/
theorem sweep_take_in (A : List GoString) (B : List (Option GoString)) (j : Nat)
    (h : j < A.length) :
    ((none :: (A.map some ++ B)).take (j + 1)).filterMap id = A.take j := by
  rw [List.take_succ_cons, List.take_append_of_le_length (by rw [List.length_map]; omega),
    List.filterMap_cons_none rfl, filterMap_id_take_map_some]

/-- The keys deleted by the first `j + 1` calls when the page's Deletes all complete. -/
theorem sweep_take_out (A : List GoString) (B : List (Option GoString)) (j : Nat)
    (h : A.length ≤ j) :
    ((none :: (A.map some ++ B)).take (j + 1)).filterMap id =
      A ++ (B.take (j - A.length)).filterMap id := by
  rw [List.take_succ_cons, List.take_append_eq_append_take,
    List.take_of_length_le (by rw [List.length_map]; exact h), List.length_map,
    List.filterMap_cons_none rfl, List.filterMap_append, filterMap_id_map_some]

/-- The sweep from any page boundary when the store call number `j` from now is the first
to fail: `pre` are the keys already swept, `post` the keys still to sweep. -/
theorem deletePatternLoop_faults (env : Env) (pattern : GoString) (pageSize : Int)
    (hsize : 2 ≤ pageSize) (e : String) (rest : List (Option String)) :
    ∀ (fuel : Nat) (pre post : List GoString) (j : Nat),
      (pre ++ post).Sorted (· < ·) →
      (∀ k ∈ pre ++ post, ∃ b, matchPattern env pattern k = .ok b) →
      (pre ≠ [] → pre.getLast?.getD [] ≠ []) →
      post.length < fuel →
      j < (sweepCalls (accepts env pattern) pageSize.toNat fuel post).length →
      deletePatternLoop env pattern pageSize fuel
          ⟨pre.filter (fun k => !accepts env pattern k) ++ post,
            List.replicate j none ++ some e :: rest⟩
          (pre.getLast?.getD []) (pre.filter (accepts env pattern)) =
        some (⟨pattern, [], some e⟩,
          ⟨(pre.filter (fun k => !accepts env pattern k) ++ post).filter
            (fun x => decide (x ∉
              ((sweepCalls (accepts env pattern) pageSize.toNat fuel post).take j).filterMap
                id)), rest⟩) := by
  intro fuel
  induction fuel with
  | zero => intro pre post j _ _ _ h; omega
  | succ fuel ih =>
    intro pre post j hs hval hsent hfuel hj
    have hpw := List.pairwise_append.mp hs
    have hsub : (pre.filter (fun k => !accepts env pattern k) ++ post).Sublist (pre ++ post) :=
      List.Sublist.append (List.filter_sublist _) (List.Sublist.refl _)
    have hS : (pre.filter (fun k => !accepts env pattern k) ++ post).Sorted (· < ·) :=
      List.Pairwise.sublist hsub hs
    rw [sweepCalls_succ] at hj ⊢
    cases j with
    | zero =>
      unfold deletePatternLoop
      simp only [List.replicate_zero, List.nil_append,
        ListKeysPage_fail _ _ e _ pageSize (by omega), List.take_zero, List.filterMap_nil,
        List.not_mem_nil, not_false_eq_true, decide_True, List.filter_true]
    | succ j2 =>
      have hpage := ListKeysPage_run (pre.filter (fun k => !accepts env pattern k) ++ post)
        (List.replicate j2 none ++ some e :: rest) (pre.getLast?.getD []) pageSize hS
        (by omega)
      rw [keysAfter_swept _ pre post hs hsent] at hpage
      have hsplit := List.take_append_drop pageSize.toNat post
      have hvalpg : ∀ k ∈ post.take pageSize.toNat, ∃ b, matchPattern env pattern k = .ok b :=
        fun k hk => hval k (List.mem_append_right _ (List.mem_of_mem_take hk))
      have hkeys := deletePatternKeys_faults env pattern e rest (post.take pageSize.toNat)
        (pre.filter (fun k => !accepts env pattern k) ++ post)
        (pre.filter (accepts env pattern)) j2 hvalpg
      unfold deletePatternLoop
      simp only [List.replicate_succ, List.cons_append, hpage]
      rw [hkeys]
      by_cases hin : j2 < ((post.take pageSize.toNat).filter (accepts env pattern)).length
      · rw [if_pos hin, sweep_take_in _ _ _ hin]
      · rw [if_neg hin]
        have hAle : ((post.take pageSize.toNat).filter (accepts env pattern)).length ≤ j2 :=
          Nat.le_of_not_lt hin
        have hdne : (post.drop pageSize.toNat).isEmpty = false := by
          cases hd : (post.drop pageSize.toNat).isEmpty with
          | false => rfl
          | true =>
            rw [hd] at hj
            simp only [if_true, List.append_nil, List.length_cons, List.length_map] at hj
            omega
        rw [hdne] at hj ⊢
        simp only [Bool.false_eq_true, if_false] at hj ⊢
        have hdrop : post.drop pageSize.toNat ≠ [] := by
          intro h0
          rw [h0] at hdne
          cases hdne
        have hlen : pageSize.toNat < post.length := by
          by_contra hcon
          exact hdrop (List.drop_eq_nil_of_le (Nat.le_of_not_lt hcon))
        have hpgne : post.take pageSize.toNat ≠ [] := by
          intro h0
          have := congrArg List.length h0
          simp only [List.length_take, List.length_nil] at this
          omega
        have hlen0 : ¬ (post.take pageSize.toNat).length = 0 :=
          fun h0 => hpgne (List.length_eq_zero.mp h0)
        have hstore : (pre.filter (fun k => !accepts env pattern k) ++ post).filter
            (fun x => decide (x ∉ (post.take pageSize.toNat).filter (accepts env pattern)))
            = (pre ++ post.take pageSize.toNat).filter (fun k => !accepts env pattern k)
              ++ post.drop pageSize.toNat := by
          have hs2 : (post.take pageSize.toNat ++ post.drop pageSize.toNat).Sorted
              (· < ·) := by
            rw [hsplit]; exact hpw.2.1
          have := swept_store_step (accepts env pattern) pre (post.take pageSize.toNat)
            (post.drop pageSize.toNat) hs2
          rw [hsplit] at this
          exact this
        have hlast : (pre ++ post.take pageSize.toNat).getLast?
            = (post.take pageSize.toNat).getLast? :=
          getLast?_append_of_ne_nil pre _ hpgne
        have hsent2 : pre ++ post.take pageSize.toNat ≠ [] →
            (pre ++ post.take pageSize.toNat).getLast?.getD [] ≠ [] := by
          intro _
          rw [hlast, List.getLast?_eq_getLast _ hpgne]
          exact last_ne_nil_of_two post pageSize.toNat _ hpw.2.1 (by omega) (by omega)
            (List.getLast?_eq_getLast _ hpgne)
        have hs3 : (pre ++ post.take pageSize.toNat ++ post.drop pageSize.toNat).Sorted
            (· < ·) := by
          rw [List.append_assoc, hsplit]; exact hs
        have hval3 : ∀ k ∈ pre ++ post.take pageSize.toNat ++ post.drop pageSize.toNat,
            ∃ b, matchPattern env pattern k = .ok b := by
          rw [List.append_assoc, hsplit]; exact hval
        have hfuel3 : (post.drop pageSize.toNat).length < fuel := by
          rw [List.length_drop]; omega
        have hj3 : j2 - ((post.take pageSize.toNat).filter (accepts env pattern)).length <
            (sweepCalls (accepts env pattern) pageSize.toNat fuel
              (post.drop pageSize.toNat)).length := by
          simp only [List.length_cons, List.length_append, List.length_map] at hj
          omega
        have hrec := ih (pre ++ post.take pageSize.toNat) (post.drop pageSize.toNat)
          (j2 - ((post.take pageSize.toNat).filter (accepts env pattern)).length)
          hs3 hval3 hsent2 hfuel3 hj3
        have hacc : (pre ++ post.take pageSize.toNat).filter (accepts env pattern) =
            pre.filter (accepts env pattern) ++
              (post.take pageSize.toNat).filter (accepts env pattern) :=
          List.filter_append _ _
        rw [hlast, hacc] at hrec
        rw [sweep_take_out _ _ _ hAle, filter_not_mem_append, hstore]
        simp only [Bool.not_false, Bool.not_true, Bool.false_or, hlen0, decide_False,
          Bool.false_eq_true, if_false]
        exact hrec

/-- The Deletes among the store calls of a sweep that no failure interrupts are the keys
that the pattern matches, in store order. -/
theorem sweepCalls_filterMap (accept : GoString → Bool) (pageSize : Nat) (hP : 1 ≤ pageSize) :
    ∀ (fuel : Nat) (post : List GoString), post.length < fuel →
      (sweepCalls accept pageSize fuel post).filterMap id = post.filter accept := by
  intro fuel
  induction fuel with
  | zero => intro post h; omega
  | succ fuel ih =>
    intro post hfuel
    rw [sweepCalls_succ, List.filterMap_cons_none rfl, List.filterMap_append,
      filterMap_id_map_some]
    cases hd : (post.drop pageSize).isEmpty with
    | true =>
      have hnil : post.drop pageSize = [] := List.isEmpty_iff.mp hd
      have htk : post.take pageSize = post := by
        have h := List.take_append_drop pageSize post
        rw [hnil, List.append_nil] at h
        exact h
      simp only [if_true, List.filterMap_nil, List.append_nil, htk]
    | false =>
      have hne : post ≠ [] := by
        intro h0
        rw [h0] at hd
        simp at hd
      have hpos : 0 < post.length := List.length_pos.mpr hne
      simp only [Bool.false_eq_true, if_false]
      rw [ih (post.drop pageSize) (by rw [List.length_drop]; omega), ← List.filter_append,
        List.take_append_drop]

theorem filterMap_take_eq (l : List (Option GoString)) :
    ∀ j : Nat, (l.take j).filterMap id =
      (l.filterMap id).take ((l.take j).filterMap id).length := by
  induction l with
  | nil => intro j; simp
  | cons a t ih =>
    intro j
    cases j with
    | zero => simp
    | succ j =>
      cases a with
      | none =>
        rw [List.take_succ_cons, List.filterMap_cons_none rfl, List.filterMap_cons_none rfl]
        exact ih j
      | some k =>
        have h1 : ∀ l : List (Option GoString),
            (some k :: l).filterMap id = k :: l.filterMap id := fun l => rfl
        rw [List.take_succ_cons, h1, h1, List.length_cons, List.take_succ_cons, ← ih j]

/-- C10, amended: on a keyspace in store order and for a pattern that `matchPattern` accepts,
let the store call number `j` of the sweep (its page listings and Deletes counted from 0, in
the order `sweepCalls` gives) be the first to fail, with the error `e`. Then
`deletePatternCmd` returns the error result that carries the pattern and `e` only: its list
of deleted keys is empty, whatever the number `n` of Deletes completed before the failure.
The store is left with exactly the keys it had less those `n` keys, which are the first `n`
keys that the pattern matches: nothing is rolled back. The status `Update` shows is
`Error: pattern delete failed: ` followed by `e`, without the count `n`. -/
theorem deletePattern_failure_keeps_deletions (env : Env) (pattern : GoString)
    (ks : List GoString) (fuel j : Nat) (e : String) (rest : List (Option String))
    (m : Model)
    (hs : ks.Sorted (· < ·))
    (hvalid : ∀ k ∈ ks, ∃ b, matchPattern env pattern k = .ok b)
    (hfuel : ks.length < fuel)
    (hj : j < (sweepCalls (accepts env pattern) 1000 fuel ks).length) :
    deletePatternCmd env fuel ⟨ks, List.replicate j none ++ some e :: rest⟩ pattern =
      some (⟨pattern, [], some e⟩,
        ⟨ks.filter (fun k => decide (k ∉
            ((sweepCalls (accepts env pattern) 1000 fuel ks).take j).filterMap id)),
          rest⟩) ∧
    ((sweepCalls (accepts env pattern) 1000 fuel ks).take j).filterMap id =
      (ks.filter (accepts env pattern)).take
        (((sweepCalls (accepts env pattern) 1000 fuel ks).take j).filterMap id).length ∧
    updateDeletePatternResultMsg env m ⟨pattern, [], some e⟩ =
      { m with status := env.errStyle ("Error: pattern delete failed: " ++ e) } := by
  refine ⟨?_, ?_, ?_⟩
  · have h := deletePatternLoop_faults env pattern 1000 (by omega) e rest fuel [] ks j
      (by simpa using hs) (by simpa using hvalid) (fun h => absurd rfl h) hfuel hj
    simpa [deletePatternCmd] using h
  · have hpre := filterMap_take_eq (sweepCalls (accepts env pattern) 1000 fuel ks) j
    rw [sweepCalls_filterMap (accepts env pattern) 1000 (by omega) fuel ks hfuel] at hpre
    exact hpre
  · simp only [updateDeletePatternResultMsg]

/-- C10, amended, at a concrete input: keys `rec:1`, `rec:2`, `rec:3`, pattern `rec:*`, and
the third store call, the Delete of `rec:2`, fails after `rec:1` is deleted: the store keeps
`rec:2` and `rec:3`, and neither the result nor the status tells that one key is gone. -/
theorem deletePattern_failure_keeps_deletions_witness :
    [str "rec:1", str "rec:2", str "rec:3"].Sorted (· < ·) ∧
    (∀ k ∈ [str "rec:1", str "rec:2", str "rec:3"],
      ∃ b, matchPattern sampleEnv (str "rec:*") k = .ok b) ∧
    [str "rec:1", str "rec:2", str "rec:3"].length < 4 ∧
    sweepCalls (accepts sampleEnv (str "rec:*")) 1000 4
        [str "rec:1", str "rec:2", str "rec:3"]
      = [none, some (str "rec:1"), some (str "rec:2"), some (str "rec:3")] ∧
    deletePatternCmd sampleEnv 4
        ⟨[str "rec:1", str "rec:2", str "rec:3"], [none, none, some "disk full"]⟩
        (str "rec:*")
      = some (⟨str "rec:*", [], some "disk full"⟩, ⟨[str "rec:2", str "rec:3"], []⟩) ∧
    (deletePatternCmd sampleEnv 4
        ⟨[str "rec:1", str "rec:2", str "rec:3"],
          List.replicate 2 none ++ some "disk full" :: []⟩ (str "rec:*") =
      some (⟨str "rec:*", [], some "disk full"⟩,
        ⟨[str "rec:1", str "rec:2", str "rec:3"].filter (fun k => decide (k ∉
            ((sweepCalls (accepts sampleEnv (str "rec:*")) 1000 4
              [str "rec:1", str "rec:2", str "rec:3"]).take 2).filterMap id)),
          []⟩) ∧
    ((sweepCalls (accepts sampleEnv (str "rec:*")) 1000 4
        [str "rec:1", str "rec:2", str "rec:3"]).take 2).filterMap id =
      ([str "rec:1", str "rec:2", str "rec:3"].filter (accepts sampleEnv (str "rec:*"))).take
        (((sweepCalls (accepts sampleEnv (str "rec:*")) 1000 4
          [str "rec:1", str "rec:2", str "rec:3"]).take 2).filterMap id).length ∧
    updateDeletePatternResultMsg sampleEnv (sampleModel .fmtJSON)
        ⟨str "rec:*", [], some "disk full"⟩ =
      { sampleModel .fmtJSON with
        status := sampleEnv.errStyle ("Error: pattern delete failed: " ++ "disk full") }) :=
  ⟨by decide, by decide, by decide, by decide, by decide,
    deletePattern_failure_keeps_deletions sampleEnv (str "rec:*")
      [str "rec:1", str "rec:2", str "rec:3"] 4 2 "disk full" [] (sampleModel .fmtJSON)
      (by decide) (by decide) (by decide) (by decide)⟩

end BadgerGui
